import Mathlib

/-!
# ephys2 native kernels: a shallow embedding and its properties

The definitions below transcribe the C++ kernels of `src/ephys2/cpp/src`
(`mask.cpp`, `align.cpp`, `detect.cpp`, `link.cpp`, `split.cpp`, the decoders
`rhd2000.cpp`, `rhd64.cpp` and `intan_ofps.cpp`, `snippet.cpp`, and of the
clustering `spc/edge.c` and the functions `knn` and `mstree` of `spc.cpp`) as
Lean functions.

Conventions of the embedding:

* a one-dimensional array buffer is a `List`; `shape(0)` is its length and a
  read `a[i]` is `a.getD i d` (every read the code performs on well-shaped
  inputs is in bounds, so the default `d` is never observed there);
* `int64_t` timestamps, labels and values are `Int`, `size_t` counters are
  `Nat`; the kernels only compare, subtract and copy them, and the
  subtraction `times1[i1] - times2[i2]` wraps to 64 bits (`abs_diff64`);
* an `int` index or bound is an `Int`; a read or write at an `int` index is
  `read_at`, `index_at`, `live_at` or `write_at`;
* a function that writes a buffer in place returns the final content of the buffer;
* `py_assert(cond, msg)` throws, which is `Except.error msg`;
* a `while`/`for` loop whose trip count is not syntactically bounded is a
  function by recursion on a fuel argument that answers `none` when the fuel
  is used up; the callers pass a bound computed from the input and the
  theorems show that `none` never comes out;
* a binary file is the list of its bytes, and a buffer that a decoder fills is a
  function from positions to `Option`, where `none` is a slot never written;
  `size_t` subtractions that can wrap are `usub`;
* a float or a double is a finite rational, an infinity or a NaN (`F32`); the
  conversions of the decoders are exact rationals;
* a function of the repository that is not under `src/` is a parameter or a
  definition whose comment starts with "Modelled from the spec".
-/

namespace Ephys2

/-! ## mask.cpp -/

/-- One Venn term `(S, p)`: `std::tuple<std::unordered_set<int64_t>, bool>`.
The set is only ever queried with `find`, so a list of its members stands for it. -/
abbrev VennTerm := List Int × Bool

/-- The type `Venn` of mask.h: a vector of terms. -/
abbrev Venn := List VennTerm

/-- The inner `for (auto& v : venn)` loop of `apply_venn_mask` (mask.cpp:24-31):
`value` starts `true`; the first term with
`(S.find(label) == S.end()) != p` sets it `false` and breaks. -/
def venn_value (label : Int) : Venn → Bool
  | [] => true
  | v :: rest =>
    if (decide (label ∉ v.1)) != v.2 then false
    else venn_value label rest

/-- The body of the outer loop of `apply_venn_mask` (mask.cpp:23-32) for index `i`:
`mask_data[i] = value`. -/
def venn_write (venn : Venn) (labels : List Int) (mask : List Bool) (i : Nat) : List Bool :=
  mask.set i (venn_value (labels.getD i 0) venn)

/-- The function `apply_venn_mask` of mask.cpp:11-34. The mask buffer is updated in place;
the embedding returns its final content. -/
def apply_venn_mask (venn : Venn) (labels : List Int) (mask : List Bool) :
    Except String (List Bool) :=
  if labels.length = mask.length then
    .ok ((List.range labels.length).foldl (venn_write venn labels) mask)
  else
    .error "Labels and mask must have the same length"

/-- Satisfaction of a Venn term in the words of the specification:
a label `x` satisfies `(S, p)` iff `(x ∈ S) == p`. -/
def spec_satisfies (x : Int) (t : VennTerm) : Bool :=
  (decide (x ∈ t.1)) == t.2

/-! ## detect.cpp -/

/-- A 32-bit float as far as `std::abs` and `>` observe it: a finite value
(every finite float is a rational), an infinity with its sign, or a NaN.
Both operations are exact in IEEE-754, so no rounding is modelled. -/
inductive F32 where
  | fin (q : ℚ)
  | inf (negative : Bool)
  | nan
  deriving DecidableEq

/-- The call `std::abs` on a float. -/
def F32.abs : F32 → F32
  | .fin q => .fin |q|
  | .inf _ => .inf false
  | .nan => .nan

/-- The comparison `a > b` on floats (false as soon as one side is NaN). -/
def F32.gt : F32 → F32 → Bool
  | .fin a, .fin b => decide (b < a)
  | .fin _, .inf negative => negative
  | .inf negative, .fin _ => !negative
  | .inf a, .inf b => !a && b
  | _, _ => false

/-- Loop state of `detect_channel` (detect.cpp:27-32). -/
structure DetectState where
  detected : Bool
  since_detected : Nat
  detected_times : List Int
  deriving DecidableEq, Repr

/-- One iteration of the sample loop of `detect_channel` (detect.cpp:35-48). -/
def detect_step (time : List Int) (data : List F32) (thr : F32) (refr : Nat)
    (s : DetectState) (sample_i : Nat) : DetectState :=
  if s.detected then
    if s.since_detected + 1 > refr then
      { s with detected := false, since_detected := 0 }
    else
      { s with since_detected := s.since_detected + 1 }
  else
    if F32.gt (F32.abs (data.getD sample_i (.fin 0))) thr then
      { s with detected := true,
               detected_times := s.detected_times ++ [time.getD sample_i 0] }
    else s

/-- The state after the first `n` iterations of the sample loop. -/
def detect_loop (time : List Int) (data : List F32) (thr : F32) (refr : Nat) (n : Nat) :
    DetectState :=
  (List.range n).foldl (detect_step time data thr refr)
    { detected := false, since_detected := 0, detected_times := [] }

/-- The function `detect_channel` of detect.cpp:12-52; `N = data.shape(0)`. -/
def detect_channel (time : List Int) (data : List F32) (thr : F32) (refr : Nat) : List Int :=
  (detect_loop time data thr refr data.length).detected_times

/-! ## align.cpp -/

/-- The wrap of an integer to the range of `int64_t` (two's complement). -/
def wrap_int64 (x : Int) : Int :=
  (x + 9223372036854775808) % 18446744073709551616 - 9223372036854775808

/-- The value `std::abs(a - b)` of two `int64_t`, stored in a `size_t`
(align.cpp:85, 89): the difference wraps to 64 bits, and `std::abs` leaves
`-2^63` as it is, which the conversion to `size_t` makes `2^63`. -/
def abs_diff64 (a b : Int) : Nat :=
  (wrap_int64 (a - b)).natAbs

/-- The inner `while` loop of `pair_sequences` (align.cpp:88-95) for the current `i1`:
it scans `i2` forward while `times2[i2] <= times1[i1]`, keeping the closest
candidate. The result is `(i2, best_dist, best_i2)` at loop exit. -/
def pair_scan (times1 times2 : List Int) (N2 i1 : Nat) :
    Nat → Nat → Nat → Nat → Option (Nat × Nat × Nat)
  | 0, _, _, _ => none
  | fuel + 1, i2, best_dist, best_i2 =>
    if i2 < N2 ∧ times2.getD i2 0 ≤ times1.getD i1 0 then
      if abs_diff64 (times1.getD i1 0) (times2.getD i2 0) < best_dist then
        pair_scan times1 times2 N2 i1 fuel (i2 + 1)
          (abs_diff64 (times1.getD i1 0) (times2.getD i2 0)) i2
      else
        pair_scan times1 times2 N2 i1 fuel (i2 + 1) best_dist best_i2
    else some (i2, best_dist, best_i2)

/-- The outer `while` loop of `pair_sequences` (align.cpp:84-104), after the
possible swap of the arguments. State: `i1`, `i2` and the two index vectors. -/
def pair_loop (times1 times2 : List Int) (N1 N2 max_dist : Nat) :
    Nat → Nat → Nat → List Nat → List Nat → Option (List Nat × List Nat)
  | 0, _, _, _, _ => none
  | fuel + 1, i1, i2, idxs1, idxs2 =>
    if i1 < N1 ∧ i2 < N2 then
      match pair_scan times1 times2 N2 i1 (N2 + 1) i2
          (abs_diff64 (times1.getD i1 0) (times2.getD i2 0)) i2 with
      | none => none
      | some (_, best_dist, best_i2) =>
        if best_i2 < N2 ∧ best_dist ≤ max_dist then
          pair_loop times1 times2 N1 N2 max_dist fuel (i1 + 1) (best_i2 + 1)
            (idxs1 ++ [i1]) (idxs2 ++ [best_i2])
        else
          pair_loop times1 times2 N1 N2 max_dist fuel (i1 + 1) (best_i2 + 1) idxs1 idxs2
    else some (idxs1, idxs2)

/-- The message of the embedding for a loop that used up its fuel (never produced,
see `pair_sequences_total`, `align_sequences_total`, `find_connected_component_total`). -/
def fuel_msg : String := "loop bound of the embedding exceeded"

/-- The function `pair_sequences` of align.cpp:59-108. -/
def pair_sequences (times1 times2 : List Int) (N1 N2 max_dist : Nat) :
    Except String (List Nat × List Nat) :=
  if max_dist > 0 then
    if N2 < N1 then
      -- reverse_args: the roles of the two sequences are exchanged
      match pair_loop times2 times1 N2 N1 max_dist (N2 + 1) 0 0 [] [] with
      | none => .error fuel_msg
      | some (idxs1, idxs2) => .ok (idxs2, idxs1)
    else
      match pair_loop times1 times2 N1 N2 max_dist (N1 + 1) 0 0 [] [] with
      | none => .error fuel_msg
      | some (idxs1, idxs2) => .ok (idxs1, idxs2)
  else .error "Maximum distance must be positive"

/-- The first `while` loop of `mergesort_into` (align.cpp:124-136): both ranges
non-empty, the smaller timestamp goes first and ties go to sequence 1.
State: the flat value vector, `i1`, `i2`. -/
def merge_both (times1 times2 vals1 vals2 : List Int) (I1 I2 : Nat) (fill_value : Int) :
    Nat → List Int → Nat → Nat → Option (List Int × Nat × Nat)
  | 0, _, _, _ => none
  | fuel + 1, vals, i1, i2 =>
    if i1 < I1 ∧ i2 < I2 then
      if times1.getD i1 0 ≤ times2.getD i2 0 then
        merge_both times1 times2 vals1 vals2 I1 I2 fill_value fuel
          (vals ++ [vals1.getD i1 0, fill_value]) (i1 + 1) i2
      else
        merge_both times1 times2 vals1 vals2 I1 I2 fill_value fuel
          (vals ++ [fill_value, vals2.getD i2 0]) i1 (i2 + 1)
    else some (vals, i1, i2)

/-- The second loop of `mergesort_into` (align.cpp:138-142), a counted loop
over `i1 .. I1 - 1`. -/
def merge_rest1 (vals1 : List Int) (fill_value : Int) (i1 I1 : Nat) : List Int :=
  (List.range' i1 (I1 - i1)).flatMap (fun i => [vals1.getD i 0, fill_value])

/-- The third loop of `mergesort_into` (align.cpp:144-148), a counted loop
over `i2 .. I2 - 1`. -/
def merge_rest2 (vals2 : List Int) (fill_value : Int) (i2 I2 : Nat) : List Int :=
  (List.range' i2 (I2 - i2)).flatMap (fun i => [fill_value, vals2.getD i 0])

/-- The function `mergesort_into` of align.cpp:110-149; the vector `vals` is
passed by reference, the embedding returns its final content. -/
def mergesort_into (vals times1 times2 vals1 vals2 : List Int) (i1 i2 I1 I2 : Nat)
    (fill_value : Int) : Option (List Int) :=
  match merge_both times1 times2 vals1 vals2 I1 I2 fill_value
      ((I1 - i1) + (I2 - i2) + 1) vals i1 i2 with
  | none => none
  | some (vals, i1, i2) =>
    some (vals ++ merge_rest1 vals1 fill_value i1 I1 ++ merge_rest2 vals2 fill_value i2 I2)

/-- One iteration of the loop over the pairs in `align_sequences` (align.cpp:43-51).
State: `vals`, `i1`, `i2`. -/
def align_step (ts1 ts2 vs1 vs2 : List Int) (idxs1 idxs2 : List Nat) (fill_value : Int)
    (st : Option (List Int × Nat × Nat)) (k : Nat) : Option (List Int × Nat × Nat) :=
  match st with
  | none => none
  | some (vals, i1, i2) =>
    match mergesort_into vals ts1 ts2 vs1 vs2 i1 i2 (idxs1.getD k 0) (idxs2.getD k 0)
        fill_value with
    | none => none
    | some vals =>
      some (vals ++ [vs1.getD (idxs1.getD k 0) 0, vs2.getD (idxs2.getD k 0) 0],
            idxs1.getD k 0 + 1, idxs2.getD k 0 + 1)

/-- The reshape `seq2numpy(vals, {N, 2})` with `N = vals.size() / 2` (align.cpp:55-56):
the rows of the row-major `N x 2` matrix. -/
def rows_of : List Int → List (Int × Int)
  | a :: b :: rest => (a, b) :: rows_of rest
  | _ => []

/-- The function `align_sequences` of align.cpp:12-57; `N1`, `N2` are the lengths
of the timestamp arrays. The parameter `max_dist` is a `size_t`, so the
assertion `max_dist >= 0` of line 22 cannot fail. -/
def align_sequences (times1 times2 vals1 vals2 : List Int) (max_dist : Nat)
    (fill_value : Int) : Except String (List (Int × Int)) :=
  if max_dist ≥ 0 then
    match pair_sequences times1 times2 times1.length times2.length max_dist with
    | .error e => .error e
    | .ok (idxs1, idxs2) =>
      if idxs1.length = idxs2.length then
        match (List.range idxs1.length).foldl
            (align_step times1 times2 vals1 vals2 idxs1 idxs2 fill_value)
            (some ([], 0, 0)) with
        | none => .error fuel_msg
        | some (vals, i1, i2) =>
          match mergesort_into vals times1 times2 vals1 vals2 i1 i2
              times1.length times2.length fill_value with
          | none => .error fuel_msg
          | some vals => .ok (rows_of vals)
      else .error "Index sizes were inconsistent"
  else .error "Maximum distance must be nonnegative"

/-! ## link.cpp -/

/-- The tuple `EVIncidence` of link.h: a CSR edge-vertex incidence matrix
`(data, indices, indptr, shape)`. -/
structure EVIncidence where
  data : List Bool
  indices : List Int
  indptr : List Int
  shape : Int × Int

/-- The values `k` taken by `for (int k = indptr[j]; k < indptr[j+1]; k++)`. -/
def row_slots (L : EVIncidence) (j : Nat) : List Int :=
  (List.range (L.indptr.getD (j + 1) 0 - L.indptr.getD j 0).toNat).map
    (fun d => L.indptr.getD j 0 + (d : Int))

/-- The read `indices[k]`. -/
def index_at (L : EVIncidence) (k : Int) : Int :=
  if k < 0 then 0 else L.indices.getD k.toNat 0

/-- The read `data[k]`. -/
def live_at (L : EVIncidence) (k : Int) : Bool :=
  if k < 0 then false else L.data.getD k.toNat false

/-- The labels pushed on the queue for row `j` when `v` is visited
(link.cpp:74-88): if the row has a live incidence to `v`, every live incidence
of the row to another vertex, in slot order. -/
def row_pushes (L : EVIncidence) (v : Int) (j : Nat) : List Int :=
  if (row_slots L j).any (fun k => index_at L k == v && live_at L k) then
    ((row_slots L j).filter (fun k => index_at L k != v && live_at L k)).map (index_at L)
  else []

/-- The labels pushed on the queue when `v` is visited: the loop over the rows
`j = 0 .. nrows - 1` (link.cpp:73-89). -/
def visit_pushes (L : EVIncidence) (v : Int) : List Int :=
  (List.range L.shape.1.toNat).flatMap (row_pushes L v)

/-- The `while (!queue.empty())` loop of `find_connected_component`
(link.cpp:66-91). The set `seen` is kept as the list of its members. -/
def bfs (L : EVIncidence) : Nat → List Int → List Int → Option (List Int)
  | _, [], seen => some seen
  | 0, _ :: _, _ => none
  | fuel + 1, v :: queue, seen =>
    if v ∈ seen then bfs L fuel queue seen
    else bfs L fuel (queue ++ visit_pushes L v) (v :: seen)

/-- A bound on the number of incidences a visit can push: the total length of the rows. -/
def row_total (L : EVIncidence) : Nat :=
  ((List.range L.shape.1.toNat).map (fun j => (row_slots L j).length)).sum

/-- A bound on the number of queue pops of a traversal. -/
def cc_fuel (L : EVIncidence) : Nat :=
  2 + (L.indices.length + 2) * (row_total L + 1)

/-- The function `find_connected_component` of link.cpp:52-93; the result lists
the members of the returned set. -/
def find_connected_component (node : Int) (L : EVIncidence) : Except String (List Int) :=
  match bfs L (cc_fuel L) [node] [] with
  | none => .error fuel_msg
  | some seen => .ok seen

/-- The minimum `*std::min_element(cc.begin(), cc.end())` of a non-empty set of labels. -/
def min_element (cc : List Int) : Int :=
  cc.foldl min (cc.headD 0)

/-- The function `relabel_by_cc` of link.cpp:42-50. -/
def relabel_by_cc (label : Int) (L : EVIncidence) : Except String Int :=
  match find_connected_component label L with
  | .error e => .error e
  | .ok cc => .ok (min_element cc)

/-- The data-model invariants of a linkage: `indptr` has `nrows + 1` entries,
starts at a non-negative offset, is nondecreasing and stays within the
`indices` and `data` arrays, which have equal length. -/
def EVIncidence.WellFormed (L : EVIncidence) : Prop :=
  0 ≤ L.shape.1 ∧ L.indptr.length = L.shape.1.toNat + 1 ∧
  L.data.length = L.indices.length ∧
  0 ≤ L.indptr.getD 0 0 ∧
  (∀ j, j < L.shape.1.toNat → L.indptr.getD j 0 ≤ L.indptr.getD (j + 1) 0) ∧
  L.indptr.getD L.shape.1.toNat 0 ≤ (L.indices.length : Int)

/-- The type `LabelMap` of split.h, `std::unordered_map<int64_t, int64_t>`, as an
association list with the most recent assignment of a key first: `m[k] = v` is
`(k, v) :: m` and a lookup is `List.lookup`. -/
abbrev LabelMap := List (Int × Int)

/-- The write `a[k] = x` at an `int` index. -/
def write_at {α : Type} (xs : List α) (k : Int) (x : α) : List α :=
  if k < 0 then xs else xs.set k.toNat x

/-- The read `a[k]` of an `int64_t` array at an `int` index. -/
def read_at (xs : List Int) (k : Int) : Int :=
  if k < 0 then 0 else xs.getD k.toNat 0

/-- The values taken by the counter of `for (int i = lo; i < hi; i++)`. -/
def int_range (lo hi : Int) : List Int :=
  (List.range (hi - lo).toNat).map (fun d => lo + Int.ofNat d)

/-- One iteration of the row loop of `unlink_nodes` (link.cpp:128-141): if row `j`
has a live incidence to a member of `nodes`, every incidence of the row is set
not-live. -/
def unlink_row (nodes : List Int) (L : EVIncidence) (j : Nat) : EVIncidence :=
  if (row_slots L j).any (fun k => decide (index_at L k ∈ nodes) && live_at L k) then
    { L with data := (row_slots L j).foldl (fun d k => write_at d k false) L.data }
  else L

/-- The function `unlink_nodes` of link.cpp:117-142; the linkage buffers are
updated in place, the embedding returns the linkage after the call. -/
def unlink_nodes (nodes : List Int) (L : EVIncidence) : EVIncidence :=
  (List.range L.shape.1.toNat).foldl (unlink_row nodes) L

/-- One iteration of the loop of `link_labels` (link.cpp:26-39). State: the
memo `label_map` and the output buffer `linked`. -/
def link_step (unlinked : List Int) (L : EVIncidence)
    (st : Except String (LabelMap × List Int)) (i : Nat) : Except String (LabelMap × List Int) :=
  match st with
  | .error e => .error e
  | .ok (label_map, linked) =>
    match label_map.lookup (unlinked.getD i 0) with
    | none =>
      match find_connected_component (unlinked.getD i 0) L with
      | .error e => .error e
      | .ok cc =>
        .ok (cc.foldl (fun m v => (v, min_element cc) :: m) label_map,
             linked.set i (min_element cc))
    | some x => .ok (label_map, linked.set i x)

/-- The function `link_labels` of link.cpp:13-40; the result is the content of
the buffer `linked` after the call. -/
def link_labels (unlinked linked : List Int) (L : EVIncidence) : Except String (List Int) :=
  if unlinked.length = linked.length then
    match (List.range unlinked.length).foldl (link_step unlinked L) (.ok ([], linked)) with
    | .error e => .error e
    | .ok (_, linked) => .ok linked
  else .error "Input arrays must have the same shape"

/-- The function `filter_by_cc` of link.cpp:95-115. -/
def filter_by_cc (node : Int) (L : EVIncidence) (labels array : List Int) :
    Except String (List Int) :=
  if labels.length = array.length then
    match find_connected_component node L with
    | .error e => .error e
    | .ok cc =>
      .ok ((List.range labels.length).foldl
        (fun filtered i =>
          if labels.getD i 0 ∈ cc then filtered ++ [array.getD i 0] else filtered) [])
  else .error "Input arrays must have the same shape"

/-! ## split.cpp

The `int` parameters (block bounds, indices) are `Int`; their sums, products
and differences are taken without wrap-around. -/

/-- The function `find_next_label` of split.cpp:142-162: the set `used` collects
`labels[index_start .. index_end - 1]`, and the first `lb` of
`block_start .. block_end - 1` that is not in it is returned. -/
def find_next_label (labels : List Int) (index_start index_end block_start block_end : Int) :
    Option Int :=
  (int_range block_start block_end).find?
    (fun lb => decide (lb ∉ (int_range index_start index_end).map (read_at labels)))

/-- What a call of the splitter leaves behind: the content of the label buffer
and of the linkage after the call (both are written in place), and what the
call returned or threw. -/
structure SplitResult where
  labels : List Int
  linkage : EVIncidence
  outcome : Except String LabelMap

/-- One iteration of the relabelling loop of `split_block_1d` (split.cpp:38-44).
State: `label_map` and the block labels. -/
def split1d_visit (cc preserved_indices : List Int) (block_start nlb : Int)
    (st : LabelMap × List Int) (i : Int) : LabelMap × List Int :=
  if read_at st.2 i ∈ cc ∧ i + block_start ∉ preserved_indices then
    ((read_at st.2 i, nlb) :: st.1, write_at st.2 i nlb)
  else st

/-- One iteration of the edge loop of `split_block_1d` (split.cpp:53-76) for row `i`. -/
def split1d_edge (cc : List Int) (index : Int) (next_label : Option Int)
    (L : EVIncidence) (i : Nat) : EVIncidence :=
  if L.indptr.getD i 0 + 2 = L.indptr.getD (i + 1) 0 then
    if live_at L (L.indptr.getD i 0) && live_at L (L.indptr.getD i 0 + 1) then
      if index_at L (L.indptr.getD i 0) ∈ cc ∧ index_at L (L.indptr.getD i 0 + 1) ∈ cc then
        if index_at L (L.indptr.getD i 0 + 1) < index_at L (L.indptr.getD i 0) then
          -- `u` and `v`, `j_u` and `j_v` are swapped
          if index_at L (L.indptr.getD i 0 + 1) < index ∧
              index_at L (L.indptr.getD i 0) ≥ index then
            match next_label with
            | some nlb =>
              { L with indices := write_at L.indices (L.indptr.getD i 0 + 1) nlb }
            | none =>
              { L with data := (write_at (write_at L.data (L.indptr.getD i 0 + 1) false)
                  (L.indptr.getD i 0) false) }
          else L
        else
          if index_at L (L.indptr.getD i 0) < index ∧
              index_at L (L.indptr.getD i 0 + 1) ≥ index then
            match next_label with
            | some nlb =>
              { L with indices := write_at L.indices (L.indptr.getD i 0) nlb }
            | none =>
              { L with data := (write_at (write_at L.data (L.indptr.getD i 0) false)
                  (L.indptr.getD i 0 + 1) false) }
          else L
      else L
    else L
  else L

/-- The edge loop of `split_block_1d` (split.cpp:53-76). -/
def split1d_edges (cc : List Int) (index : Int) (next_label : Option Int)
    (L : EVIncidence) : EVIncidence :=
  (List.range L.shape.1.toNat).foldl (split1d_edge cc index next_label) L

/-- The function `split_block_1d` of split.cpp:11-78. -/
def split_block_1d (block_labels : List Int) (block_start block_end index label : Int)
    (linkage : EVIncidence) (preserved_indices : List Int) : SplitResult :=
  if block_end - block_start > 0 then
    if 0 ≤ index - block_start ∧ index - block_start < (block_labels.length : Int) then
      match find_connected_component label linkage with
      | .error e => ⟨block_labels, linkage, .error e⟩
      | .ok cc =>
        match find_next_label block_labels 0 (block_end - block_start) block_start block_end with
        | some nlb =>
          let st := (int_range (index - block_start) (block_labels.length : Int)).foldl
            (split1d_visit cc preserved_indices block_start nlb) ([], block_labels)
          ⟨st.2, split1d_edges cc index (some nlb) (unlink_nodes [nlb] linkage), .ok st.1⟩
        | none => ⟨block_labels, split1d_edges cc index none linkage, .ok []⟩
    else ⟨block_labels, linkage, .error "Index out of bounds"⟩
  else ⟨block_labels, linkage, .error "Block is empty"⟩

/-- Loop state of `split_blocks_2d` (split.cpp:96-102): the label buffer, the set
`new_labels`, the map `label_map` and the memo `cache_label_map`. -/
structure Split2dState where
  labels : List Int
  new_labels : List Int
  label_map : LabelMap
  cache_label_map : List (Int × Option Int)

/-- One iteration of the inner loop of `split_blocks_2d` (split.cpp:109-135) at
position `j` of the block with positions `j1 .. j2 - 1` and label range
`block_start .. block_end - 1`. The message printed when no label is free is
not modelled. -/
def split2d_visit (cc indices : List Int) (blocks_start j1 j2 block_start block_end : Int)
    (st : Split2dState) (j : Int) : Split2dState :=
  if read_at st.labels j ∈ cc ∧ j + blocks_start ∈ indices then
    match st.cache_label_map.lookup (read_at st.labels j) with
    | none =>
      match find_next_label st.labels j1 j2 block_start block_end with
      | some new_lb =>
        { labels := write_at st.labels j new_lb,
          new_labels := new_lb :: st.new_labels,
          label_map := (read_at st.labels j, new_lb) :: st.label_map,
          cache_label_map := (read_at st.labels j, some new_lb) :: st.cache_label_map }
      | none =>
        { st with cache_label_map := (read_at st.labels j, none) :: st.cache_label_map }
    | some (some new_lb) => { st with labels := write_at st.labels j new_lb }
    | some none => st
  else st

/-- The state before position `j` of block `i` is visited, given the state `st`
at the start of the block: the inner loop has run over `j1 .. j - 1`. -/
def split2d_upto (cc indices : List Int) (blocks_start block_size N : Int)
    (st : Split2dState) (i : Nat) (j : Int) : Split2dState :=
  (int_range (i * block_size) j).foldl
    (split2d_visit cc indices blocks_start (i * block_size) (min N ((i + 1) * block_size))
      (blocks_start + i * block_size) (blocks_start + min N ((i + 1) * block_size))) st

/-- One iteration of the outer loop of `split_blocks_2d` (split.cpp:104-136): block `i`. -/
def split2d_block (cc indices : List Int) (blocks_start block_size N : Int)
    (st : Split2dState) (i : Nat) : Split2dState :=
  split2d_upto cc indices blocks_start block_size N st i (min N ((i + 1) * block_size))

/-- The state of `split_blocks_2d` after the first `n` blocks. -/
def split2d_run (cc indices labels : List Int) (blocks_start block_size : Int) (n : Nat) :
    Split2dState :=
  (List.range n).foldl (split2d_block cc indices blocks_start block_size labels.length)
    ⟨labels, [], [], []⟩

/-- The function `split_blocks_2d` of split.cpp:80-140. The quotient of `int`s
truncates toward zero. -/
def split_blocks_2d (labels : List Int) (blocks_start blocks_end block_size : Int)
    (indices : List Int) (label : Int) (linkage : EVIncidence) : SplitResult :=
  if Int.tdiv (blocks_end - blocks_start) block_size > 0 then
    if Int.tdiv (blocks_end - blocks_start) block_size * block_size ≥ (labels.length : Int) then
      match find_connected_component label linkage with
      | .error e => ⟨labels, linkage, .error e⟩
      | .ok cc =>
        ⟨(split2d_run cc indices labels blocks_start block_size
            (Int.tdiv (blocks_end - blocks_start) block_size).toNat).labels,
         unlink_nodes (split2d_run cc indices labels blocks_start block_size
            (Int.tdiv (blocks_end - blocks_start) block_size).toNat).new_labels linkage,
         .ok (split2d_run cc indices labels blocks_start block_size
            (Int.tdiv (blocks_end - blocks_start) block_size).toNat).label_map⟩
    else ⟨labels, linkage, .error "Number of labels does not match number of blocks"⟩
  else ⟨labels, linkage, .error "No blocks to split"⟩

/-! ## Binary decoders: rhd2000.cpp, rhd64.cpp, intan_ofps.cpp

A file is the list of its bytes. The byte buffer filled by `seekg(offset)` and
`read(buffer, size)` is the function `read_buffer file offset` (a byte past the
end of the file, which the code leaves uninitialised, reads as 0). Words are
little-endian. An output array allocated with `new T[n]` is a function from
indices to `Option T`, `none` for an element that was never written. The
`size_t` subtractions that can wrap are `usub`; the other `size_t` sums and
products are taken without wrap-around. A `float` result
`c * ((float) w - k)` is represented by its exact value in `ℚ`, of which the
stored 32-bit float is a fixed function. -/

/-- The subtraction `a - b` of two `size_t` values (64 bits), with wrap-around. -/
def usub (a b : Nat) : Nat :=
  if b ≤ a then a - b else a + 2 ^ 64 - b

/-- An array allocated with `new T[n]`: `none` marks an element never written. -/
abbrev Buf (α : Type) := Nat → Option α

/-- The write `a[i] = v`. -/
def arr_write {α : Type} (a : Buf α) (i : Nat) (v : α) : Buf α :=
  fun j => if j = i then some v else a j

/-- The byte buffer after `seekg(offset)` and `read`. -/
def read_buffer (file : List Nat) (offset : Nat) : Nat → Nat :=
  fun i => file.getD (offset + i) 0

/-- The read `*(uint16_t*) &buffer[i]`. -/
def uint16_at (buffer : Nat → Nat) (i : Nat) : Nat :=
  buffer i + 256 * buffer (i + 1)

/-- The read `*(int16_t*) &buffer[i]`. -/
def int16_at (buffer : Nat → Nat) (i : Nat) : Int :=
  if uint16_at buffer i < 32768 then (uint16_at buffer i : Int)
  else (uint16_at buffer i : Int) - 65536

/-- The read `(int64_t) (*(int32_t*) &buffer[i])`. -/
def int32_at (buffer : Nat → Nat) (i : Nat) : Int :=
  if buffer i + 256 * buffer (i + 1) + 65536 * buffer (i + 2) + 16777216 * buffer (i + 3)
      < 2147483648 then
    ((buffer i + 256 * buffer (i + 1) + 65536 * buffer (i + 2)
      + 16777216 * buffer (i + 3) : Nat) : Int)
  else
    ((buffer i + 256 * buffer (i + 1) + 65536 * buffer (i + 2)
      + 16777216 * buffer (i + 3) : Nat) : Int) - 4294967296

/-- The conversion `0.195 * ((float) w - 32768)` of an amplifier word to microvolts. -/
def amp_uV (w : Nat) : ℚ :=
  195 / 1000 * ((w : ℚ) - 32768)

/-- The conversion `0.0000374 * ((float) w)` of an auxiliary analog word to volts. -/
def aux_V (w : Nat) : ℚ :=
  374 / 10000000 * (w : ℚ)

/-- The conversion `3.74e-5 * ((float) w - 32768)` of an accelerometer word. -/
def acc_V (w : Nat) : ℚ :=
  374 / 10000000 * ((w : ℚ) - 32768)

/-- The conversion `0.195 * ((float) w)` of a signed amplifier word to microvolts. -/
def ofps_uV (w : Int) : ℚ :=
  195 / 1000 * (w : ℚ)

/-! ### intan_ofps.cpp -/

/-- Loop state of `read_intan_ofps_batch` (intan_ofps.cpp:41-46). -/
structure OfpsState where
  time_buf_i : Nat
  amp_buf_i : Nat
  time_i : Nat
  amp_i : Nat
  time_data : Buf Int
  amp_data : Buf ℚ

/-- One iteration of the channel loop of `read_intan_ofps_batch` (intan_ofps.cpp:52-56). -/
def ofps_channel (amp_buf : Nat → Nat) (st : OfpsState) (_channel_i : Nat) : OfpsState :=
  { st with
    amp_data := arr_write st.amp_data st.amp_i (ofps_uV (int16_at amp_buf st.amp_buf_i)),
    amp_buf_i := st.amp_buf_i + 2,
    amp_i := st.amp_i + 1 }

/-- One iteration of the sample loop of `read_intan_ofps_batch` (intan_ofps.cpp:48-57). -/
def ofps_sample (time_buf amp_buf : Nat → Nat) (M : Nat) (st : OfpsState) (_sample_i : Nat) :
    OfpsState :=
  (List.range M).foldl (ofps_channel amp_buf)
    { st with
      time_data := arr_write st.time_data st.time_i (int32_at time_buf st.time_buf_i),
      time_buf_i := st.time_buf_i + 4,
      time_i := st.time_i + 1 }

/-- The state of `read_intan_ofps_batch` after its sample loop. -/
def ofps_loop (time_file amp_file : List Nat) (start_sample stop_sample n_channels : Nat) :
    OfpsState :=
  (List.range (usub stop_sample start_sample)).foldl
    (ofps_sample (read_buffer time_file (start_sample * 4))
      (read_buffer amp_file (start_sample * n_channels * 2)) n_channels)
    ⟨0, 0, 0, 0, fun _ => none, fun _ => none⟩

/-- The function `read_intan_ofps_batch` of intan_ofps.cpp:13-66: the arrays `time`
(`N` entries) and `amp` (`N x M`, row-major). The function has no assertion. -/
def read_intan_ofps_batch (time_file amp_file : List Nat)
    (start_sample stop_sample n_channels : Nat) :
    Except String (List (Option Int) × List (Option ℚ)) :=
  .ok ((List.range (usub stop_sample start_sample)).map
        (ofps_loop time_file amp_file start_sample stop_sample n_channels).time_data,
       (List.range (usub stop_sample start_sample * n_channels)).map
        (ofps_loop time_file amp_file start_sample stop_sample n_channels).amp_data)

/-! ### rhd64.cpp -/

/-- Loop state of `read_rhd64_batch` (rhd64.cpp:43-53). -/
structure Rhd64State where
  buf_i : Nat
  amp_t_i : Nat
  amp_i : Nat
  acc_i : Nat
  quad_i : Nat
  acc_started : Bool
  amp_t : Buf Int
  amp_data : Buf ℚ
  acc_data : Buf ℚ
  acc_buffer : Buf ℚ
  digital_data : Buf Nat

/-- The accelerometer step of `read_rhd64_batch` (rhd64.cpp:72-83) with the cursor at
the accelerometer word: the word is stored in the triplet buffer, and on the
third phase the rows `acc_i .. sample_i - 1` are back-filled with the triplet. -/
def rhd64_acc (buffer : Nat → Nat) (sample_i : Nat) (st : Rhd64State) : Rhd64State :=
  if st.quad_i > 0 ∧ st.acc_started = true then
    if st.quad_i = 3 then
      { st with
        acc_buffer := arr_write st.acc_buffer (st.quad_i - 1) (acc_V (uint16_at buffer st.buf_i)),
        acc_data := (List.range' st.acc_i (sample_i - st.acc_i)).foldl
          (fun a r => (List.range 3).foldl
            (fun a i => fun j => if j = r * 3 + i then
              arr_write st.acc_buffer (st.quad_i - 1) (acc_V (uint16_at buffer st.buf_i)) i
              else a j) a)
          st.acc_data,
        acc_i := max st.acc_i sample_i }
    else
      { st with
        acc_buffer := arr_write st.acc_buffer (st.quad_i - 1)
          (acc_V (uint16_at buffer st.buf_i)) }
  else st

/-- One iteration of the amplifier loops of `read_rhd64_batch` (rhd64.cpp:88-98) for
chip `chip_i` and channel `channel_i`, with the cursor `buf_i` at the start of
the amplifier bytes of the sample. -/
def rhd64_amp (buffer : Nat → Nat) (buf_i chip_i : Nat) (st : Rhd64State) (channel_i : Nat) :
    Rhd64State :=
  { st with
    amp_data := arr_write st.amp_data st.amp_i
      (amp_uV (uint16_at buffer (buf_i + chip_i * 2 + channel_i * 2 * 2))),
    amp_i := st.amp_i + 1 }

/-- One iteration of the sample loop of `read_rhd64_batch` (rhd64.cpp:59-108). -/
def rhd64_sample (buffer : Nat → Nat) (st : Rhd64State) (sample_i : Nat) : Rhd64State :=
  -- header skipped, timestamp read, unused and VDD/temp skipped
  let st1 : Rhd64State :=
    { st with
      amp_t := arr_write st.amp_t st.amp_t_i (int32_at buffer (st.buf_i + 8)),
      amp_t_i := st.amp_t_i + 1,
      buf_i := st.buf_i + 8 + 4 + 4 + 2 }
  let st2 := rhd64_acc buffer sample_i st1
  -- accelerometer word and unused bytes skipped
  let st3 : Rhd64State := { st2 with buf_i := st2.buf_i + 2 + 4 }
  let st4 := (List.range 2).foldl
    (fun s chip_i => (List.range 32).foldl (rhd64_amp buffer st3.buf_i chip_i) s) st3
  -- amplifier bytes and unused bytes skipped, digital word read
  { st4 with
    digital_data := arr_write st4.digital_data sample_i
      (uint16_at buffer (st4.buf_i + 2 * 64 + 20)),
    buf_i := st4.buf_i + 2 * 64 + 20 + 4,
    quad_i := (st4.quad_i + 1) % 4,
    acc_started := st4.acc_started || decide ((st4.quad_i + 1) % 4 = 1) }

/-- The state of `read_rhd64_batch` after the first `n` samples. -/
def rhd64_loop (file : List Nat) (start_sample : Nat) (n : Nat) : Rhd64State :=
  (List.range n).foldl (rhd64_sample (read_buffer file (start_sample * 176)))
    ⟨0, 0, 0, 0, start_sample % 4, decide (start_sample % 4 = 1),
     fun _ => none, fun _ => none, fun _ => none, fun _ => none, fun _ => none⟩

/-- The result of `read_rhd64_batch`: the arrays `time` (`N`), `amp` (`N x 64`),
`acc` (`N x 3`) and `digital` (`N`), row-major. -/
structure RHD64Data where
  time : List (Option Int)
  amp : List (Option ℚ)
  acc : List (Option ℚ)
  digital : List (Option Nat)

/-- The function `read_rhd64_batch` of rhd64.cpp:13-119. -/
def read_rhd64_batch (file : List Nat) (start_sample stop_sample : Nat) :
    Except String RHD64Data :=
  if start_sample ≤ stop_sample then
    .ok ⟨(List.range (stop_sample - start_sample)).map
          (rhd64_loop file start_sample (stop_sample - start_sample)).amp_t,
         (List.range ((stop_sample - start_sample) * 64)).map
          (rhd64_loop file start_sample (stop_sample - start_sample)).amp_data,
         (List.range ((stop_sample - start_sample) * 3)).map
          (rhd64_loop file start_sample (stop_sample - start_sample)).acc_data,
         (List.range (stop_sample - start_sample)).map
          (rhd64_loop file start_sample (stop_sample - start_sample)).digital_data⟩
  else .error "Stop sample cannot occur before start sample"

/-! ### rhd2000.cpp -/

/-- Loop state of `read_rhd2000_batch` (rhd2000.cpp:56-70). The indices `amp_i` and
`analog_i` are assigned from the loop counters before each use and the bound
`sample_i_stop` is assigned at the head of each block, so they are not part of
the state. The buffer `digital_data` is declared `bool *`. -/
structure Rhd2000State where
  buf_i : Nat
  old_buf_i : Nat
  amp_t_i : Nat
  digital_i : Nat
  sample_i_start : Nat
  analog_value : ℚ
  amp_t : Buf Int
  amp_data : Buf ℚ
  analog_data : Buf ℚ
  digital_data : Buf Bool

/-- One iteration of the time loop of `read_rhd2000_batch` (rhd2000.cpp:76-80). -/
def rhd2000_time (buffer : Nat → Nat) (st : Rhd2000State) (_sample_i : Nat) : Rhd2000State :=
  { st with
    amp_t := arr_write st.amp_t st.amp_t_i (int32_at buffer st.buf_i),
    amp_t_i := st.amp_t_i + 1,
    buf_i := st.buf_i + 4 }

/-- One iteration of the sample loop of the amplifier section (rhd2000.cpp:87-91). -/
def rhd2000_amp_sample (buffer : Nat → Nat) (samples_per_block start_offset M : Nat)
    (block_i channel_i : Nat) (st : Rhd2000State) (sample_i : Nat) : Rhd2000State :=
  { st with
    amp_data := arr_write st.amp_data
      (usub (block_i * samples_per_block + sample_i) start_offset * M + channel_i)
      (amp_uV (uint16_at buffer st.buf_i)),
    buf_i := st.buf_i + 2 }

/-- One iteration of the channel loop of the amplifier section (rhd2000.cpp:85-93). -/
def rhd2000_amp_channel (buffer : Nat → Nat) (samples_per_block start_offset M : Nat)
    (block_i sample_i_stop : Nat) (st : Rhd2000State) (channel_i : Nat) : Rhd2000State :=
  let st1 : Rhd2000State := { st with buf_i := st.buf_i + st.sample_i_start * 2 }
  let st2 := (List.range' st.sample_i_start (sample_i_stop - st.sample_i_start)).foldl
    (rhd2000_amp_sample buffer samples_per_block start_offset M block_i channel_i) st1
  { st2 with buf_i := st2.buf_i + usub samples_per_block sample_i_stop * 2 }

/-- One iteration of the sample loop of the analog section (rhd2000.cpp:100-111): a
new word is read on every fourth sample and the last value read is written for
the samples of the range. -/
def rhd2000_analog_sample (buffer : Nat → Nat) (samples_per_block start_offset Ma : Nat)
    (block_i sample_i_stop channel_i : Nat) (st : Rhd2000State) (sample_i : Nat) :
    Rhd2000State :=
  let st1 : Rhd2000State :=
    if sample_i % 4 = 0 then
      { st with analog_value := aux_V (uint16_at buffer st.buf_i), buf_i := st.buf_i + 2 }
    else st
  if st1.sample_i_start ≤ sample_i ∧ sample_i < sample_i_stop then
    { st1 with
      analog_data := arr_write st1.analog_data
        (usub (block_i * samples_per_block + sample_i) start_offset * Ma + channel_i)
        st1.analog_value }
  else st1

/-- One iteration of the digital loop of `read_rhd2000_batch` (rhd2000.cpp:120-124):
the assignment of the `uint16` word to the `bool` element stores whether the
word is nonzero. -/
def rhd2000_digital (buffer : Nat → Nat) (st : Rhd2000State) (_sample_i : Nat) :
    Rhd2000State :=
  { st with
    digital_data := arr_write st.digital_data st.digital_i
      (decide (uint16_at buffer st.buf_i ≠ 0)),
    digital_i := st.digital_i + 1,
    buf_i := st.buf_i + 2 }

/-- The constant `analog_digital_byte_gap` of rhd2000.cpp:41. -/
def analog_digital_byte_gap (bytes_after_amp samples_per_block Ma Md : Nat) : Nat :=
  usub (usub bytes_after_amp ((Md * 2) * samples_per_block)) (2 * Ma * (samples_per_block / 4))

/-- The section "Read time" of a block (rhd2000.cpp:75-82). -/
def rhd2000_read_time (buffer : Nat → Nat) (samples_per_block sample_i_stop : Nat)
    (st : Rhd2000State) : Rhd2000State :=
  let st1 := (List.range' st.sample_i_start (sample_i_stop - st.sample_i_start)).foldl
    (rhd2000_time buffer) st
  { st1 with buf_i := st1.buf_i + usub samples_per_block sample_i_stop * 4 }

/-- The section "Read amplifier" of a block and the assignment
`old_buf_i = buf_i` that follows it (rhd2000.cpp:84-95). -/
def rhd2000_read_amp (buffer : Nat → Nat) (samples_per_block start_offset M : Nat)
    (block_i sample_i_stop : Nat) (st : Rhd2000State) : Rhd2000State :=
  let st1 := (List.range M).foldl
    (rhd2000_amp_channel buffer samples_per_block start_offset M block_i sample_i_stop) st
  { st1 with old_buf_i := st1.buf_i }

/-- The section "Read analog in" of a block (rhd2000.cpp:97-113). -/
def rhd2000_read_analog (buffer : Nat → Nat) (samples_per_block start_offset Ma : Nat)
    (block_i sample_i_stop : Nat) (st : Rhd2000State) : Rhd2000State :=
  if Ma > 0 then
    (List.range Ma).foldl
      (fun s channel_i => (List.range samples_per_block).foldl
        (rhd2000_analog_sample buffer samples_per_block start_offset Ma block_i
          sample_i_stop channel_i) s) st
  else st

/-- The reads of the section "Read digital in" of a block (rhd2000.cpp:119-125). -/
def rhd2000_read_digital (buffer : Nat → Nat) (samples_per_block sample_i_stop : Nat)
    (st : Rhd2000State) : Rhd2000State :=
  let st1 : Rhd2000State := { st with buf_i := st.buf_i + st.sample_i_start * 2 }
  let st2 := (List.range' st1.sample_i_start (sample_i_stop - st1.sample_i_start)).foldl
    (rhd2000_digital buffer) st1
  { st2 with buf_i := st2.buf_i + usub samples_per_block sample_i_stop * 2 }

/-- One iteration of the block loop of `read_rhd2000_batch` (rhd2000.cpp:72-131). The
sum `buf_i += analog_digital_byte_gap` and the sum of the final check are
taken modulo `2 ^ 64`, since the gap may be a wrapped difference. -/
def rhd2000_block (buffer : Nat → Nat)
    (bytes_after_amp samples_per_block start_offset stop_offset M Ma Md n_blocks : Nat)
    (st : Rhd2000State) (block_i : Nat) : Except String Rhd2000State :=
  let sample_i_stop := if block_i = n_blocks - 1 then stop_offset else samples_per_block
  let st1 := rhd2000_read_time buffer samples_per_block sample_i_stop st
  let st2 := rhd2000_read_amp buffer samples_per_block start_offset M block_i sample_i_stop st1
  let st3 := rhd2000_read_analog buffer samples_per_block start_offset Ma block_i
    sample_i_stop st2
  let st4 : Rhd2000State :=
    { st3 with
      buf_i := (st3.buf_i + analog_digital_byte_gap bytes_after_amp samples_per_block Ma Md)
        % 2 ^ 64 }
  if Md > 0 then
    let st5 := rhd2000_read_digital buffer samples_per_block sample_i_stop st4
    if st5.digital_i = st5.amp_t_i then
      if (st5.old_buf_i + bytes_after_amp) % 2 ^ 64 = st5.buf_i then
        .ok { st5 with sample_i_start := 0 }
      else .error "Inconsistent index after reading aux data"
    else .error "Digital index data inconsistent"
  else
    if (st4.old_buf_i + bytes_after_amp) % 2 ^ 64 = st4.buf_i then
      .ok { st4 with sample_i_start := 0 }
    else .error "Inconsistent index after reading aux data"

/-- The result of `read_rhd2000_batch`: the arrays `time` (`N`), `amp` (`N x M`),
`analog` (`N x Ma`), row-major, and `digital` (`N`). -/
structure RHD2000Data where
  time : List (Option Int)
  amp : List (Option ℚ)
  analog : List (Option ℚ)
  digital : List (Option Nat)

/-- The function `read_rhd2000_batch` of rhd2000.cpp:13-142. The first two assertions
hold of every `size_t`. The `bool` buffer `digital_data` is returned as the
`uint16` array that `RHD2000Data` declares, `true` as 1 and `false` as 0. When
the digital input is disabled the buffer is `new bool[0]` and the returned array
of `N` entries views what lies outside that allocation: the values `outside i`,
which the arguments of the call do not determine. For `samples_per_block = 0`
the divisions of the source are undefined and no statement is made. -/
def read_rhd2000_batch (file : List Nat)
    (header_offset bytes_per_block bytes_after_amp samples_per_block : Nat)
    (start_sample stop_sample n_channels n_analog_channels : Nat)
    (digital_in_enabled : Bool) (outside : Nat → Nat) : Except String RHD2000Data :=
  if start_sample ≤ stop_sample then
    let start_block := start_sample / samples_per_block
    let start_offset := start_sample % samples_per_block
    let stop_block := stop_sample / samples_per_block + 1
    let stop_offset := stop_sample % samples_per_block
    let N := stop_sample - start_sample
    let M := n_channels
    let Ma := n_analog_channels
    let Md := if digital_in_enabled then 1 else 0
    if start_block < stop_block then
      let n_blocks := stop_block - start_block
      let buf_offset := header_offset + start_block * bytes_per_block
      match (List.range n_blocks).foldlM
          (rhd2000_block (read_buffer file buf_offset) bytes_after_amp samples_per_block
            start_offset stop_offset M Ma Md n_blocks)
          ⟨4 * start_offset, 0, 0, 0, start_offset, 0,
            fun _ => none, fun _ => none, fun _ => none, fun _ => none⟩ with
      | .ok st =>
        .ok ⟨(List.range N).map st.amp_t,
             (List.range (N * M)).map st.amp_data,
             (List.range (N * Ma)).map st.analog_data,
             (List.range N).map (fun i =>
               if digital_in_enabled then (st.digital_data i).map Bool.toNat
               else some (outside i))⟩
      | .error e => .error e
    else .error "Start block must occur before stop block"
  else .error "stop_sample cannot occur before start_sample"

/-! ## snippet.cpp

The amplifier data is a row-major buffer with its shape; the read `data(i, j)` of the
unchecked accessor is `Array2D.at`. The vectors `detected`, `returned`, `peak_vals`,
`peak_times`, `group_times` and `group_snippets`, all indexed by the channel
group, are one vector of records. The differences `snip_left - 1`,
`s_length - snip_left`, `N - snip_right` and `peak_i - snip_left` of `size_t` values
wrap around (`usub`); sums of `size_t` values are taken without wrap-around. The
float operations used (`std::abs`, `<`, `>`, `std::max`) are exact. -/

/-- A two-dimensional `float` array: `shape(0)`, `shape(1)` and the row-major buffer. -/
structure Array2D where
  shape0 : Nat
  shape1 : Nat
  buf : List F32
  deriving DecidableEq

/-- The read `data(i, j)`. -/
def Array2D.at (data : Array2D) (i j : Nat) : F32 :=
  data.buf.getD (i * data.shape1 + j) (.fin 0)

/-- The call `std::max(a, b)` on floats: `(a < b) ? b : a`. -/
def std_max (a b : F32) : F32 :=
  if F32.gt b a then b else a

/-- The conversion `(int) n` of a `size_t` to a 32-bit `int`. -/
def int_of_size_t (n : Nat) : Int :=
  if n % 2 ^ 32 < 2 ^ 31 then ((n % 2 ^ 32 : Nat) : Int) else ((n % 2 ^ 32 : Nat) : Int) - 2 ^ 32

/-- The conversion of an `int` to `size_t`. -/
def size_t_of_int (i : Int) : Nat :=
  (i % 2 ^ 64).toNat

/-- The entries of one channel group in the state and result vectors of
`snippet_channel_groups` (snippet.cpp:38-45). -/
structure SnippetGroup where
  detected : Bool
  returned : Nat
  peak_vals : F32
  peak_times : Nat
  group_times : List Int
  group_snippets : List F32
  deriving DecidableEq

/-- The channel loop of the detected state (snippet.cpp:55-61): the final values of
`below` and `max`. -/
def snippet_scan_detected (data : Array2D) (lo_thr : F32) (sample_i C_g n_channels : Nat) :
    Bool × F32 :=
  (List.range' C_g n_channels).foldl
    (fun acc chan_i =>
      (acc.1 && F32.gt lo_thr (F32.abs (data.at sample_i chan_i)),
       std_max acc.2 (F32.abs (data.at sample_i chan_i))))
    (true, .fin 0)

/-- The channel loop of the undetected state (snippet.cpp:93-99): the final values of
`above` and `max`. -/
def snippet_scan_undetected (data : Array2D) (hi_thr : F32) (sample_i C_g n_channels : Nat) :
    Bool × F32 :=
  (List.range n_channels).foldl
    (fun acc chan_i =>
      (acc.1 || F32.gt (F32.abs (data.at sample_i (C_g + chan_i))) hi_thr,
       std_max acc.2 (F32.abs (data.at sample_i (C_g + chan_i)))))
    (false, .fin 0)

/-- The snippet taken at the peak (snippet.cpp:71-81), when the peak is far enough
from both ends of the data. -/
def snippet_take (time : List Int) (data : Array2D) (snip_left snip_right N : Nat)
    (C_g n_channels : Nat) (g : SnippetGroup) : SnippetGroup :=
  if g.peak_times > usub snip_left 1 ∧ g.peak_times < usub N snip_right then
    { g with
      group_snippets := (List.range' C_g n_channels).foldl
        (fun snippets c_i =>
          (List.range' (usub g.peak_times snip_left)
              (g.peak_times + snip_right - usub g.peak_times snip_left)).foldl
            (fun snippets w_i => snippets ++ [data.at w_i c_i]) snippets)
        g.group_snippets,
      group_times := g.group_times ++ [time.getD g.peak_times 0] }
  else g

/-- The body of the loop over channel groups (snippet.cpp:52-107) for the group `T_i`
at the sample `sample_i`. -/
def snippet_group_step (time : List Int) (data : Array2D) (hi_thr lo_thr : F32)
    (return_n n_channels snip_left snip_right N : Nat) (sample_i T_i : Nat)
    (g : SnippetGroup) : SnippetGroup :=
  if g.detected then
    let g1 : SnippetGroup :=
      if F32.gt (snippet_scan_detected data lo_thr sample_i (T_i * n_channels) n_channels).2
          g.peak_vals then
        { g with
          peak_vals := (snippet_scan_detected data lo_thr sample_i (T_i * n_channels)
            n_channels).2,
          peak_times := sample_i }
      else g
    if (snippet_scan_detected data lo_thr sample_i (T_i * n_channels) n_channels).1 then
      if g1.returned + 1 ≥ return_n then
        { snippet_take time data snip_left snip_right N (T_i * n_channels) n_channels
            { g1 with returned := g1.returned + 1 } with
          detected := false, returned := 0, peak_vals := .fin 0 }
      else { g1 with returned := g1.returned + 1 }
    else { g1 with returned := 0 }
  else
    if (snippet_scan_undetected data hi_thr sample_i (T_i * n_channels) n_channels).1 then
      { g with
        detected := true,
        peak_vals := (snippet_scan_undetected data hi_thr sample_i (T_i * n_channels)
          n_channels).2,
        peak_times := sample_i }
    else g

/-- One iteration of the sample loop of `snippet_channel_groups` (snippet.cpp:50-109). -/
def snippet_sample (time : List Int) (data : Array2D) (hi_thr lo_thr : F32)
    (return_n n_channels snip_left snip_right N T : Nat)
    (groups : List SnippetGroup) (sample_i : Nat) : List SnippetGroup :=
  (List.range T).foldl
    (fun gs T_i => gs.set T_i
      (snippet_group_step time data hi_thr lo_thr return_n n_channels snip_left snip_right N
        sample_i T_i (gs.getD T_i ⟨false, 0, .fin 0, 0, [], []⟩)))
    groups

/-- The function `snippet_channel_groups` of snippet.cpp:12-126: the group times, the
group snippets (each a flat buffer of shape `s_N x (n_channels * s_length)`) and
the maximum length. For `n_channels = 0` the source divides by zero and no
statement is made. -/
def snippet_channel_groups (amp_t : List Int) (amp_data : Array2D) (s_length : Nat)
    (hi_thr lo_thr : F32) (return_n n_channels : Nat) :
    Except String (List (List Int) × List (List F32) × Nat) :=
  if F32.gt hi_thr (.fin 0) then
    if F32.gt lo_thr (.fin 0) then
      if amp_data.shape1 % n_channels = 0 then
        let N := amp_data.shape0
        let T := amp_data.shape1 / n_channels
        let snip_left := size_t_of_int (Int.tdiv (int_of_size_t s_length) 2)
        let snip_right := usub s_length snip_left
        let groups := (List.range N).foldl
          (snippet_sample amp_t amp_data hi_thr lo_thr return_n n_channels snip_left
            snip_right N T)
          (List.replicate T ⟨false, 0, .fin 0, 0, [], []⟩)
        .ok (groups.map SnippetGroup.group_times,
             groups.map SnippetGroup.group_snippets,
             (List.range T).foldl
               (fun max_len i =>
                 max max_len (groups.getD i ⟨false, 0, .fin 0, 0, [], []⟩).group_times.length)
               0)
      else .error "snippet_channel_groups did not receive a whole number of channel groups"
    else .error "hi_thr must be positive"
  else .error "hi_thr must be positive"

/-! ## spc/edge.c

The neighbour structure of the clustering. Loop counters are `int` and entries
`unsigned int` in the source; they are natural numbers here, the sizes of the
arrays being far below `2^31`. A read outside an array is reported as an error. -/

/-- The type `UIRaggedArray` as `knn`, `InvertEdges` and `EdgeDistance` use it
(its declaration is in a header that is not under src/): `n` rows, and row `i`
holds the `c[i]` entries `p[i][0 .. c[i] - 1]`. -/
structure UIRaggedArray where
  n : Nat
  c : List Nat
  p : List (List Nat)

/-- The read `A.p[i][k]`. -/
def UIRaggedArray.at (A : UIRaggedArray) (i k : Nat) : Nat :=
  (A.p.getD i []).getD k 0

/-- The write `A.p[i][k] = v`. -/
def UIRaggedArray.write (A : UIRaggedArray) (i k v : Nat) : UIRaggedArray :=
  { A with p := A.p.set i ((A.p.getD i []).set k v) }

/-- Modelled from the spec: the allocation `InitUIRaggedArray(NK)` of the
inverse-index structure (the function is not under src/) returns a ragged array
with the row counts of `NK`; its slots, all of which `InvertEdges` writes before
they are read, hold 0. -/
def InitUIRaggedArray (NK : UIRaggedArray) : UIRaggedArray :=
  ⟨NK.n, NK.c, (List.range NK.n).map (fun i => List.replicate (NK.c.getD i 0) 0)⟩

/-- The message of a read past the end of a neighbour row. -/
def outside_msg : String := "read outside the array"

/-- The loop `k0 = 0; while (NK.p[j][k0] != i) k0++;` of edge.c:59-60 on the row
`row` of `j`, from the slot `k0` on: the first slot that holds `i`. The loop has
no bound of its own; it leaves the row when `i` is not in it. -/
def invert_search (row : List Nat) (i : Nat) : Nat → Nat → Except String Nat
  | 0, _ => .error fuel_msg
  | fuel + 1, k0 =>
    match row[k0]? with
    | none => .error outside_msg
    | some x => if x ≠ i then invert_search row i fuel (k0 + 1) else .ok k0

/-- The body of the inner loop of `InvertEdges` (edge.c:58-62) for the slot `k`
of row `i`. -/
def invert_slot (NK : UIRaggedArray) (i : Nat) (M : UIRaggedArray) (k : Nat) :
    Except String UIRaggedArray :=
  match invert_search (NK.p.getD (NK.at i k) []) i ((NK.p.getD (NK.at i k) []).length + 1) 0 with
  | .error e => .error e
  | .ok k0 => .ok (M.write i k k0)

/-- The inner loop of `InvertEdges` (edge.c:57-62) for row `i`. -/
def invert_row (NK : UIRaggedArray) (M : UIRaggedArray) (i : Nat) : Except String UIRaggedArray :=
  (List.range (NK.c.getD i 0)).foldlM (invert_slot NK i) M

/-- The function `InvertEdges` of edge.c:49-65. -/
def InvertEdges (NK : UIRaggedArray) : Except String UIRaggedArray :=
  (List.range NK.n).foldlM (invert_row NK) (InitUIRaggedArray NK)

/-! ## spc.cpp: `mstree` and `knn`

A `double` of the distance matrix is, like a float, a finite value, an infinity
or a NaN, and comparisons are exact, so distances share the carrier `F32` of the
floats; the one rounding of the code, the store of a `double` into the `float`
array `L` of `mstree`, is the parameter `round`. The read `X(i, j)` of the
distance matrix is the function `X`. Counters and vertex numbers are natural
numbers: the matrix has `N * N` entries, so `N` is far below `2^31`, the range
of the `int` and `unsigned int` counters, and the caller has asserted `K < N`,
so `N - 1` does not wrap. -/

/-- The comparison `a <= b` on floats and doubles (false as soon as one side is NaN). -/
def F32.le : F32 → F32 → Bool
  | .fin a, .fin b => decide (a ≤ b)
  | .fin _, .inf negative => !negative
  | .inf negative, .fin _ => negative
  | .inf a, .inf b => a || !b
  | _, _ => false

/-- State of the inner loop of `mstree` (spc.cpp:325-336): the arrays `L` and
`label`, the running minimum `ml` and its position `mi`, which has no value
until it is first assigned. -/
structure MstScan where
  L : List F32
  label : List Nat
  ml : F32
  mi : Option Nat

/-- The update of `L[j]` and `label[j]` in the inner loop of `mstree`
(spc.cpp:326-331); the store `L[j] = d` rounds the `double` to a `float`. -/
def mstree_relax (X : Nat → Nat → F32) (round : F32 → F32) (V : List Nat) (u : Nat)
    (s : MstScan) (j : Nat) : MstScan :=
  if F32.le (X u (V.getD j 0)) (s.L.getD j (.fin 0)) then
    { s with L := s.L.set j (round (X u (V.getD j 0))), label := s.label.set j u }
  else s

/-- The update of `ml` and `mi` in the inner loop of `mstree` (spc.cpp:332-335). -/
def mstree_pick (s : MstScan) (j : Nat) : MstScan :=
  if F32.le (s.L.getD j (.fin 0)) s.ml then
    { s with ml := s.L.getD j (.fin 0), mi := some j }
  else s

/-- One iteration of the inner loop of `mstree` (spc.cpp:325-336). -/
def mstree_scan (X : Nat → Nat → F32) (round : F32 → F32) (V : List Nat) (u : Nat)
    (s : MstScan) (j : Nat) : MstScan :=
  mstree_pick (mstree_relax X round V u s j) j

/-- State of the outer loop of `mstree` (spc.cpp:323-343): the arrays `V`, `L`
and `label`, the vertex `u` added last, the position `mi`, and the rows of `edg`
written so far. -/
structure MstState where
  V : List Nat
  L : List F32
  label : List Nat
  u : Nat
  mi : Option Nat
  edg : List (Nat × Nat)

/-- The message of a read of `mi` before its first assignment. -/
def unset_msg : String := "mi is read before it is assigned"

/-- The inner loop of `mstree` (spc.cpp:324-336) in the iteration `i` of the outer loop. -/
def mstree_inner (N : Nat) (X : Nat → Nat → F32) (round : F32 → F32)
    (st : MstState) (i : Nat) : MstScan :=
  (List.range (N - i - 1)).foldl (mstree_scan X round st.V st.u)
    ⟨st.L, st.label, .inf false, st.mi⟩

/-- The end of an iteration of the outer loop of `mstree` (spc.cpp:337-342): row
`i` of `edg` is written, and the vertex at `mi` is replaced by the last active one. -/
def mstree_remove (N : Nat) (st : MstState) (i : Nat) (sc : MstScan) (mi : Nat) : MstState :=
  ⟨st.V.set mi (st.V.getD (N - i - 2) 0),
    sc.L.set mi (sc.L.getD (N - i - 2) (.fin 0)),
    sc.label.set mi (sc.label.getD (N - i - 2) 0),
    st.V.getD mi 0, some mi,
    st.edg ++ [(sc.label.getD mi 0, st.V.getD mi 0)]⟩

/-- One iteration of the outer loop of `mstree` (spc.cpp:323-343). -/
def mstree_step (N : Nat) (X : Nat → Nat → F32) (round : F32 → F32)
    (st : MstState) (i : Nat) : Except String MstState :=
  match (mstree_inner N X round st i).mi with
  | none => .error unset_msg
  | some mi => .ok (mstree_remove N st i (mstree_inner N X round st i) mi)

/-- The state of `mstree` before its main loop (spc.cpp:311-322): the arrays are
zeroed by `calloc`, and the first `N - 1` entries of `V` and `L` are set. -/
def mstree_init (N : Nat) : MstState :=
  ⟨(List.range N).map (fun i => if i < N - 1 then i else 0),
    (List.range N).map (fun i => if i < N - 1 then F32.inf false else F32.fin 0),
    List.replicate N 0, N - 1, none, []⟩

/-- The function `mstree` of spc.cpp:307-344; the result lists the rows
`(edg[i][0], edg[i][1])`, `i < N - 1`, that the call writes. -/
def mstree (N : Nat) (X : Nat → Nat → F32) (round : F32 → F32) :
    Except String (List (Nat × Nat)) :=
  match (List.range (N - 1)).foldlM (mstree_step N X round) (mstree_init N) with
  | .error e => .error e
  | .ok st => .ok st.edg

/-- The conversion of an `int` to `unsigned int`. -/
def uint_of_int (x : Int) : Nat := (x % 4294967296).toNat

/-- The array `dist` of `knn` for the point `i` (spc.cpp:212-215). -/
def knn_dist (N : Nat) (X : Nat → Nat → F32) (i : Nat) : List F32 :=
  (List.range N).map (fun j => if j = i then F32.inf false else X i j)

/-- The matrix `MNV` after the ordering loop of `knn` (spc.cpp:211-221), which
writes every entry; `sorter dist` is the content of `indx` after the call
`DSortIndex(N, dist, indx)`, a function that is not under src/. -/
def knn_rows (N K : Nat) (X : Nat → Nat → F32) (sorter : List F32 → List Nat) :
    List (List Int) :=
  (List.range N).map (fun i =>
    (List.range K).map (fun j => ((sorter (knn_dist N X i)).getD j 0 : Int)))

/-- The loop `for (k = 0; k < K && MNV[cand][k] != i; k++);` of spc.cpp:236 on the
row `row` of `cand`: the value of `k` after it. -/
def knn_scan (row : List Int) (i K : Nat) : Nat :=
  ((List.range K).find? (fun k => decide (uint_of_int (row.getD k 0) = i))).getD K

/-- The body of the mutuality loop of `knn` (spc.cpp:232-237) for the slot `j` of
the point `i`. -/
def knn_check (K : Nat) (MNV : List (List Int)) (i j : Nat) : List (List Int) :=
  if (MNV.getD i []).getD j 0 < 0 then MNV
  else
    MNV.set i ((MNV.getD i []).set j
      ((MNV.getD i []).getD j 0 - ((MNV.getD i []).getD j 0 + 1) *
        (if K = knn_scan (MNV.getD (uint_of_int ((MNV.getD i []).getD j 0)) []) i K
          then 1 else 0)))

/-- The mutuality loop of `knn` (spc.cpp:230-239). -/
def knn_mutual (N K : Nat) (MNV : List (List Int)) : List (List Int) :=
  (List.range N).foldl (fun M i => (List.range K).foldl (fun M2 j => knn_check K M2 i j) M) MNV

/-- One iteration of the loop of spc.cpp:249-250 on the counters `occ`. For a
rejected slot the source adds 0 to `occ[-1]`, an access before the array that
leaves every counter as it is. -/
def knn_count (row : List Int) (occ : List Nat) (j : Nat) : List Nat :=
  if 0 ≤ row.getD j 0 then
    occ.set (row.getD j 0).toNat (occ.getD (row.getD j 0).toNat 0 + 1)
  else occ

/-- One iteration of the loop of spc.cpp:253-257 on the counters `occ`. -/
def knn_count_edge (edg : List (Nat × Nat)) (i : Nat) (occ : List Nat) (j : Nat) : List Nat :=
  if (edg.getD j (0, 0)).1 = i then
    occ.set (edg.getD j (0, 0)).2 (occ.getD (edg.getD j (0, 0)).2 0 + 1)
  else if (edg.getD j (0, 0)).2 = i then
    occ.set (edg.getD j (0, 0)).1 (occ.getD (edg.getD j (0, 0)).1 0 + 1)
  else occ

/-- The counters `occ` of the point `i` after the loops of spc.cpp:247-258. -/
def knn_occ (N K : Nat) (MSTree : Bool) (edg : List (Nat × Nat)) (MNV : List (List Int))
    (i : Nat) : List Nat :=
  if MSTree then
    (List.range (N - 1)).foldl (knn_count_edge edg i)
      ((List.range K).foldl (knn_count (MNV.getD i [])) (List.replicate N 0))
  else (List.range K).foldl (knn_count (MNV.getD i [])) (List.replicate N 0)

/-- The function `knn` of spc.cpp:194-273. -/
def knn (N K : Nat) (MSTree : Bool) (X : Nat → Nat → F32) (sorter : List F32 → List Nat)
    (round : F32 → F32) : Except String UIRaggedArray :=
  match (if MSTree then mstree N X round else .ok []) with
  | .error e => .error e
  | .ok edg =>
    .ok ⟨N,
      (List.range N).map (fun i => ((List.range N).filter (fun j =>
        decide (0 < (knn_occ N K MSTree edg (knn_mutual N K (knn_rows N K X sorter)) i).getD j 0))).length),
      (List.range N).map (fun i => (List.range N).filter (fun j =>
        decide ((knn_occ N K MSTree edg (knn_mutual N K (knn_rows N K X sorter)) i).getD j 0 ≠ 0)))⟩

/-- Modelled from the spec: `DSortIndex(N, dist, indx)`, a function that is not
under src/, fills `indx` with the indices `0 .. N - 1` in the order of ascending
distance; ties keep the order of the indices. -/
def DSortIndex (dist : List F32) : List Nat :=
  (List.range dist.length).insertionSort
    (fun a b => F32.le (dist.getD a .nan) (dist.getD b .nan) = true)

/-! ## Vocabulary of the statements -/

/-- What the aligner relies on in a pairing: the two index vectors are parallel,
every pair is in range and within `max_dist` as the code measures the distance,
both vectors are strictly increasing. -/
structure Pairing (times1 times2 : List Int) (N1 N2 max_dist : Nat)
    (idxs1 idxs2 : List Nat) : Prop where
  close : List.Forall₂ (fun i j => i < N1 ∧ j < N2 ∧
    abs_diff64 (times1.getD i 0) (times2.getD j 0) ≤ max_dist) idxs1 idxs2
  sorted1 : idxs1.Pairwise (· < ·)
  sorted2 : idxs2.Pairwise (· < ·)

/-- Where a row of the aligned output comes from: the index read in stream 1
for the left column and the index read in stream 2 for the right column,
`none` for a column that holds the fill value. -/
abbrev Origin := Option Nat × Option Nat

/-- The row of values written for an origin. -/
def render (vals1 vals2 : List Int) (fill_value : Int) (r : Origin) : Int × Int :=
  (match r.1 with
   | some i => vals1.getD i 0
   | none => fill_value,
   match r.2 with
   | some j => vals2.getD j 0
   | none => fill_value)

/-- The flat row-major vector of a list of rows. -/
def flat (rows : List (Int × Int)) : List Int :=
  rows.flatMap (fun r => [r.1, r.2])

/-- The index pair of a row that takes both columns from the streams. -/
def both : Origin → Option (Nat × Nat)
  | (some i, some j) => some (i, j)
  | _ => none

/-- The rows `rows` consume exactly the indices `a1 .. b1 - 1` of stream 1 and
`a2 .. b2 - 1` of stream 2, each once and in increasing order, the rows taking
both columns from the streams are `pairs`, and no row is all fill. -/
structure Covers (rows : List Origin) (a1 b1 a2 b2 : Nat) (pairs : List (Nat × Nat)) :
    Prop where
  left : rows.filterMap Prod.fst = List.range' a1 (b1 - a1)
  right : rows.filterMap Prod.snd = List.range' a2 (b2 - a2)
  paired : rows.filterMap both = pairs
  count : rows.length + pairs.length = (b1 - a1) + (b2 - a2)
  le1 : a1 ≤ b1
  le2 : a2 ≤ b2

/-- The label `w` is a neighbour of `u` in the linkage: visiting `u` pushes `w`. -/
def Linked (L : EVIncidence) (u w : Int) : Prop :=
  w ∈ visit_pushes L u

/-- The label `w` is reachable from `u` through live edges of the linkage. -/
def Reach (L : EVIncidence) : Int → Int → Prop :=
  Relation.ReflTransGen (Linked L)

/-- Row `i` of the linkage is a live two-incidence edge with both endpoints in
`cc`, the smaller endpoint before `index` and the larger one not before it:
the rows on which the edge loop of `split_block_1d` acts. -/
def Straddles (L : EVIncidence) (cc : List Int) (index : Int) (i : Nat) : Prop :=
  L.indptr.getD i 0 + 2 = L.indptr.getD (i + 1) 0 ∧
  live_at L (L.indptr.getD i 0) = true ∧ live_at L (L.indptr.getD i 0 + 1) = true ∧
  index_at L (L.indptr.getD i 0) ∈ cc ∧ index_at L (L.indptr.getD i 0 + 1) ∈ cc ∧
  min (index_at L (L.indptr.getD i 0)) (index_at L (L.indptr.getD i 0 + 1)) < index ∧
  index ≤ max (index_at L (L.indptr.getD i 0)) (index_at L (L.indptr.getD i 0 + 1))

/-- The timestamp of sample `g` in an RHD2000 file laid out in blocks of
`bytes_per_block` bytes after `header_offset`: the `int32` number `g % samples_per_block`
at the head of block `g / samples_per_block`. -/
def rhd2000_time_at (file : List Nat) (header_offset bytes_per_block samples_per_block : Nat)
    (g : Nat) : Int :=
  int32_at (read_buffer file 0)
    (header_offset + g / samples_per_block * bytes_per_block + 4 * (g % samples_per_block))

/-- The amplifier value of sample `g` and channel `c`: the conversion of the `uint16`
number `g % samples_per_block` of channel `c` in the column-major amplifier region
of block `g / samples_per_block`. -/
def rhd2000_amp_at (file : List Nat) (header_offset bytes_per_block samples_per_block : Nat)
    (g c : Nat) : ℚ :=
  amp_uV (uint16_at (read_buffer file 0)
    (header_offset + g / samples_per_block * bytes_per_block + 4 * samples_per_block
      + 2 * (c * samples_per_block + g % samples_per_block)))

/-- The auxiliary analog value of sample `g` and channel `c`: the conversion of the
`uint16` number `(g % samples_per_block) / 4` of channel `c` in the quarter-rate
analog region that follows the `M` amplifier channels. -/
def rhd2000_analog_at (file : List Nat)
    (header_offset bytes_per_block samples_per_block M : Nat) (g c : Nat) : ℚ :=
  aux_V (uint16_at (read_buffer file 0)
    (header_offset + g / samples_per_block * bytes_per_block + 4 * samples_per_block
      + 2 * (M * samples_per_block)
      + 2 * (c * (samples_per_block / 4) + g % samples_per_block / 4)))

/-- The raw digital word of sample `g`: the `uint16` number `g % samples_per_block` of
the digital region, the last `2 * samples_per_block` bytes of block
`g / samples_per_block`. -/
def rhd2000_digital_word (file : List Nat)
    (header_offset bytes_per_block samples_per_block : Nat) (g : Nat) : Nat :=
  uint16_at (read_buffer file 0)
    (header_offset + g / samples_per_block * bytes_per_block
      + (bytes_per_block - 2 * samples_per_block) + 2 * (g % samples_per_block))

/-- The comparison `a >= b` on floats (false as soon as one side is NaN). -/
def F32.ge : F32 → F32 → Bool
  | .fin a, .fin b => decide (b ≤ a)
  | .fin _, .inf negative => negative
  | .inf negative, .fin _ => !negative
  | .inf a, .inf b => !a || b
  | _, _ => false

/-- The run of one channel group of the snippeter with its detections: the state of
the group, the sample `det` at which the current detection crossed `hi_thr`, and
one event `(d, p, r)` for each snippet emitted so far (detection sample, peak
sample, sample at which the return counter reached `return_n`). -/
structure SnippetTrace where
  group : SnippetGroup
  det : Nat
  events : List (Nat × Nat × Nat)

/-- One sample of the group `T_i` observed from outside: the group advances by
`snippet_group_step`; a passage to the detected state records the sample of the
detection and a new entry of `group_times` records an event. -/
def snippet_trace_step (time : List Int) (data : Array2D) (hi_thr lo_thr : F32)
    (return_n n_channels snip_left snip_right N : Nat) (T_i : Nat)
    (t : SnippetTrace) (sample_i : Nat) : SnippetTrace :=
  { group := snippet_group_step time data hi_thr lo_thr return_n n_channels snip_left
      snip_right N sample_i T_i t.group,
    det :=
      if t.group.detected = false ∧
          (snippet_group_step time data hi_thr lo_thr return_n n_channels snip_left
            snip_right N sample_i T_i t.group).detected = true then sample_i
      else t.det,
    events :=
      if t.group.group_times.length <
          (snippet_group_step time data hi_thr lo_thr return_n n_channels snip_left
            snip_right N sample_i T_i t.group).group_times.length then
        t.events ++ [(t.det,
          (snippet_group_step time data hi_thr lo_thr return_n n_channels snip_left
            snip_right N sample_i T_i t.group).peak_times, sample_i)]
      else t.events }

/-- The events `(d, p, r)` of the snippets that `snippet_channel_groups` emits for the
group `T_i`, in the order of emission. -/
def snippet_events (amp_t : List Int) (amp_data : Array2D) (s_length : Nat)
    (hi_thr lo_thr : F32) (return_n n_channels : Nat) (T_i : Nat) : List (Nat × Nat × Nat) :=
  ((List.range amp_data.shape0).foldl
    (snippet_trace_step amp_t amp_data hi_thr lo_thr return_n n_channels
      (size_t_of_int (Int.tdiv (int_of_size_t s_length) 2))
      (usub s_length (size_t_of_int (Int.tdiv (int_of_size_t s_length) 2)))
      amp_data.shape0 T_i)
    ⟨⟨false, 0, .fin 0, 0, [], []⟩, 0, []⟩).events

/-- The slot `j_u` of row `i` after the swap of split.cpp:61-64: the slot of the
smaller endpoint of a two-incidence row, the first slot when the endpoints are equal. -/
def smaller_slot (L : EVIncidence) (i : Nat) : Int :=
  if index_at L (L.indptr.getD i 0 + 1) < index_at L (L.indptr.getD i 0) then
    L.indptr.getD i 0 + 1
  else L.indptr.getD i 0

/-- The slot `j_v` of row `i` after the swap of split.cpp:61-64. -/
def larger_slot (L : EVIncidence) (i : Nat) : Int :=
  if index_at L (L.indptr.getD i 0 + 1) < index_at L (L.indptr.getD i 0) then
    L.indptr.getD i 0
  else L.indptr.getD i 0 + 1

/-- The linkage on which the edge loop of `split_block_1d` starts (split.cpp:34-47):
the new label, when there is one, has been unlinked. -/
def split1d_unlinked (next_label : Option Int) (L : EVIncidence) : EVIncidence :=
  match next_label with
  | some nlb => unlink_nodes [nlb] L
  | none => L

/-- Whether a row is one on which the edge loop acts can be computed. -/
instance (L : EVIncidence) (cc : List Int) (index : Int) (i : Nat) :
    Decidable (Straddles L cc index i) := by
  unfold Straddles
  infer_instance

/-- The data-model invariants of a neighbour structure: `c` and `p` have `n`
entries and row `i` has `c[i]` entries. -/
def UIRaggedArray.WellFormed (A : UIRaggedArray) : Prop :=
  A.c.length = A.n ∧ A.p.length = A.n ∧
  ∀ i, i < A.n → (A.p.getD i []).length = A.c.getD i 0

/-- A symmetric neighbour structure: every neighbour `j` of a point `i` is a
point, and `i` is a neighbour of `j`. -/
def UIRaggedArray.Symmetric (A : UIRaggedArray) : Prop :=
  ∀ i, i < A.n → ∀ j ∈ A.p.getD i [], j < A.n ∧ i ∈ A.p.getD j []

/-- The slot `v` is the first slot of `i` in the row of its `k`-th neighbour. -/
def InverseSlot (NK : UIRaggedArray) (i k v : Nat) : Prop :=
  v < NK.c.getD (NK.at i k) 0 ∧ NK.at (NK.at i k) v = i ∧
  ∀ l, l < v → NK.at (NK.at i k) l ≠ i

/-- Modelled from the spec: what `knn` expects of `DSortIndex`, a function that
is not under src/, on the array `dist`: the result lists every index of `dist`
once, in an order of ascending distance. -/
def SortsIndex (sorter : List F32 → List Nat) (dist : List F32) : Prop :=
  (sorter dist).Perm (List.range dist.length) ∧
  ∀ b, b < dist.length → ∀ a, a < b →
    F32.le (dist.getD ((sorter dist).getD a 0) .nan) (dist.getD ((sorter dist).getD b 0) .nan)
      = true

/-- The `K` nearest other points of `i`: the first `K` entries of its sorted index. -/
def knn_list (N K : Nat) (X : Nat → Nat → F32) (sorter : List F32 → List Nat) (i : Nat) :
    List Nat :=
  (sorter (knn_dist N X i)).take K

/-- The entry `MNV[i][s]` after the mutuality loop of `knn`: the candidate when
`i` is among its `K` nearest, and -1 otherwise. -/
def knn_kept (N K : Nat) (X : Nat → Nat → F32) (sorter : List F32 → List Nat) (i s : Nat) :
    Int :=
  if i ∈ knn_list N K X sorter ((sorter (knn_dist N X i)).getD s 0) then
    ((sorter (knn_dist N X i)).getD s 0 : Int)
  else -1

/-- The list `S` holds `K` nearest other points of `i`: `K` distinct points other
than `i`, none of them farther from `i` than a point other than `i` that is not
in the list. -/
def NearestOthers (N K : Nat) (X : Nat → Nat → F32) (i : Nat) (S : List Nat) : Prop :=
  S.length = K ∧ S.Nodup ∧ (∀ j ∈ S, j < N ∧ j ≠ i) ∧
  ∀ j ∈ S, ∀ j2, j2 < N → j2 ≠ i → j2 ∉ S → F32.le (X i j) (X i j2) = true

/-- Two vertices are the endpoints of an edge of the list `E`. -/
def EdgeAdj (E : List (Nat × Nat)) (a b : Nat) : Prop :=
  (a, b) ∈ E ∨ (b, a) ∈ E

/-- A walk along edges of the list `E` leads from the one vertex to the other. -/
def EdgeReach (E : List (Nat × Nat)) : Nat → Nat → Prop :=
  Relation.ReflTransGen (EdgeAdj E)

/-- The edge list `E` is a spanning tree of the complete graph on `[0, N)`:
`N - 1` edges between vertices of `[0, N)` that connect every two of them. -/
def SpanningTree (N : Nat) (E : List (Nat × Nat)) : Prop :=
  E.length = N - 1 ∧ (∀ e ∈ E, e.1 < N ∧ e.2 < N) ∧
  ∀ a b, a < N → b < N → EdgeReach E a b

/-- The total weight of an edge list. -/
def tree_weight (w : Nat → Nat → ℚ) (E : List (Nat × Nat)) : ℚ :=
  (E.map (fun e => w e.1 e.2)).sum

/-- The vertices of the tree grown from the root `r` by the edges `E`, in the
order in which they were added. -/
def tree_vertices (r : Nat) (E : List (Nat × Nat)) : List Nat :=
  r :: E.map Prod.snd

/-- The edge list `E` was grown from the root `r` as Prim's algorithm does: every
edge joins a vertex of the tree grown so far to a vertex of `[0, N)` outside it,
and no edge between the tree and the outside is lighter. -/
def PrimGrown (N : Nat) (w : Nat → Nat → ℚ) (r : Nat) : List (Nat × Nat) → Prop
  | [] => True
  | e :: E => PrimGrown N w r E ∧ e.1 ∈ tree_vertices r E ∧ e.2 < N ∧
      e.2 ∉ tree_vertices r E ∧
      ∀ x ∈ tree_vertices r E, ∀ y, y < N → y ∉ tree_vertices r E → w e.1 e.2 ≤ w x y

/-- The label `lab` and the value `l` are the best known for the vertex `y`
among the tree vertices `P`: no tree vertex yet and an infinite value, or a
tree vertex at the distance `l` from `y`, with no tree vertex nearer to `y`. -/
def MstBest (w : Nat → Nat → ℚ) (P : Nat → Prop) (y : Nat) (l : F32) (lab : Nat) : Prop :=
  ((∀ x, ¬ P x) ∧ l = .inf false) ∨
  (P lab ∧ l = .fin (w lab y) ∧ ∀ x, P x → w lab y ≤ w x y)

/-- Position `j` of the arrays of `mstree` is up to date for the tree `T`:
`label[j]` is a vertex of `T` nearest to `V[j]`, and `L[j]` is its distance. -/
def MstGood (w : Nat → Nat → ℚ) (T V : List Nat) (L : List F32) (label : List Nat)
    (j : Nat) : Prop :=
  label.getD j 0 ∈ T ∧ L.getD j (.fin 0) = .fin (w (label.getD j 0) (V.getD j 0)) ∧
  ∀ x ∈ T, w (label.getD j 0) (V.getD j 0) ≤ w x (V.getD j 0)

/-- The invariant of the inner loop of `mstree` before the iteration `j`: the
positions before `j` are up to date for the tree `T`, the others are as in
`L0` and `label0`, and `mi` is a position before `j` of least value, which is `ml`. -/
def MstScanInv (N : Nat) (w : Nat → Nat → ℚ) (T V : List Nat) (L0 : List F32)
    (label0 : List Nat) (j : Nat) (s : MstScan) : Prop :=
  s.L.length = N ∧ s.label.length = N ∧
  (∀ k, k < j → MstGood w T V s.L s.label k) ∧
  (∀ k, j ≤ k → s.L.getD k (.fin 0) = L0.getD k (.fin 0) ∧
    s.label.getD k 0 = label0.getD k 0) ∧
  ((j = 0 ∧ s.ml = .inf false) ∨
    ∃ m, m < j ∧ s.mi = some m ∧ s.ml = s.L.getD m (.fin 0) ∧
      ∀ k, k < j → w (s.label.getD m 0) (V.getD m 0) ≤ w (s.label.getD k 0) (V.getD k 0))

/-- The invariant of the outer loop of `mstree` before the iteration `i`: the
rows of `edg` written so far grow a tree from `N - 1` as Prim's algorithm does,
`u` is a vertex of the tree, the first `N - 1 - i` entries of `V` list the
vertices outside the tree once each, and their entries of `L` and `label` are
the best known among the tree vertices other than `u`. -/
def MstInv (N : Nat) (w : Nat → Nat → ℚ) (i : Nat) (st : MstState) : Prop :=
  st.V.length = N ∧ st.L.length = N ∧ st.label.length = N ∧ st.edg.length = i ∧
  PrimGrown N w (N - 1) st.edg.reverse ∧
  st.u ∈ tree_vertices (N - 1) st.edg.reverse ∧
  (∀ j, j < N - 1 - i → st.V.getD j 0 < N ∧
    st.V.getD j 0 ∉ tree_vertices (N - 1) st.edg.reverse ∧
    MstBest w (fun x => x ∈ tree_vertices (N - 1) st.edg.reverse ∧ x ≠ st.u)
      (st.V.getD j 0) (st.L.getD j (.fin 0)) (st.label.getD j 0)) ∧
  (∀ j1 j2, j1 < N - 1 - i → j2 < N - 1 - i → st.V.getD j1 0 = st.V.getD j2 0 → j1 = j2) ∧
  ∀ y, y < N → y ∉ tree_vertices (N - 1) st.edg.reverse →
    ∃ j, j < N - 1 - i ∧ st.V.getD j 0 = y

/-! ## Properties of `apply_venn_mask` -/

/-- The counted write loop fills the first `n` cells with the computed values. -/
theorem foldl_set_range {α : Type} (f : Nat → α) (mask : List α) (n : Nat)
    (h : n ≤ mask.length) :
    (List.range n).foldl (fun m i => m.set i (f i)) mask = (List.range n).map f ++ mask.drop n := by
  induction n with
  | zero => simp
  | succ n ih =>
    rw [List.range_succ, List.foldl_append, ih (by omega)]
    simp only [List.foldl_cons, List.foldl_nil, List.map_append, List.map_cons, List.map_nil]
    have hlen : ((List.range n).map f).length = n := by simp
    rw [List.set_append_right _ _ (by simp), hlen, Nat.sub_self]
    rw [List.drop_eq_getElem_cons (by omega : n < mask.length)]
    simp only [List.set_cons_zero, List.append_assoc, List.singleton_append]

/-- The value written for a label is `true` exactly when no term has
`(label ∈ S) == p`. -/
theorem venn_value_eq_true_iff (label : Int) (venn : Venn) :
    venn_value label venn = true ↔ ∀ t ∈ venn, spec_satisfies label t = false := by
  induction venn with
  | nil => simp [venn_value]
  | cons v rest ih =>
    simp only [venn_value, List.mem_cons, forall_eq_or_imp]
    rw [← ih]
    rcases v with ⟨S, p⟩
    by_cases hm : label ∈ S <;> cases p <;> simp [spec_satisfies, hm]

/-- The mask returned by `apply_venn_mask` on buffers of equal length. -/
theorem apply_venn_mask_eq (venn : Venn) (labels : List Int) (mask : List Bool)
    (h : labels.length = mask.length) :
    apply_venn_mask venn labels mask
      = .ok ((List.range labels.length).map (fun i => venn_value (labels.getD i 0) venn)) := by
  unfold apply_venn_mask
  rw [if_pos h]
  have := foldl_set_range (fun i => venn_value (labels.getD i 0) venn) mask labels.length
    (by omega)
  unfold venn_write
  rw [this, h, List.drop_length, List.append_nil]

/-- Claim C1, as the code has it: for every Venn diagram and every label array
(with a mask buffer of the same length) the call succeeds, and `mask[i]` is
TRUE if and only if no term `(S, p)` has `(labels[i] ∈ S) == p`, that is, every
term has `(labels[i] ∈ S) != p`. -/
theorem apply_venn_mask_iff (venn : Venn) (labels : List Int) (mask : List Bool)
    (h : labels.length = mask.length) :
    ∃ out, apply_venn_mask venn labels mask = .ok out ∧ out.length = labels.length ∧
      ∀ i, i < labels.length →
        (out.getD i false = true ↔ ∀ t ∈ venn, spec_satisfies (labels.getD i 0) t = false) := by
  refine ⟨_, apply_venn_mask_eq venn labels mask h, by simp, ?_⟩
  intro i hi
  rw [← venn_value_eq_true_iff]
  simp [List.getD_eq_getElem?_getD, hi]

/-- Witness of `apply_venn_mask_iff` on the diagram `[({1,2}, true), ({3}, false)]`. -/
theorem apply_venn_mask_iff_witness :
    [(1 : Int), 3, 2, 4].length = [false, false, false, false].length ∧
    ∃ out, apply_venn_mask [([1, 2], true), ([3], false)] [1, 3, 2, 4]
        [false, false, false, false] = .ok out ∧ out.length = [(1 : Int), 3, 2, 4].length ∧
      ∀ i, i < [(1 : Int), 3, 2, 4].length →
        (out.getD i false = true ↔
          ∀ t ∈ ([([1, 2], true), ([3], false)] : Venn),
            spec_satisfies ([(1 : Int), 3, 2, 4].getD i 0) t = false) :=
  ⟨rfl, apply_venn_mask_iff [([1, 2], true), ([3], false)] [1, 3, 2, 4]
    [false, false, false, false] rfl⟩

/-- Claim C1 fails as stated: with the single term `({1}, true)` and the label `1`
the term is satisfied in the sense `(1 ∈ {1}) == true`, yet the mask bit written is FALSE. -/
theorem apply_venn_mask_counterexample :
    apply_venn_mask [([1], true)] [1] [true] = .ok [false] ∧
      ∀ t ∈ ([([1], true)] : Venn), spec_satisfies 1 t = true := by
  refine ⟨rfl, ?_⟩
  intro t ht
  simp only [List.mem_singleton] at ht
  subst ht
  rfl

/-- Claim C2, as the code has it: with `venn = [({1,2}, true), ({3}, false)]` and
`labels = [1, 3, 2, 4]` the mask written is exactly `[false, true, false, false]`,
whatever the mask buffer held before. -/
theorem apply_venn_mask_scenario (a b c d : Bool) :
    apply_venn_mask [([1, 2], true), ([3], false)] [1, 3, 2, 4] [a, b, c, d]
      = .ok [false, true, false, false] := by
  rw [apply_venn_mask_eq _ _ _ rfl]
  rfl

/-- Claim C2 fails as stated: on the scenario the mask written is not
`[true, false, true, false]` (here starting from a buffer that already holds it). -/
theorem apply_venn_mask_scenario_counterexample :
    apply_venn_mask [([1, 2], true), ([3], false)] [1, 3, 2, 4] [true, false, true, false]
      ≠ .ok [true, false, true, false] := by
  rw [apply_venn_mask_eq _ _ _ rfl]
  intro h
  have h2 := Except.ok.inj h
  revert h2
  decide

/-! ## Scenarios and error paths of the aligner and the detector -/

/-- Claim C5: for `t1=[0,10,20]`, `v1=[1,2,3]`, `t2=[1,100,200]`, `v2=[7,8,9]`,
`max_dist=2`, `fill=-1` the output has exactly five rows: the paired row `(1,7)`
first, then the unpaired rows `(2,-1)`, `(3,-1)`, `(-1,8)`, `(-1,9)` in the order of
the timestamp merge. -/
theorem align_sequences_scenario :
    align_sequences [0, 10, 20] [1, 100, 200] [1, 2, 3] [7, 8, 9] 2 (-1)
      = .ok [(1, 7), (2, -1), (3, -1), (-1, 8), (-1, 9)] := by
  rfl

/-- Claim C6: with `max_dist = 0` the call `align_sequences` ends in an error for
every input: the wrapper's own check `max_dist >= 0` passes and the check
`max_dist > 0` of `pair_sequences` throws, so no output is returned. -/
theorem align_sequences_zero_dist (times1 times2 vals1 vals2 : List Int) (fill_value : Int) :
    ((0 : Nat) ≥ 0) ∧
    pair_sequences times1 times2 times1.length times2.length 0
      = .error "Maximum distance must be positive" ∧
    align_sequences times1 times2 vals1 vals2 0 fill_value
      = .error "Maximum distance must be positive" := by
  refine ⟨Nat.le_refl 0, ?_, ?_⟩
  · simp [pair_sequences]
  · simp [align_sequences, pair_sequences]

/-- Claim C9: for `time=[0,1,...,9]`, `data=[0,0,5,0,0,0,6,0,0,0]`, `thr=3`, `refr=2`
the output of `detect_channel` is exactly `[2, 6]`. -/
theorem detect_channel_scenario :
    detect_channel [0, 1, 2, 3, 4, 5, 6, 7, 8, 9]
      [.fin 0, .fin 0, .fin 5, .fin 0, .fin 0, .fin 0, .fin 6, .fin 0, .fin 0, .fin 0]
      (.fin 3) 2 = [2, 6] := by
  decide

/-! ## Symmetry of `pair_sequences` -/

/-- Claim C7, as the code has it: when the two lengths differ, the pairing of
`(t1, t2)` is the mirror of the pairing of `(t2, t1)` (the longer sequence is
always moved to the second place before the scan); nothing is promised for
`N1 == N2`, where no argument swap occurs. -/
theorem pair_sequences_mirror (times1 times2 : List Int) (N1 N2 max_dist : Nat)
    (hne : N1 ≠ N2) :
    pair_sequences times2 times1 N2 N1 max_dist
      = (pair_sequences times1 times2 N1 N2 max_dist).map Prod.swap := by
  unfold pair_sequences
  by_cases hmd : max_dist > 0
  · simp only [if_pos hmd]
    by_cases hlt : N2 < N1
    · have hnlt : ¬ N1 < N2 := by omega
      simp only [if_pos hlt, if_neg hnlt]
      cases pair_loop times2 times1 N2 N1 max_dist (N2 + 1) 0 0 [] [] with
      | none => rfl
      | some r => rfl
    · have hlt2 : N1 < N2 := by omega
      simp only [if_neg hlt, if_pos hlt2]
      cases pair_loop times1 times2 N1 N2 max_dist (N1 + 1) 0 0 [] [] with
      | none => rfl
      | some r => rfl
  · simp only [if_neg hmd]
    rfl

/-- Witness of `pair_sequences_mirror` on `t1 = [5]`, `t2 = [0, 5]`. -/
theorem pair_sequences_mirror_witness :
    (1 : Nat) ≠ 2 ∧
    pair_sequences [0, 5] [5] 2 1 1 = (pair_sequences [5] [0, 5] 1 2 1).map Prod.swap :=
  ⟨by decide, pair_sequences_mirror [5] [0, 5] 1 2 1 (by decide)⟩

/-- Claim C7 fails as stated for `N1 == N2`: with the strictly increasing
`t1 = [10, 100]`, `t2 = [100, 200]` and `max_dist = 5`, the call on `(t1, t2)` pairs
nothing while the call on `(t2, t1)` pairs index 0 of `t2` with index 1 of `t1`. -/
theorem pair_sequences_mirror_counterexample :
    pair_sequences [10, 100] [100, 200] 2 2 5 = .ok ([], []) ∧
    pair_sequences [100, 200] [10, 100] 2 2 5 = .ok ([0], [1]) :=
  ⟨rfl, rfl⟩

/-! ## The pairing computed by `pair_sequences` -/

/-- The scan returns, and its best candidate is a valid index, not before the
one it started from, at the distance recorded with it. -/
theorem pair_scan_spec (times1 times2 : List Int) (N2 i1 : Nat) :
    ∀ (fuel i2 best_dist best_i2 : Nat), N2 - i2 < fuel → best_i2 < N2 → best_i2 ≤ i2 →
      best_dist = abs_diff64 (times1.getD i1 0) (times2.getD best_i2 0) →
      ∃ j d b, pair_scan times1 times2 N2 i1 fuel i2 best_dist best_i2 = some (j, d, b) ∧
        b < N2 ∧ best_i2 ≤ b ∧ d = abs_diff64 (times1.getD i1 0) (times2.getD b 0) := by
  intro fuel
  induction fuel with
  | zero => intro i2 bd bi hf; omega
  | succ fuel ih =>
    intro i2 bd bi hf hbi hle hbd
    unfold pair_scan
    by_cases hc : i2 < N2 ∧ times2.getD i2 0 ≤ times1.getD i1 0
    · rw [if_pos hc]
      by_cases hd : abs_diff64 (times1.getD i1 0) (times2.getD i2 0) < bd
      · rw [if_pos hd]
        obtain ⟨j, d, b, h, hb, hle2, hd2⟩ := ih (i2 + 1) _ i2 (by omega) hc.1 (by omega) rfl
        exact ⟨j, d, b, h, hb, by omega, hd2⟩
      · rw [if_neg hd]
        obtain ⟨j, d, b, h, hb, hle2, hd2⟩ := ih (i2 + 1) bd bi (by omega) hbi (by omega) hbd
        exact ⟨j, d, b, h, hb, hle2, hd2⟩
    · rw [if_neg hc]
      exact ⟨i2, bd, bi, rfl, hbi, Nat.le_refl _, hbd⟩

/-- The outer loop returns, and it extends a pairing whose indices lie below the
current positions to a pairing. -/
theorem pair_loop_spec (times1 times2 : List Int) (N1 N2 max_dist : Nat) :
    ∀ (fuel i1 i2 : Nat) (idxs1 idxs2 : List Nat), N1 - i1 < fuel →
      Pairing times1 times2 N1 N2 max_dist idxs1 idxs2 →
      (∀ a ∈ idxs1, a < i1) → (∀ b ∈ idxs2, b < i2) →
      ∃ r1 r2, pair_loop times1 times2 N1 N2 max_dist fuel i1 i2 idxs1 idxs2 = some (r1, r2) ∧
        Pairing times1 times2 N1 N2 max_dist r1 r2 := by
  intro fuel
  induction fuel with
  | zero => intro i1 i2 idxs1 idxs2 hf; omega
  | succ fuel ih =>
    intro i1 i2 idxs1 idxs2 hf hP h1 h2
    unfold pair_loop
    by_cases hc : i1 < N1 ∧ i2 < N2
    · rw [if_pos hc]
      obtain ⟨j, d, b, hs, hb, hle, hd⟩ := pair_scan_spec times1 times2 N2 i1 (N2 + 1) i2
        (abs_diff64 (times1.getD i1 0) (times2.getD i2 0)) i2 (by omega) hc.2 (Nat.le_refl _) rfl
      rw [hs]
      simp only
      by_cases hp : b < N2 ∧ d ≤ max_dist
      · rw [if_pos hp]
        apply ih (i1 + 1) (b + 1) _ _ (by omega)
        · refine ⟨?_, ?_, ?_⟩
          · exact List.rel_append hP.close
              (List.Forall₂.cons ⟨hc.1, hb, by rw [← hd]; exact hp.2⟩ List.Forall₂.nil)
          · rw [List.pairwise_append]
            refine ⟨hP.sorted1, List.pairwise_singleton _ _, ?_⟩
            intro a ha c hc2
            rw [List.mem_singleton] at hc2
            subst hc2
            exact h1 a ha
          · rw [List.pairwise_append]
            refine ⟨hP.sorted2, List.pairwise_singleton _ _, ?_⟩
            intro a ha c hc2
            rw [List.mem_singleton] at hc2
            subst hc2
            have := h2 a ha
            omega
        · intro a ha
          rw [List.mem_append, List.mem_singleton] at ha
          rcases ha with ha | ha
          · have := h1 a ha
            omega
          · omega
        · intro a ha
          rw [List.mem_append, List.mem_singleton] at ha
          rcases ha with ha | ha
          · have := h2 a ha
            omega
          · omega
      · rw [if_neg hp]
        apply ih (i1 + 1) (b + 1) _ _ (by omega) hP
        · intro a ha
          have := h1 a ha
          omega
        · intro a ha
          have := h2 a ha
          omega
    · rw [if_neg hc]
      exact ⟨idxs1, idxs2, rfl, hP⟩

/-- The distance measured by the code is symmetric. -/
theorem abs_diff64_comm (a b : Int) : abs_diff64 a b = abs_diff64 b a := by
  unfold abs_diff64 wrap_int64
  omega

/-- Outside the range of `int64_t` the difference wraps: for the timestamps
`2^63 - 1` and `-2^63` the code computes the distance 1, and `pair_sequences`
returns the pair `(0, 0)` at `max_dist = 2`. -/
theorem pair_sequences_wraps :
    abs_diff64 9223372036854775807 (-9223372036854775808) = 1 ∧
    pair_sequences [9223372036854775807] [-9223372036854775808] 1 1 2 = .ok ([0], [0]) :=
  ⟨by decide, rfl⟩

/-- A pairing of the exchanged sequences is a pairing of the sequences, with the
index vectors exchanged. -/
theorem pairing_swap {times1 times2 : List Int} {N1 N2 max_dist : Nat}
    {idxs1 idxs2 : List Nat} (h : Pairing times2 times1 N2 N1 max_dist idxs1 idxs2) :
    Pairing times1 times2 N1 N2 max_dist idxs2 idxs1 := by
  refine ⟨?_, h.sorted2, h.sorted1⟩
  apply List.Forall₂.flip
  refine h.close.imp ?_
  intro a b hab
  refine ⟨hab.2.1, hab.1, ?_⟩
  rw [abs_diff64_comm]
  exact hab.2.2

/-- With `max_dist > 0` the function `pair_sequences` returns a pairing. -/
theorem pair_sequences_total (times1 times2 : List Int) (N1 N2 max_dist : Nat)
    (hmd : 0 < max_dist) :
    ∃ idxs1 idxs2, pair_sequences times1 times2 N1 N2 max_dist = .ok (idxs1, idxs2) ∧
      Pairing times1 times2 N1 N2 max_dist idxs1 idxs2 := by
  have hnil : ∀ (a b : List Int) (n m : Nat), Pairing a b n m max_dist [] [] :=
    fun a b n m => ⟨List.Forall₂.nil, List.Pairwise.nil, List.Pairwise.nil⟩
  unfold pair_sequences
  rw [if_pos hmd]
  by_cases hlt : N2 < N1
  · rw [if_pos hlt]
    obtain ⟨r1, r2, h, hP⟩ := pair_loop_spec times2 times1 N2 N1 max_dist (N2 + 1) 0 0 [] []
      (by omega) (hnil _ _ _ _) (by simp) (by simp)
    rw [h]
    exact ⟨r2, r1, rfl, pairing_swap hP⟩
  · rw [if_neg hlt]
    obtain ⟨r1, r2, h, hP⟩ := pair_loop_spec times1 times2 N1 N2 max_dist (N1 + 1) 0 0 [] []
      (by omega) (hnil _ _ _ _) (by simp) (by simp)
    rw [h]
    exact ⟨r1, r2, rfl, hP⟩

/-! ## The merge of `align_sequences` -/

/-- Reshaping the flat vector of a list of rows gives the rows back. -/
theorem rows_of_flat (rows : List (Int × Int)) : rows_of (flat rows) = rows := by
  induction rows with
  | nil => rfl
  | cons r rest ih =>
    show rows_of (r.1 :: r.2 :: flat rest) = r :: rest
    rw [rows_of, ih]

/-- The flat vector of a concatenation is the concatenation of the flat vectors. -/
theorem flat_append (r s : List (Int × Int)) : flat (r ++ s) = flat r ++ flat s := by
  simp [flat]

/-- Two adjacent index ranges make one range. -/
theorem range'_glue (a b c : Nat) (hab : a ≤ b) (hbc : b ≤ c) :
    List.range' a (b - a) ++ List.range' b (c - b) = List.range' a (c - a) := by
  have h := List.range'_append_1 a (b - a) (c - b)
  rw [show a + (b - a) = b by omega, show c - b + (b - a) = c - a by omega] at h
  exact h

/-- No row consumes nothing. -/
theorem covers_nil (a1 a2 : Nat) : Covers [] a1 a1 a2 a2 [] :=
  ⟨by simp, by simp, rfl, by simp, Nat.le_refl _, Nat.le_refl _⟩

/-- Rows that consume adjacent index ranges can be concatenated. -/
theorem covers_append {r s : List Origin} {a1 b1 c1 a2 b2 c2 : Nat} {p q : List (Nat × Nat)}
    (h : Covers r a1 b1 a2 b2 p) (k : Covers s b1 c1 b2 c2 q) :
    Covers (r ++ s) a1 c1 a2 c2 (p ++ q) := by
  have h1 := h.le1
  have h2 := h.le2
  have k1 := k.le1
  have k2 := k.le2
  refine ⟨?_, ?_, ?_, ?_, by omega, by omega⟩
  · rw [List.filterMap_append, h.left, k.left, range'_glue a1 b1 c1 h1 k1]
  · rw [List.filterMap_append, h.right, k.right, range'_glue a2 b2 c2 h2 k2]
  · rw [List.filterMap_append, h.paired, k.paired]
  · have hc := h.count
    have kc := k.count
    simp only [List.length_append]
    omega

/-- A row fed by stream 1 alone consumes one index of stream 1. -/
theorem covers_left_row (i j : Nat) : Covers [(some i, none)] i (i + 1) j j [] :=
  ⟨by simp, by simp, rfl, by simp, by omega, Nat.le_refl _⟩

/-- A row fed by stream 2 alone consumes one index of stream 2. -/
theorem covers_right_row (i j : Nat) : Covers [(none, some j)] i i j (j + 1) [] :=
  ⟨by simp, by simp, rfl, by simp, Nat.le_refl _, by omega⟩

/-- A paired row consumes one index of each stream. -/
theorem covers_pair_row (i j : Nat) : Covers [(some i, some j)] i (i + 1) j (j + 1) [(i, j)] :=
  ⟨by simp, by simp, rfl, by simp, by omega, by omega⟩

/-- A run of `n` rows fed by stream 1 alone. -/
theorem covers_left_run (n i j : Nat) :
    Covers ((List.range' i n).map (fun a => ((some a, none) : Origin))) i (i + n) j j [] := by
  induction n generalizing i with
  | zero => exact covers_nil i j
  | succ n ih =>
    have h := covers_append (covers_left_row i j) (ih (i + 1))
    rw [show i + 1 + n = i + (n + 1) by omega] at h
    exact h

/-- A run of `n` rows fed by stream 2 alone. -/
theorem covers_right_run (n i j : Nat) :
    Covers ((List.range' j n).map (fun a => ((none, some a) : Origin))) i i j (j + n) [] := by
  induction n generalizing j with
  | zero => exact covers_nil i j
  | succ n ih =>
    have h := covers_append (covers_right_row i j) (ih (j + 1))
    rw [show j + 1 + n = j + (n + 1) by omega] at h
    exact h

/-- The first loop of `mergesort_into` returns; it appends rows that consume a
prefix of each of the two ranges, one stream per row. The rows do not depend
on the values. -/
theorem merge_both_spec (times1 times2 : List Int) (I1 I2 : Nat) :
    ∀ (fuel i1 i2 : Nat), (I1 - i1) + (I2 - i2) < fuel → i1 ≤ I1 → i2 ≤ I2 →
      ∃ (seg : List Origin) (j1 j2 : Nat), Covers seg i1 j1 i2 j2 [] ∧ j1 ≤ I1 ∧ j2 ≤ I2 ∧
        ∀ (vals vals1 vals2 : List Int) (fill_value : Int),
          merge_both times1 times2 vals1 vals2 I1 I2 fill_value fuel vals i1 i2
            = some (vals ++ flat (seg.map (render vals1 vals2 fill_value)), j1, j2) := by
  intro fuel
  induction fuel with
  | zero => intro i1 i2 hf; omega
  | succ fuel ih =>
    intro i1 i2 hf h1 h2
    by_cases hc : i1 < I1 ∧ i2 < I2
    · by_cases ht : times1.getD i1 0 ≤ times2.getD i2 0
      · obtain ⟨seg, j1, j2, hcov, hj1, hj2, hrun⟩ := ih (i1 + 1) i2 (by omega) (by omega) h2
        refine ⟨(some i1, none) :: seg, j1, j2, covers_append (covers_left_row i1 i2) hcov, hj1, hj2, ?_⟩
        intro vals vals1 vals2 fill_value
        rw [merge_both, if_pos hc, if_pos ht, hrun]
        simp [flat, render]
      · obtain ⟨seg, j1, j2, hcov, hj1, hj2, hrun⟩ := ih i1 (i2 + 1) (by omega) h1 (by omega)
        refine ⟨(none, some i2) :: seg, j1, j2, covers_append (covers_right_row i1 i2) hcov, hj1, hj2, ?_⟩
        intro vals vals1 vals2 fill_value
        rw [merge_both, if_pos hc, if_neg ht, hrun]
        simp [flat, render]
    · refine ⟨[], i1, i2, covers_nil i1 i2, h1, h2, ?_⟩
      intro vals vals1 vals2 fill_value
      rw [merge_both, if_neg hc]
      simp [flat]

/-- The second loop of `mergesort_into` writes a run of rows fed by stream 1. -/
theorem merge_rest1_eq (vals1 vals2 : List Int) (fill_value : Int) (i1 I1 : Nat) :
    merge_rest1 vals1 fill_value i1 I1
      = flat (((List.range' i1 (I1 - i1)).map (fun a => ((some a, none) : Origin))).map
          (render vals1 vals2 fill_value)) := by
  simp [merge_rest1, flat, render, List.flatMap_map]

/-- The third loop of `mergesort_into` writes a run of rows fed by stream 2. -/
theorem merge_rest2_eq (vals1 vals2 : List Int) (fill_value : Int) (i2 I2 : Nat) :
    merge_rest2 vals2 fill_value i2 I2
      = flat (((List.range' i2 (I2 - i2)).map (fun a => ((none, some a) : Origin))).map
          (render vals1 vals2 fill_value)) := by
  simp [merge_rest2, flat, render, List.flatMap_map]

/-- The function `mergesort_into` returns; it appends rows that consume the two
ranges `i1 .. I1 - 1` and `i2 .. I2 - 1` completely, one stream per row. -/
theorem mergesort_into_spec (times1 times2 : List Int) (i1 i2 I1 I2 : Nat)
    (h1 : i1 ≤ I1) (h2 : i2 ≤ I2) :
    ∃ seg : List Origin, Covers seg i1 I1 i2 I2 [] ∧
      ∀ (vals vals1 vals2 : List Int) (fill_value : Int),
        mergesort_into vals times1 times2 vals1 vals2 i1 i2 I1 I2 fill_value
          = some (vals ++ flat (seg.map (render vals1 vals2 fill_value))) := by
  obtain ⟨seg, j1, j2, hcov, hj1, hj2, hrun⟩ :=
    merge_both_spec times1 times2 I1 I2 ((I1 - i1) + (I2 - i2) + 1) i1 i2 (by omega) h1 h2
  have hl := covers_left_run (I1 - j1) j1 j2
  have hr := covers_right_run (I2 - j2) (j1 + (I1 - j1)) j2
  have hall := covers_append (covers_append hcov hl) hr
  rw [show j1 + (I1 - j1) = I1 by omega, show j2 + (I2 - j2) = I2 by omega] at hall
  refine ⟨_, hall, ?_⟩
  intro vals vals1 vals2 fill_value
  rw [mergesort_into, hrun]
  simp only [List.map_append, flat_append, List.append_assoc]
  rw [merge_rest1_eq vals1 vals2, merge_rest2_eq vals1 vals2]

/-- The loop over the pairs of `align_sequences` returns; after `k` iterations the
rows consume both streams up to and including the `k`-th pair. -/
theorem align_fold_spec (times1 times2 : List Int) (N1 N2 max_dist : Nat)
    (idxs1 idxs2 : List Nat) (hP : Pairing times1 times2 N1 N2 max_dist idxs1 idxs2) :
    ∀ k, k ≤ idxs1.length →
      ∃ (rows : List Origin) (i1 i2 : Nat),
        Covers rows 0 i1 0 i2 ((idxs1.zip idxs2).take k) ∧ i1 ≤ N1 ∧ i2 ≤ N2 ∧
        (∀ m, k ≤ m → m < idxs1.length → i1 ≤ idxs1.getD m 0 ∧ i2 ≤ idxs2.getD m 0) ∧
        ∀ (vals1 vals2 : List Int) (fill_value : Int),
          (List.range k).foldl (align_step times1 times2 vals1 vals2 idxs1 idxs2 fill_value)
            (some ([], 0, 0)) = some (flat (rows.map (render vals1 vals2 fill_value)), i1, i2) := by
  have hlen : idxs1.length = idxs2.length := hP.close.length_eq
  have hget := (List.forall₂_iff_get.1 hP.close).2
  have hs1 := List.pairwise_iff_getElem.1 hP.sorted1
  have hs2 := List.pairwise_iff_getElem.1 hP.sorted2
  intro k
  induction k with
  | zero =>
    intro _
    refine ⟨[], 0, 0, covers_nil 0 0, Nat.zero_le _, Nat.zero_le _, ?_, ?_⟩
    · intro m _ _
      exact ⟨Nat.zero_le _, Nat.zero_le _⟩
    · intro vals1 vals2 fill_value
      rfl
  | succ k ih =>
    intro hk
    have hk1 : k < idxs1.length := by omega
    have hk2 : k < idxs2.length := by omega
    obtain ⟨rows, i1, i2, hcov, hi1, hi2, hnext, hrun⟩ := ih (by omega)
    have hg1 : idxs1.getD k 0 = idxs1[k] := List.getD_eq_getElem _ _ hk1
    have hg2 : idxs2.getD k 0 = idxs2[k] := List.getD_eq_getElem _ _ hk2
    have hb := hget k hk1 hk2
    simp only [List.get_eq_getElem] at hb
    have hle := hnext k (Nat.le_refl _) hk1
    rw [hg1, hg2] at hle
    obtain ⟨seg, hseg, hmerge⟩ := mergesort_into_spec times1 times2 i1 i2 idxs1[k] idxs2[k]
      hle.1 hle.2
    have hzip : (idxs1.zip idxs2).take (k + 1)
        = (idxs1.zip idxs2).take k ++ [] ++ [(idxs1[k], idxs2[k])] := by
      have hkz : k < (idxs1.zip idxs2).length := by
        rw [List.length_zip]
        omega
      rw [List.take_succ, List.getElem?_eq_getElem hkz, List.getElem_zip]
      simp
    refine ⟨rows ++ seg ++ [(some idxs1[k], some idxs2[k])], idxs1[k] + 1, idxs2[k] + 1,
      ?_, by omega, by omega, ?_, ?_⟩
    · rw [hzip]
      exact covers_append (covers_append hcov hseg) (covers_pair_row _ _)
    · intro m hm hmK
      have hm2 : m < idxs2.length := by omega
      rw [List.getD_eq_getElem _ _ hmK, List.getD_eq_getElem _ _ hm2]
      have a1 := hs1 k m hk1 hmK (by omega)
      have a2 := hs2 k m hk2 hm2 (by omega)
      omega
    · intro vals1 vals2 fill_value
      rw [List.range_succ, List.foldl_append, hrun]
      simp only [List.foldl_cons, List.foldl_nil, align_step, hg1, hg2, hmerge]
      simp [flat_append, flat, render]

/-- With `max_dist > 0` the function `align_sequences` returns: its rows are the
rendering of a list of origins (the same for all values and fill value) that
consumes both streams completely and whose two-stream rows are the pairs of
`pair_sequences`. -/
theorem align_sequences_total (times1 times2 : List Int) (max_dist : Nat)
    (hmd : 0 < max_dist) :
    ∃ (idxs1 idxs2 : List Nat) (rows : List Origin),
      pair_sequences times1 times2 times1.length times2.length max_dist = .ok (idxs1, idxs2) ∧
      Pairing times1 times2 times1.length times2.length max_dist idxs1 idxs2 ∧
      Covers rows 0 times1.length 0 times2.length (idxs1.zip idxs2) ∧
      ∀ (vals1 vals2 : List Int) (fill_value : Int),
        align_sequences times1 times2 vals1 vals2 max_dist fill_value
          = .ok (rows.map (render vals1 vals2 fill_value)) := by
  obtain ⟨idxs1, idxs2, hpair, hP⟩ :=
    pair_sequences_total times1 times2 times1.length times2.length max_dist hmd
  have hlen : idxs1.length = idxs2.length := hP.close.length_eq
  obtain ⟨rows, i1, i2, hcov, hi1, hi2, _, hrun⟩ :=
    align_fold_spec times1 times2 _ _ max_dist idxs1 idxs2 hP idxs1.length (Nat.le_refl _)
  obtain ⟨seg, hseg, hmerge⟩ :=
    mergesort_into_spec times1 times2 i1 i2 times1.length times2.length hi1 hi2
  have htake : (idxs1.zip idxs2).take idxs1.length = idxs1.zip idxs2 := by
    apply List.take_of_length_le
    rw [List.length_zip]
    omega
  have hall := covers_append hcov hseg
  rw [htake, List.append_nil] at hall
  refine ⟨idxs1, idxs2, rows ++ seg, hpair, hP, hall, ?_⟩
  intro vals1 vals2 fill_value
  unfold align_sequences
  rw [if_pos (Nat.zero_le _), hpair]
  simp only [if_pos hlen, hrun, hmerge]
  rw [← flat_append, ← List.map_append, rows_of_flat]

/-- Reading a list at the indices `0 .. length - 1` gives the list back. -/
theorem map_getD_range (l : List Int) : (List.range l.length).map (fun i => l.getD i 0) = l := by
  apply List.ext_getElem (by simp)
  intro n h1 h2
  simp only [List.getElem_map, List.getElem_range]
  exact List.getD_eq_getElem _ _ h2

/-- Claim C4: for strictly increasing `t1[N1]`, `t2[N2]` and `max_dist > 0`,
`align_sequences` returns rows in which every index of stream 1 feeds the left
column exactly once and in increasing order, every index of stream 2 feeds the
right column exactly once and in increasing order; so the timestamps implied
by each column are sorted, the non-fill entries number `N1 + N2`, and the row
count is `N1 + N2` minus the number of pairs. -/
theorem align_sequences_merge (times1 times2 : List Int) (max_dist : Nat)
    (h1 : times1.Sorted (· < ·)) (h2 : times2.Sorted (· < ·)) (hmd : 0 < max_dist) :
    ∃ (idxs1 idxs2 : List Nat) (rows : List Origin),
      pair_sequences times1 times2 times1.length times2.length max_dist = .ok (idxs1, idxs2) ∧
      (∀ (vals1 vals2 : List Int) (fill_value : Int),
        align_sequences times1 times2 vals1 vals2 max_dist fill_value
          = .ok (rows.map (render vals1 vals2 fill_value))) ∧
      rows.filterMap Prod.fst = List.range times1.length ∧
      rows.filterMap Prod.snd = List.range times2.length ∧
      rows.filterMap both = idxs1.zip idxs2 ∧
      ((rows.filterMap Prod.fst).map (fun i => times1.getD i 0)).Sorted (· < ·) ∧
      ((rows.filterMap Prod.snd).map (fun j => times2.getD j 0)).Sorted (· < ·) ∧
      (rows.filterMap Prod.fst).length + (rows.filterMap Prod.snd).length
        = times1.length + times2.length ∧
      idxs1.length = idxs2.length ∧
      rows.length + idxs1.length = times1.length + times2.length := by
  obtain ⟨idxs1, idxs2, rows, hpair, hP, hcov, hrun⟩ :=
    align_sequences_total times1 times2 max_dist hmd
  have hlen : idxs1.length = idxs2.length := hP.close.length_eq
  have hl : rows.filterMap Prod.fst = List.range times1.length := by
    rw [hcov.left, List.range_eq_range', Nat.sub_zero]
  have hr : rows.filterMap Prod.snd = List.range times2.length := by
    rw [hcov.right, List.range_eq_range', Nat.sub_zero]
  refine ⟨idxs1, idxs2, rows, hpair, hrun, hl, hr, hcov.paired, ?_, ?_, ?_, hlen, ?_⟩
  · rw [hl, map_getD_range]
    exact h1
  · rw [hr, map_getD_range]
    exact h2
  · rw [hl, hr]
    simp
  · have hc := hcov.count
    rw [List.length_zip, ← hlen, Nat.min_self] at hc
    omega

/-- Witness of `align_sequences_merge` on `t1 = [0, 10, 20]`, `t2 = [1, 100, 200]`. -/
theorem align_sequences_merge_witness :
    [(0 : Int), 10, 20].Sorted (· < ·) ∧ [(1 : Int), 100, 200].Sorted (· < ·) ∧ 0 < 2 ∧
    ∃ (idxs1 idxs2 : List Nat) (rows : List Origin),
      pair_sequences [0, 10, 20] [1, 100, 200] [(0 : Int), 10, 20].length
        [(1 : Int), 100, 200].length 2 = .ok (idxs1, idxs2) ∧
      (∀ (vals1 vals2 : List Int) (fill_value : Int),
        align_sequences [0, 10, 20] [1, 100, 200] vals1 vals2 2 fill_value
          = .ok (rows.map (render vals1 vals2 fill_value))) ∧
      rows.filterMap Prod.fst = List.range [(0 : Int), 10, 20].length ∧
      rows.filterMap Prod.snd = List.range [(1 : Int), 100, 200].length ∧
      rows.filterMap both = idxs1.zip idxs2 ∧
      ((rows.filterMap Prod.fst).map (fun i => [(0 : Int), 10, 20].getD i 0)).Sorted (· < ·) ∧
      ((rows.filterMap Prod.snd).map (fun j => [(1 : Int), 100, 200].getD j 0)).Sorted (· < ·) ∧
      (rows.filterMap Prod.fst).length + (rows.filterMap Prod.snd).length
        = [(0 : Int), 10, 20].length + [(1 : Int), 100, 200].length ∧
      idxs1.length = idxs2.length ∧
      rows.length + idxs1.length = [(0 : Int), 10, 20].length + [(1 : Int), 100, 200].length :=
  ⟨by decide, by decide, by decide,
   align_sequences_merge [0, 10, 20] [1, 100, 200] 2 (by decide) (by decide) (by decide)⟩

/-! ## The refractory period of `detect_channel` -/

/-- The state of the sample loop after `n` iterations: the emitted timestamps
are the timestamps at a list `idxs` of sample indices that does not depend on
`time`; consecutive indices are more than `refr` apart, every index is a
threshold crossing, and the flags record the distance to the last detection. -/
theorem detect_loop_spec (data : List F32) (thr : F32) (refr : Nat) :
    ∀ n, ∃ (idxs : List Nat) (d : Bool) (c : Nat),
      (∀ time : List Int, detect_loop time data thr refr n
        = ⟨d, c, idxs.map (fun t => time.getD t 0)⟩) ∧
      idxs.Chain' (fun a b => a + refr < b) ∧
      (∀ i ∈ idxs, i < n ∧ F32.gt (F32.abs (data.getD i (.fin 0))) thr = true) ∧
      (d = true → ∃ last, idxs.getLast? = some last ∧ last + c + 1 = n ∧ c ≤ refr) ∧
      (d = false → c = 0 ∧ ∀ last, idxs.getLast? = some last → last + refr < n) := by
  intro n
  induction n with
  | zero =>
    refine ⟨[], false, 0, ?_, List.chain'_nil, by simp, by simp, by simp⟩
    intro time
    rfl
  | succ n ih =>
    obtain ⟨idxs, d, c, hrun, hchain, hmem, hdet, hidle⟩ := ih
    have hstep : ∀ time : List Int, detect_loop time data thr refr (n + 1)
        = detect_step time data thr refr ⟨d, c, idxs.map (fun t => time.getD t 0)⟩ n := by
      intro time
      rw [← hrun time]
      simp [detect_loop, List.range_succ, List.foldl_append]
    have hmem' : ∀ i ∈ idxs, i < n + 1 ∧ F32.gt (F32.abs (data.getD i (.fin 0))) thr = true := by
      intro i hi
      have := hmem i hi
      exact ⟨by omega, this.2⟩
    cases d with
    | true =>
      obtain ⟨last, hlast, hn, hc⟩ := hdet rfl
      by_cases hr : c + 1 > refr
      · refine ⟨idxs, false, 0, ?_, hchain, hmem', by simp, ?_⟩
        · intro time
          rw [hstep time]
          simp [detect_step, hr, -List.getD_eq_getElem?_getD]
        · intro _
          refine ⟨rfl, ?_⟩
          intro last2 hlast2
          rw [hlast] at hlast2
          have := Option.some.inj hlast2
          omega
      · refine ⟨idxs, true, c + 1, ?_, hchain, hmem', ?_, by simp⟩
        · intro time
          rw [hstep time]
          simp [detect_step, hr, -List.getD_eq_getElem?_getD]
        · intro _
          exact ⟨last, hlast, by omega, by omega⟩
    | false =>
      by_cases hx : F32.gt (F32.abs (data.getD n (.fin 0))) thr = true
      · refine ⟨idxs ++ [n], true, c, ?_, ?_, ?_, ?_, by simp⟩
        · intro time
          rw [hstep time]
          simp [detect_step, hx, -List.getD_eq_getElem?_getD]
        · refine hchain.append (List.chain'_singleton n) ?_
          intro x hxl y hy
          simp only [List.head?_cons, Option.mem_def, Option.some.injEq] at hy
          subst hy
          exact (hidle rfl).2 x hxl
        · intro i hi
          rw [List.mem_append, List.mem_singleton] at hi
          rcases hi with hi | hi
          · exact hmem' i hi
          · subst hi
            exact ⟨by omega, hx⟩
        · intro _
          have hc0 := (hidle rfl).1
          exact ⟨n, List.getLast?_concat _, by omega, by omega⟩
      · refine ⟨idxs, false, c, ?_, hchain, hmem', by simp, ?_⟩
        · intro time
          rw [hstep time]
          simp [detect_step, hx, -List.getD_eq_getElem?_getD]
        · intro _
          refine ⟨(hidle rfl).1, ?_⟩
          intro last hlast
          have := (hidle rfl).2 last hlast
          omega

/-- Claim C8: for every input with `thr > 0` (and `refr ≥ 0`, which holds of any
`size_t`), the detections are made at sample indices `idxs` any two consecutive
of which differ by more than `refr` (they are the emitted timestamps when
`time[t] = t`), every detected index is in range and a threshold crossing, and
the output is the subsequence of `time[]` at those indices, in increasing
index order. -/
theorem detect_channel_refractory (time : List Int) (data : List F32) (thr : F32) (refr : Nat)
    (_hthr : F32.gt thr (.fin 0) = true) :
    ∃ idxs : List Nat,
      detect_channel ((List.range data.length).map Int.ofNat) data thr refr
        = idxs.map Int.ofNat ∧
      detect_channel time data thr refr = idxs.map (fun t => time.getD t 0) ∧
      idxs.Chain' (fun a b => a + refr < b) ∧
      idxs.Sorted (· < ·) ∧
      ∀ i ∈ idxs, i < data.length ∧ F32.gt (F32.abs (data.getD i (.fin 0))) thr = true := by
  obtain ⟨idxs, d, c, hrun, hchain, hmem, _, _⟩ := detect_loop_spec data thr refr data.length
  refine ⟨idxs, ?_, ?_, hchain, ?_, hmem⟩
  · unfold detect_channel
    rw [hrun]
    apply List.map_congr_left
    intro t ht
    have hlt := (hmem t ht).1
    rw [List.getD_eq_getElem _ _ (by simpa using hlt)]
    simp
  · unfold detect_channel
    rw [hrun]
  · have hlt : ∀ a b : Nat, a + refr < b → a < b := fun a b h => by omega
    have htrans : IsTrans Nat (fun a b => a < b) := ⟨fun a b c => Nat.lt_trans⟩
    exact (List.chain'_iff_pairwise.1 (hchain.imp hlt))

/-- Witness of `detect_channel_refractory`: on `[0, 5, 6, 7, 8]` with threshold 3 and
refractory period 1 the detector emits the samples 1 and 4 (the crossings at
the samples 2 and 3 fall into the refractory period), two detections whose
indices differ by more than 1. -/
theorem detect_channel_refractory_witness :
    detect_channel [10, 11, 12, 13, 14] [.fin 0, .fin 5, .fin 6, .fin 7, .fin 8] (.fin 3) 1
      = [11, 14] ∧
    F32.gt (.fin 3) (.fin 0) = true ∧
    ∃ idxs : List Nat,
      detect_channel
          ((List.range [F32.fin 0, .fin 5, .fin 6, .fin 7, .fin 8].length).map Int.ofNat)
          [.fin 0, .fin 5, .fin 6, .fin 7, .fin 8] (.fin 3) 1
        = idxs.map Int.ofNat ∧
      detect_channel [10, 11, 12, 13, 14] [.fin 0, .fin 5, .fin 6, .fin 7, .fin 8] (.fin 3) 1
        = idxs.map (fun t => ([10, 11, 12, 13, 14] : List Int).getD t 0) ∧
      idxs.Chain' (fun a b => a + 1 < b) ∧
      idxs.Sorted (· < ·) ∧
      ∀ i ∈ idxs, i < [F32.fin 0, .fin 5, .fin 6, .fin 7, .fin 8].length ∧
        F32.gt (F32.abs ([F32.fin 0, .fin 5, .fin 6, .fin 7, .fin 8].getD i (.fin 0))) (.fin 3)
          = true :=
  ⟨by decide, by decide,
    detect_channel_refractory [10, 11, 12, 13, 14] [.fin 0, .fin 5, .fin 6, .fin 7, .fin 8]
      (.fin 3) 1 (by decide)⟩

/-! ## Connected components of the linkage -/

/-- A label is pushed for row `j` when the row has a live incidence to `v` and a
live incidence to that label, which differs from `v`. -/
theorem mem_row_pushes (L : EVIncidence) (v w : Int) (j : Nat) :
    w ∈ row_pushes L v j ↔
      (∃ k ∈ row_slots L j, index_at L k = v ∧ live_at L k = true) ∧
      (∃ k ∈ row_slots L j, index_at L k = w ∧ w ≠ v ∧ live_at L k = true) := by
  unfold row_pushes
  constructor
  · intro h
    split at h
    · rename_i hany
      rw [List.any_eq_true] at hany
      obtain ⟨k, hk, hkv⟩ := hany
      simp only [Bool.and_eq_true, beq_iff_eq] at hkv
      rw [List.mem_map] at h
      obtain ⟨k2, hk2, rfl⟩ := h
      rw [List.mem_filter] at hk2
      simp only [Bool.and_eq_true, bne_iff_ne, ne_eq] at hk2
      exact ⟨⟨k, hk, hkv.1, hkv.2⟩, ⟨k2, hk2.1, rfl, hk2.2.1, hk2.2.2⟩⟩
    · simp at h
  · rintro ⟨⟨k, hk, hkv, hkl⟩, ⟨k2, hk2, hkw, hne, hkl2⟩⟩
    have hany : (row_slots L j).any (fun k => index_at L k == v && live_at L k) = true := by
      rw [List.any_eq_true]
      exact ⟨k, hk, by simp [hkv, hkl]⟩
    rw [if_pos hany, List.mem_map]
    refine ⟨k2, ?_, hkw⟩
    rw [List.mem_filter]
    refine ⟨hk2, ?_⟩
    simp [hkw, hne, hkl2]

/-- A label is pushed by a visit when some row below `nrows` pushes it. -/
theorem mem_visit_pushes (L : EVIncidence) (v w : Int) :
    w ∈ visit_pushes L v ↔ ∃ j, j < L.shape.1.toNat ∧ w ∈ row_pushes L v j := by
  simp [visit_pushes, List.mem_flatMap]

/-- Being a neighbour is symmetric: a row with live incidences to two distinct
labels links each to the other. -/
theorem linked_symm {L : EVIncidence} {u w : Int} (h : Linked L u w) : Linked L w u := by
  unfold Linked at *
  rw [mem_visit_pushes] at *
  obtain ⟨j, hj, hrow⟩ := h
  refine ⟨j, hj, ?_⟩
  rw [mem_row_pushes] at *
  obtain ⟨⟨k, hk, hkv, hkl⟩, ⟨k2, hk2, hkw, hne, hkl2⟩⟩ := hrow
  exact ⟨⟨k2, hk2, hkw, hkl2⟩, ⟨k, hk, hkv, fun h => hne h.symm, hkl⟩⟩

/-- Reachability through live edges is symmetric. -/
theorem reach_symm {L : EVIncidence} {u w : Int} (h : Reach L u w) : Reach L w u :=
  Relation.ReflTransGen.symmetric (fun _ _ h => linked_symm h) h

/-- Every label read from `indices` is an entry of `indices` (or the default label). -/
theorem index_at_mem (L : EVIncidence) (k : Int) : index_at L k ∈ 0 :: L.indices := by
  unfold index_at
  split
  · exact List.mem_cons_self _ _
  · rw [List.getD_eq_getElem?_getD]
    cases hget : L.indices[k.toNat]? with
    | none => exact List.mem_cons_self _ _
    | some a => exact List.mem_cons_of_mem _ (List.getElem?_mem hget)

/-- Every label pushed by a visit is an entry of `indices` (or the default label). -/
theorem visit_pushes_mem (L : EVIncidence) (v w : Int) (h : w ∈ visit_pushes L v) :
    w ∈ 0 :: L.indices := by
  rw [mem_visit_pushes] at h
  obtain ⟨j, _, hrow⟩ := h
  rw [mem_row_pushes] at hrow
  obtain ⟨_, ⟨k, _, hkw, _, _⟩⟩ := hrow
  rw [← hkw]
  exact index_at_mem L k

/-- A row pushes at most as many labels as it has slots. -/
theorem row_pushes_length (L : EVIncidence) (v : Int) (j : Nat) :
    (row_pushes L v j).length ≤ (row_slots L j).length := by
  unfold row_pushes
  split
  · rw [List.length_map]
    exact List.length_filter_le _ _
  · simp

/-- The rows `js` push at most as many labels as they have slots. -/
theorem flatMap_row_pushes_length (L : EVIncidence) (v : Int) (js : List Nat) :
    (js.flatMap (row_pushes L v)).length ≤ (js.map (fun j => (row_slots L j).length)).sum := by
  induction js with
  | nil => simp
  | cons j js ih =>
    simp only [List.flatMap_cons, List.length_append, List.map_cons, List.sum_cons]
    have := row_pushes_length L v j
    omega

/-- A visit pushes at most `row_total L` labels. -/
theorem visit_pushes_length (L : EVIncidence) (v : Int) :
    (visit_pushes L v).length ≤ row_total L :=
  flatMap_row_pushes_length L v _

/-- The traversal returns as soon as the fuel exceeds the queue length plus
`row_total L + 1` times the number of labels of `U` not yet seen, where `U` is any
list of labels that holds the queue and every label a visit can push. -/
theorem bfs_returns (L : EVIncidence) (U : List Int)
    (hU : ∀ v w, w ∈ visit_pushes L v → w ∈ U) :
    ∀ (fuel : Nat) (queue seen : List Int), (∀ q ∈ queue, q ∈ U) →
      (U.toFinset \ seen.toFinset).card * (row_total L + 1) + queue.length < fuel →
      ∃ r, bfs L fuel queue seen = some r := by
  intro fuel
  induction fuel with
  | zero => intro queue seen _ hf; omega
  | succ fuel ih =>
    intro queue seen hq hf
    cases queue with
    | nil => exact ⟨seen, by simp [bfs]⟩
    | cons v queue =>
      have hqU : ∀ q ∈ queue, q ∈ U := fun q hq2 => hq q (List.mem_cons_of_mem _ hq2)
      simp only [List.length_cons] at hf
      by_cases hv : v ∈ seen
      · rw [bfs, if_pos hv]
        exact ih queue seen hqU (by omega)
      · rw [bfs, if_neg hv]
        have hvU : v ∈ U.toFinset \ seen.toFinset := by
          rw [Finset.mem_sdiff, List.mem_toFinset, List.mem_toFinset]
          exact ⟨hq v (List.mem_cons_self _ _), hv⟩
        have hcard : (U.toFinset \ (v :: seen).toFinset).card
            = (U.toFinset \ seen.toFinset).card - 1 := by
          rw [List.toFinset_cons, Finset.sdiff_insert, Finset.card_erase_of_mem hvU]
        have hpos : 0 < (U.toFinset \ seen.toFinset).card := Finset.card_pos.2 ⟨v, hvU⟩
        have hlen := visit_pushes_length L v
        apply ih
        · intro q hq2
          rw [List.mem_append] at hq2
          rcases hq2 with hq2 | hq2
          · exact hqU q hq2
          · exact hU v q hq2
        · rw [hcard, List.length_append]
          obtain ⟨c, hc⟩ : ∃ c, (U.toFinset \ seen.toFinset).card = c + 1 :=
            ⟨(U.toFinset \ seen.toFinset).card - 1, by omega⟩
          rw [hc] at hf ⊢
          rw [Nat.add_sub_cancel]
          rw [Nat.succ_mul] at hf
          omega

/-- Every label the traversal returns satisfies any property that holds of the
queue and of the seen labels and is kept by visits. -/
theorem bfs_sound (L : EVIncidence) (P : Int → Prop)
    (hP : ∀ u w, P u → w ∈ visit_pushes L u → P w) :
    ∀ (fuel : Nat) (queue seen r : List Int), bfs L fuel queue seen = some r →
      (∀ q ∈ queue, P q) → (∀ s ∈ seen, P s) → ∀ x ∈ r, P x := by
  intro fuel
  induction fuel with
  | zero =>
    intro queue seen r h hq hs
    cases queue with
    | nil =>
      simp only [bfs, Option.some.injEq] at h
      subst h
      exact hs
    | cons v queue => simp [bfs] at h
  | succ fuel ih =>
    intro queue seen r h hq hs
    cases queue with
    | nil =>
      simp only [bfs, Option.some.injEq] at h
      subst h
      exact hs
    | cons v queue =>
      have hv : P v := hq v (List.mem_cons_self _ _)
      have hq' : ∀ q ∈ queue, P q := fun q hq2 => hq q (List.mem_cons_of_mem _ hq2)
      by_cases hvs : v ∈ seen
      · rw [bfs, if_pos hvs] at h
        exact ih queue seen r h hq' hs
      · rw [bfs, if_neg hvs] at h
        refine ih _ _ r h ?_ ?_
        · intro q hq2
          rw [List.mem_append] at hq2
          rcases hq2 with hq2 | hq2
          · exact hq' q hq2
          · exact hP v q hv hq2
        · intro s hs2
          rw [List.mem_cons] at hs2
          rcases hs2 with rfl | hs2
          · exact hv
          · exact hs s hs2

/-- The list the traversal returns holds the queue and the seen labels, and is
closed under visits, provided what the seen labels push is seen or queued. -/
theorem bfs_closed (L : EVIncidence) :
    ∀ (fuel : Nat) (queue seen r : List Int), bfs L fuel queue seen = some r →
      (∀ u ∈ seen, ∀ w ∈ visit_pushes L u, w ∈ seen ∨ w ∈ queue) →
      (∀ q ∈ queue, q ∈ r) ∧ (∀ s ∈ seen, s ∈ r) ∧
        ∀ u ∈ r, ∀ w ∈ visit_pushes L u, w ∈ r := by
  intro fuel
  induction fuel with
  | zero =>
    intro queue seen r h hinv
    cases queue with
    | nil =>
      simp only [bfs, Option.some.injEq] at h
      subst h
      refine ⟨by simp, fun s hs => hs, ?_⟩
      intro u hu w hw
      rcases hinv u hu w hw with h1 | h1
      · exact h1
      · simp at h1
    | cons v queue => simp [bfs] at h
  | succ fuel ih =>
    intro queue seen r h hinv
    cases queue with
    | nil =>
      simp only [bfs, Option.some.injEq] at h
      subst h
      refine ⟨by simp, fun s hs => hs, ?_⟩
      intro u hu w hw
      rcases hinv u hu w hw with h1 | h1
      · exact h1
      · simp at h1
    | cons v queue =>
      by_cases hvs : v ∈ seen
      · rw [bfs, if_pos hvs] at h
        obtain ⟨hq, hs, hcl⟩ := ih queue seen r h (by
          intro u hu w hw
          rcases hinv u hu w hw with h1 | h1
          · exact Or.inl h1
          · rw [List.mem_cons] at h1
            rcases h1 with rfl | h1
            · exact Or.inl hvs
            · exact Or.inr h1)
        refine ⟨?_, hs, hcl⟩
        intro q hq2
        rw [List.mem_cons] at hq2
        rcases hq2 with rfl | hq2
        · exact hs q hvs
        · exact hq q hq2
      · rw [bfs, if_neg hvs] at h
        obtain ⟨hq, hs, hcl⟩ := ih _ _ r h (by
          intro u hu w hw
          rw [List.mem_cons] at hu
          rcases hu with rfl | hu
          · exact Or.inr (List.mem_append_right _ hw)
          · rcases hinv u hu w hw with h1 | h1
            · exact Or.inl (List.mem_cons_of_mem _ h1)
            · rw [List.mem_cons] at h1
              rcases h1 with rfl | h1
              · exact Or.inl (List.mem_cons_self _ _)
              · exact Or.inr (List.mem_append_left _ h1))
        refine ⟨?_, fun s hs2 => hs s (List.mem_cons_of_mem _ hs2), hcl⟩
        intro q hq2
        rw [List.mem_cons] at hq2
        rcases hq2 with rfl | hq2
        · exact hs q (List.mem_cons_self _ _)
        · exact hq q (List.mem_append_left _ hq2)

/-- The function `find_connected_component` returns, and the set it returns is
the set of labels reachable from `node`. -/
theorem find_connected_component_total (node : Int) (L : EVIncidence) :
    ∃ cc, find_connected_component node L = .ok cc ∧ ∀ x, x ∈ cc ↔ Reach L node x := by
  have hret : ∃ r, bfs L (cc_fuel L) [node] [] = some r := by
    apply bfs_returns L (node :: 0 :: L.indices)
    · intro v w hw
      exact List.mem_cons_of_mem _ (visit_pushes_mem L v w hw)
    · intro q hq
      rw [List.mem_singleton] at hq
      subst hq
      exact List.mem_cons_self _ _
    · have hcard : ((node :: 0 :: L.indices).toFinset \ ([] : List Int).toFinset).card
          ≤ L.indices.length + 2 := by
        calc ((node :: 0 :: L.indices).toFinset \ ([] : List Int).toFinset).card
            ≤ (node :: 0 :: L.indices).toFinset.card := Finset.card_le_card Finset.sdiff_subset
          _ ≤ (node :: 0 :: L.indices).length := List.toFinset_card_le _
          _ = L.indices.length + 2 := by simp
      have hmul := Nat.mul_le_mul_right (row_total L + 1) hcard
      unfold cc_fuel
      simp only [List.length_singleton]
      omega
  obtain ⟨r, hr⟩ := hret
  refine ⟨r, by rw [find_connected_component, hr], ?_⟩
  intro x
  constructor
  · intro hx
    refine bfs_sound L (Reach L node) ?_ (cc_fuel L) [node] [] r hr ?_ (by simp) x hx
    · intro u w hu hw
      exact Relation.ReflTransGen.tail hu hw
    · intro q hq
      rw [List.mem_singleton] at hq
      subst hq
      exact Relation.ReflTransGen.refl
  · intro hx
    obtain ⟨hq, _, hcl⟩ := bfs_closed L (cc_fuel L) [node] [] r hr (by simp)
    induction hx with
    | refl => exact hq node (List.mem_singleton_self _)
    | tail _ hbc ih => exact hcl _ ih _ hbc

/-- The running minimum is below its start value and every element, and is one of them. -/
theorem foldl_min_spec (l : List Int) :
    ∀ init : Int, l.foldl min init ≤ init ∧ (∀ x ∈ l, l.foldl min init ≤ x) ∧
      (l.foldl min init = init ∨ l.foldl min init ∈ l) := by
  induction l with
  | nil => intro init; simp
  | cons a l ih =>
    intro init
    obtain ⟨h1, h2, h3⟩ := ih (min init a)
    simp only [List.foldl_cons, List.mem_cons, forall_eq_or_imp]
    refine ⟨le_trans h1 (min_le_left _ _), ⟨le_trans h1 (min_le_right _ _), h2⟩, ?_⟩
    rcases h3 with h3 | h3
    · rcases min_choice init a with hc | hc
      · exact Or.inl (h3.trans hc)
      · exact Or.inr (Or.inl (h3.trans hc))
    · exact Or.inr (Or.inr h3)

/-- The value `min_element cc` is a member of a non-empty `cc` and a lower bound of it. -/
theorem min_element_spec (cc : List Int) (hne : cc ≠ []) :
    min_element cc ∈ cc ∧ ∀ x ∈ cc, min_element cc ≤ x := by
  cases cc with
  | nil => exact absurd rfl hne
  | cons a l =>
    obtain ⟨h1, h2, h3⟩ := foldl_min_spec (a :: l) a
    unfold min_element
    simp only [List.headD_cons]
    refine ⟨?_, h2⟩
    rcases h3 with h3 | h3
    · rw [h3]
      exact List.mem_cons_self _ _
    · exact h3

/-- The relabelling `relabel_by_cc` returns, its value is reachable from the
label, and it is the least reachable label. -/
theorem relabel_by_cc_total (label : Int) (L : EVIncidence) :
    ∃ m, relabel_by_cc label L = .ok m ∧ Reach L label m ∧ ∀ x, Reach L label x → m ≤ x := by
  obtain ⟨cc, hcc, hmem⟩ := find_connected_component_total label L
  have hne : cc ≠ [] := by
    intro h
    have := (hmem label).2 Relation.ReflTransGen.refl
    rw [h] at this
    simp at this
  obtain ⟨h1, h2⟩ := min_element_spec cc hne
  refine ⟨min_element cc, by rw [relabel_by_cc, hcc], (hmem _).1 h1, ?_⟩
  intro x hx
  exact h2 x ((hmem x).2 hx)

/-- Claim C10: `relabel_by_cc` is idempotent: for every well-formed linkage `L`
and every label `x` both calls return and
`relabel_by_cc(relabel_by_cc(x, L), L) == relabel_by_cc(x, L)`. -/
theorem relabel_by_cc_idempotent (L : EVIncidence) (x : Int) (_hL : L.WellFormed) :
    ∃ m, relabel_by_cc x L = .ok m ∧ relabel_by_cc m L = .ok m := by
  obtain ⟨m, hm, hreach, hmin⟩ := relabel_by_cc_total x L
  obtain ⟨m2, hm2, hreach2, hmin2⟩ := relabel_by_cc_total m L
  refine ⟨m, hm, ?_⟩
  have h1 : m ≤ m2 := hmin m2 (hreach.trans hreach2)
  have h2 : m2 ≤ m := hmin2 m Relation.ReflTransGen.refl
  rw [hm2, le_antisymm h2 h1]

/-- Witness of `relabel_by_cc_idempotent` on the linkage with the two live edges
`{5, 7}` and `{7, 3}`, from the label 7. -/
theorem relabel_by_cc_idempotent_witness :
    EVIncidence.WellFormed ⟨[true, true, true, true], [5, 7, 7, 3], [0, 2, 4], (2, 8)⟩ ∧
    ∃ m, relabel_by_cc 7 ⟨[true, true, true, true], [5, 7, 7, 3], [0, 2, 4], (2, 8)⟩ = .ok m ∧
      relabel_by_cc m ⟨[true, true, true, true], [5, 7, 7, 3], [0, 2, 4], (2, 8)⟩ = .ok m :=
  ⟨by unfold EVIncidence.WellFormed; decide,
   relabel_by_cc_idempotent ⟨[true, true, true, true], [5, 7, 7, 3], [0, 2, 4], (2, 8)⟩ 7
    (by unfold EVIncidence.WellFormed; decide)⟩

/-! ## Unlinking -/

/-- A row loop step of `unlink_nodes` writes only the `data` array. -/
theorem unlink_row_frame (nodes : List Int) (L : EVIncidence) (j : Nat) :
    (unlink_row nodes L j).indices = L.indices ∧ (unlink_row nodes L j).indptr = L.indptr ∧
      (unlink_row nodes L j).shape = L.shape := by
  unfold unlink_row
  split <;> simp

/-- Reading a flag after a list of `false` writes: the flag is set only if it was
set before and none of the writes hit it. -/
theorem getD_foldl_write_false (ks : List Int) :
    ∀ (d : List Bool) (k : Int), 0 ≤ k →
      (ks.foldl (fun d k => write_at d k false) d).getD k.toNat false = true →
      d.getD k.toNat false = true ∧ k ∉ ks := by
  induction ks with
  | nil => intro d k _ h; exact ⟨h, by simp⟩
  | cons a ks ih =>
    intro d k hk h
    rw [List.foldl_cons] at h
    obtain ⟨h1, h2⟩ := ih _ k hk h
    unfold write_at at h1
    split at h1
    · refine ⟨h1, ?_⟩
      intro hmem
      rw [List.mem_cons] at hmem
      rcases hmem with rfl | hmem
      · omega
      · exact h2 hmem
    · rename_i ha
      rw [List.getD_eq_getElem?_getD, List.getElem?_set] at h1
      split at h1
      · split at h1 <;> simp at h1
      · rename_i hne
        rw [← List.getD_eq_getElem?_getD] at h1
        refine ⟨h1, ?_⟩
        intro hmem
        rw [List.mem_cons] at hmem
        rcases hmem with rfl | hmem
        · exact hne rfl
        · exact h2 hmem

/-- The reads `indices[k]` agree on linkages with the same `indices` array. -/
theorem index_at_congr {L M : EVIncidence} (h : M.indices = L.indices) (k : Int) :
    index_at M k = index_at L k := by
  unfold index_at
  rw [h]

/-- The rows agree on linkages with the same `indptr` array. -/
theorem row_slots_congr {L M : EVIncidence} (h : M.indptr = L.indptr) (j : Nat) :
    row_slots M j = row_slots L j := by
  unfold row_slots
  rw [h]

/-- A row loop step of `unlink_nodes` never sets a flag. -/
theorem unlink_row_mono (nodes : List Int) (L : EVIncidence) (j : Nat) (k : Int)
    (h : live_at (unlink_row nodes L j) k = true) : live_at L k = true := by
  unfold unlink_row at h
  split at h
  · unfold live_at at h ⊢
    split
    · rename_i hk
      rw [if_pos hk] at h
      exact h
    · rename_i hk
      rw [if_neg hk] at h
      exact (getD_foldl_write_false _ _ k (by omega) h).1
  · exact h

/-- After the step for row `j`, no slot of row `j` is a live incidence to a member
of `nodes`. -/
theorem unlink_row_dead (nodes : List Int) (L : EVIncidence) (j : Nat) (k : Int)
    (hk : k ∈ row_slots L j) (hn : index_at L k ∈ nodes) :
    live_at (unlink_row nodes L j) k = false := by
  unfold unlink_row
  split
  · unfold live_at
    split
    · rfl
    · rename_i hk0
      simp only
      by_contra hlive
      rw [Bool.not_eq_false] at hlive
      exact (getD_foldl_write_false _ _ k (by omega) hlive).2 hk
  · rename_i hany
    rw [List.any_eq_true] at hany
    by_contra hlive
    rw [Bool.not_eq_false] at hlive
    exact hany ⟨k, hk, by simp [hn, hlive]⟩

/-- The state of the row loop of `unlink_nodes` after `n` rows: only `data` was
written, no flag was set, and the rows done have no live incidence to `nodes`. -/
theorem unlink_fold_spec (nodes : List Int) (L : EVIncidence) :
    ∀ n, ((List.range n).foldl (unlink_row nodes) L).indices = L.indices ∧
      ((List.range n).foldl (unlink_row nodes) L).indptr = L.indptr ∧
      ((List.range n).foldl (unlink_row nodes) L).shape = L.shape ∧
      (∀ k, live_at ((List.range n).foldl (unlink_row nodes) L) k = true → live_at L k = true) ∧
      ∀ j, j < n → ∀ k ∈ row_slots L j, index_at L k ∈ nodes →
        live_at ((List.range n).foldl (unlink_row nodes) L) k = false := by
  intro n
  induction n with
  | zero => simp
  | succ n ih =>
    obtain ⟨h1, h2, h3, h4, h5⟩ := ih
    rw [List.range_succ, List.foldl_append]
    simp only [List.foldl_cons, List.foldl_nil]
    obtain ⟨f1, f2, f3⟩ := unlink_row_frame nodes ((List.range n).foldl (unlink_row nodes) L) n
    refine ⟨f1.trans h1, f2.trans h2, f3.trans h3, ?_, ?_⟩
    · intro k hk
      exact h4 k (unlink_row_mono _ _ _ _ hk)
    · intro j hj k hk hn
      by_cases hjn : j = n
      · subst hjn
        apply unlink_row_dead
        · rw [row_slots_congr h2]
          exact hk
        · rw [index_at_congr h1]
          exact hn
      · have := h5 j (by omega) k hk hn
        by_contra hlive
        rw [Bool.not_eq_false] at hlive
        rw [unlink_row_mono _ _ _ _ hlive] at this
        exact absurd this (by simp)

/-- The effect of `unlink_nodes`: `indices`, `indptr` and `shape` are unchanged, no
flag is set, and no row has a live incidence to a member of `nodes` any more. -/
theorem unlink_nodes_spec (nodes : List Int) (L : EVIncidence) :
    (unlink_nodes nodes L).indices = L.indices ∧ (unlink_nodes nodes L).indptr = L.indptr ∧
      (unlink_nodes nodes L).shape = L.shape ∧
      (∀ k, live_at (unlink_nodes nodes L) k = true → live_at L k = true) ∧
      ∀ j, j < L.shape.1.toNat → ∀ k ∈ row_slots L j, index_at L k ∈ nodes →
        live_at (unlink_nodes nodes L) k = false :=
  unlink_fold_spec nodes L L.shape.1.toNat

/-- A label without live incidence in any row is alone in its component: the
traversal returns the one-element set. -/
theorem find_connected_component_isolated (v : Int) (L : EVIncidence)
    (h : ∀ j, j < L.shape.1.toNat → ∀ k ∈ row_slots L j, index_at L k = v →
      live_at L k = false) :
    find_connected_component v L = .ok [v] := by
  have hpush : visit_pushes L v = [] := by
    rw [List.eq_nil_iff_forall_not_mem]
    intro w hw
    rw [mem_visit_pushes] at hw
    obtain ⟨j, hj, hrow⟩ := hw
    rw [mem_row_pushes] at hrow
    obtain ⟨⟨k, hk, hkv, hkl⟩, _⟩ := hrow
    rw [h j hj k hk hkv] at hkl
    exact absurd hkl (by simp)
  unfold find_connected_component cc_fuel
  rw [show 2 + (L.indices.length + 2) * (row_total L + 1)
      = ((L.indices.length + 2) * (row_total L + 1) + 1) + 1 by omega]
  simp [bfs, hpush]

/-- Claim C11: for every well-formed linkage `L` and every vertex `v`, after
`unlink_nodes({v}, L)` the call `find_connected_component(v, L)` returns exactly
the singleton `{v}`. -/
theorem unlink_nodes_isolates (L : EVIncidence) (v : Int) (_hL : L.WellFormed) :
    find_connected_component v (unlink_nodes [v] L) = .ok [v] := by
  obtain ⟨h1, h2, h3, _, h5⟩ := unlink_nodes_spec [v] L
  apply find_connected_component_isolated
  intro j hj k hk hkv
  rw [h3] at hj
  rw [row_slots_congr h2] at hk
  rw [index_at_congr h1] at hkv
  exact h5 j hj k hk (by simp [hkv])

/-- Witness of `unlink_nodes_isolates` on the linkage with the two live edges
`{5, 7}` and `{7, 3}`, for the vertex 7. -/
theorem unlink_nodes_isolates_witness :
    EVIncidence.WellFormed ⟨[true, true, true, true], [5, 7, 7, 3], [0, 2, 4], (2, 8)⟩ ∧
    find_connected_component 7
      (unlink_nodes [7] ⟨[true, true, true, true], [5, 7, 7, 3], [0, 2, 4], (2, 8)⟩) = .ok [7] :=
  ⟨by unfold EVIncidence.WellFormed; decide,
   unlink_nodes_isolates ⟨[true, true, true, true], [5, 7, 7, 3], [0, 2, 4], (2, 8)⟩ 7
    (by unfold EVIncidence.WellFormed; decide)⟩

/-! ## `link_labels` and `filter_by_cc` -/

/-- Labels of one component have the same relabelling. -/
theorem relabel_by_cc_reach {L : EVIncidence} {a b : Int} (h : Reach L a b) :
    relabel_by_cc a L = relabel_by_cc b L := by
  obtain ⟨m, hm, hreach, hmin⟩ := relabel_by_cc_total a L
  obtain ⟨m2, hm2, hreach2, hmin2⟩ := relabel_by_cc_total b L
  have h1 : m ≤ m2 := hmin m2 (h.trans hreach2)
  have h2 : m2 ≤ m := hmin2 m ((reach_symm h).trans hreach)
  rw [hm, hm2, le_antisymm h1 h2]

/-- A lookup in the memo after the members of `cc` were assigned `x`. -/
theorem lookup_foldl_assign (cc : List Int) (x : Int) :
    ∀ (m : LabelMap) (k y : Int),
      (cc.foldl (fun m v => (v, x) :: m) m).lookup k = some y →
      (k ∈ cc ∧ y = x) ∨ m.lookup k = some y := by
  induction cc with
  | nil => intro m k y h; exact Or.inr h
  | cons a cc ih =>
    intro m k y h
    rw [List.foldl_cons] at h
    rcases ih _ k y h with h1 | h1
    · exact Or.inl ⟨List.mem_cons_of_mem _ h1.1, h1.2⟩
    · rw [List.lookup_cons] at h1
      split at h1
      · rename_i heq
        have hka : k = a := by simpa using heq
        exact Or.inl ⟨by rw [hka]; exact List.mem_cons_self _ _, (Option.some.inj h1).symm⟩
      · exact Or.inr h1

/-- The state of the loop of `link_labels` after `n` iterations: the loop has not
failed, every entry of the memo is the relabelling of its key, and the first
`n` outputs are the relabellings of the first `n` inputs. -/
theorem link_fold_spec (unlinked linked : List Int) (L : EVIncidence) :
    ∀ n, n ≤ linked.length →
      ∃ (m : LabelMap) (out : List Int),
        (List.range n).foldl (link_step unlinked L) (.ok ([], linked)) = .ok (m, out) ∧
        (∀ k y, m.lookup k = some y → relabel_by_cc k L = .ok y) ∧
        out.length = linked.length ∧
        ∀ i, i < n → relabel_by_cc (unlinked.getD i 0) L = .ok (out.getD i 0) := by
  intro n
  induction n with
  | zero =>
    intro _
    exact ⟨[], linked, rfl, by simp, rfl, by simp⟩
  | succ n ih =>
    intro hn
    obtain ⟨m, out, hrun, hmemo, hlen, hout⟩ := ih (by omega)
    rw [List.range_succ, List.foldl_append, hrun]
    simp only [List.foldl_cons, List.foldl_nil, link_step]
    have hkeep : ∀ (x : Int) i, i < n → (out.set n x).getD i 0 = out.getD i 0 := by
      intro x i hi
      simp only [List.getD_eq_getElem?_getD]
      rw [List.getElem?_set_ne (by omega)]
    have hnew : ∀ x : Int, (out.set n x).getD n 0 = x := by
      intro x
      simp only [List.getD_eq_getElem?_getD]
      rw [List.getElem?_set_self (by omega)]
      rfl
    cases hlook : m.lookup (unlinked.getD n 0) with
    | none =>
      obtain ⟨cc, hcc, hmem⟩ := find_connected_component_total (unlinked.getD n 0) L
      have hrel : relabel_by_cc (unlinked.getD n 0) L = .ok (min_element cc) := by
        rw [relabel_by_cc, hcc]
      simp only [hcc]
      refine ⟨_, _, rfl, ?_, by simp [hlen], ?_⟩
      · intro k y hky
        rcases lookup_foldl_assign cc (min_element cc) m k y hky with h1 | h1
        · rw [h1.2, ← hrel]
          exact (relabel_by_cc_reach ((hmem k).1 h1.1)).symm
        · exact hmemo k y h1
      · intro i hi
        by_cases hin : i = n
        · subst hin
          rw [hnew]
          exact hrel
        · rw [hkeep _ i (by omega)]
          exact hout i (by omega)
    | some x =>
      simp only
      refine ⟨_, _, rfl, hmemo, by simp [hlen], ?_⟩
      intro i hi
      by_cases hin : i = n
      · subst hin
        rw [hnew]
        exact hmemo _ _ hlook
      · rw [hkeep _ i (by omega)]
        exact hout i (by omega)

/-- Claim C12: for every well-formed linkage `L` and every input array `unlinked` of
length `N` (with an output buffer of the same length), `link_labels` returns and
`linked[i] == relabel_by_cc(unlinked[i], L)` for every `i < N`: the
memoization never changes a result. -/
theorem link_labels_eq_relabel (unlinked linked : List Int) (L : EVIncidence)
    (hlen : unlinked.length = linked.length) (_hL : L.WellFormed) :
    ∃ out, link_labels unlinked linked L = .ok out ∧ out.length = unlinked.length ∧
      ∀ i, i < unlinked.length → relabel_by_cc (unlinked.getD i 0) L = .ok (out.getD i 0) := by
  obtain ⟨m, out, hrun, _, hl, hout⟩ :=
    link_fold_spec unlinked linked L unlinked.length (by omega)
  refine ⟨out, ?_, by omega, hout⟩
  unfold link_labels
  rw [if_pos hlen, hrun]

/-- Witness of `link_labels_eq_relabel` on the linkage with the live edge `{5, 7}`. -/
theorem link_labels_eq_relabel_witness :
    [(5 : Int), 9, 7, 5].length = [(0 : Int), 0, 0, 0].length ∧
    EVIncidence.WellFormed ⟨[true, true], [5, 7], [0, 2], (1, 8)⟩ ∧
    ∃ out, link_labels [5, 9, 7, 5] [0, 0, 0, 0] ⟨[true, true], [5, 7], [0, 2], (1, 8)⟩
        = .ok out ∧ out.length = [(5 : Int), 9, 7, 5].length ∧
      ∀ i, i < [(5 : Int), 9, 7, 5].length →
        relabel_by_cc ([(5 : Int), 9, 7, 5].getD i 0) ⟨[true, true], [5, 7], [0, 2], (1, 8)⟩
          = .ok (out.getD i 0) :=
  ⟨rfl, by unfold EVIncidence.WellFormed; decide,
   link_labels_eq_relabel [5, 9, 7, 5] [0, 0, 0, 0] ⟨[true, true], [5, 7], [0, 2], (1, 8)⟩
    rfl (by unfold EVIncidence.WellFormed; decide)⟩

/-- Claim C13: with a linkage of one row whose two incidences are the vertices 5
and 7, both live, shape `(1, 2)`, and `unlinked = [5, 9, 7, 5]`, the call writes
`linked = [5, 9, 5, 5]`, whatever the buffer held before. -/
theorem link_labels_scenario (a b c d : Int) :
    link_labels [5, 9, 7, 5] [a, b, c, d] ⟨[true, true], [5, 7], [0, 2], (1, 2)⟩
      = .ok [5, 9, 5, 5] := by
  rfl

/-- The filtering loop keeps, in order, the entries whose label is in `cc`. -/
theorem filter_fold_eq (cc labels array : List Int) (hlen : labels.length = array.length) :
    ∀ n, n ≤ labels.length →
      (List.range n).foldl
        (fun filtered i =>
          if labels.getD i 0 ∈ cc then filtered ++ [array.getD i 0] else filtered) []
        = (((labels.zip array).take n).filter (fun p => decide (p.1 ∈ cc))).map Prod.snd := by
  intro n
  induction n with
  | zero => intro _; simp
  | succ n ih =>
    intro hn
    have hn1 : n < labels.length := by omega
    have hn2 : n < array.length := by omega
    have hz : n < (labels.zip array).length := by
      rw [List.length_zip]
      omega
    rw [List.range_succ, List.foldl_append, ih (by omega), List.take_succ,
      List.getElem?_eq_getElem hz, List.getElem_zip]
    simp only [List.foldl_cons, List.foldl_nil, Option.toList, List.filter_append,
      List.map_append]
    rw [List.getD_eq_getElem _ _ hn1, List.getD_eq_getElem _ _ hn2]
    by_cases hc : labels[n] ∈ cc
    · simp [hc]
    · simp [hc]

/-- Claim C14: for every linkage `L`, node, and arrays `labels` and `data`: the
traversal returns a set `cc`, the component of `node`; when the arrays have
equal length the result is exactly the subsequence of `data`, in original
order, at the positions `i` with `labels[i]` in `cc`; when they differ in
length the call fails with an error. -/
theorem filter_by_cc_spec (node : Int) (L : EVIncidence) (labels array : List Int) :
    ∃ cc, find_connected_component node L = .ok cc ∧ (∀ x, x ∈ cc ↔ Reach L node x) ∧
      filter_by_cc node L labels array =
        if labels.length = array.length then
          .ok (((labels.zip array).filter (fun p => decide (p.1 ∈ cc))).map Prod.snd)
        else .error "Input arrays must have the same shape" := by
  obtain ⟨cc, hcc, hmem⟩ := find_connected_component_total node L
  refine ⟨cc, hcc, hmem, ?_⟩
  unfold filter_by_cc
  by_cases hlen : labels.length = array.length
  · rw [if_pos hlen, if_pos hlen, hcc]
    simp only
    rw [filter_fold_eq cc labels array hlen labels.length (Nat.le_refl _)]
    rw [List.take_of_length_le (by rw [List.length_zip]; omega)]
  · rw [if_neg hlen, if_neg hlen]

/-! ## `find_next_label` -/

/-- The counter of a counted loop takes exactly the values of `[lo, hi)`. -/
theorem mem_int_range (lo hi x : Int) : x ∈ int_range lo hi ↔ lo ≤ x ∧ x < hi := by
  unfold int_range
  rw [List.mem_map]
  constructor
  · rintro ⟨d, hd, rfl⟩
    rw [List.mem_range] at hd
    simp only [Int.ofNat_eq_coe]
    omega
  · rintro ⟨h1, h2⟩
    refine ⟨(x - lo).toNat, ?_, ?_⟩
    · rw [List.mem_range]
      omega
    · simp only [Int.ofNat_eq_coe]
      omega

/-- The counter of a counted loop takes its values in increasing order. -/
theorem int_range_pairwise (lo hi : Int) : (int_range lo hi).Pairwise (· < ·) := by
  unfold int_range
  refine List.Pairwise.map _ ?_ (List.pairwise_lt_range _)
  intro a b hab
  simp only [Int.ofNat_eq_coe]
  omega

/-- In an increasing list, `find?` returns the least element with the property. -/
theorem find?_pairwise_lt (p : Int → Bool) :
    ∀ (l : List Int), l.Pairwise (· < ·) → ∀ a,
      (l.find? p = some a ↔ a ∈ l ∧ p a = true ∧ ∀ x ∈ l, x < a → p x = false) := by
  intro l
  induction l with
  | nil => intro _ a; simp
  | cons b l ih =>
    intro hl a
    rw [List.pairwise_cons] at hl
    rw [List.find?_cons]
    cases hpb : p b with
    | true =>
      simp only [Option.some.injEq, List.mem_cons, forall_eq_or_imp]
      constructor
      · rintro rfl
        refine ⟨Or.inl rfl, hpb, fun h => absurd h (lt_irrefl _), ?_⟩
        intro x hx hxb
        exact absurd (hl.1 x hx) (not_lt.2 (le_of_lt hxb))
      · rintro ⟨hmem, hpa, hb, _⟩
        rcases hmem with rfl | hmem
        · rfl
        · have := hb (hl.1 a hmem)
          rw [hpb] at this
          exact absurd this (by simp)
    | false =>
      simp only [List.mem_cons, forall_eq_or_imp]
      rw [ih hl.2 a]
      constructor
      · rintro ⟨hmem, hpa, hlt⟩
        exact ⟨Or.inr hmem, hpa, fun _ => hpb, hlt⟩
      · rintro ⟨hmem, hpa, _, hlt⟩
        rcases hmem with rfl | hmem
        · rw [hpb] at hpa
          exact absurd hpa (by simp)
        · exact ⟨hmem, hpa, hlt⟩

/-- The result of `find_next_label`: the least free label of the block range when
it is present, and absent exactly when no label of the block range is free. -/
theorem find_next_label_iff (labels : List Int) (i_s i_e block_s block_e : Int) :
    (∀ lb, find_next_label labels i_s i_e block_s block_e = some lb ↔
      (block_s ≤ lb ∧ lb < block_e ∧
        (∀ k, i_s ≤ k → k < i_e → read_at labels k ≠ lb) ∧
        ∀ lb2, block_s ≤ lb2 → lb2 < lb → ∃ k, i_s ≤ k ∧ k < i_e ∧ read_at labels k = lb2)) ∧
    (find_next_label labels i_s i_e block_s block_e = none ↔
      ∀ lb, block_s ≤ lb → lb < block_e → ∃ k, i_s ≤ k ∧ k < i_e ∧ read_at labels k = lb) := by
  have hused : ∀ lb, lb ∈ (int_range i_s i_e).map (read_at labels) ↔
      ∃ k, i_s ≤ k ∧ k < i_e ∧ read_at labels k = lb := by
    intro lb
    rw [List.mem_map]
    constructor
    · rintro ⟨k, hk, rfl⟩
      rw [mem_int_range] at hk
      exact ⟨k, hk.1, hk.2, rfl⟩
    · rintro ⟨k, h1, h2, rfl⟩
      exact ⟨k, (mem_int_range _ _ _).2 ⟨h1, h2⟩, rfl⟩
  constructor
  · intro lb
    unfold find_next_label
    rw [find?_pairwise_lt _ _ (int_range_pairwise _ _), mem_int_range]
    simp only [decide_eq_true_eq, decide_eq_false_iff_not, not_not, hused]
    constructor
    · rintro ⟨⟨h1, h2⟩, h3, h4⟩
      refine ⟨h1, h2, ?_, ?_⟩
      · intro k hk1 hk2 hk3
        exact h3 ⟨k, hk1, hk2, hk3⟩
      · intro lb2 hb1 hb2
        exact h4 lb2 ((mem_int_range _ _ _).2 ⟨hb1, by omega⟩) hb2
    · rintro ⟨h1, h2, h3, h4⟩
      refine ⟨⟨h1, h2⟩, ?_, ?_⟩
      · rintro ⟨k, hk1, hk2, hk3⟩
        exact h3 k hk1 hk2 hk3
      · intro x hx hxlb
        rw [mem_int_range] at hx
        exact h4 x hx.1 hxlb
  · unfold find_next_label
    rw [List.find?_eq_none]
    simp only [decide_eq_true_eq, not_not, hused]
    constructor
    · intro h lb h1 h2
      exact h lb ((mem_int_range _ _ _).2 ⟨h1, h2⟩)
    · intro h lb hlb
      rw [mem_int_range] at hlb
      exact h lb hlb.1 hlb.2

/-- Claim C15: for every labels array, index range `[i_s, i_e)` and block range
`[block_s, block_e)`, the result of `find_next_label` is the smallest integer of
`[block_s, block_e)` that differs from every `labels[k]` with `k` in
`[i_s, i_e)`, and the result is absent (nullopt) if and only if every integer of
`[block_s, block_e)` occurs among those labels. -/
theorem find_next_label_smallest (labels : List Int) (i_s i_e block_s block_e : Int) :
    (∀ lb, find_next_label labels i_s i_e block_s block_e = some lb ↔
      (block_s ≤ lb ∧ lb < block_e ∧
        (∀ k, i_s ≤ k → k < i_e → read_at labels k ≠ lb) ∧
        ∀ lb2, block_s ≤ lb2 → lb2 < lb → ∃ k, i_s ≤ k ∧ k < i_e ∧ read_at labels k = lb2)) ∧
    (find_next_label labels i_s i_e block_s block_e = none ↔
      ∀ lb, block_s ≤ lb → lb < block_e → ∃ k, i_s ≤ k ∧ k < i_e ∧ read_at labels k = lb) :=
  find_next_label_iff labels i_s i_e block_s block_e

/-! ## Reads and writes at `int` indices -/

/-- A write keeps the length of the buffer. -/
theorem length_write_at {α : Type} (xs : List α) (k : Int) (x : α) :
    (write_at xs k x).length = xs.length := by
  unfold write_at
  split <;> simp

/-- A read after an in-bounds write. -/
theorem read_at_write_at (xs : List Int) (k k2 x : Int) (h0 : 0 ≤ k)
    (h1 : k < (xs.length : Int)) :
    read_at (write_at xs k x) k2 = if k2 = k then x else read_at xs k2 := by
  have hk : ¬ k < 0 := by omega
  unfold read_at write_at
  rw [if_neg hk]
  by_cases hk2 : k2 < 0
  · have hne : ¬ k2 = k := by omega
    rw [if_pos hk2, if_pos hk2, if_neg hne]
  · rw [if_neg hk2, if_neg hk2]
    simp only [List.getD_eq_getElem?_getD]
    by_cases hkk : k2 = k
    · subst hkk
      rw [if_pos rfl, List.getElem?_set_self (by omega)]
      rfl
    · rw [if_neg hkk, List.getElem?_set_ne (by omega)]

/-! ## `split_block_1d` -/

/-- A counted loop over an empty range does nothing. -/
theorem int_range_self (lo : Int) : int_range lo lo = [] := by
  simp [int_range]

/-- The last value of the counter of a counted loop. -/
theorem int_range_succ (lo hi : Int) (h : lo ≤ hi) :
    int_range lo (hi + 1) = int_range lo hi ++ [hi] := by
  unfold int_range
  rw [show (hi + 1 - lo).toNat = (hi - lo).toNat + 1 by omega, List.range_succ, List.map_append]
  simp only [List.map_cons, List.map_nil, Int.ofNat_eq_coe]
  rw [show lo + ((hi - lo).toNat : Int) = hi by omega]

/-- One iteration of the relabelling loop of `split_block_1d`, at position `hi`
after the positions `lo .. hi - 1`. -/
theorem split1d_visit_spec (cc preserved bl : List Int) (bs nlb lo hi : Int)
    (st : LabelMap × List Int) (h0 : 0 ≤ lo) (hle : lo ≤ hi) (hhi : hi < (bl.length : Int))
    (hlen : st.2.length = bl.length)
    (hread : ∀ k, read_at st.2 k
      = if lo ≤ k ∧ k < hi ∧ read_at bl k ∈ cc ∧ k + bs ∉ preserved then nlb
        else read_at bl k)
    (hmap : ∀ key v, st.1.lookup key = some v ↔
      (v = nlb ∧ ∃ k, lo ≤ k ∧ k < hi ∧ read_at bl k ∈ cc ∧ k + bs ∉ preserved ∧
        read_at bl k = key)) :
    (split1d_visit cc preserved bs nlb st hi).2.length = bl.length ∧
    (∀ k, read_at (split1d_visit cc preserved bs nlb st hi).2 k
      = if lo ≤ k ∧ k < hi + 1 ∧ read_at bl k ∈ cc ∧ k + bs ∉ preserved then nlb
        else read_at bl k) ∧
    (∀ key v, (split1d_visit cc preserved bs nlb st hi).1.lookup key = some v ↔
      (v = nlb ∧ ∃ k, lo ≤ k ∧ k < hi + 1 ∧ read_at bl k ∈ cc ∧ k + bs ∉ preserved ∧
        read_at bl k = key)) := by
  have hp : read_at st.2 hi = read_at bl hi := by
    rw [hread]
    have : ¬ (lo ≤ hi ∧ hi < hi ∧ read_at bl hi ∈ cc ∧ hi + bs ∉ preserved) := by
      intro h
      omega
    rw [if_neg this]
  unfold split1d_visit
  rw [hp]
  by_cases hq : read_at bl hi ∈ cc ∧ hi + bs ∉ preserved
  · rw [if_pos hq]
    refine ⟨?_, ?_, ?_⟩
    · simp only
      rw [length_write_at, hlen]
    · intro k
      simp only
      rw [read_at_write_at _ _ _ _ (by omega) (by omega), hread]
      by_cases hk : k = hi
      · subst hk
        rw [if_pos rfl, if_pos ⟨by omega, by omega, hq.1, hq.2⟩]
      · rw [if_neg hk]
        by_cases hc : lo ≤ k ∧ k < hi ∧ read_at bl k ∈ cc ∧ k + bs ∉ preserved
        · rw [if_pos hc, if_pos ⟨hc.1, by omega, hc.2.2⟩]
        · rw [if_neg hc, if_neg]
          rintro ⟨h1, h2, h3⟩
          exact hc ⟨h1, by omega, h3⟩
    · intro key v
      simp only [List.lookup_cons]
      by_cases hkey : key = read_at bl hi
      · subst hkey
        simp only [beq_self_eq_true, Option.some.injEq]
        constructor
        · intro h
          exact ⟨h.symm, hi, by omega, by omega, hq.1, hq.2, rfl⟩
        · rintro ⟨h, _⟩
          exact h.symm
      · have hb : (key == read_at bl hi) = false := by simpa using hkey
        rw [hb]
        simp only
        rw [hmap]
        constructor
        · rintro ⟨hv, k, h1, h2, h3⟩
          exact ⟨hv, k, h1, by omega, h3⟩
        · rintro ⟨hv, k, h1, h2, h3, h4, h5⟩
          refine ⟨hv, k, h1, ?_, h3, h4, h5⟩
          by_contra hge
          have : k = hi := by omega
          subst this
          exact hkey h5.symm
  · rw [if_neg hq]
    refine ⟨hlen, ?_, ?_⟩
    · intro k
      rw [hread]
      by_cases hc : lo ≤ k ∧ k < hi ∧ read_at bl k ∈ cc ∧ k + bs ∉ preserved
      · rw [if_pos hc, if_pos ⟨hc.1, by omega, hc.2.2⟩]
      · rw [if_neg hc, if_neg]
        rintro ⟨h1, h2, h3⟩
        by_cases hk : k = hi
        · subst hk
          exact hq h3
        · exact hc ⟨h1, by omega, h3⟩
    · intro key v
      rw [hmap]
      constructor
      · rintro ⟨hv, k, h1, h2, h3⟩
        exact ⟨hv, k, h1, by omega, h3⟩
      · rintro ⟨hv, k, h1, h2, h3, h4, h5⟩
        refine ⟨hv, k, h1, ?_, h3, h4, h5⟩
        by_contra hge
        have : k = hi := by omega
        subst this
        exact hq ⟨h3, h4⟩

/-- The state of the relabelling loop of `split_block_1d` after the positions
`lo .. hi - 1`: the positions of that range whose old label is in `cc` and
that are not preserved hold `nlb`, every other read is as before, and the map
holds exactly the old labels of the rewritten positions, each mapped to `nlb`. -/
theorem split1d_fold_spec (cc preserved bl : List Int) (bs nlb lo : Int) (h0 : 0 ≤ lo) :
    ∀ hi : Int, lo ≤ hi → hi ≤ (bl.length : Int) →
      ((int_range lo hi).foldl (split1d_visit cc preserved bs nlb) ([], bl)).2.length
        = bl.length ∧
      (∀ k, read_at ((int_range lo hi).foldl (split1d_visit cc preserved bs nlb) ([], bl)).2 k
        = if lo ≤ k ∧ k < hi ∧ read_at bl k ∈ cc ∧ k + bs ∉ preserved then nlb
          else read_at bl k) ∧
      (∀ key v, ((int_range lo hi).foldl (split1d_visit cc preserved bs nlb)
          ([], bl)).1.lookup key = some v ↔
        (v = nlb ∧ ∃ k, lo ≤ k ∧ k < hi ∧ read_at bl k ∈ cc ∧ k + bs ∉ preserved ∧
          read_at bl k = key)) := by
  intro hi hle
  obtain ⟨n, rfl⟩ := Int.le.dest hle
  clear hle
  induction n with
  | zero =>
    intro _
    rw [show lo + ((0 : Nat) : Int) = lo by simp, int_range_self]
    refine ⟨rfl, ?_, ?_⟩
    · intro k
      have : ¬ (lo ≤ k ∧ k < lo ∧ read_at bl k ∈ cc ∧ k + bs ∉ preserved) := by
        intro h
        omega
      rw [if_neg this]
      rfl
    · intro key v
      simp only [List.foldl_nil, List.lookup_nil]
      constructor
      · intro h
        exact absurd h (by simp)
      · rintro ⟨_, k, h1, h2, _⟩
        omega
  | succ n ih =>
    intro hhi
    obtain ⟨hlen, hread, hmap⟩ := ih (by omega)
    rw [show lo + ((n + 1 : Nat) : Int) = lo + n + 1 by push_cast; ring,
      int_range_succ lo (lo + n) (by omega), List.foldl_append]
    simp only [List.foldl_cons, List.foldl_nil]
    exact split1d_visit_spec cc preserved bl bs nlb lo (lo + n) _ h0 (by omega) (by omega)
      hlen hread hmap

/-- What `split_block_1d` returns and leaves behind when its assertions hold and
a next label `nlb` is found. -/
theorem split_block_1d_relabel (bl : List Int) (bs be index label : Int) (L : EVIncidence)
    (preserved cc : List Int) (nlb : Int) (hsize : be - bs > 0)
    (hidx : 0 ≤ index - bs ∧ index - bs < (bl.length : Int))
    (hcc : find_connected_component label L = .ok cc)
    (hnl : find_next_label bl 0 (be - bs) bs be = some nlb) :
    (split_block_1d bl bs be index label L preserved).linkage
      = split1d_edges cc index (some nlb) (unlink_nodes [nlb] L) ∧
    (split_block_1d bl bs be index label L preserved).labels.length = bl.length ∧
    (∀ k, read_at (split_block_1d bl bs be index label L preserved).labels k
      = if index - bs ≤ k ∧ k < (bl.length : Int) ∧ read_at bl k ∈ cc ∧ k + bs ∉ preserved
        then nlb else read_at bl k) ∧
    ∃ m, (split_block_1d bl bs be index label L preserved).outcome = .ok m ∧
      ∀ key v, m.lookup key = some v ↔
        (v = nlb ∧ ∃ k, index - bs ≤ k ∧ k < (bl.length : Int) ∧ read_at bl k ∈ cc ∧
          k + bs ∉ preserved ∧ read_at bl k = key) := by
  obtain ⟨h1, h2, h3⟩ := split1d_fold_spec cc preserved bl bs nlb (index - bs) hidx.1
    (bl.length : Int) (by omega) (le_refl _)
  have hr : split_block_1d bl bs be index label L preserved
      = ⟨((int_range (index - bs) (bl.length : Int)).foldl
            (split1d_visit cc preserved bs nlb) ([], bl)).2,
          split1d_edges cc index (some nlb) (unlink_nodes [nlb] L),
          .ok ((int_range (index - bs) (bl.length : Int)).foldl
            (split1d_visit cc preserved bs nlb) ([], bl)).1⟩ := by
    unfold split_block_1d
    rw [if_pos hsize, if_pos hidx, hcc]
    simp only [hnl]
  rw [hr]
  exact ⟨rfl, h1, h2, _, rfl, h3⟩

/-- What `split_block_1d` returns and leaves behind when its assertions hold and
no next label is found. -/
theorem split_block_1d_no_label (bl : List Int) (bs be index label : Int) (L : EVIncidence)
    (preserved cc : List Int) (hsize : be - bs > 0)
    (hidx : 0 ≤ index - bs ∧ index - bs < (bl.length : Int))
    (hcc : find_connected_component label L = .ok cc)
    (hnl : find_next_label bl 0 (be - bs) bs be = none) :
    split_block_1d bl bs be index label L preserved
      = ⟨bl, split1d_edges cc index none L, .ok []⟩ := by
  unfold split_block_1d
  rw [if_pos hsize, if_pos hidx, hcc]
  simp only [hnl]

/-- The edge loop of `split_block_1d` leaves a row alone unless it is a live
two-incidence edge of `cc` that straddles the index. -/
theorem split1d_edge_eq_self (cc : List Int) (index : Int) (nl : Option Int)
    (M : EVIncidence) (i : Nat) (h : ¬ Straddles M cc index i) :
    split1d_edge cc index nl M i = M := by
  unfold split1d_edge
  split
  · rename_i h1
    split
    · rename_i h2
      rw [Bool.and_eq_true] at h2
      split
      · rename_i h3
        split
        · rename_i h4
          split
          · rename_i h5
            exact absurd ⟨h1, h2.1, h2.2, h3.1, h3.2, by omega, by omega⟩ h
          · rfl
        · rename_i h4
          split
          · rename_i h5
            exact absurd ⟨h1, h2.1, h2.2, h3.1, h3.2, by omega, by omega⟩ h
          · rfl
      · rfl
    · rfl
  · rfl

/-- Without a straddling edge the edge loop of `split_block_1d` changes nothing. -/
theorem split1d_edges_eq_self (cc : List Int) (index : Int) (nl : Option Int)
    (M : EVIncidence) (h : ∀ i, i < M.shape.1.toNat → ¬ Straddles M cc index i) :
    split1d_edges cc index nl M = M := by
  unfold split1d_edges
  generalize M.shape.1.toNat = n at h
  induction n with
  | zero => rfl
  | succ n ih =>
    rw [List.range_succ, List.foldl_append, ih (fun i hi => h i (by omega))]
    exact split1d_edge_eq_self cc index nl M n (h n (by omega))

/-- A row that straddles the index after an unlinking did so before. -/
theorem straddles_of_unlink (nodes cc : List Int) (index : Int) (L : EVIncidence) (i : Nat)
    (h : Straddles (unlink_nodes nodes L) cc index i) : Straddles L cc index i := by
  obtain ⟨h1, h2, _, h4, _⟩ := unlink_nodes_spec nodes L
  unfold Straddles at h ⊢
  rw [h2] at h
  simp only [index_at_congr h1] at h
  exact ⟨h.1, h4 _ h.2.1, h4 _ h.2.2.1, h.2.2.2⟩

/-- Claim C16 fails as stated: on the block `[1, 2, 2]` with range `[0, 3)`, split at
index 2 for the label 1, with the live edge `{1, 2}`, the new label is 0 and after
the call the edge is `{0, 2}`, both incidences live. -/
theorem split_block_1d_unlinks_counterexample :
    find_next_label [1, 2, 2] 0 (3 - 0) 0 3 = some 0 ∧
    (split_block_1d [1, 2, 2] 0 3 2 1 ⟨[true, true], [1, 2], [0, 2], (1, 3)⟩ []).linkage.indices
      = [0, 2] ∧
    (split_block_1d [1, 2, 2] 0 3 2 1 ⟨[true, true], [1, 2], [0, 2], (1, 3)⟩ []).linkage.data
      = [true, true] ∧
    (split_block_1d [1, 2, 2] 0 3 2 1 ⟨[true, true], [1, 2], [0, 2], (1, 3)⟩ []).linkage.indptr
      = [0, 2] :=
  ⟨rfl, rfl, rfl, rfl⟩

/-- Claim C17: for every call of `split_block_1d` on a `block_labels` array of
length `block_end − block_start` with a valid split index, the call returns, no
position left of the split is rewritten, and no position left of the split
holds a label equal to the label of a position right of the split that was
rewritten. -/
theorem split_block_1d_no_merge (bl : List Int) (bs be index label : Int) (L : EVIncidence)
    (preserved : List Int) (hlen : (bl.length : Int) = be - bs)
    (hidx : 0 ≤ index - bs ∧ index - bs < (bl.length : Int)) :
    (∃ m, (split_block_1d bl bs be index label L preserved).outcome = .ok m) ∧
    ∀ i j, 0 ≤ i → i < index - bs → index - bs ≤ j → j < (bl.length : Int) →
      read_at (split_block_1d bl bs be index label L preserved).labels j ≠ read_at bl j →
      read_at (split_block_1d bl bs be index label L preserved).labels i = read_at bl i ∧
      read_at (split_block_1d bl bs be index label L preserved).labels i
        ≠ read_at (split_block_1d bl bs be index label L preserved).labels j := by
  have hsize : be - bs > 0 := by omega
  obtain ⟨cc, hcc, _⟩ := find_connected_component_total label L
  cases hnl : find_next_label bl 0 (be - bs) bs be with
  | none =>
    rw [split_block_1d_no_label bl bs be index label L preserved cc hsize hidx hcc hnl]
    refine ⟨⟨[], rfl⟩, ?_⟩
    intro i j _ _ _ _ hne
    exact absurd rfl hne
  | some nlb =>
    obtain ⟨_, _, hread, m, hm, _⟩ :=
      split_block_1d_relabel bl bs be index label L preserved cc nlb hsize hidx hcc hnl
    refine ⟨⟨m, hm⟩, ?_⟩
    intro i j hi0 hi hj hjl hne
    have hfree := ((find_next_label_iff bl 0 (be - bs) bs be).1 nlb).1 hnl
    have hleft : read_at (split_block_1d bl bs be index label L preserved).labels i
        = read_at bl i := by
      rw [hread, if_neg]
      intro h
      omega
    have hright : read_at (split_block_1d bl bs be index label L preserved).labels j = nlb := by
      rw [hread] at hne ⊢
      by_cases hc : index - bs ≤ j ∧ j < (bl.length : Int) ∧ read_at bl j ∈ cc ∧
          j + bs ∉ preserved
      · rw [if_pos hc]
      · rw [if_neg hc] at hne
        exact absurd rfl hne
    rw [hleft, hright]
    exact ⟨rfl, hfree.2.2.1 i hi0 (by omega)⟩

/-- Witness of `split_block_1d_no_merge`: the block `[1, 2, 2]` with range `[0, 3)`,
split at index 1 for the label 2. -/
theorem split_block_1d_no_merge_witness :
    (([1, 2, 2] : List Int).length : Int) = 3 - 0 ∧
    ((0 : Int) ≤ 1 - 0 ∧ (1 : Int) - 0 < (([1, 2, 2] : List Int).length : Int)) ∧
    (∃ m, (split_block_1d [1, 2, 2] 0 3 1 2 ⟨[true, true], [1, 2], [0, 2], (1, 3)⟩ []).outcome
      = .ok m) ∧
    ∀ i j, 0 ≤ i → i < 1 - 0 → 1 - 0 ≤ j → j < (([1, 2, 2] : List Int).length : Int) →
      read_at (split_block_1d [1, 2, 2] 0 3 1 2
        ⟨[true, true], [1, 2], [0, 2], (1, 3)⟩ []).labels j ≠ read_at [1, 2, 2] j →
      read_at (split_block_1d [1, 2, 2] 0 3 1 2
        ⟨[true, true], [1, 2], [0, 2], (1, 3)⟩ []).labels i = read_at [1, 2, 2] i ∧
      read_at (split_block_1d [1, 2, 2] 0 3 1 2
        ⟨[true, true], [1, 2], [0, 2], (1, 3)⟩ []).labels i
        ≠ read_at (split_block_1d [1, 2, 2] 0 3 1 2
          ⟨[true, true], [1, 2], [0, 2], (1, 3)⟩ []).labels j :=
  ⟨by decide, by decide,
   split_block_1d_no_merge [1, 2, 2] 0 3 1 2 ⟨[true, true], [1, 2], [0, 2], (1, 3)⟩ []
    (by decide) (by decide)⟩

/-- Claim C18, as the code has it: when the assertions of `split_block_1d` hold, the
component `cc` of `label` is computed, and
* when a next label `nlb` exists, after the call every position
  `i ≥ index − block_start` whose old value lies in `cc` and whose absolute
  position is not preserved holds `nlb`, every other position is unchanged, and
  the returned map has as keys exactly the old values of the rewritten
  positions, each mapped to `nlb`; among the positions below
  `block_end − block_start` the rewritten ones are exactly those that hold `nlb`;
* when no next label exists, the labels are unchanged and the map is empty. -/
theorem split_block_1d_frame (bl : List Int) (bs be index label : Int) (L : EVIncidence)
    (preserved : List Int) (hsize : be - bs > 0)
    (hidx : 0 ≤ index - bs ∧ index - bs < (bl.length : Int)) :
    ∃ cc, find_connected_component label L = .ok cc ∧ (∀ x, x ∈ cc ↔ Reach L label x) ∧
      (∀ nlb, find_next_label bl 0 (be - bs) bs be = some nlb →
        (split_block_1d bl bs be index label L preserved).labels.length = bl.length ∧
        (∀ k, 0 ≤ k → k < (bl.length : Int) →
          read_at (split_block_1d bl bs be index label L preserved).labels k
            = if index - bs ≤ k ∧ read_at bl k ∈ cc ∧ k + bs ∉ preserved then nlb
              else read_at bl k) ∧
        (∀ k, 0 ≤ k → k < (bl.length : Int) → k < be - bs →
          (read_at (split_block_1d bl bs be index label L preserved).labels k = nlb ↔
            (index - bs ≤ k ∧ read_at bl k ∈ cc ∧ k + bs ∉ preserved))) ∧
        ∃ m, (split_block_1d bl bs be index label L preserved).outcome = .ok m ∧
          ∀ key v, m.lookup key = some v ↔
            (v = nlb ∧ ∃ k, index - bs ≤ k ∧ k < (bl.length : Int) ∧ read_at bl k ∈ cc ∧
              k + bs ∉ preserved ∧ read_at bl k = key)) ∧
      (find_next_label bl 0 (be - bs) bs be = none →
        (split_block_1d bl bs be index label L preserved).labels = bl ∧
        (split_block_1d bl bs be index label L preserved).outcome = .ok []) := by
  obtain ⟨cc, hcc, hmem⟩ := find_connected_component_total label L
  refine ⟨cc, hcc, hmem, ?_, ?_⟩
  · intro nlb hnl
    obtain ⟨_, hl, hread, m, hm, hmap⟩ :=
      split_block_1d_relabel bl bs be index label L preserved cc nlb hsize hidx hcc hnl
    have hfree := ((find_next_label_iff bl 0 (be - bs) bs be).1 nlb).1 hnl
    have hread2 : ∀ k, 0 ≤ k → k < (bl.length : Int) →
        read_at (split_block_1d bl bs be index label L preserved).labels k
          = if index - bs ≤ k ∧ read_at bl k ∈ cc ∧ k + bs ∉ preserved then nlb
            else read_at bl k := by
      intro k _ hk
      rw [hread]
      by_cases hc : index - bs ≤ k ∧ read_at bl k ∈ cc ∧ k + bs ∉ preserved
      · rw [if_pos hc, if_pos ⟨hc.1, hk, hc.2⟩]
      · rw [if_neg hc, if_neg]
        rintro ⟨h1, _, h3⟩
        exact hc ⟨h1, h3⟩
    refine ⟨hl, hread2, ?_, m, hm, hmap⟩
    intro k hk0 hk hkb
    rw [hread2 k hk0 hk]
    by_cases hc : index - bs ≤ k ∧ read_at bl k ∈ cc ∧ k + bs ∉ preserved
    · rw [if_pos hc]
      exact ⟨fun _ => hc, fun _ => rfl⟩
    · rw [if_neg hc]
      exact ⟨fun h => absurd h (hfree.2.2.1 k hk0 hkb), fun h => absurd h hc⟩
  · intro hnl
    rw [split_block_1d_no_label bl bs be index label L preserved cc hsize hidx hcc hnl]
    exact ⟨rfl, rfl⟩

/-- Witness of `split_block_1d_frame`: the block `[1, 2, 2]` with range `[0, 3)`,
split at index 1 for the label 2. -/
theorem split_block_1d_frame_witness :
    (3 : Int) - 0 > 0 ∧
    ((0 : Int) ≤ 1 - 0 ∧ (1 : Int) - 0 < (([1, 2, 2] : List Int).length : Int)) ∧
    ∃ cc, find_connected_component 2 ⟨[true, true], [1, 2], [0, 2], (1, 3)⟩ = .ok cc ∧
      (∀ x, x ∈ cc ↔ Reach ⟨[true, true], [1, 2], [0, 2], (1, 3)⟩ 2 x) ∧
      (∀ nlb, find_next_label [1, 2, 2] 0 (3 - 0) 0 3 = some nlb →
        (split_block_1d [1, 2, 2] 0 3 1 2
          ⟨[true, true], [1, 2], [0, 2], (1, 3)⟩ []).labels.length
            = ([1, 2, 2] : List Int).length ∧
        (∀ k, 0 ≤ k → k < (([1, 2, 2] : List Int).length : Int) →
          read_at (split_block_1d [1, 2, 2] 0 3 1 2
            ⟨[true, true], [1, 2], [0, 2], (1, 3)⟩ []).labels k
            = if 1 - 0 ≤ k ∧ read_at [1, 2, 2] k ∈ cc ∧ k + 0 ∉ ([] : List Int) then nlb
              else read_at [1, 2, 2] k) ∧
        (∀ k, 0 ≤ k → k < (([1, 2, 2] : List Int).length : Int) → k < 3 - 0 →
          (read_at (split_block_1d [1, 2, 2] 0 3 1 2
            ⟨[true, true], [1, 2], [0, 2], (1, 3)⟩ []).labels k = nlb ↔
            (1 - 0 ≤ k ∧ read_at [1, 2, 2] k ∈ cc ∧ k + 0 ∉ ([] : List Int)))) ∧
        ∃ m, (split_block_1d [1, 2, 2] 0 3 1 2
            ⟨[true, true], [1, 2], [0, 2], (1, 3)⟩ []).outcome = .ok m ∧
          ∀ key v, m.lookup key = some v ↔
            (v = nlb ∧ ∃ k, 1 - 0 ≤ k ∧ k < (([1, 2, 2] : List Int).length : Int) ∧
              read_at [1, 2, 2] k ∈ cc ∧ k + 0 ∉ ([] : List Int) ∧
              read_at [1, 2, 2] k = key)) ∧
      (find_next_label [1, 2, 2] 0 (3 - 0) 0 3 = none →
        (split_block_1d [1, 2, 2] 0 3 1 2
          ⟨[true, true], [1, 2], [0, 2], (1, 3)⟩ []).labels = [1, 2, 2] ∧
        (split_block_1d [1, 2, 2] 0 3 1 2
          ⟨[true, true], [1, 2], [0, 2], (1, 3)⟩ []).outcome = .ok []) :=
  ⟨by decide, by decide,
   split_block_1d_frame [1, 2, 2] 0 3 1 2 ⟨[true, true], [1, 2], [0, 2], (1, 3)⟩ []
    (by decide) (by decide)⟩

/-- Claim C18 fails as stated: on the two-entry buffer `[5, 0]` with the block range
`[0, 1)`, split at index 0 for the label 5 (alone in its component), the next
label is 0; after the call position 1, whose old value 0 is not in the
component and which was not rewritten, holds the new label too. -/
theorem split_block_1d_frame_counterexample :
    find_connected_component 5 ⟨[], [], [0], (0, 1)⟩ = .ok [5] ∧
    find_next_label [5, 0] 0 (1 - 0) 0 1 = some 0 ∧
    (split_block_1d [5, 0] 0 1 0 5 ⟨[], [], [0], (0, 1)⟩ []).labels = [0, 0] ∧
    read_at [5, 0] 1 ∉ ([5] : List Int) :=
  ⟨rfl, rfl, rfl, by decide⟩

/-- Claim C20: `split_block_1d` fails with an error and leaves `block_labels` and
the linkage unchanged when `block_end − block_start ≤ 0` or when
`index − block_start` is not in `[0, len(block_labels))`; `split_blocks_2d` fails
with an error and leaves `labels` and the linkage unchanged when
`(blocks_end − blocks_start) / block_size ≤ 0` (the quotient being defined, that
is `block_size ≠ 0`). -/
theorem splitter_precondition_errors (labels : List Int) (bs be index label bsize : Int)
    (L : EVIncidence) (preserved indices : List Int) :
    ((be - bs ≤ 0 ∨ ¬ (0 ≤ index - bs ∧ index - bs < (labels.length : Int))) →
      (split_block_1d labels bs be index label L preserved).labels = labels ∧
      (split_block_1d labels bs be index label L preserved).linkage = L ∧
      ∃ e, (split_block_1d labels bs be index label L preserved).outcome = .error e) ∧
    (bsize ≠ 0 → Int.tdiv (be - bs) bsize ≤ 0 →
      (split_blocks_2d labels bs be bsize indices label L).labels = labels ∧
      (split_blocks_2d labels bs be bsize indices label L).linkage = L ∧
      (split_blocks_2d labels bs be bsize indices label L).outcome
        = .error "No blocks to split") := by
  constructor
  · intro h
    unfold split_block_1d
    by_cases hsize : be - bs > 0
    · rcases h with h | h
      · omega
      · rw [if_pos hsize, if_neg h]
        exact ⟨rfl, rfl, _, rfl⟩
    · rw [if_neg hsize]
      exact ⟨rfl, rfl, _, rfl⟩
  · intro _ h
    unfold split_blocks_2d
    rw [if_neg (by omega)]
    exact ⟨rfl, rfl, rfl⟩

/-- Witness of `splitter_precondition_errors`: an empty block range for
`split_block_1d`, and a block range shorter than one block for `split_blocks_2d`. -/
theorem splitter_precondition_errors_witness :
    ((split_block_1d [1, 2] 3 3 3 1 ⟨[true, true], [1, 2], [0, 2], (1, 3)⟩ []).labels = [1, 2] ∧
      (split_block_1d [1, 2] 3 3 3 1 ⟨[true, true], [1, 2], [0, 2], (1, 3)⟩ []).linkage
        = ⟨[true, true], [1, 2], [0, 2], (1, 3)⟩ ∧
      ∃ e, (split_block_1d [1, 2] 3 3 3 1
        ⟨[true, true], [1, 2], [0, 2], (1, 3)⟩ []).outcome = .error e) ∧
    ((split_blocks_2d [1, 2] 3 3 2 [0] 1 ⟨[true, true], [1, 2], [0, 2], (1, 3)⟩).labels = [1, 2] ∧
      (split_blocks_2d [1, 2] 3 3 2 [0] 1 ⟨[true, true], [1, 2], [0, 2], (1, 3)⟩).linkage
        = ⟨[true, true], [1, 2], [0, 2], (1, 3)⟩ ∧
      (split_blocks_2d [1, 2] 3 3 2 [0] 1 ⟨[true, true], [1, 2], [0, 2], (1, 3)⟩).outcome
        = .error "No blocks to split") :=
  ⟨(splitter_precondition_errors [1, 2] 3 3 3 1 2 ⟨[true, true], [1, 2], [0, 2], (1, 3)⟩
      [] [0]).1 (Or.inl (by decide)),
   (splitter_precondition_errors [1, 2] 3 3 3 1 2 ⟨[true, true], [1, 2], [0, 2], (1, 3)⟩
      [] [0]).2 (by decide) (by decide)⟩

/-! ## `split_blocks_2d` -/

/-- A visit of `split_blocks_2d` keeps the entries of the memo. -/
theorem split2d_visit_keep (cc indices : List Int) (blocks_start j1 j2 bs be : Int)
    (st : Split2dState) (j lb : Int) (x : Option Int)
    (h : st.cache_label_map.lookup lb = some x) :
    (split2d_visit cc indices blocks_start j1 j2 bs be st j).cache_label_map.lookup lb
      = some x := by
  unfold split2d_visit
  split
  · split
    · rename_i hmiss
      have hne : (lb == read_at st.labels j) = false := by
        rw [beq_eq_false_iff_ne]
        intro heq
        rw [heq, hmiss] at h
        exact absurd h (by simp)
      split
      · simp only [List.lookup_cons, hne]
        exact h
      · simp only [List.lookup_cons, hne]
        exact h
    · exact h
    · exact h
  · exact h

/-- An entry of the memo after a visit of `split_blocks_2d` was there before, or
is a label of the block range allocated by this visit. -/
theorem split2d_visit_new (cc indices : List Int) (blocks_start j1 j2 bs be : Int)
    (st : Split2dState) (j lb nl : Int)
    (h : (split2d_visit cc indices blocks_start j1 j2 bs be st j).cache_label_map.lookup lb
      = some (some nl)) :
    st.cache_label_map.lookup lb = some (some nl) ∨
      (st.cache_label_map.lookup lb = none ∧ bs ≤ nl ∧ nl < be) := by
  unfold split2d_visit at h
  split at h
  · split at h
    · rename_i hmiss
      split at h
      · rename_i new_lb hfind
        simp only [List.lookup_cons] at h
        split at h
        · rename_i heq
          have hlb : lb = read_at st.labels j := by simpa using heq
          have hnl : new_lb = nl := by simpa using h
          subst hnl
          have hfree := ((find_next_label_iff st.labels j1 j2 bs be).1 new_lb).1 hfind
          exact Or.inr ⟨by rw [hlb]; exact hmiss, hfree.1, hfree.2.1⟩
        · exact Or.inl h
      · simp only [List.lookup_cons] at h
        split at h
        · exact absurd h (by simp)
        · exact Or.inl h
    · exact Or.inl h
    · exact Or.inl h
  · exact Or.inl h

/-- A run of visits of `split_blocks_2d` keeps the entries of the memo. -/
theorem split2d_fold_keep (cc indices : List Int) (blocks_start j1 j2 bs be : Int)
    (lb : Int) (x : Option Int) :
    ∀ (js : List Int) (st : Split2dState), st.cache_label_map.lookup lb = some x →
      (js.foldl (split2d_visit cc indices blocks_start j1 j2 bs be) st).cache_label_map.lookup lb
        = some x := by
  intro js
  induction js with
  | nil => intro st h; exact h
  | cons a js ih =>
    intro st h
    rw [List.foldl_cons]
    exact ih _ (split2d_visit_keep cc indices blocks_start j1 j2 bs be st a lb x h)

/-- An entry of the memo after a run of visits of one block was there before the
run, or is a label of the block range. -/
theorem split2d_fold_new (cc indices : List Int) (blocks_start j1 j2 bs be : Int)
    (lb nl : Int) :
    ∀ (js : List Int) (st : Split2dState),
      (js.foldl (split2d_visit cc indices blocks_start j1 j2 bs be) st).cache_label_map.lookup lb
        = some (some nl) →
      st.cache_label_map.lookup lb = some (some nl) ∨
        (st.cache_label_map.lookup lb = none ∧ bs ≤ nl ∧ nl < be) := by
  intro js
  induction js with
  | nil => intro st h; exact Or.inl h
  | cons a js ih =>
    intro st h
    rw [List.foldl_cons] at h
    rcases ih _ h with h1 | h1
    · exact split2d_visit_new cc indices blocks_start j1 j2 bs be st a lb nl h1
    · refine Or.inr ⟨?_, h1.2⟩
      cases hst : st.cache_label_map.lookup lb with
      | none => rfl
      | some x =>
        rw [split2d_visit_keep cc indices blocks_start j1 j2 bs be st a lb x hst] at h1
        exact absurd h1.1 (by simp)

/-- The state before position `j + 1` is the state before position `j` after the
visit of position `j`. -/
theorem split2d_upto_succ (cc indices : List Int) (blocks_start block_size N : Int)
    (st : Split2dState) (i : Nat) (j : Int) (hj : i * block_size ≤ j) :
    split2d_upto cc indices blocks_start block_size N st i (j + 1)
      = split2d_visit cc indices blocks_start (i * block_size) (min N ((i + 1) * block_size))
          (blocks_start + i * block_size) (blocks_start + min N ((i + 1) * block_size))
          (split2d_upto cc indices blocks_start block_size N st i j) j := by
  unfold split2d_upto
  rw [int_range_succ _ _ hj, List.foldl_append]
  rfl

/-- Claim C19, as the code has it. Let `S0` be the state of `split_blocks_2d` at the
start of block `i`, `S` the state before position `j` of the block is visited
and `S2` the state after that visit, `lb` the label at `j` before the visit.
Position `j` is written only if `lb` is in the component and `j + blocks_start`
is in `indices`, and then:
* if `lb` was relabelled in an earlier block (it is in the memo of `S0`), the
  label memoized there is written again (nothing is written if none was free);
* otherwise the label written lies in the block's own range
  `[block_start, block_end)`, and when it is allocated by this visit it differs
  from every label the block holds at that moment. -/
theorem split_blocks_2d_fresh (cc indices labels : List Int) (blocks_start block_size : Int)
    (i : Nat) (j : Int) (S0 S S2 : Split2dState)
    (_hS0 : S0 = split2d_run cc indices labels blocks_start block_size i)
    (hS : S = split2d_upto cc indices blocks_start block_size labels.length S0 i j)
    (hS2 : S2 = split2d_upto cc indices blocks_start block_size labels.length S0 i (j + 1))
    (hj1 : i * block_size ≤ j) (_hj2 : j < min (labels.length : Int) ((i + 1) * block_size)) :
    (¬ (read_at S.labels j ∈ cc ∧ j + blocks_start ∈ indices) → S2.labels = S.labels) ∧
    (read_at S.labels j ∈ cc ∧ j + blocks_start ∈ indices →
      (∀ nl, S0.cache_label_map.lookup (read_at S.labels j) = some (some nl) →
        S2.labels = write_at S.labels j nl) ∧
      (S0.cache_label_map.lookup (read_at S.labels j) = some none → S2.labels = S.labels) ∧
      (S0.cache_label_map.lookup (read_at S.labels j) = none →
        S2.labels = S.labels ∨
        ∃ nl, S2.labels = write_at S.labels j nl ∧
          blocks_start + i * block_size ≤ nl ∧
          nl < blocks_start + min (labels.length : Int) ((i + 1) * block_size) ∧
          (S.cache_label_map.lookup (read_at S.labels j) = none →
            ∀ k, i * block_size ≤ k → k < min (labels.length : Int) ((i + 1) * block_size) →
              read_at S.labels k ≠ nl))) := by
  have hstep := split2d_upto_succ cc indices blocks_start block_size labels.length S0 i j hj1
  rw [← hS2, ← hS] at hstep
  have hkeep0 : ∀ lb x, S0.cache_label_map.lookup lb = some x →
      S.cache_label_map.lookup lb = some x := by
    intro lb x hx
    rw [hS]
    exact split2d_fold_keep _ _ _ _ _ _ _ lb x _ S0 hx
  have hnew0 : ∀ lb nl, S.cache_label_map.lookup lb = some (some nl) →
      S0.cache_label_map.lookup lb = some (some nl) ∨
        (S0.cache_label_map.lookup lb = none ∧
          blocks_start + i * block_size ≤ nl ∧
          nl < blocks_start + min (labels.length : Int) ((i + 1) * block_size)) := by
    intro lb nl hx
    rw [hS] at hx
    exact split2d_fold_new _ _ _ _ _ _ _ lb nl _ S0 hx
  have hkeep := hkeep0 (read_at S.labels j)
  have hnew := hnew0 (read_at S.labels j)
  constructor
  · intro hq
    rw [hstep]
    unfold split2d_visit
    rw [if_neg hq]
  · intro hq
    refine ⟨?_, ?_, ?_⟩
    · intro nl h0
      rw [hstep]
      unfold split2d_visit
      rw [if_pos hq]
      simp only [hkeep _ h0]
    · intro h0
      rw [hstep]
      unfold split2d_visit
      rw [if_pos hq]
      simp only [hkeep _ h0]
    · intro h0
      rw [hstep]
      unfold split2d_visit
      rw [if_pos hq]
      cases hc : S.cache_label_map.lookup (read_at S.labels j) with
      | none =>
        simp only
        cases hf : find_next_label S.labels (i * block_size)
            (min (labels.length : Int) ((i + 1) * block_size)) (blocks_start + i * block_size)
            (blocks_start + min (labels.length : Int) ((i + 1) * block_size)) with
        | none => exact Or.inl rfl
        | some nl =>
          have hfree := ((find_next_label_iff _ _ _ _ _).1 nl).1 hf
          exact Or.inr ⟨nl, rfl, hfree.1, hfree.2.1, fun _ => hfree.2.2.1⟩
      | some x =>
        cases x with
        | none => exact Or.inl rfl
        | some nl =>
          simp only
          rcases hnew nl hc with h1 | h1
          · rw [h0] at h1
            exact absurd h1 (by simp)
          · refine Or.inr ⟨nl, rfl, h1.2.1, h1.2.2, ?_⟩
            intro hnone
            exact absurd hnone (by simp)

/-- Witness of `split_blocks_2d_fresh`: the labels `[5, 5]` in two blocks of size 1,
both positions to be relabelled; position 1 (block 1) is visited after the
label 5 was relabelled to 0 in block 0, and receives the memoized 0. -/
theorem split_blocks_2d_fresh_witness :
    ((1 : Nat) : Int) * 1 ≤ 1 ∧
    (1 : Int) < min (([5, 5] : List Int).length : Int) ((((1 : Nat) : Int) + 1) * 1) ∧
    (split2d_upto [5] [0, 1] 0 1 ([5, 5] : List Int).length
        (split2d_run [5] [0, 1] [5, 5] 0 1 1) 1 (1 + 1)).labels
      = write_at (split2d_upto [5] [0, 1] 0 1 ([5, 5] : List Int).length
          (split2d_run [5] [0, 1] [5, 5] 0 1 1) 1 1).labels 1 0 :=
  ⟨by decide, by decide,
   ((split_blocks_2d_fresh [5] [0, 1] [5, 5] 0 1 1 1 _ _ _ rfl rfl rfl (by decide)
      (by decide)).2 (by decide)).1 0 rfl⟩

/-- Claim C19 fails as stated: on the labels `[5, 5]` in two blocks of size 1 with
`blocks_start = 0`, both positions to be relabelled, block 0 relabels 5 to 0;
block 1, whose own range is `[1, 2)`, then receives the memoized label 0, which
is not in its range. -/
theorem split_blocks_2d_fresh_counterexample :
    (split2d_run [5] [0, 1] [5, 5] 0 1 1).labels = [0, 5] ∧
    find_connected_component 5 ⟨[], [], [0], (0, 1)⟩ = .ok [5] ∧
    (split_blocks_2d [5, 5] 0 2 1 [0, 1] 5 ⟨[], [], [0], (0, 1)⟩).labels = [0, 0] ∧
    ¬ ((0 : Int) + ((1 : Nat) : Int) * 1 ≤ 0) :=
  ⟨rfl, rfl, rfl, by decide⟩

/-! ## Counted loops and slices of arrays -/

theorem foldl_range_inv {σ : Type} (P : Nat → σ → Prop) (f : σ → Nat → σ) (n : Nat) (s0 : σ)
    (h0 : P 0 s0) (hstep : ∀ i s, i < n → P i s → P (i + 1) (f s i)) :
    P n ((List.range n).foldl f s0) := by
  induction n with
  | zero => simpa using h0
  | succ n ih =>
    rw [List.range_succ, List.foldl_append]
    exact hstep n _ (Nat.lt_succ_self n)
      (ih (fun i s hi hp => hstep i s (Nat.lt_succ_of_lt hi) hp))

theorem foldl_range'_inv {σ : Type} (P : Nat → σ → Prop) (f : σ → Nat → σ) (a n : Nat) (s0 : σ)
    (h0 : P 0 s0) (hstep : ∀ k s, k < n → P k s → P (k + 1) (f s (a + k))) :
    P n ((List.range' a n).foldl f s0) := by
  induction n with
  | zero => simpa using h0
  | succ n ih =>
    rw [List.range'_concat, List.foldl_append]
    simp only [Nat.one_mul, List.foldl_cons, List.foldl_nil]
    exact hstep n _ (Nat.lt_succ_self n)
      (ih (fun i s hi hp => hstep i s (Nat.lt_succ_of_lt hi) hp))

theorem drop_take_map_range {α : Type} (f : Nat → α) (n a m : Nat) (h : a + m ≤ n) :
    (((List.range n).map f).drop a).take m = (List.range m).map (fun i => f (a + i)) := by
  apply List.ext_getElem
  · simp; omega
  · intro i h1 h2
    simp

theorem usub_of_le {a b : Nat} (h : b ≤ a) : usub a b = a - b := by
  simp [usub, h]

theorem read_buffer_add (file : List Nat) (off i : Nat) :
    read_buffer file off i = read_buffer file 0 (off + i) := by
  simp [read_buffer]

theorem uint16_at_read_buffer (file : List Nat) (off i : Nat) :
    uint16_at (read_buffer file off) i = uint16_at (read_buffer file 0) (off + i) := by
  simp [uint16_at, read_buffer, Nat.add_assoc]

theorem int16_at_read_buffer (file : List Nat) (off i : Nat) :
    int16_at (read_buffer file off) i = int16_at (read_buffer file 0) (off + i) := by
  simp [int16_at, uint16_at_read_buffer]

theorem int32_at_read_buffer (file : List Nat) (off i : Nat) :
    int32_at (read_buffer file off) i = int32_at (read_buffer file 0) (off + i) := by
  simp [int32_at, read_buffer, Nat.add_assoc]

/-! ## `read_intan_ofps_batch` -/

theorem ofps_channel_fold (ab : Nat → Nat) (M : Nat) (st : OfpsState) :
    ((List.range M).foldl (ofps_channel ab) st).time_buf_i = st.time_buf_i ∧
    ((List.range M).foldl (ofps_channel ab) st).time_i = st.time_i ∧
    ((List.range M).foldl (ofps_channel ab) st).time_data = st.time_data ∧
    ((List.range M).foldl (ofps_channel ab) st).amp_buf_i = st.amp_buf_i + 2 * M ∧
    ((List.range M).foldl (ofps_channel ab) st).amp_i = st.amp_i + M ∧
    ∀ j, ((List.range M).foldl (ofps_channel ab) st).amp_data j =
      if st.amp_i ≤ j ∧ j < st.amp_i + M then
        some (ofps_uV (int16_at ab (st.amp_buf_i + 2 * (j - st.amp_i))))
      else st.amp_data j := by
  refine foldl_range_inv
    (fun c s => s.time_buf_i = st.time_buf_i ∧ s.time_i = st.time_i ∧
      s.time_data = st.time_data ∧ s.amp_buf_i = st.amp_buf_i + 2 * c ∧
      s.amp_i = st.amp_i + c ∧
      ∀ j, s.amp_data j = if st.amp_i ≤ j ∧ j < st.amp_i + c then
        some (ofps_uV (int16_at ab (st.amp_buf_i + 2 * (j - st.amp_i)))) else st.amp_data j)
    _ M st ?_ ?_
  · simp only [Nat.mul_zero, Nat.add_zero, true_and]
    intro j
    rw [if_neg (by omega)]
  · rintro c s hc ⟨h1, h2, h3, h4, h5, h6⟩
    refine ⟨h1, h2, h3, ?_, ?_, ?_⟩
    · simp [ofps_channel, h4]; omega
    · simp [ofps_channel, h5]; omega
    · intro j
      simp only [ofps_channel, arr_write, h6 j, h5, h4]
      by_cases hj : j = st.amp_i + c
      · subst hj
        have : st.amp_i + c - st.amp_i = c := by omega
        simp [this]
      · rw [if_neg hj]
        by_cases hj2 : st.amp_i ≤ j ∧ j < st.amp_i + c
        · rw [if_pos hj2, if_pos (by omega)]
        · rw [if_neg hj2, if_neg (by omega)]

theorem ofps_loop_spec (tb ab : Nat → Nat) (M N : Nat) :
    ∀ j, ((List.range N).foldl (ofps_sample tb ab M)
        ⟨0, 0, 0, 0, fun _ => none, fun _ => none⟩).time_data j =
        (if j < N then some (int32_at tb (4 * j)) else none) ∧
      ((List.range N).foldl (ofps_sample tb ab M)
        ⟨0, 0, 0, 0, fun _ => none, fun _ => none⟩).amp_data j =
        (if j < N * M then some (ofps_uV (int16_at ab (2 * j))) else none) := by
  have h := foldl_range_inv
    (fun i s => s.time_buf_i = 4 * i ∧ s.time_i = i ∧ s.amp_buf_i = 2 * (i * M) ∧
      s.amp_i = i * M ∧
      (∀ j, s.time_data j = if j < i then some (int32_at tb (4 * j)) else none) ∧
      (∀ j, s.amp_data j = if j < i * M then some (ofps_uV (int16_at ab (2 * j))) else none))
    (ofps_sample tb ab M) N ⟨0, 0, 0, 0, fun _ => none, fun _ => none⟩
    (by simp) ?_
  · intro j
    exact ⟨h.2.2.2.2.1 j, h.2.2.2.2.2 j⟩
  · rintro i s hi ⟨h1, h2, h3, h4, h5, h6⟩
    obtain ⟨g1, g2, g3, g4, g5, g6⟩ := ofps_channel_fold ab M
      { s with
        time_data := arr_write s.time_data s.time_i (int32_at tb s.time_buf_i),
        time_buf_i := s.time_buf_i + 4,
        time_i := s.time_i + 1 }
    simp only [ofps_sample]
    refine ⟨?_, ?_, ?_, ?_, ?_, ?_⟩
    · rw [g1]; simp [h1]; omega
    · rw [g2]; simp [h2]
    · rw [g4]; simp [h3]; ring
    · rw [g5]; simp [h4]; ring
    · intro j
      rw [g3]
      simp only [arr_write, h5 j, h2, h1]
      by_cases hj : j = i
      · subst hj; simp
      · rw [if_neg hj]
        by_cases hj2 : j < i
        · rw [if_pos hj2, if_pos (by omega)]
        · rw [if_neg hj2, if_neg (by omega)]
    · intro j
      rw [g6]
      simp only [h6 j, h4, h3]
      have e : (i + 1) * M = i * M + M := by ring
      by_cases hj : i * M ≤ j ∧ j < i * M + M
      · rw [if_pos hj, if_pos (by omega)]
        congr 3
        omega
      · rw [if_neg hj]
        by_cases hj2 : j < i * M
        · rw [if_pos hj2, if_pos (by omega)]
        · rw [if_neg hj2, if_neg (by omega)]

theorem read_intan_ofps_batch_eq (time_file amp_file : List Nat) (start stop M : Nat)
    (h : start ≤ stop) :
    read_intan_ofps_batch time_file amp_file start stop M =
      .ok ((List.range (stop - start)).map
            (fun s => some (int32_at (read_buffer time_file 0) (4 * (start + s)))),
           (List.range ((stop - start) * M)).map
            (fun j => some (ofps_uV (int16_at (read_buffer amp_file 0) (2 * (start * M + j)))))) := by
  unfold read_intan_ofps_batch ofps_loop
  rw [usub_of_le h]
  congr 2
  · apply List.map_congr_left
    intro s hs
    rw [(ofps_loop_spec _ _ M (stop - start) s).1, if_pos (List.mem_range.1 hs),
      int32_at_read_buffer]
    congr 2
    ring
  · apply List.map_congr_left
    intro s hs
    rw [(ofps_loop_spec _ _ M (stop - start) s).2, if_pos (List.mem_range.1 hs),
      int16_at_read_buffer]
    congr 3
    ring

/-- C28: for `start ≤ stop ≤ n`, `read_intan_ofps_batch` over `[start, stop)` returns
`stop - start` rows, `time[s]` is the `int32` at byte `4 (start + s)` of the time file,
`amp[s][c]` is the conversion of the `int16` at byte `2 ((start + s) M + c)` of the
amplifier file, and both arrays are the rows `start .. stop` of the arrays returned
for `[0, n)`. -/
theorem read_intan_ofps_batch_range (time_file amp_file : List Nat) (start stop M n : Nat)
    (h : start ≤ stop) (hn : stop ≤ n) :
    ∃ time amp time_all amp_all,
      read_intan_ofps_batch time_file amp_file start stop M = .ok (time, amp) ∧
      read_intan_ofps_batch time_file amp_file 0 n M = .ok (time_all, amp_all) ∧
      time.length = stop - start ∧ amp.length = (stop - start) * M ∧
      (∀ s, s < stop - start →
        time.getD s none = some (int32_at (read_buffer time_file 0) (4 * (start + s)))) ∧
      (∀ s c, s < stop - start → c < M →
        amp.getD (s * M + c) none =
          some (ofps_uV (int16_at (read_buffer amp_file 0) (2 * ((start + s) * M + c))))) ∧
      time = (time_all.drop start).take (stop - start) ∧
      amp = (amp_all.drop (start * M)).take ((stop - start) * M) := by
  refine ⟨_, _, _, _, read_intan_ofps_batch_eq time_file amp_file start stop M h,
    read_intan_ofps_batch_eq time_file amp_file 0 n M (Nat.zero_le n), by simp, by simp,
    ?_, ?_, ?_, ?_⟩
  · intro s hs
    simp [List.getD_eq_getElem?_getD, List.getElem?_map, List.getElem?_range hs]
  · intro s c hs hc
    have hlt : s * M + c < (stop - start) * M := by
      calc s * M + c < s * M + M := by omega
        _ = (s + 1) * M := by ring
        _ ≤ (stop - start) * M := Nat.mul_le_mul_right M hs
    simp only [List.getD_eq_getElem?_getD, List.getElem?_map, List.getElem?_range hlt,
      Option.map_some', Option.getD_some]
    congr 4
    ring
  · rw [drop_take_map_range _ _ _ _ (by omega)]
    simp
  · rw [drop_take_map_range _ _ _ _ (by
      have : (stop - start) * M + start * M = stop * M := by
        rw [← Nat.add_mul]; congr 1; omega
      have : stop * M ≤ n * M := Nat.mul_le_mul_right M hn
      simp only [Nat.sub_zero]; omega)]
    apply List.map_congr_left
    intro j _
    simp

theorem read_intan_ofps_batch_range_witness :
    (1 ≤ 2 ∧ 2 ≤ 3) ∧
    ∃ time amp time_all amp_all,
      read_intan_ofps_batch [1, 0, 0, 0, 2, 0, 0, 0, 255, 255, 255, 255]
        [1, 0, 2, 0, 3, 0, 4, 0, 255, 255, 0, 128] 1 2 2 = .ok (time, amp) ∧
      read_intan_ofps_batch [1, 0, 0, 0, 2, 0, 0, 0, 255, 255, 255, 255]
        [1, 0, 2, 0, 3, 0, 4, 0, 255, 255, 0, 128] 0 3 2 = .ok (time_all, amp_all) ∧
      time.length = 2 - 1 ∧ amp.length = (2 - 1) * 2 ∧
      (∀ s, s < 2 - 1 →
        time.getD s none = some (int32_at
          (read_buffer [1, 0, 0, 0, 2, 0, 0, 0, 255, 255, 255, 255] 0) (4 * (1 + s)))) ∧
      (∀ s c, s < 2 - 1 → c < 2 →
        amp.getD (s * 2 + c) none =
          some (ofps_uV (int16_at
            (read_buffer [1, 0, 2, 0, 3, 0, 4, 0, 255, 255, 0, 128] 0) (2 * ((1 + s) * 2 + c))))) ∧
      time = (time_all.drop 1).take (2 - 1) ∧
      amp = (amp_all.drop (1 * 2)).take ((2 - 1) * 2) :=
  ⟨by decide, read_intan_ofps_batch_range _ _ 1 2 2 3 (by decide) (by decide)⟩

/-! ## `read_rhd64_batch` -/

theorem rhd64_acc_frame (buffer : Nat → Nat) (sample_i : Nat) (st : Rhd64State) :
    (rhd64_acc buffer sample_i st).buf_i = st.buf_i ∧
    (rhd64_acc buffer sample_i st).amp_t_i = st.amp_t_i ∧
    (rhd64_acc buffer sample_i st).amp_i = st.amp_i ∧
    (rhd64_acc buffer sample_i st).quad_i = st.quad_i ∧
    (rhd64_acc buffer sample_i st).acc_started = st.acc_started ∧
    (rhd64_acc buffer sample_i st).amp_t = st.amp_t ∧
    (rhd64_acc buffer sample_i st).amp_data = st.amp_data ∧
    (rhd64_acc buffer sample_i st).digital_data = st.digital_data := by
  unfold rhd64_acc
  split_ifs <;> simp

theorem rhd64_amp_inner (buffer : Nat → Nat) (b chip_i : Nat) (st : Rhd64State) :
    (List.range 32).foldl (rhd64_amp buffer b chip_i) st =
      { st with
        amp_i := st.amp_i + 32,
        amp_data := fun j => if st.amp_i ≤ j ∧ j < st.amp_i + 32 then
            some (amp_uV (uint16_at buffer (b + chip_i * 2 + (j - st.amp_i) * 2 * 2)))
          else st.amp_data j } := by
  refine foldl_range_inv
    (fun c s => s = { st with
        amp_i := st.amp_i + c,
        amp_data := fun j => if st.amp_i ≤ j ∧ j < st.amp_i + c then
            some (amp_uV (uint16_at buffer (b + chip_i * 2 + (j - st.amp_i) * 2 * 2)))
          else st.amp_data j })
    _ 32 st ?_ ?_
  · cases st
    simp only [Nat.add_zero, Rhd64State.mk.injEq, true_and, and_true]
    funext j
    rw [if_neg (by omega)]
  · rintro c s hc rfl
    simp only [rhd64_amp, Rhd64State.mk.injEq, true_and, and_true]
    refine ⟨by omega, ?_⟩
    funext j
    simp only [arr_write]
    by_cases hj : j = st.amp_i + c
    · subst hj
      have : st.amp_i + c - st.amp_i = c := by omega
      simp [this]
    · rw [if_neg hj]
      by_cases hj2 : st.amp_i ≤ j ∧ j < st.amp_i + c
      · rw [if_pos hj2, if_pos (by omega)]
      · rw [if_neg hj2, if_neg (by omega)]

theorem rhd64_amp_outer (buffer : Nat → Nat) (b : Nat) (st : Rhd64State) :
    (List.range 2).foldl
        (fun s chip_i => (List.range 32).foldl (rhd64_amp buffer b chip_i) s) st =
      { st with
        amp_i := st.amp_i + 64,
        amp_data := fun j => if st.amp_i ≤ j ∧ j < st.amp_i + 64 then
            some (amp_uV (uint16_at buffer
              (b + 2 * (2 * ((j - st.amp_i) % 32) + (j - st.amp_i) / 32))))
          else st.amp_data j } := by
  have e : List.range 2 = [0, 1] := rfl
  rw [e]
  simp only [List.foldl_cons, List.foldl_nil, rhd64_amp_inner]
  simp only [Rhd64State.mk.injEq, true_and, and_true]
  funext j
  by_cases h1 : st.amp_i + 32 ≤ j ∧ j < st.amp_i + 32 + 32
  · rw [if_pos h1, if_pos (by omega)]
    congr 3
    omega
  · rw [if_neg h1]
    by_cases h2 : st.amp_i ≤ j ∧ j < st.amp_i + 32
    · rw [if_pos h2, if_pos (by omega)]
      congr 3
      omega
    · rw [if_neg h2, if_neg (by omega)]

theorem rhd64_loop_spec (file : List Nat) (start n : Nat) :
    (rhd64_loop file start n).buf_i = 176 * n ∧
    (∀ j, (rhd64_loop file start n).amp_t j =
      if j < n then some (int32_at (read_buffer file (start * 176)) (176 * j + 8)) else none) ∧
    (∀ j, (rhd64_loop file start n).amp_data j =
      if j < n * 64 then
        some (amp_uV (uint16_at (read_buffer file (start * 176))
          (176 * (j / 64) + 24 + 2 * (2 * (j % 32) + j % 64 / 32))))
      else none) ∧
    (∀ j, (rhd64_loop file start n).digital_data j =
      if j < n then some (uint16_at (read_buffer file (start * 176)) (176 * j + 172))
      else none) := by
  have h := foldl_range_inv
    (fun i s => s.buf_i = 176 * i ∧ s.amp_t_i = i ∧ s.amp_i = i * 64 ∧
      (∀ j, s.amp_t j =
        if j < i then some (int32_at (read_buffer file (start * 176)) (176 * j + 8))
        else none) ∧
      (∀ j, s.amp_data j =
        if j < i * 64 then
          some (amp_uV (uint16_at (read_buffer file (start * 176))
            (176 * (j / 64) + 24 + 2 * (2 * (j % 32) + j % 64 / 32))))
        else none) ∧
      (∀ j, s.digital_data j =
        if j < i then some (uint16_at (read_buffer file (start * 176)) (176 * j + 172))
        else none))
    (rhd64_sample (read_buffer file (start * 176))) n
    ⟨0, 0, 0, 0, start % 4, decide (start % 4 = 1),
     fun _ => none, fun _ => none, fun _ => none, fun _ => none, fun _ => none⟩
    (by simp) ?_
  · exact ⟨h.1, h.2.2.2.1, h.2.2.2.2.1, h.2.2.2.2.2⟩
  · rintro i s hi ⟨h1, h2, h3, h4, h5, h6⟩
    obtain ⟨a1, a2, a3, -, -, a6, a7, a8⟩ := rhd64_acc_frame (read_buffer file (start * 176)) i
      { s with
        amp_t := arr_write s.amp_t s.amp_t_i
          (int32_at (read_buffer file (start * 176)) (s.buf_i + 8)),
        amp_t_i := s.amp_t_i + 1,
        buf_i := s.buf_i + 8 + 4 + 4 + 2 }
    simp only [rhd64_sample, rhd64_amp_outer]
    simp only [a1, a2, a3, a6, a7, a8]
    refine ⟨by omega, by omega, by omega, ?_, ?_, ?_⟩
    · intro j
      simp only [arr_write, h4 j, h2, h1]
      by_cases hj : j = i
      · subst hj; simp
      · rw [if_neg hj]
        by_cases hj2 : j < i
        · rw [if_pos hj2, if_pos (by omega)]
        · rw [if_neg hj2, if_neg (by omega)]
    · intro j
      simp only [h5 j, h3, h1]
      by_cases hj : i * 64 ≤ j ∧ j < i * 64 + 64
      · rw [if_pos hj, if_pos (by omega)]
        congr 3
        omega
      · rw [if_neg hj]
        by_cases hj2 : j < i * 64
        · rw [if_pos hj2, if_pos (by omega)]
        · rw [if_neg hj2, if_neg (by omega)]
    · intro j
      simp only [arr_write, h6 j, h1]
      by_cases hj : j = i
      · subst hj
        simp
      · rw [if_neg hj]
        by_cases hj2 : j < i
        · rw [if_pos hj2, if_pos (by omega)]
        · rw [if_neg hj2, if_neg (by omega)]

/-- C27: `read_rhd64_batch` consumes exactly 176 bytes per sample; for the sample
`start + s` of the read range the timestamp is the `int32` at byte
`176 (start + s) + 8` of the file, the amplifier output channel `32 chip + ch` is the
conversion of the `uint16` at byte `176 (start + s) + 24 + 2 (2 ch + chip)`, and the
digital word is the `uint16` at byte `176 (start + s) + 172`. -/
theorem read_rhd64_batch_layout (file : List Nat) (start stop : Nat) (h : start ≤ stop) :
    (∀ n, (rhd64_loop file start n).buf_i = 176 * n) ∧
    ∃ d, read_rhd64_batch file start stop = .ok d ∧
      d.time.length = stop - start ∧ d.amp.length = (stop - start) * 64 ∧
      d.digital.length = stop - start ∧
      (∀ s, s < stop - start →
        d.time.getD s none = some (int32_at (read_buffer file 0) (176 * (start + s) + 8))) ∧
      (∀ s chip ch, s < stop - start → chip < 2 → ch < 32 →
        d.amp.getD (s * 64 + (32 * chip + ch)) none =
          some (amp_uV (uint16_at (read_buffer file 0)
            (176 * (start + s) + 24 + 2 * (2 * ch + chip))))) ∧
      (∀ s, s < stop - start →
        d.digital.getD s none =
          some (uint16_at (read_buffer file 0) (176 * (start + s) + 172))) := by
  rw [read_rhd64_batch, if_pos h]
  refine ⟨fun n => (rhd64_loop_spec file start n).1, _, rfl, ?_, ?_, ?_, ?_, ?_, ?_⟩
  · simp
  · simp
  · simp
  · intro s hs
    simp only [List.getD_eq_getElem?_getD, List.getElem?_map, List.getElem?_range hs,
      Option.map_some', Option.getD_some]
    rw [(rhd64_loop_spec file start (stop - start)).2.1 s, if_pos hs, int32_at_read_buffer]
    have e : start * 176 + (176 * s + 8) = 176 * (start + s) + 8 := by ring
    rw [e]
  · intro s chip ch hs hchip hch
    have hlt : s * 64 + (32 * chip + ch) < (stop - start) * 64 := by omega
    simp only [List.getD_eq_getElem?_getD, List.getElem?_map, List.getElem?_range hlt,
      Option.map_some', Option.getD_some]
    rw [(rhd64_loop_spec file start (stop - start)).2.2.1 _, if_pos hlt, uint16_at_read_buffer]
    congr 3
    omega
  · intro s hs
    simp only [List.getD_eq_getElem?_getD, List.getElem?_map, List.getElem?_range hs,
      Option.map_some', Option.getD_some]
    rw [(rhd64_loop_spec file start (stop - start)).2.2.2 s, if_pos hs, uint16_at_read_buffer]
    have e : start * 176 + (176 * s + 172) = 176 * (start + s) + 172 := by ring
    rw [e]

theorem read_rhd64_batch_layout_witness :
    1 ≤ 3 ∧
    ((∀ n, (rhd64_loop ((List.range 600).map (fun i => i % 256)) 1 n).buf_i = 176 * n) ∧
    ∃ d, read_rhd64_batch ((List.range 600).map (fun i => i % 256)) 1 3 = .ok d ∧
      d.time.length = 3 - 1 ∧ d.amp.length = (3 - 1) * 64 ∧
      d.digital.length = 3 - 1 ∧
      (∀ s, s < 3 - 1 →
        d.time.getD s none = some (int32_at
          (read_buffer ((List.range 600).map (fun i => i % 256)) 0) (176 * (1 + s) + 8))) ∧
      (∀ s chip ch, s < 3 - 1 → chip < 2 → ch < 32 →
        d.amp.getD (s * 64 + (32 * chip + ch)) none =
          some (amp_uV (uint16_at (read_buffer ((List.range 600).map (fun i => i % 256)) 0)
            (176 * (1 + s) + 24 + 2 * (2 * ch + chip))))) ∧
      (∀ s, s < 3 - 1 →
        d.digital.getD s none =
          some (uint16_at (read_buffer ((List.range 600).map (fun i => i % 256)) 0)
            (176 * (1 + s) + 172)))) :=
  ⟨by decide, read_rhd64_batch_layout _ 1 3 (by decide)⟩

/-! ## `read_rhd2000_batch`: the loops of a block -/

theorem flat_index_iff {M c : Nat} (hc : c < M) (j r : Nat) :
    j = r * M + c ↔ j % M = c ∧ j / M = r := by
  constructor
  · rintro rfl
    constructor
    · rw [Nat.add_comm, Nat.add_mul_mod_self_right, Nat.mod_eq_of_lt hc]
    · rw [Nat.add_comm, Nat.add_mul_div_right _ _ (by omega), Nat.div_eq_of_lt hc]
      omega
  · rintro ⟨h1, h2⟩
    have := Nat.div_add_mod j M
    rw [h1, h2, Nat.mul_comm] at this
    omega

theorem rhd2000_time_fold (buffer : Nat → Nat) (s n : Nat) (st : Rhd2000State) :
    (List.range' s n).foldl (rhd2000_time buffer) st =
      { st with
        amp_t := fun j => if st.amp_t_i ≤ j ∧ j < st.amp_t_i + n then
            some (int32_at buffer (st.buf_i + 4 * (j - st.amp_t_i)))
          else st.amp_t j,
        amp_t_i := st.amp_t_i + n,
        buf_i := st.buf_i + 4 * n } := by
  refine foldl_range'_inv
    (fun k x => x = { st with
        amp_t := fun j => if st.amp_t_i ≤ j ∧ j < st.amp_t_i + k then
            some (int32_at buffer (st.buf_i + 4 * (j - st.amp_t_i)))
          else st.amp_t j,
        amp_t_i := st.amp_t_i + k,
        buf_i := st.buf_i + 4 * k })
    _ s n st ?_ ?_
  · cases st
    simp only [Nat.add_zero, Nat.mul_zero, Rhd2000State.mk.injEq, true_and, and_true]
    funext j
    rw [if_neg (by omega)]
  · rintro k x hk rfl
    simp only [rhd2000_time, Rhd2000State.mk.injEq, true_and, and_true]
    refine ⟨by omega, by omega, ?_⟩
    funext j
    simp only [arr_write]
    by_cases hj : j = st.amp_t_i + k
    · subst hj
      have : st.amp_t_i + k - st.amp_t_i = k := by omega
      simp [this]
    · rw [if_neg hj]
      by_cases hj2 : st.amp_t_i ≤ j ∧ j < st.amp_t_i + k
      · rw [if_pos hj2, if_pos (by omega)]
      · rw [if_neg hj2, if_neg (by omega)]

theorem rhd2000_digital_fold (buffer : Nat → Nat) (s n : Nat) (st : Rhd2000State) :
    (List.range' s n).foldl (rhd2000_digital buffer) st =
      { st with
        digital_data := fun j => if st.digital_i ≤ j ∧ j < st.digital_i + n then
            some (decide (uint16_at buffer (st.buf_i + 2 * (j - st.digital_i)) ≠ 0))
          else st.digital_data j,
        digital_i := st.digital_i + n,
        buf_i := st.buf_i + 2 * n } := by
  refine foldl_range'_inv
    (fun k x => x = { st with
        digital_data := fun j => if st.digital_i ≤ j ∧ j < st.digital_i + k then
            some (decide (uint16_at buffer (st.buf_i + 2 * (j - st.digital_i)) ≠ 0))
          else st.digital_data j,
        digital_i := st.digital_i + k,
        buf_i := st.buf_i + 2 * k })
    _ s n st ?_ ?_
  · cases st
    simp only [Nat.add_zero, Nat.mul_zero, Rhd2000State.mk.injEq, true_and, and_true]
    funext j
    rw [if_neg (by omega)]
  · rintro k x hk rfl
    simp only [rhd2000_digital, Rhd2000State.mk.injEq, true_and, and_true]
    refine ⟨by omega, by omega, ?_⟩
    funext j
    simp only [arr_write]
    by_cases hj : j = st.digital_i + k
    · subst hj
      have : st.digital_i + k - st.digital_i = k := by omega
      simp [this]
    · rw [if_neg hj]
      by_cases hj2 : st.digital_i ≤ j ∧ j < st.digital_i + k
      · rw [if_pos hj2, if_pos (by omega)]
      · rw [if_neg hj2, if_neg (by omega)]

theorem rhd2000_amp_sample_fold (buffer : Nat → Nat) (spb so M bi c s n X0 : Nat)
    (st : Rhd2000State) (hX : so + X0 = bi * spb + s) (hc : c < M) :
    (List.range' s n).foldl (rhd2000_amp_sample buffer spb so M bi c) st =
      { st with
        amp_data := fun j => if j % M = c ∧ X0 ≤ j / M ∧ j / M < X0 + n then
            some (amp_uV (uint16_at buffer (st.buf_i + 2 * (j / M - X0))))
          else st.amp_data j,
        buf_i := st.buf_i + 2 * n } := by
  refine foldl_range'_inv
    (fun k x => x = { st with
        amp_data := fun j => if j % M = c ∧ X0 ≤ j / M ∧ j / M < X0 + k then
            some (amp_uV (uint16_at buffer (st.buf_i + 2 * (j / M - X0))))
          else st.amp_data j,
        buf_i := st.buf_i + 2 * k })
    _ s n st ?_ ?_
  · cases st
    simp only [Nat.add_zero, Nat.mul_zero, Rhd2000State.mk.injEq, true_and, and_true]
    funext j
    rw [if_neg (by omega)]
  · rintro k x hk rfl
    simp only [rhd2000_amp_sample, Rhd2000State.mk.injEq, true_and, and_true]
    refine ⟨by omega, ?_⟩
    funext j
    have hu : usub (bi * spb + (s + k)) so = X0 + k := by
      rw [usub_of_le (by omega)]; omega
    simp only [arr_write, hu]
    by_cases hj : j = (X0 + k) * M + c
    · rw [if_pos hj]
      obtain ⟨h1, h2⟩ := (flat_index_iff hc j (X0 + k)).1 hj
      rw [if_pos ⟨h1, by omega, by omega⟩]
      have : j / M - X0 = k := by omega
      rw [this]
    · rw [if_neg hj]
      have hj' := mt (flat_index_iff hc j (X0 + k)).2 hj
      by_cases hj2 : j % M = c ∧ X0 ≤ j / M ∧ j / M < X0 + k
      · rw [if_pos hj2, if_pos ⟨hj2.1, hj2.2.1, by omega⟩]
      · rw [if_neg hj2, if_neg]
        rintro ⟨g1, g2, g3⟩
        by_cases g4 : j / M = X0 + k
        · exact hj' ⟨g1, g4⟩
        · exact hj2 ⟨g1, g2, by omega⟩

theorem rhd2000_amp_channel_fold (buffer : Nat → Nat) (spb so M bi stop X0 : Nat)
    (st : Rhd2000State) (hX : so + X0 = bi * spb + st.sample_i_start)
    (hs : st.sample_i_start ≤ stop) (hstop : stop ≤ spb) :
    (List.range M).foldl (rhd2000_amp_channel buffer spb so M bi stop) st =
      { st with
        amp_data := fun j =>
          if j % M < M ∧ X0 ≤ j / M ∧ j / M < X0 + (stop - st.sample_i_start) then
            some (amp_uV (uint16_at buffer
              (st.buf_i + 2 * (j % M * spb + st.sample_i_start + (j / M - X0)))))
          else st.amp_data j,
        buf_i := st.buf_i + 2 * (M * spb) } := by
  refine foldl_range_inv
    (fun c x => x = { st with
        amp_data := fun j =>
          if j % M < c ∧ X0 ≤ j / M ∧ j / M < X0 + (stop - st.sample_i_start) then
            some (amp_uV (uint16_at buffer
              (st.buf_i + 2 * (j % M * spb + st.sample_i_start + (j / M - X0)))))
          else st.amp_data j,
        buf_i := st.buf_i + 2 * (c * spb) })
    _ M st ?_ ?_
  · cases st
    simp only [Nat.zero_mul, Nat.add_zero, Nat.mul_zero, Rhd2000State.mk.injEq, true_and,
      and_true]
    funext j
    rw [if_neg (by omega)]
  · rintro c x hc rfl
    simp only [rhd2000_amp_channel]
    rw [rhd2000_amp_sample_fold buffer spb so M bi c st.sample_i_start
      (stop - st.sample_i_start) X0 _ hX hc, usub_of_le hstop]
    simp only [Rhd2000State.mk.injEq, true_and, and_true]
    have e : (c + 1) * spb = c * spb + spb := by ring
    refine ⟨?_, ?_⟩
    · rw [e]; omega
    · funext j
      by_cases hj : j % M = c ∧ X0 ≤ j / M ∧ j / M < X0 + (stop - st.sample_i_start)
      · rw [if_pos hj, if_pos ⟨by omega, hj.2⟩, hj.1]
        congr 3
        omega
      · rw [if_neg hj]
        by_cases hj2 : j % M < c ∧ X0 ≤ j / M ∧ j / M < X0 + (stop - st.sample_i_start)
        · rw [if_pos hj2, if_pos ⟨by omega, hj2.2⟩]
        · rw [if_neg hj2, if_neg]
          rintro ⟨g1, g2⟩
          by_cases g3 : j % M = c
          · exact hj ⟨g3, g2⟩
          · exact hj2 ⟨by omega, g2⟩

theorem rhd2000_analog_sample_fold (buffer : Nat → Nat) (spb so Ma bi stop c X0 n : Nat)
    (st : Rhd2000State) (hX : so + X0 = bi * spb + st.sample_i_start) (hc : c < Ma) :
    (List.range n).foldl (rhd2000_analog_sample buffer spb so Ma bi stop c) st =
      { st with
        analog_data := fun j =>
          if j % Ma = c ∧ X0 ≤ j / Ma ∧ st.sample_i_start + (j / Ma - X0) < min n stop then
            some (aux_V (uint16_at buffer
              (st.buf_i + 2 * ((st.sample_i_start + (j / Ma - X0)) / 4))))
          else st.analog_data j,
        analog_value :=
          if n = 0 then st.analog_value
          else aux_V (uint16_at buffer (st.buf_i + 2 * ((n - 1) / 4))),
        buf_i := st.buf_i + 2 * ((n + 3) / 4) } := by
  refine foldl_range_inv
    (fun s x => x = { st with
        analog_data := fun j =>
          if j % Ma = c ∧ X0 ≤ j / Ma ∧ st.sample_i_start + (j / Ma - X0) < min s stop then
            some (aux_V (uint16_at buffer
              (st.buf_i + 2 * ((st.sample_i_start + (j / Ma - X0)) / 4))))
          else st.analog_data j,
        analog_value :=
          if s = 0 then st.analog_value
          else aux_V (uint16_at buffer (st.buf_i + 2 * ((s - 1) / 4))),
        buf_i := st.buf_i + 2 * ((s + 3) / 4) })
    _ n st ?_ ?_
  · cases st
    simp only [Rhd2000State.mk.injEq, true_and, and_true, if_true]
    refine ⟨by omega, ?_⟩
    funext j
    rw [if_neg (by omega)]
  · rintro s x hs rfl
    have hdataW : ∀ v, st.sample_i_start ≤ s ∧ s < stop →
        v = aux_V (uint16_at buffer (st.buf_i + 2 * (s / 4))) →
        (fun j => if j = usub (bi * spb + s) so * Ma + c then some v
          else if j % Ma = c ∧ X0 ≤ j / Ma ∧
              st.sample_i_start + (j / Ma - X0) < min s stop then
            some (aux_V (uint16_at buffer
              (st.buf_i + 2 * ((st.sample_i_start + (j / Ma - X0)) / 4))))
          else st.analog_data j) =
        (fun j => if j % Ma = c ∧ X0 ≤ j / Ma ∧
              st.sample_i_start + (j / Ma - X0) < min (s + 1) stop then
            some (aux_V (uint16_at buffer
              (st.buf_i + 2 * ((st.sample_i_start + (j / Ma - X0)) / 4))))
          else st.analog_data j) := by
      intro v hw hv
      funext j
      have hu : usub (bi * spb + s) so = X0 + (s - st.sample_i_start) := by
        rw [usub_of_le (by omega)]; omega
      rw [hu]
      by_cases hj : j = (X0 + (s - st.sample_i_start)) * Ma + c
      · rw [if_pos hj]
        obtain ⟨h1, h2⟩ := (flat_index_iff hc j _).1 hj
        rw [if_pos ⟨h1, by omega, by omega⟩, hv]
        have : st.sample_i_start + (j / Ma - X0) = s := by omega
        rw [this]
      · rw [if_neg hj]
        have hj' := mt (flat_index_iff hc j (X0 + (s - st.sample_i_start))).2 hj
        by_cases hj2 : j % Ma = c ∧ X0 ≤ j / Ma ∧
            st.sample_i_start + (j / Ma - X0) < min s stop
        · rw [if_pos hj2, if_pos ⟨hj2.1, hj2.2.1, by omega⟩]
        · rw [if_neg hj2, if_neg]
          rintro ⟨g1, g2, g3⟩
          by_cases g4 : j / Ma = X0 + (s - st.sample_i_start)
          · exact hj' ⟨g1, g4⟩
          · exact hj2 ⟨g1, g2, by omega⟩
    have hdataN : ¬ (st.sample_i_start ≤ s ∧ s < stop) →
        (fun j => if j % Ma = c ∧ X0 ≤ j / Ma ∧
              st.sample_i_start + (j / Ma - X0) < min s stop then
            some (aux_V (uint16_at buffer
              (st.buf_i + 2 * ((st.sample_i_start + (j / Ma - X0)) / 4))))
          else st.analog_data j) =
        (fun j => if j % Ma = c ∧ X0 ≤ j / Ma ∧
              st.sample_i_start + (j / Ma - X0) < min (s + 1) stop then
            some (aux_V (uint16_at buffer
              (st.buf_i + 2 * ((st.sample_i_start + (j / Ma - X0)) / 4))))
          else st.analog_data j) := by
      intro hw
      funext j
      by_cases hj2 : j % Ma = c ∧ X0 ≤ j / Ma ∧
          st.sample_i_start + (j / Ma - X0) < min s stop
      · rw [if_pos hj2, if_pos ⟨hj2.1, hj2.2.1, by omega⟩]
      · rw [if_neg hj2, if_neg]
        rintro ⟨g1, g2, g3⟩
        exact hj2 ⟨g1, g2, by omega⟩
    have hv1 : (if s + 1 = 0 then st.analog_value
        else aux_V (uint16_at buffer (st.buf_i + 2 * ((s + 1 - 1) / 4)))) =
        aux_V (uint16_at buffer (st.buf_i + 2 * (s / 4))) := by
      rw [if_neg (by omega)]
      simp
    rw [hv1]
    unfold rhd2000_analog_sample
    by_cases h4 : s % 4 = 0
    · have e1 : (s + 3) / 4 = s / 4 := by omega
      have e2 : (s + 1 + 3) / 4 = s / 4 + 1 := by omega
      simp only [h4, if_true, e1, e2]
      by_cases hw : st.sample_i_start ≤ s ∧ s < stop
      · rw [if_pos hw]
        simp only [arr_write, Rhd2000State.mk.injEq, true_and, and_true]
        exact ⟨by omega, hdataW _ hw rfl⟩
      · rw [if_neg hw]
        simp only [Rhd2000State.mk.injEq, true_and, and_true]
        exact ⟨by omega, hdataN hw⟩
    · have e1 : (s - 1) / 4 = s / 4 := by omega
      have e2 : (s + 1 + 3) / 4 = (s + 3) / 4 := by omega
      have e3 : ¬ s = 0 := by omega
      simp only [h4, if_false, e1, e2, e3]
      by_cases hw : st.sample_i_start ≤ s ∧ s < stop
      · rw [if_pos hw]
        simp only [arr_write, Rhd2000State.mk.injEq, true_and, and_true]
        exact hdataW _ hw rfl
      · rw [if_neg hw]
        simp only [Rhd2000State.mk.injEq, true_and, and_true]
        exact hdataN hw

theorem rhd2000_read_analog_eq (buffer : Nat → Nat) (spb so Ma bi stop X0 : Nat)
    (st : Rhd2000State) (hX : so + X0 = bi * spb + st.sample_i_start)
    (hs : st.sample_i_start ≤ stop) (hstop : stop ≤ spb) :
    ∃ v, rhd2000_read_analog buffer spb so Ma bi stop st =
      { st with
        analog_data := fun j =>
          if j % Ma < Ma ∧ X0 ≤ j / Ma ∧ j / Ma < X0 + (stop - st.sample_i_start) then
            some (aux_V (uint16_at buffer
              (st.buf_i + 2 * (j % Ma * ((spb + 3) / 4)
                + (st.sample_i_start + (j / Ma - X0)) / 4))))
          else st.analog_data j,
        analog_value := v,
        buf_i := st.buf_i + 2 * (Ma * ((spb + 3) / 4)) } := by
  have h := foldl_range_inv
    (fun c x => ∃ v, x = { st with
        analog_data := fun j =>
          if j % Ma < c ∧ X0 ≤ j / Ma ∧ j / Ma < X0 + (stop - st.sample_i_start) then
            some (aux_V (uint16_at buffer
              (st.buf_i + 2 * (j % Ma * ((spb + 3) / 4)
                + (st.sample_i_start + (j / Ma - X0)) / 4))))
          else st.analog_data j,
        analog_value := v,
        buf_i := st.buf_i + 2 * (c * ((spb + 3) / 4)) })
    (fun s channel_i => (List.range spb).foldl
      (rhd2000_analog_sample buffer spb so Ma bi stop channel_i) s) Ma st ?_ ?_
  · unfold rhd2000_read_analog
    by_cases hMa : Ma > 0
    · rw [if_pos hMa]
      exact h
    · rw [if_neg hMa]
      have h0 : Ma = 0 := by omega
      subst h0
      refine ⟨st.analog_value, ?_⟩
      cases st
      simp only [Nat.zero_mul, Nat.mul_zero, Nat.add_zero, Rhd2000State.mk.injEq, true_and,
        and_true]
      funext j
      rw [if_neg (by omega)]
  · refine ⟨st.analog_value, ?_⟩
    cases st
    simp only [Nat.zero_mul, Nat.mul_zero, Nat.add_zero, Rhd2000State.mk.injEq, true_and,
      and_true]
    funext j
    rw [if_neg (by omega)]
  · rintro c x hc ⟨v, rfl⟩
    simp only []
    rw [rhd2000_analog_sample_fold buffer spb so Ma bi stop c X0 spb]
    · refine ⟨if spb = 0 then v else aux_V (uint16_at buffer
        (st.buf_i + 2 * (c * ((spb + 3) / 4)) + 2 * ((spb - 1) / 4))), ?_⟩
      simp only [Rhd2000State.mk.injEq, true_and, and_true]
      have e : (c + 1) * ((spb + 3) / 4) = c * ((spb + 3) / 4) + (spb + 3) / 4 := by ring
      refine ⟨by rw [e]; omega, ?_⟩
      funext j
      by_cases hj : j % Ma = c ∧ X0 ≤ j / Ma ∧
          st.sample_i_start + (j / Ma - X0) < min spb stop
      · rw [if_pos hj, if_pos ⟨by omega, hj.2.1, by omega⟩, hj.1]
        congr 3
        omega
      · rw [if_neg hj]
        by_cases hj2 : j % Ma < c ∧ X0 ≤ j / Ma ∧ j / Ma < X0 + (stop - st.sample_i_start)
        · rw [if_pos hj2, if_pos ⟨by omega, hj2.2⟩]
        · rw [if_neg hj2, if_neg]
          rintro ⟨g1, g2, g3⟩
          by_cases g4 : j % Ma = c
          · exact hj ⟨g4, g2, by omega⟩
          · exact hj2 ⟨by omega, g2, g3⟩
    · exact hX
    · exact hc

theorem rhd2000_read_time_eq (buffer : Nat → Nat) (spb stop : Nat) (st : Rhd2000State)
    (hstop : stop ≤ spb) :
    rhd2000_read_time buffer spb stop st =
      { st with
        amp_t := fun j =>
          if st.amp_t_i ≤ j ∧ j < st.amp_t_i + (stop - st.sample_i_start) then
            some (int32_at buffer (st.buf_i + 4 * (j - st.amp_t_i)))
          else st.amp_t j,
        amp_t_i := st.amp_t_i + (stop - st.sample_i_start),
        buf_i := st.buf_i + 4 * (stop - st.sample_i_start) + (spb - stop) * 4 } := by
  unfold rhd2000_read_time
  simp only [rhd2000_time_fold, usub_of_le hstop]

theorem rhd2000_read_amp_eq (buffer : Nat → Nat) (spb so M bi stop X0 : Nat)
    (st : Rhd2000State) (hX : so + X0 = bi * spb + st.sample_i_start)
    (hs : st.sample_i_start ≤ stop) (hstop : stop ≤ spb) :
    rhd2000_read_amp buffer spb so M bi stop st =
      { st with
        amp_data := fun j =>
          if j % M < M ∧ X0 ≤ j / M ∧ j / M < X0 + (stop - st.sample_i_start) then
            some (amp_uV (uint16_at buffer
              (st.buf_i + 2 * (j % M * spb + st.sample_i_start + (j / M - X0)))))
          else st.amp_data j,
        buf_i := st.buf_i + 2 * (M * spb),
        old_buf_i := st.buf_i + 2 * (M * spb) } := by
  unfold rhd2000_read_amp
  simp only [rhd2000_amp_channel_fold buffer spb so M bi stop X0 st hX hs hstop]

theorem rhd2000_read_digital_eq (buffer : Nat → Nat) (spb stop : Nat) (st : Rhd2000State)
    (hstop : stop ≤ spb) :
    rhd2000_read_digital buffer spb stop st =
      { st with
        digital_data := fun j =>
          if st.digital_i ≤ j ∧ j < st.digital_i + (stop - st.sample_i_start) then
            some (decide (uint16_at buffer
              (st.buf_i + st.sample_i_start * 2 + 2 * (j - st.digital_i)) ≠ 0))
          else st.digital_data j,
        digital_i := st.digital_i + (stop - st.sample_i_start),
        buf_i := st.buf_i + st.sample_i_start * 2 + 2 * (stop - st.sample_i_start)
          + (spb - stop) * 2 } := by
  unfold rhd2000_read_digital
  simp only [rhd2000_digital_fold, usub_of_le hstop]

theorem rhd2000_block_eq (buffer : Nat → Nat)
    (baa spb so stop_offset M Ma Md nb bi stop X0 base : Nat) (st : Rhd2000State)
    (hstopdef : (if bi = nb - 1 then stop_offset else spb) = stop)
    (hX : so + X0 = bi * spb + st.sample_i_start)
    (hs : st.sample_i_start ≤ stop) (hstop : stop ≤ spb)
    (hbuf : st.buf_i = base + 4 * st.sample_i_start)
    (ht : st.amp_t_i = X0) (hd : 0 < Md → st.digital_i = X0)
    (hMd : Md ≤ 1) (hQ : Ma = 0 ∨ spb % 4 = 0)
    (hbaa : 2 * Md * spb + 2 * Ma * (spb / 4) ≤ baa)
    (hbound : base + 4 * spb + 2 * (M * spb) + baa < 2 ^ 64) :
    ∃ v, rhd2000_block buffer baa spb so stop_offset M Ma Md nb st bi = .ok
      { buf_i := base + 4 * spb + 2 * (M * spb) + baa,
        old_buf_i := base + 4 * spb + 2 * (M * spb),
        amp_t_i := X0 + (stop - st.sample_i_start),
        digital_i := if 0 < Md then X0 + (stop - st.sample_i_start) else st.digital_i,
        sample_i_start := 0,
        analog_value := v,
        amp_t := fun j =>
          if X0 ≤ j ∧ j < X0 + (stop - st.sample_i_start) then
            some (int32_at buffer (base + 4 * (st.sample_i_start + (j - X0))))
          else st.amp_t j,
        amp_data := fun j =>
          if j % M < M ∧ X0 ≤ j / M ∧ j / M < X0 + (stop - st.sample_i_start) then
            some (amp_uV (uint16_at buffer
              (base + 4 * spb + 2 * (j % M * spb + (st.sample_i_start + (j / M - X0))))))
          else st.amp_data j,
        analog_data := fun j =>
          if j % Ma < Ma ∧ X0 ≤ j / Ma ∧ j / Ma < X0 + (stop - st.sample_i_start) then
            some (aux_V (uint16_at buffer
              (base + 4 * spb + 2 * (M * spb) + 2 * (j % Ma * (spb / 4)
                + (st.sample_i_start + (j / Ma - X0)) / 4))))
          else st.analog_data j,
        digital_data := fun j =>
          if 0 < Md ∧ X0 ≤ j ∧ j < X0 + (stop - st.sample_i_start) then
            some (decide (uint16_at buffer
              (base + 4 * spb + 2 * (M * spb) + (baa - 2 * spb)
                + 2 * (st.sample_i_start + (j - X0))) ≠ 0))
          else st.digital_data j } := by
  have hQ2 : Ma * ((spb + 3) / 4) = Ma * (spb / 4) := by
    rcases hQ with h | h
    · subst h; simp
    · have : (spb + 3) / 4 = spb / 4 := by omega
      rw [this]
  have hprod : 2 * Ma * (spb / 4) = 2 * (Ma * (spb / 4)) := by ring
  have hprod2 : 2 * Md * spb = 2 * (Md * spb) := by ring
  have hprod3 : Md * 2 * spb = 2 * (Md * spb) := by ring
  have hgap : analog_digital_byte_gap baa spb Ma Md
      = baa - 2 * (Md * spb) - 2 * (Ma * (spb / 4)) := by
    unfold analog_digital_byte_gap
    have h1 : usub baa (2 * (Md * spb)) = baa - 2 * (Md * spb) := usub_of_le (by omega)
    rw [hprod3, hprod, h1, usub_of_le (by omega)]
  unfold rhd2000_block
  simp only [hstopdef]
  have e1 := rhd2000_read_time_eq buffer spb stop st hstop
  generalize rhd2000_read_time buffer spb stop st = S1 at e1 ⊢
  have e2 := rhd2000_read_amp_eq buffer spb so M bi stop X0 S1
    (by rw [e1]; exact hX) (by rw [e1]; exact hs) hstop
  generalize rhd2000_read_amp buffer spb so M bi stop S1 = S2 at e2 ⊢
  rw [e1] at e2
  simp only [] at e2
  obtain ⟨v, e3⟩ := rhd2000_read_analog_eq buffer spb so Ma bi stop X0 S2
    (by rw [e2]; exact hX) (by rw [e2]; exact hs) hstop
  generalize rhd2000_read_analog buffer spb so Ma bi stop S2 = S3 at e3 ⊢
  rw [e2] at e3
  simp only [] at e3
  have e5 := rhd2000_read_digital_eq buffer spb stop
    { S3 with buf_i := (S3.buf_i + analog_digital_byte_gap baa spb Ma Md) % 2 ^ 64 } hstop
  generalize rhd2000_read_digital buffer spb stop
    { S3 with buf_i := (S3.buf_i + analog_digital_byte_gap baa spb Ma Md) % 2 ^ 64 } = S5
    at e5 ⊢
  refine ⟨v, ?_⟩
  have hb3 : S3.buf_i = base + 4 * spb + 2 * (M * spb) + 2 * (Ma * (spb / 4)) := by
    rw [e3]
    simp only [hQ2, hbuf]
    omega
  have hb4 : (S3.buf_i + analog_digital_byte_gap baa spb Ma Md) % 2 ^ 64
      = base + 4 * spb + 2 * (M * spb) + (baa - 2 * (Md * spb)) := by
    rw [hb3, hgap, Nat.mod_eq_of_lt (by omega)]
    omega
  rw [hb4] at e5 ⊢
  rw [e3] at e5 ⊢
  simp only [] at e5 ⊢
  have hamp : ∀ j, (base + 4 * st.sample_i_start + 4 * (stop - st.sample_i_start)
      + (spb - stop) * 4 + 2 * (j % M * spb + st.sample_i_start + (j / M - X0)))
      = base + 4 * spb + 2 * (j % M * spb + (st.sample_i_start + (j / M - X0))) := by
    intro j; omega
  have hana : ∀ j, j % Ma < Ma → (base + 4 * st.sample_i_start
      + 4 * (stop - st.sample_i_start) + (spb - stop) * 4 + 2 * (M * spb)
      + 2 * (j % Ma * ((spb + 3) / 4) + (st.sample_i_start + (j / Ma - X0)) / 4))
      = base + 4 * spb + 2 * (M * spb) + 2 * (j % Ma * (spb / 4)
        + (st.sample_i_start + (j / Ma - X0)) / 4) := by
    intro j hj
    have h4 : (spb + 3) / 4 = spb / 4 := by
      rcases hQ with h | h
      · omega
      · omega
    rw [h4]
    omega
  have htime : ∀ j, base + 4 * st.sample_i_start + 4 * (j - X0)
      = base + 4 * (st.sample_i_start + (j - X0)) := by
    intro j; omega
  have hanalog : (fun j =>
      if j % Ma < Ma ∧ X0 ≤ j / Ma ∧ j / Ma < X0 + (stop - st.sample_i_start) then
        some (aux_V (uint16_at buffer
          (base + 4 * st.sample_i_start + 4 * (stop - st.sample_i_start) + (spb - stop) * 4
            + 2 * (M * spb)
            + 2 * (j % Ma * ((spb + 3) / 4) + (st.sample_i_start + (j / Ma - X0)) / 4))))
      else st.analog_data j) =
      (fun j =>
      if j % Ma < Ma ∧ X0 ≤ j / Ma ∧ j / Ma < X0 + (stop - st.sample_i_start) then
        some (aux_V (uint16_at buffer
          (base + 4 * spb + 2 * (M * spb) + 2 * (j % Ma * (spb / 4)
            + (st.sample_i_start + (j / Ma - X0)) / 4))))
      else st.analog_data j) := by
    funext j
    by_cases hj : j % Ma < Ma ∧ X0 ≤ j / Ma ∧ j / Ma < X0 + (stop - st.sample_i_start)
    · rw [if_pos hj, if_pos hj, hana j hj.1]
    · rw [if_neg hj, if_neg hj]
  by_cases hMd0 : Md > 0
  · have hMd1 : Md = 1 := by omega
    subst hMd1
    simp only [Nat.one_mul] at e5 ⊢
    rw [if_pos hMd0, e5]
    simp only [hbuf, ht, hd hMd0]
    have hc : (base + 4 * st.sample_i_start + 4 * (stop - st.sample_i_start)
        + (spb - stop) * 4 + 2 * (M * spb) + baa) % 2 ^ 64
        = base + 4 * spb + 2 * (M * spb) + (baa - 2 * spb) + st.sample_i_start * 2
          + 2 * (stop - st.sample_i_start) + (spb - stop) * 2 := by
      rw [Nat.mod_eq_of_lt (by omega)]; omega
    rw [if_pos trivial, hc, if_pos rfl]
    congr 1
    simp only [Rhd2000State.mk.injEq, true_and, and_true, hamp, htime, hanalog, hMd0, if_true]
    refine ⟨by omega, by omega, ?_⟩
    funext j
    have : base + 4 * spb + 2 * (M * spb) + (baa - 2 * spb) + st.sample_i_start * 2
        + 2 * (j - X0)
        = base + 4 * spb + 2 * (M * spb) + (baa - 2 * spb)
          + 2 * (st.sample_i_start + (j - X0)) := by omega
    rw [this]
  · have hMd1 : Md = 0 := by omega
    subst hMd1
    simp only [Nat.zero_mul, Nat.mul_zero, Nat.sub_zero] at e5 ⊢
    rw [if_neg hMd0]
    simp only [hbuf]
    have hc : (base + 4 * st.sample_i_start + 4 * (stop - st.sample_i_start)
        + (spb - stop) * 4 + 2 * (M * spb) + baa) % 2 ^ 64
        = base + 4 * spb + 2 * (M * spb) + baa := by
      rw [Nat.mod_eq_of_lt (by omega)]; omega
    rw [hc, if_pos rfl]
    congr 1
    simp only [Rhd2000State.mk.injEq, true_and, and_true, ht, hamp, htime, hanalog,
      Nat.lt_irrefl, false_and, if_false]
    omega

theorem foldlM_range_inv {σ : Type} (P : Nat → σ → Prop) (f : σ → Nat → Except String σ)
    (n : Nat) (s0 : σ) (h0 : P 0 s0)
    (hstep : ∀ i s, i < n → P i s → ∃ s', f s i = .ok s' ∧ P (i + 1) s') :
    ∃ s, (List.range n).foldlM f s0 = .ok s ∧ P n s := by
  induction n with
  | zero => exact ⟨s0, rfl, h0⟩
  | succ n ih =>
    obtain ⟨s, hs, hp⟩ := ih (fun i s hi hp => hstep i s (Nat.lt_succ_of_lt hi) hp)
    obtain ⟨s', hs', hp'⟩ := hstep n s (Nat.lt_succ_self n) hp
    refine ⟨s', ?_, hp'⟩
    rw [List.range_succ, List.foldlM_append, hs]
    simp only [List.foldlM_cons, List.foldlM_nil]
    show (f s n >>= fun x => pure x) = Except.ok s'
    rw [hs']
    rfl

theorem div_mod_of_eq {x bi spb s : Nat} (h : x = bi * spb + s) (hs : s < spb) :
    x / spb = bi ∧ x % spb = s := by
  subst h
  constructor
  · rw [Nat.add_comm, Nat.add_mul_div_right _ _ (by omega), Nat.div_eq_of_lt hs]
    omega
  · rw [Nat.add_comm, Nat.add_mul_mod_self_right, Nat.mod_eq_of_lt hs]

theorem rhd2000_rows_facts (spb so N bi : Nat) (hso : so < spb)
    (hbi : bi ≤ (so + N) / spb) :
    so + (min (bi * spb) (so + N) - so) = bi * spb + (if bi = 0 then so else 0) ∧
    so + (min ((bi + 1) * spb) (so + N) - so)
      = bi * spb + (if bi = (so + N) / spb then (so + N) % spb else spb) ∧
    (if bi = 0 then so else 0) ≤ (if bi = (so + N) / spb then (so + N) % spb else spb) ∧
    (if bi = (so + N) / spb then (so + N) % spb else spb) ≤ spb := by
  have hdm := Nat.div_add_mod (so + N) spb
  have hr : (so + N) % spb < spb := Nat.mod_lt _ (by omega)
  have hle : bi * spb ≤ (so + N) / spb * spb := Nat.mul_le_mul_right spb hbi
  have hc : spb * ((so + N) / spb) = (so + N) / spb * spb := Nat.mul_comm _ _
  have e : (bi + 1) * spb = bi * spb + spb := by ring
  rw [e]
  by_cases h0 : bi = 0
  · subst h0
    simp only [Nat.zero_mul, Nat.zero_add, if_true] at hle ⊢
    by_cases hq : 0 = (so + N) / spb
    · rw [if_pos hq]
      rw [← hq] at hc hdm
      omega
    · rw [if_neg hq]
      have : 1 * spb ≤ (so + N) / spb * spb := Nat.mul_le_mul_right spb (by omega)
      omega
  · rw [if_neg h0]
    have h1 : 1 * spb ≤ bi * spb := Nat.mul_le_mul_right spb (by omega)
    by_cases hq : bi = (so + N) / spb
    · rw [if_pos hq]
      rw [← hq] at hc hdm
      omega
    · rw [if_neg hq]
      have : (bi + 1) * spb ≤ (so + N) / spb * spb := Nat.mul_le_mul_right spb (by omega)
      omega

theorem rhd2000_loop_spec (buffer : Nat → Nat) (baa spb so N M Ma Md : Nat)
    (hso : so < spb) (hMd : Md ≤ 1) (hQ : Ma = 0 ∨ spb % 4 = 0)
    (hbaa : 2 * Md * spb + 2 * Ma * (spb / 4) ≤ baa)
    (hbound : ((so + N) / spb + 1) * (4 * spb + 2 * (M * spb) + baa) < 2 ^ 64) :
    ∃ st, (List.range ((so + N) / spb + 1)).foldlM
        (rhd2000_block buffer baa spb so ((so + N) % spb) M Ma Md ((so + N) / spb + 1))
        ⟨4 * so, 0, 0, 0, so, 0, fun _ => none, fun _ => none, fun _ => none, fun _ => none⟩
        = .ok st ∧
      (∀ j, st.amp_t j = if j < N then
          some (int32_at buffer ((so + j) / spb * (4 * spb + 2 * (M * spb) + baa)
            + 4 * ((so + j) % spb)))
        else none) ∧
      (∀ j, st.amp_data j = if j % M < M ∧ j / M < N then
          some (amp_uV (uint16_at buffer ((so + j / M) / spb * (4 * spb + 2 * (M * spb) + baa)
            + 4 * spb + 2 * (j % M * spb + (so + j / M) % spb))))
        else none) ∧
      (∀ j, st.analog_data j = if j % Ma < Ma ∧ j / Ma < N then
          some (aux_V (uint16_at buffer ((so + j / Ma) / spb * (4 * spb + 2 * (M * spb) + baa)
            + 4 * spb + 2 * (M * spb) + 2 * (j % Ma * (spb / 4) + (so + j / Ma) % spb / 4))))
        else none) ∧
      (∀ j, st.digital_data j = if 0 < Md ∧ j < N then
          some (decide (uint16_at buffer ((so + j) / spb * (4 * spb + 2 * (M * spb) + baa)
            + 4 * spb + 2 * (M * spb) + (baa - 2 * spb) + 2 * ((so + j) % spb)) ≠ 0))
        else none) := by
  have hfinal : min (((so + N) / spb + 1) * spb) (so + N) - so = N := by
    have hdm := Nat.div_add_mod (so + N) spb
    have hr : (so + N) % spb < spb := Nat.mod_lt _ (by omega)
    have hc : spb * ((so + N) / spb) = (so + N) / spb * spb := Nat.mul_comm _ _
    have e : ((so + N) / spb + 1) * spb = (so + N) / spb * spb + spb := by ring
    rw [e]
    omega
  have key := foldlM_range_inv
    (fun bi st =>
      st.buf_i = bi * (4 * spb + 2 * (M * spb) + baa) + 4 * st.sample_i_start ∧
      st.sample_i_start = (if bi = 0 then so else 0) ∧
      st.amp_t_i = min (bi * spb) (so + N) - so ∧
      (0 < Md → st.digital_i = min (bi * spb) (so + N) - so) ∧
      (∀ j, st.amp_t j = if j < min (bi * spb) (so + N) - so then
          some (int32_at buffer ((so + j) / spb * (4 * spb + 2 * (M * spb) + baa)
            + 4 * ((so + j) % spb)))
        else none) ∧
      (∀ j, st.amp_data j = if j % M < M ∧ j / M < min (bi * spb) (so + N) - so then
          some (amp_uV (uint16_at buffer ((so + j / M) / spb * (4 * spb + 2 * (M * spb) + baa)
            + 4 * spb + 2 * (j % M * spb + (so + j / M) % spb))))
        else none) ∧
      (∀ j, st.analog_data j = if j % Ma < Ma ∧ j / Ma < min (bi * spb) (so + N) - so then
          some (aux_V (uint16_at buffer ((so + j / Ma) / spb * (4 * spb + 2 * (M * spb) + baa)
            + 4 * spb + 2 * (M * spb) + 2 * (j % Ma * (spb / 4) + (so + j / Ma) % spb / 4))))
        else none) ∧
      (∀ j, st.digital_data j = if 0 < Md ∧ j < min (bi * spb) (so + N) - so then
          some (decide (uint16_at buffer ((so + j) / spb * (4 * spb + 2 * (M * spb) + baa)
            + 4 * spb + 2 * (M * spb) + (baa - 2 * spb) + 2 * ((so + j) % spb)) ≠ 0))
        else none))
    (rhd2000_block buffer baa spb so ((so + N) % spb) M Ma Md ((so + N) / spb + 1))
    ((so + N) / spb + 1)
    ⟨4 * so, 0, 0, 0, so, 0, fun _ => none, fun _ => none, fun _ => none, fun _ => none⟩
    (by simp) ?_
  · obtain ⟨st, hst, -, -, -, -, h5, h6, h7, h8⟩ := key
    rw [hfinal] at h5 h6 h7 h8
    exact ⟨st, hst, h5, h6, h7, h8⟩
  · rintro bi st hbi ⟨i1, i2, i3, i4, i5, i6, i7, i8⟩
    obtain ⟨f1, f2, f3, f4⟩ := rhd2000_rows_facts spb so N bi hso (by omega)
    rw [← i2] at f1 f3
    generalize hstop : (if bi = (so + N) / spb then (so + N) % spb else spb) = stop
      at f2 f3 f4
    generalize hX0 : min (bi * spb) (so + N) - so = X0 at i3 i4 i5 i6 i7 i8 f1
    have hX1 : min ((bi + 1) * spb) (so + N) - so = X0 + (stop - st.sample_i_start) := by
      omega
    have hle : (bi + 1) * (4 * spb + 2 * (M * spb) + baa)
        ≤ ((so + N) / spb + 1) * (4 * spb + 2 * (M * spb) + baa) :=
      Nat.mul_le_mul_right _ (by omega)
    have e : (bi + 1) * (4 * spb + 2 * (M * spb) + baa)
        = bi * (4 * spb + 2 * (M * spb) + baa) + (4 * spb + 2 * (M * spb) + baa) := by ring
    obtain ⟨v, hblk⟩ := rhd2000_block_eq buffer baa spb so ((so + N) % spb) M Ma Md
      ((so + N) / spb + 1) bi stop X0 (bi * (4 * spb + 2 * (M * spb) + baa)) st
      (by simpa using hstop) f1 f3 f4 i1 i3 i4 hMd hQ hbaa (by omega)
    refine ⟨_, hblk, ?_⟩
    beta_reduce
    rw [hX1]
    simp only []
    have hdm : ∀ x, X0 ≤ x → x < X0 + (stop - st.sample_i_start) →
        (so + x) / spb = bi ∧ (so + x) % spb = st.sample_i_start + (x - X0) := by
      intro x h1 h2
      exact div_mod_of_eq (by omega) (by omega)
    refine ⟨by omega, by simp, trivial, ?_, ?_, ?_, ?_, ?_⟩
    · intro h; rw [if_pos h]
    · intro j
      by_cases hj : X0 ≤ j ∧ j < X0 + (stop - st.sample_i_start)
      · obtain ⟨d1, d2⟩ := hdm j hj.1 hj.2
        rw [if_pos hj, if_pos hj.2, d1, d2]
      · rw [if_neg hj, i5 j]
        by_cases hj2 : j < X0
        · rw [if_pos hj2, if_pos (by omega)]
        · rw [if_neg hj2, if_neg (by omega)]
    · intro j
      by_cases hj : j % M < M ∧ X0 ≤ j / M ∧ j / M < X0 + (stop - st.sample_i_start)
      · obtain ⟨d1, d2⟩ := hdm (j / M) hj.2.1 hj.2.2
        rw [if_pos hj, if_pos ⟨hj.1, hj.2.2⟩, d1, d2]
      · rw [if_neg hj, i6 j]
        by_cases hj2 : j % M < M ∧ j / M < X0
        · rw [if_pos hj2, if_pos ⟨hj2.1, by omega⟩]
        · rw [if_neg hj2, if_neg]
          rintro ⟨g1, g2⟩
          by_cases g3 : j / M < X0
          · exact hj2 ⟨g1, g3⟩
          · exact hj ⟨g1, by omega, g2⟩
    · intro j
      by_cases hj : j % Ma < Ma ∧ X0 ≤ j / Ma ∧ j / Ma < X0 + (stop - st.sample_i_start)
      · obtain ⟨d1, d2⟩ := hdm (j / Ma) hj.2.1 hj.2.2
        rw [if_pos hj, if_pos ⟨hj.1, hj.2.2⟩, d1, d2]
      · rw [if_neg hj, i7 j]
        by_cases hj2 : j % Ma < Ma ∧ j / Ma < X0
        · rw [if_pos hj2, if_pos ⟨hj2.1, by omega⟩]
        · rw [if_neg hj2, if_neg]
          rintro ⟨g1, g2⟩
          by_cases g3 : j / Ma < X0
          · exact hj2 ⟨g1, g3⟩
          · exact hj ⟨g1, by omega, g2⟩
    · intro j
      by_cases hj : 0 < Md ∧ X0 ≤ j ∧ j < X0 + (stop - st.sample_i_start)
      · obtain ⟨d1, d2⟩ := hdm j hj.2.1 hj.2.2
        rw [if_pos hj, if_pos ⟨hj.1, hj.2.2⟩, d1, d2]
      · rw [if_neg hj, i8 j]
        by_cases hj2 : 0 < Md ∧ j < X0
        · rw [if_pos hj2, if_pos ⟨hj2.1, by omega⟩]
        · rw [if_neg hj2, if_neg]
          rintro ⟨g1, g2⟩
          by_cases g3 : j < X0
          · exact hj2 ⟨g1, g3⟩
          · exact hj ⟨g1, by omega, g2⟩

theorem read_rhd2000_batch_spec (file : List Nat) (hdr bpb baa spb a b M Ma : Nat)
    (dig : Bool) (outside : Nat → Nat) (hspb : 0 < spb) (hQ : Ma = 0 ∨ spb % 4 = 0) (hab : a ≤ b)
    (hbaa : 2 * (if dig then 1 else 0) * spb + 2 * Ma * (spb / 4) ≤ baa)
    (hbound : (b / spb + 1 - a / spb) * (4 * spb + 2 * (M * spb) + baa) < 2 ^ 64) :
    read_rhd2000_batch file hdr bpb baa spb a b M Ma dig outside = .ok
      ⟨(List.range (b - a)).map (fun j =>
          some (int32_at (read_buffer file (hdr + a / spb * bpb))
            ((a % spb + j) / spb * (4 * spb + 2 * (M * spb) + baa)
              + 4 * ((a % spb + j) % spb)))),
       (List.range ((b - a) * M)).map (fun j =>
          some (amp_uV (uint16_at (read_buffer file (hdr + a / spb * bpb))
            ((a % spb + j / M) / spb * (4 * spb + 2 * (M * spb) + baa)
              + 4 * spb + 2 * (j % M * spb + (a % spb + j / M) % spb))))),
       (List.range ((b - a) * Ma)).map (fun j =>
          some (aux_V (uint16_at (read_buffer file (hdr + a / spb * bpb))
            ((a % spb + j / Ma) / spb * (4 * spb + 2 * (M * spb) + baa)
              + 4 * spb + 2 * (M * spb)
              + 2 * (j % Ma * (spb / 4) + (a % spb + j / Ma) % spb / 4))))),
       (List.range (b - a)).map (fun j =>
          if dig = true then
            some (Bool.toNat (decide (uint16_at (read_buffer file (hdr + a / spb * bpb))
              ((a % spb + j) / spb * (4 * spb + 2 * (M * spb) + baa)
                + 4 * spb + 2 * (M * spb) + (baa - 2 * spb) + 2 * ((a % spb + j) % spb)) ≠ 0)))
          else some (outside j))⟩ := by
  have hso : a % spb < spb := Nat.mod_lt _ hspb
  have hb : b = spb * (a / spb) + (a % spb + (b - a)) := by
    have := Nat.div_add_mod a spb
    omega
  have hbd : b / spb = a / spb + (a % spb + (b - a)) / spb := by
    conv_lhs => rw [hb]
    rw [Nat.mul_add_div hspb]
  have hbm : b % spb = (a % spb + (b - a)) % spb := by
    conv_lhs => rw [hb]
    rw [Nat.mul_add_mod]
  have hdiv : a / spb ≤ b / spb := Nat.div_le_div_right hab
  have hnb : b / spb + 1 - a / spb = (a % spb + (b - a)) / spb + 1 := by omega
  have hMd : (if dig = true then 1 else 0) ≤ 1 := by split_ifs <;> omega
  rw [hnb] at hbound
  obtain ⟨st, hst, h5, h6, h7, h8⟩ := rhd2000_loop_spec (read_buffer file (hdr + a / spb * bpb))
    baa spb (a % spb) (b - a) M Ma (if dig = true then 1 else 0) hso hMd hQ hbaa hbound
  unfold read_rhd2000_batch
  simp only [if_pos hab]
  rw [if_pos (by omega), hnb, hbm, hst]
  simp only [Except.ok.injEq, RHD2000Data.mk.injEq]
  refine ⟨?_, ?_, ?_, ?_⟩
  · apply List.map_congr_left
    intro j hj
    rw [h5 j, if_pos (List.mem_range.1 hj)]
  · apply List.map_congr_left
    intro j hj
    have hj := List.mem_range.1 hj
    have hM : 0 < M := by
      rcases Nat.eq_zero_or_pos M with h | h
      · subst h; simp at hj
      · exact h
    rw [h6 j, if_pos ⟨Nat.mod_lt _ hM, (Nat.div_lt_iff_lt_mul hM).2 hj⟩]
  · apply List.map_congr_left
    intro j hj
    have hj := List.mem_range.1 hj
    have hM : 0 < Ma := by
      rcases Nat.eq_zero_or_pos Ma with h | h
      · subst h; simp at hj
      · exact h
    rw [h7 j, if_pos ⟨Nat.mod_lt _ hM, (Nat.div_lt_iff_lt_mul hM).2 hj⟩]
  · apply List.map_congr_left
    intro j hj
    have hj := List.mem_range.1 hj
    rw [h8 j]
    cases dig
    · simp
    · simp [hj]

theorem read_rhd2000_batch_decode (file : List Nat) (hdr bpb baa spb a b M Ma : Nat)
    (dig : Bool) (outside : Nat → Nat) (hspb : 0 < spb) (hQ : Ma = 0 ∨ spb % 4 = 0) (hab : a ≤ b)
    (hbaa : 2 * (if dig then 1 else 0) * spb + 2 * Ma * (spb / 4) ≤ baa)
    (hbpb : bpb = 4 * spb + 2 * M * spb + baa)
    (hbound : (b / spb + 1) * bpb < 2 ^ 64) :
    read_rhd2000_batch file hdr bpb baa spb a b M Ma dig outside = .ok
      ⟨(List.range (b - a)).map (fun j => some (rhd2000_time_at file hdr bpb spb (a + j))),
       (List.range ((b - a) * M)).map (fun j =>
          some (rhd2000_amp_at file hdr bpb spb ((a * M + j) / M) ((a * M + j) % M))),
       (List.range ((b - a) * Ma)).map (fun j =>
          some (rhd2000_analog_at file hdr bpb spb M ((a * Ma + j) / Ma) ((a * Ma + j) % Ma))),
       (List.range (b - a)).map (fun j =>
          if dig = true then
            some (Bool.toNat (decide (rhd2000_digital_word file hdr bpb spb (a + j) ≠ 0)))
          else some (outside j))⟩ := by
  have hbpb2 : bpb = 4 * spb + 2 * (M * spb) + baa := by rw [hbpb]; ring
  have hle : (b / spb + 1 - a / spb) * bpb ≤ (b / spb + 1) * bpb :=
    Nat.mul_le_mul_right _ (Nat.sub_le _ _)
  rw [read_rhd2000_batch_spec file hdr bpb baa spb a b M Ma dig outside hspb hQ hab hbaa
    (by rw [← hbpb2]; exact lt_of_le_of_lt hle hbound)]
  rw [← hbpb2]
  have hdm := Nat.div_add_mod a spb
  have hd : ∀ x, (a + x) / spb = a / spb + (a % spb + x) / spb := by
    intro x
    have : a + x = spb * (a / spb) + (a % spb + x) := by omega
    rw [this, Nat.mul_add_div hspb]
  have hm : ∀ x, (a + x) % spb = (a % spb + x) % spb := by
    intro x
    have : a + x = spb * (a / spb) + (a % spb + x) := by omega
    rw [this, Nat.mul_add_mod]
  have hpos : ∀ x y, hdr + a / spb * bpb + ((a % spb + x) / spb * bpb + y)
      = hdr + (a + x) / spb * bpb + y := by
    intro x y
    rw [hd x, Nat.add_mul]
    omega
  simp only [Except.ok.injEq, RHD2000Data.mk.injEq]
  refine ⟨?_, ?_, ?_, ?_⟩
  · apply List.map_congr_left
    intro j _
    rw [rhd2000_time_at, int32_at_read_buffer, hpos, hm]
  · apply List.map_congr_left
    intro j hj
    have hj := List.mem_range.1 hj
    have hM : 0 < M := by
      rcases Nat.eq_zero_or_pos M with h | h
      · subst h; simp at hj
      · exact h
    have e1 : (a * M + j) / M = a + j / M := by
      rw [Nat.mul_comm, Nat.mul_add_div hM]
    have e2 : (a * M + j) % M = j % M := by
      rw [Nat.mul_comm, Nat.mul_add_mod]
    rw [rhd2000_amp_at, uint16_at_read_buffer, e1, e2, ← hpos, hm]
    congr 3
    omega
  · apply List.map_congr_left
    intro j hj
    have hj := List.mem_range.1 hj
    have hM : 0 < Ma := by
      rcases Nat.eq_zero_or_pos Ma with h | h
      · subst h; simp at hj
      · exact h
    have e1 : (a * Ma + j) / Ma = a + j / Ma := by
      rw [Nat.mul_comm, Nat.mul_add_div hM]
    have e2 : (a * Ma + j) % Ma = j % Ma := by
      rw [Nat.mul_comm, Nat.mul_add_mod]
    rw [rhd2000_analog_at, uint16_at_read_buffer, e1, e2, ← hpos, hm]
    congr 3
    omega
  · apply List.map_congr_left
    intro j _
    cases dig
    · simp
    · simp only [if_true, Nat.mul_one] at hbaa ⊢
      rw [rhd2000_digital_word, uint16_at_read_buffer, ← hpos, hm]
      have e : 4 * spb + 2 * (M * spb) + (baa - 2 * spb) = bpb - 2 * spb := by omega
      have e2 : ∀ q y, hdr + a / spb * bpb + (q + 4 * spb + 2 * (M * spb) + (baa - 2 * spb) + y)
          = hdr + a / spb * bpb + (q + (bpb - 2 * spb)) + y := by
        intro q y; omega
      rw [e2]

/-! ## Range semantics and checks of `read_rhd2000_batch` -/

/-- With the digital input disabled, under the hypotheses of
`read_rhd2000_batch_decode`, the digital array is the `b - a` cells outside the
empty buffer. -/
theorem read_rhd2000_batch_digital_disabled (file : List Nat)
    (hdr bpb baa spb a b M Ma : Nat) (outside : Nat → Nat)
    (hspb : 0 < spb) (hQ : Ma = 0 ∨ spb % 4 = 0) (hab : a ≤ b)
    (hbaa : 2 * Ma * (spb / 4) ≤ baa)
    (hbpb : bpb = 4 * spb + 2 * M * spb + baa)
    (hbound : (b / spb + 1) * bpb < 2 ^ 64) :
    (read_rhd2000_batch file hdr bpb baa spb a b M Ma false outside).map RHD2000Data.digital
      = .ok ((List.range (b - a)).map (fun j => some (outside j))) := by
  rw [read_rhd2000_batch_decode file hdr bpb baa spb a b M Ma false outside hspb hQ hab
    (by simpa using hbaa) hbpb hbound]
  simp [Except.map]

/-- C26 (as amended): when `samples_per_block` is divisible by 4, or there is no
analog channel, and `bytes_after_amp` covers the auxiliary data, the cursor check
of every block passes and `read_rhd2000_batch` returns its arrays. -/
theorem read_rhd2000_batch_aux_check (file : List Nat) (hdr bpb baa spb a b M Ma : Nat)
    (dig : Bool) (outside : Nat → Nat) (hspb : 1 ≤ spb) (hQ : spb % 4 = 0 ∨ Ma = 0)
    (hab : a ≤ b)
    (hbaa : 2 * (if dig then 1 else 0) * spb + 2 * Ma * (spb / 4) ≤ baa)
    (hbound : (b / spb + 1 - a / spb) * (4 * spb + 2 * (M * spb) + baa) < 2 ^ 64) :
    (∃ d, read_rhd2000_batch file hdr bpb baa spb a b M Ma dig outside = .ok d) ∧
    read_rhd2000_batch file hdr bpb baa spb a b M Ma dig outside
      ≠ .error "Inconsistent index after reading aux data" := by
  have h := read_rhd2000_batch_spec file hdr bpb baa spb a b M Ma dig outside hspb hQ.symm hab hbaa
    hbound
  refine ⟨⟨_, h⟩, ?_⟩
  rw [h]
  exact fun e => Except.noConfusion e

theorem read_rhd2000_batch_aux_check_witness :
    (1 ≤ 4 ∧ (4 % 4 = 0 ∨ 1 = 0) ∧ 3 ≤ 9 ∧
      2 * (if true then 1 else 0) * 4 + 2 * 1 * (4 / 4) ≤ 10 ∧
      (9 / 4 + 1 - 3 / 4) * (4 * 4 + 2 * (1 * 4) + 10) < 2 ^ 64) ∧
    ((∃ d, read_rhd2000_batch [] 0 34 10 4 3 9 1 1 true (fun _ => 0) = .ok d) ∧
    read_rhd2000_batch [] 0 34 10 4 3 9 1 1 true (fun _ => 0)
      ≠ .error "Inconsistent index after reading aux data") :=
  ⟨by decide, read_rhd2000_batch_aux_check [] 0 34 10 4 3 9 1 1 true (fun _ => 0) (by decide)
    (by decide) (by decide) (by decide) (by decide)⟩

/-- C26 (as stated) fails: with one sample per block, one analog channel, no digital
input and `bytes_after_amp = 0`, the analog loop reads one word in a block whose
gap was computed for `1 / 4 = 0` words, and the cursor check throws. -/
theorem read_rhd2000_batch_aux_check_counterexample :
    1 ≤ 1 ∧ 2 * (if false then 1 else 0) * 1 + 2 * 1 * (1 / 4) ≤ 0 ∧
    read_rhd2000_batch [7, 0, 0, 0] 0 4 0 1 0 1 0 1 false (fun _ => 0)
      = .error "Inconsistent index after reading aux data" :=
  ⟨by decide, by decide, rfl⟩

/-- C25: on a block of four samples whose digital words are 2, 0, 256 and 65535,
`read_rhd2000_batch` with the digital input enabled returns 1, 0, 1 and 1: the
`bool` buffer keeps only whether a word is nonzero. -/
theorem read_rhd2000_batch_digital (outside : Nat → Nat) :
    (List.range 4).map (rhd2000_digital_word
      [0, 0, 0, 0, 1, 0, 0, 0, 2, 0, 0, 0, 3, 0, 0, 0, 2, 0, 0, 0, 0, 1, 255, 255] 0 24 4)
      = [2, 0, 256, 65535] ∧
    (read_rhd2000_batch
      [0, 0, 0, 0, 1, 0, 0, 0, 2, 0, 0, 0, 3, 0, 0, 0, 2, 0, 0, 0, 0, 1, 255, 255]
      0 24 8 4 0 4 0 0 true outside).map RHD2000Data.digital
      = .ok [some 1, some 0, some 1, some 1] :=
  ⟨by decide, rfl⟩

/-- C29: at `start_sample = 2 ^ 64 - 1` and `stop_sample = 0`, `read_rhd2000_batch` and
`read_rhd64_batch` throw, and `read_intan_ofps_batch`, which has no check,
computes `N = stop_sample - start_sample = 1` and returns arrays of one row. -/
theorem decoders_inverted_range (outside : Nat → Nat) :
    read_rhd2000_batch [] 0 4 0 1 18446744073709551615 0 1 0 false outside
      = .error "stop_sample cannot occur before start_sample" ∧
    read_rhd64_batch [] 18446744073709551615 0
      = .error "Stop sample cannot occur before start sample" ∧
    ∃ t v, read_intan_ofps_batch [] [] 18446744073709551615 0 1 = .ok ([t], [v]) :=
  ⟨rfl, rfl, _, _, rfl⟩

/-! ## The snippeter: one channel group at a time -/

theorem foldl_set_getD_range {α : Type} (f : Nat → α → α) (d : α) (l : List α) (n : Nat)
    (h : n ≤ l.length) :
    (List.range n).foldl (fun m i => m.set i (f i (m.getD i d))) l
      = (List.range n).map (fun i => f i (l.getD i d)) ++ l.drop n := by
  induction n with
  | zero => simp
  | succ n ih =>
    rw [List.range_succ, List.foldl_append, ih (by omega)]
    simp only [List.foldl_cons, List.foldl_nil, List.map_append, List.map_cons, List.map_nil]
    have hlen : ((List.range n).map (fun i => f i (l.getD i d))).length = n := by simp
    have hget : ((List.range n).map (fun i => f i (l.getD i d)) ++ l.drop n).getD n d
        = l.getD n d := by
      rw [List.getD_eq_getElem?_getD, List.getElem?_append_right (by omega), hlen,
        Nat.sub_self, List.getD_eq_getElem?_getD]
      simp
    rw [hget, List.set_append_right _ _ (by omega), hlen, Nat.sub_self,
      List.drop_eq_getElem_cons (by omega : n < l.length)]
    simp only [List.set_cons_zero, List.append_assoc, List.singleton_append]

theorem snippet_sample_eq (time : List Int) (data : Array2D) (hi_thr lo_thr : F32)
    (return_n n_channels snip_left snip_right N T : Nat) (groups : List SnippetGroup)
    (sample_i : Nat) (h : groups.length = T) :
    snippet_sample time data hi_thr lo_thr return_n n_channels snip_left snip_right N T
        groups sample_i
      = (List.range T).map (fun T_i =>
          snippet_group_step time data hi_thr lo_thr return_n n_channels snip_left snip_right
            N sample_i T_i (groups.getD T_i ⟨false, 0, .fin 0, 0, [], []⟩)) := by
  unfold snippet_sample
  rw [foldl_set_getD_range (fun T_i g => snippet_group_step time data hi_thr lo_thr return_n
    n_channels snip_left snip_right N sample_i T_i g) _ groups T (by omega)]
  rw [← h, List.drop_length, List.append_nil]

theorem snippet_loop_group (time : List Int) (data : Array2D) (hi_thr lo_thr : F32)
    (return_n n_channels snip_left snip_right N T : Nat) (n : Nat) :
    ((List.range n).foldl
        (snippet_sample time data hi_thr lo_thr return_n n_channels snip_left snip_right N T)
        (List.replicate T ⟨false, 0, .fin 0, 0, [], []⟩)).length = T ∧
    ∀ T_i, T_i < T →
      ((List.range n).foldl
        (snippet_sample time data hi_thr lo_thr return_n n_channels snip_left snip_right N T)
        (List.replicate T ⟨false, 0, .fin 0, 0, [], []⟩)).getD T_i ⟨false, 0, .fin 0, 0, [], []⟩
      = ((List.range n).foldl
          (snippet_trace_step time data hi_thr lo_thr return_n n_channels snip_left snip_right
            N T_i)
          ⟨⟨false, 0, .fin 0, 0, [], []⟩, 0, []⟩).group := by
  induction n with
  | zero =>
    refine ⟨by simp, ?_⟩
    intro T_i hT
    simp [List.getD_eq_getElem?_getD, List.getElem?_replicate, hT]
  | succ n ih =>
    obtain ⟨hl, hg⟩ := ih
    rw [List.range_succ, List.foldl_append]
    simp only [List.foldl_cons, List.foldl_nil]
    rw [snippet_sample_eq _ _ _ _ _ _ _ _ _ _ _ _ hl]
    refine ⟨by simp, ?_⟩
    intro T_i hT
    rw [List.getD_eq_getElem?_getD, List.getElem?_map, List.getElem?_range hT]
    simp only [Option.map_some', Option.getD_some]
    rw [hg T_i hT, List.foldl_append]
    simp only [List.foldl_cons, List.foldl_nil, snippet_trace_step]

/-! ## Order facts of the float comparisons -/

theorem f32_gt_not_nan {a b : F32} (h : F32.gt a b = true) : a ≠ .nan ∧ b ≠ .nan := by
  cases a <;> cases b <;> simp [F32.gt] at h ⊢

theorem f32_gt_irrefl (a : F32) : F32.gt a a = false := by
  cases a <;> simp [F32.gt]

theorem f32_gt_asymm {a b : F32} (h : F32.gt a b = true) : F32.gt b a = false := by
  cases a <;> cases b <;> simp [F32.gt] at h ⊢
  · exact le_of_lt h
  · exact h
  · exact h
  · intro h2; simp [h2] at h

theorem f32_gt_trans {a b c : F32} (h1 : F32.gt a b = true) (h2 : F32.gt b c = true) :
    F32.gt a c = true := by
  cases a <;> cases b <;> cases c <;> simp [F32.gt] at h1 h2 ⊢
  · exact lt_trans h2 h1
  all_goals simp_all

theorem f32_not_gt_trans {a b c : F32} (h1 : F32.gt a b = false) (h2 : F32.gt b c = false)
    (hb : b ≠ .nan) : F32.gt a c = false := by
  cases a <;> cases b <;> cases c <;> simp [F32.gt] at h1 h2 hb ⊢
  · exact le_trans h1 h2
  all_goals simp_all

theorem f32_not_gt_of_gt {a b c : F32} (h1 : F32.gt a b = false) (h2 : F32.gt c b = true) :
    F32.gt a c = false := by
  cases a <;> cases b <;> cases c <;> simp [F32.gt] at h1 h2 ⊢
  · exact le_of_lt (lt_of_le_of_lt h1 h2)
  all_goals simp_all

theorem f32_abs_nonneg (a : F32) : F32.gt (.fin 0) (F32.abs a) = false := by
  cases a <;> simp [F32.gt, F32.abs]

theorem f32_ge_of_not_gt {a b : F32} (h : F32.gt a b = false) (ha : a ≠ .nan)
    (hb : b ≠ .nan) : F32.ge b a = true := by
  cases a <;> cases b <;> simp [F32.gt, F32.ge] at h ha hb ⊢
  · exact h
  · exact h
  · exact h
  · rename_i x y
    cases x <;> cases y <;> simp_all

/-! ## The channel scans of the snippeter -/

theorem std_max_foldl (vs : List F32) (m0 : F32) (h0 : m0 ≠ .nan) :
    vs.foldl std_max m0 ≠ .nan ∧ F32.gt m0 (vs.foldl std_max m0) = false ∧
    (∀ v ∈ vs, F32.gt v (vs.foldl std_max m0) = false) ∧
    (vs.foldl std_max m0 = m0 ∨ vs.foldl std_max m0 ∈ vs) := by
  induction vs generalizing m0 with
  | nil => exact ⟨h0, f32_gt_irrefl m0, by simp, Or.inl rfl⟩
  | cons v vs ih =>
    have h1 : std_max m0 v ≠ .nan := by
      unfold std_max
      split_ifs with h
      · exact (f32_gt_not_nan h).1
      · exact h0
    have h2 : F32.gt m0 (std_max m0 v) = false := by
      unfold std_max
      split_ifs with h
      · exact f32_gt_asymm h
      · exact f32_gt_irrefl m0
    have h3 : F32.gt v (std_max m0 v) = false := by
      unfold std_max
      split_ifs with h
      · exact f32_gt_irrefl v
      · simpa using h
    obtain ⟨i1, i2, i3, i4⟩ := ih (std_max m0 v) h1
    simp only [List.foldl_cons]
    refine ⟨i1, f32_not_gt_trans h2 i2 h1, ?_, ?_⟩
    · intro x hx
      rcases List.mem_cons.1 hx with rfl | hx
      · exact f32_not_gt_trans h3 i2 h1
      · exact i3 x hx
    · rcases i4 with h | h
      · rw [h]
        unfold std_max
        split_ifs
        · exact Or.inr (List.mem_cons_self _ _)
        · exact Or.inl rfl
      · exact Or.inr (List.mem_cons_of_mem _ h)

theorem scan_foldl_and {α : Type} (p : α → Bool) (f : α → F32) (l : List α) (b0 : Bool)
    (m0 : F32) :
    l.foldl (fun acc x => (acc.1 && p x, std_max acc.2 (f x))) (b0, m0)
      = (b0 && l.all p, (l.map f).foldl std_max m0) := by
  induction l generalizing b0 m0 with
  | nil => simp
  | cons x l ih => simp [ih, Bool.and_assoc]

theorem scan_foldl_or {α : Type} (p : α → Bool) (f : α → F32) (l : List α) (b0 : Bool)
    (m0 : F32) :
    l.foldl (fun acc x => (acc.1 || p x, std_max acc.2 (f x))) (b0, m0)
      = (b0 || l.any p, (l.map f).foldl std_max m0) := by
  induction l generalizing b0 m0 with
  | nil => simp
  | cons x l ih => simp [ih, Bool.or_assoc]

theorem snippet_scan_detected_eq (data : Array2D) (lo_thr : F32) (sample_i C_g nc : Nat) :
    snippet_scan_detected data lo_thr sample_i C_g nc
      = ((List.range nc).all (fun c => F32.gt lo_thr (F32.abs (data.at sample_i (C_g + c)))),
         ((List.range nc).map (fun c => F32.abs (data.at sample_i (C_g + c)))).foldl
           std_max (.fin 0)) := by
  unfold snippet_scan_detected
  rw [scan_foldl_and (fun c => F32.gt lo_thr (F32.abs (data.at sample_i c)))
    (fun c => F32.abs (data.at sample_i c)), List.range'_eq_map_range]
  simp [List.all_map, Function.comp_def]

theorem snippet_scan_undetected_eq (data : Array2D) (hi_thr : F32) (sample_i C_g nc : Nat) :
    snippet_scan_undetected data hi_thr sample_i C_g nc
      = ((List.range nc).any (fun c => F32.gt (F32.abs (data.at sample_i (C_g + c))) hi_thr),
         ((List.range nc).map (fun c => F32.abs (data.at sample_i (C_g + c)))).foldl
           std_max (.fin 0)) := by
  unfold snippet_scan_undetected
  rw [scan_foldl_or (fun c => F32.gt (F32.abs (data.at sample_i (C_g + c))) hi_thr)
    (fun c => F32.abs (data.at sample_i (C_g + c)))]
  simp

theorem scan_max_spec (data : Array2D) (sample_i C_g nc : Nat) :
    ((List.range nc).map (fun c => F32.abs (data.at sample_i (C_g + c)))).foldl
        std_max (.fin 0) ≠ .nan ∧
    F32.gt (.fin 0) (((List.range nc).map
      (fun c => F32.abs (data.at sample_i (C_g + c)))).foldl std_max (.fin 0)) = false ∧
    (∀ c, c < nc → F32.gt (F32.abs (data.at sample_i (C_g + c)))
      (((List.range nc).map (fun c => F32.abs (data.at sample_i (C_g + c)))).foldl
        std_max (.fin 0)) = false) ∧
    (((List.range nc).map (fun c => F32.abs (data.at sample_i (C_g + c)))).foldl
        std_max (.fin 0) = .fin 0 ∨
      ∃ c, c < nc ∧ ((List.range nc).map
        (fun c => F32.abs (data.at sample_i (C_g + c)))).foldl std_max (.fin 0)
          = F32.abs (data.at sample_i (C_g + c))) := by
  obtain ⟨h1, h2, h3, h4⟩ := std_max_foldl
    ((List.range nc).map (fun c => F32.abs (data.at sample_i (C_g + c)))) (.fin 0)
    (by simp)
  refine ⟨h1, h2, ?_, ?_⟩
  · intro c hc
    exact h3 _ (List.mem_map.2 ⟨c, List.mem_range.2 hc, rfl⟩)
  · rcases h4 with h | h
    · exact Or.inl h
    · obtain ⟨c, hc, he⟩ := List.mem_map.1 h
      exact Or.inr ⟨c, List.mem_range.1 hc, he.symm⟩

/-! ## The snippet taken at a peak -/

theorem foldl_push_eq {α β : Type} (f : α → β) (l : List α) (acc : List β) :
    l.foldl (fun snippets w_i => snippets ++ [f w_i]) acc = acc ++ l.map f := by
  induction l generalizing acc with
  | nil => simp
  | cons x l ih => simp [ih]

theorem foldl_append_eq {α β : Type} (f : α → List β) (l : List α) (acc : List β) :
    l.foldl (fun snippets c_i => snippets ++ f c_i) acc = acc ++ l.flatMap f := by
  induction l generalizing acc with
  | nil => simp
  | cons x l ih => simp [ih]

theorem snippet_take_guard (snip_left snip_right N p : Nat) (hN : N < 2 ^ 64) (hp : p < N)
    (hlr : snip_right ≤ snip_left + 1)
    (hg : p > usub snip_left 1 ∧ p < usub N snip_right) :
    1 ≤ snip_left ∧ snip_left ≤ p ∧ p + snip_right < N := by
  unfold usub at hg
  obtain ⟨h1, h2⟩ := hg
  by_cases hs : 1 ≤ snip_left
  · rw [if_pos hs] at h1
    by_cases hr : snip_right ≤ N
    · rw [if_pos hr] at h2
      omega
    · omega
  · rw [if_neg hs] at h1
    omega

theorem snippet_take_eq (time : List Int) (data : Array2D) (snip_left snip_right N : Nat)
    (C_g nc : Nat) (g : SnippetGroup) (hl : snip_left ≤ g.peak_times)
    (hg : g.peak_times > usub snip_left 1 ∧ g.peak_times < usub N snip_right) :
    snippet_take time data snip_left snip_right N C_g nc g =
      { g with
        group_snippets := g.group_snippets ++ (List.range' C_g nc).flatMap (fun c =>
          (List.range' (g.peak_times - snip_left) (snip_left + snip_right)).map
            (fun w => data.at w c)),
        group_times := g.group_times ++ [time.getD g.peak_times 0] } := by
  unfold snippet_take
  rw [if_pos hg, usub_of_le hl]
  have e : g.peak_times + snip_right - (g.peak_times - snip_left) = snip_left + snip_right := by
    omega
  rw [e]
  simp only [foldl_push_eq]
  rw [foldl_append_eq]

theorem snippet_take_skip (time : List Int) (data : Array2D) (snip_left snip_right N : Nat)
    (C_g nc : Nat) (g : SnippetGroup)
    (hg : ¬ (g.peak_times > usub snip_left 1 ∧ g.peak_times < usub N snip_right)) :
    snippet_take time data snip_left snip_right N C_g nc g = g := by
  unfold snippet_take
  rw [if_neg hg]

/-! ## The run of one channel group -/

theorem snippet_group_step_undetected (time : List Int) (data : Array2D) (hi_thr lo_thr : F32)
    (return_n nc snip_left snip_right N i T_i : Nat) (g : SnippetGroup)
    (hdet : g.detected = false) :
    snippet_group_step time data hi_thr lo_thr return_n nc snip_left snip_right N i T_i g =
      if (List.range nc).any
          (fun c => F32.gt (F32.abs (data.at i (T_i * nc + c))) hi_thr) = true then
        { g with
          detected := true,
          peak_vals := ((List.range nc).map
            (fun c => F32.abs (data.at i (T_i * nc + c)))).foldl std_max (.fin 0),
          peak_times := i }
      else g := by
  unfold snippet_group_step
  rw [hdet]
  simp only [snippet_scan_undetected_eq, Bool.false_eq_true, if_false]

theorem snippet_group_step_detected (time : List Int) (data : Array2D) (hi_thr lo_thr : F32)
    (return_n nc snip_left snip_right N i T_i : Nat) (g : SnippetGroup)
    (hdet : g.detected = true) (pv : F32 × Nat)
    (hpv : pv = if F32.gt (((List.range nc).map
        (fun c => F32.abs (data.at i (T_i * nc + c)))).foldl std_max (.fin 0)) g.peak_vals
        = true then
      (((List.range nc).map
        (fun c => F32.abs (data.at i (T_i * nc + c)))).foldl std_max (.fin 0), i)
      else (g.peak_vals, g.peak_times)) :
    snippet_group_step time data hi_thr lo_thr return_n nc snip_left snip_right N i T_i g =
      if (List.range nc).all
          (fun c => F32.gt lo_thr (F32.abs (data.at i (T_i * nc + c)))) = true then
        if g.returned + 1 ≥ return_n then
          { snippet_take time data snip_left snip_right N (T_i * nc) nc
              { g with peak_vals := pv.1, peak_times := pv.2, returned := g.returned + 1 } with
            detected := false, returned := 0, peak_vals := .fin 0 }
        else { g with peak_vals := pv.1, peak_times := pv.2, returned := g.returned + 1 }
      else { g with peak_vals := pv.1, peak_times := pv.2, returned := 0 } := by
  subst hpv
  obtain ⟨d, r, pv0, pt0, gt0, gs0⟩ := g
  simp only at hdet
  subst hdet
  unfold snippet_group_step
  simp only [snippet_scan_detected_eq, if_true]
  by_cases h : F32.gt (((List.range nc).map
      (fun c => F32.abs (data.at i (T_i * nc + c)))).foldl std_max (.fin 0)) pv0 = true
  · simp only [h, if_true]
  · simp only [h]
    rfl

theorem snippet_trace_spec (time : List Int) (data : Array2D) (hi_thr lo_thr : F32)
    (return_n nc snip_left snip_right N T_i : Nat)
    (hhi : F32.gt hi_thr (.fin 0) = true) (hN : N < 2 ^ 64)
    (hlr : snip_right ≤ snip_left + 1) (n : Nat) (hn : n ≤ N) :
    ((List.range n).foldl
      (snippet_trace_step time data hi_thr lo_thr return_n nc snip_left snip_right N T_i)
      ⟨⟨false, 0, .fin 0, 0, [], []⟩, 0, []⟩).group.group_times
      = ((List.range n).foldl
          (snippet_trace_step time data hi_thr lo_thr return_n nc snip_left snip_right N T_i)
          ⟨⟨false, 0, .fin 0, 0, [], []⟩, 0, []⟩).events.map (fun e => time.getD e.2.1 0) ∧
    ((List.range n).foldl
      (snippet_trace_step time data hi_thr lo_thr return_n nc snip_left snip_right N T_i)
      ⟨⟨false, 0, .fin 0, 0, [], []⟩, 0, []⟩).group.group_snippets
      = ((List.range n).foldl
          (snippet_trace_step time data hi_thr lo_thr return_n nc snip_left snip_right N T_i)
          ⟨⟨false, 0, .fin 0, 0, [], []⟩, 0, []⟩).events.flatMap (fun e =>
            (List.range' (T_i * nc) nc).flatMap (fun c =>
              (List.range' (e.2.1 - snip_left) (snip_left + snip_right)).map
                (fun w => data.at w c))) ∧
    ∀ e ∈ ((List.range n).foldl
        (snippet_trace_step time data hi_thr lo_thr return_n nc snip_left snip_right N T_i)
        ⟨⟨false, 0, .fin 0, 0, [], []⟩, 0, []⟩).events,
      e.1 ≤ e.2.1 ∧ e.2.1 ≤ e.2.2 ∧ e.2.2 < n ∧ 1 ≤ snip_left ∧ snip_left ≤ e.2.1 ∧
      e.2.1 + snip_right < N ∧
      (∃ c, c < nc ∧ F32.gt (F32.abs (data.at e.1 (T_i * nc + c))) hi_thr = true) ∧
      ∃ c0, c0 < nc ∧ F32.abs (data.at e.2.1 (T_i * nc + c0)) ≠ .nan ∧
        ∀ s, e.1 ≤ s → s ≤ e.2.2 → ∀ c, c < nc →
          F32.gt (F32.abs (data.at s (T_i * nc + c)))
            (F32.abs (data.at e.2.1 (T_i * nc + c0))) = false := by
  have key := foldl_range_inv
    (fun n t =>
      t.group.group_times = t.events.map (fun e => time.getD e.2.1 0) ∧
      t.group.group_snippets = t.events.flatMap (fun e =>
            (List.range' (T_i * nc) nc).flatMap (fun c =>
              (List.range' (e.2.1 - snip_left) (snip_left + snip_right)).map
                (fun w => data.at w c))) ∧
      (∀ e ∈ t.events,
        e.1 ≤ e.2.1 ∧ e.2.1 ≤ e.2.2 ∧ e.2.2 < n ∧ 1 ≤ snip_left ∧ snip_left ≤ e.2.1 ∧
        e.2.1 + snip_right < N ∧
        (∃ c, c < nc ∧ F32.gt (F32.abs (data.at e.1 (T_i * nc + c))) hi_thr = true) ∧
        ∃ c0, c0 < nc ∧ F32.abs (data.at e.2.1 (T_i * nc + c0)) ≠ .nan ∧
          ∀ s, e.1 ≤ s → s ≤ e.2.2 → ∀ c, c < nc →
            F32.gt (F32.abs (data.at s (T_i * nc + c)))
              (F32.abs (data.at e.2.1 (T_i * nc + c0))) = false) ∧
      (t.group.detected = true →
        t.det ≤ t.group.peak_times ∧ t.group.peak_times < n ∧
        (∃ c, c < nc ∧ F32.gt (F32.abs (data.at t.det (T_i * nc + c))) hi_thr = true) ∧
        ∃ c0, c0 < nc ∧ t.group.peak_vals = F32.abs (data.at t.group.peak_times (T_i * nc + c0))
          ∧ t.group.peak_vals ≠ .nan ∧
          ∀ s, t.det ≤ s → s < n → ∀ c, c < nc →
            F32.gt (F32.abs (data.at s (T_i * nc + c))) t.group.peak_vals = false))
    (snippet_trace_step time data hi_thr lo_thr return_n nc snip_left snip_right N T_i)
    n ⟨⟨false, 0, .fin 0, 0, [], []⟩, 0, []⟩ (by simp) ?_
  · exact ⟨key.1, key.2.1, key.2.2.1⟩
  · rintro i ⟨g, det, events⟩ hi ⟨ia, ib, ic, id⟩
    simp only at ia ib ic id
    have hmono : ∀ e ∈ events,
        e.1 ≤ e.2.1 ∧ e.2.1 ≤ e.2.2 ∧ e.2.2 < i + 1 ∧ 1 ≤ snip_left ∧ snip_left ≤ e.2.1 ∧
        e.2.1 + snip_right < N ∧
        (∃ c, c < nc ∧ F32.gt (F32.abs (data.at e.1 (T_i * nc + c))) hi_thr = true) ∧
        ∃ c0, c0 < nc ∧ F32.abs (data.at e.2.1 (T_i * nc + c0)) ≠ .nan ∧
          ∀ s, e.1 ≤ s → s ≤ e.2.2 → ∀ c, c < nc →
            F32.gt (F32.abs (data.at s (T_i * nc + c)))
              (F32.abs (data.at e.2.1 (T_i * nc + c0))) = false := by
      intro e he
      obtain ⟨h1, h2, h3, h4⟩ := ic e he
      exact ⟨h1, h2, by omega, h4⟩
    obtain ⟨m1, m2, m3, m4⟩ := scan_max_spec data i (T_i * nc) nc
    generalize hm : ((List.range nc).map
      (fun c => F32.abs (data.at i (T_i * nc + c)))).foldl std_max (.fin 0) = m at m1 m2 m3 m4
    cases hdet : g.detected
    · -- not in a detected state
      have hstep := snippet_group_step_undetected time data hi_thr lo_thr return_n nc
        snip_left snip_right N i T_i g hdet
      rw [hm] at hstep
      unfold snippet_trace_step
      simp only [hdet, true_and]
      by_cases habove : (List.range nc).any
          (fun c => F32.gt (F32.abs (data.at i (T_i * nc + c))) hi_thr) = true
      · rw [if_pos habove] at hstep
        rw [hstep]
        simp only [lt_self_iff_false, if_false, if_true]
        refine ⟨ia, ib, hmono, fun _ => ?_⟩
        obtain ⟨c, hc, hgt⟩ := List.any_eq_true.1 habove
        have hc := List.mem_range.1 hc
        refine ⟨le_refl _, Nat.lt_succ_self _, ⟨c, hc, hgt⟩, ?_⟩
        have hatt : ∃ c0, c0 < nc ∧ m = F32.abs (data.at i (T_i * nc + c0)) := by
          rcases m4 with h | h
          · exfalso
            have h1 := f32_gt_trans hgt hhi
            have h2 := m3 c hc
            rw [h] at h2
            rw [h1] at h2
            exact Bool.noConfusion h2
          · exact h
        obtain ⟨c0, hc0, he⟩ := hatt
        refine ⟨c0, hc0, he, m1, ?_⟩
        intro s hs1 hs2 c' hc'
        have : s = i := by omega
        subst this
        exact m3 c' hc'
      · rw [if_neg habove] at hstep
        rw [hstep]
        simp only [hdet, lt_self_iff_false, if_false, Bool.false_eq_true]
        exact ⟨ia, ib, hmono, fun h => h.elim⟩
    · -- in a detected state
      obtain ⟨d1, d2, d3, c0, hc0, d4, d5, d6⟩ := id hdet
      have hpk : ∀ pv : F32 × Nat,
          pv = (if F32.gt m g.peak_vals = true then (m, i) else (g.peak_vals, g.peak_times)) →
          det ≤ pv.2 ∧ pv.2 < i + 1 ∧
          ∃ c1, c1 < nc ∧ pv.1 = F32.abs (data.at pv.2 (T_i * nc + c1)) ∧ pv.1 ≠ .nan ∧
            ∀ s, det ≤ s → s < i + 1 → ∀ c, c < nc →
              F32.gt (F32.abs (data.at s (T_i * nc + c))) pv.1 = false := by
        intro pv hpv
        by_cases hgt : F32.gt m g.peak_vals = true
        · rw [if_pos hgt] at hpv
          subst hpv
          refine ⟨by omega, Nat.lt_succ_self _, ?_⟩
          have hatt : ∃ c1, c1 < nc ∧ m = F32.abs (data.at i (T_i * nc + c1)) := by
            rcases m4 with h | h
            · exfalso
              rw [h, d4, f32_abs_nonneg] at hgt
              exact Bool.noConfusion hgt
            · exact h
          obtain ⟨c1, hc1, he⟩ := hatt
          refine ⟨c1, hc1, he, m1, ?_⟩
          intro s hs1 hs2 c hc
          by_cases hsi : s < i
          · exact f32_not_gt_of_gt (d6 s hs1 hsi c hc) hgt
          · have : s = i := by omega
            subst this
            exact m3 c hc
        · rw [if_neg hgt] at hpv
          subst hpv
          refine ⟨d1, by omega, c0, hc0, d4, d5, ?_⟩
          intro s hs1 hs2 c hc
          by_cases hsi : s < i
          · exact d6 s hs1 hsi c hc
          · have : s = i := by omega
            subst this
            exact f32_not_gt_trans (m3 c hc) (by simpa using hgt) m1
      generalize hpvdef :
        (if F32.gt m g.peak_vals = true then (m, i) else (g.peak_vals, g.peak_times)) = pv
        at hpk
      obtain ⟨k1, k2, c1, hc1, k3, k4, k5⟩ := hpk pv rfl
      have hstep := snippet_group_step_detected time data hi_thr lo_thr return_n nc
        snip_left snip_right N i T_i g hdet pv (by rw [hm]; exact hpvdef.symm)
      have hkeep : ∀ r : Nat,
          (fun (n : Nat) (t : SnippetTrace) =>
            t.group.group_times = t.events.map (fun e => time.getD e.2.1 0) ∧
            t.group.group_snippets = t.events.flatMap (fun e =>
              (List.range' (T_i * nc) nc).flatMap (fun c =>
                (List.range' (e.2.1 - snip_left) (snip_left + snip_right)).map
                  (fun w => data.at w c))) ∧
            (∀ e ∈ t.events,
              e.1 ≤ e.2.1 ∧ e.2.1 ≤ e.2.2 ∧ e.2.2 < n ∧ 1 ≤ snip_left ∧ snip_left ≤ e.2.1 ∧
              e.2.1 + snip_right < N ∧
              (∃ c, c < nc ∧ F32.gt (F32.abs (data.at e.1 (T_i * nc + c))) hi_thr = true) ∧
              ∃ c0, c0 < nc ∧ F32.abs (data.at e.2.1 (T_i * nc + c0)) ≠ .nan ∧
                ∀ s, e.1 ≤ s → s ≤ e.2.2 → ∀ c, c < nc →
                  F32.gt (F32.abs (data.at s (T_i * nc + c)))
                    (F32.abs (data.at e.2.1 (T_i * nc + c0))) = false) ∧
            (t.group.detected = true →
              t.det ≤ t.group.peak_times ∧ t.group.peak_times < n ∧
              (∃ c, c < nc ∧
                F32.gt (F32.abs (data.at t.det (T_i * nc + c))) hi_thr = true) ∧
              ∃ c0, c0 < nc ∧
                t.group.peak_vals = F32.abs (data.at t.group.peak_times (T_i * nc + c0))
                ∧ t.group.peak_vals ≠ .nan ∧
                ∀ s, t.det ≤ s → s < n → ∀ c, c < nc →
                  F32.gt (F32.abs (data.at s (T_i * nc + c))) t.group.peak_vals = false))
          (i + 1)
          ⟨{ g with peak_vals := pv.1, peak_times := pv.2, returned := r }, det, events⟩ := by
        intro r
        exact ⟨ia, ib, hmono, fun _ => ⟨k1, k2, d3, c1, hc1, k3, k4, k5⟩⟩
      unfold snippet_trace_step
      simp only [hdet, Bool.true_eq_false, false_and, if_false]
      by_cases hbelow : (List.range nc).all
          (fun c => F32.gt lo_thr (F32.abs (data.at i (T_i * nc + c)))) = true
      · rw [if_pos hbelow] at hstep
        by_cases hret : g.returned + 1 ≥ return_n
        · rw [if_pos hret] at hstep
          by_cases hg : pv.2 > usub snip_left 1 ∧ pv.2 < usub N snip_right
          · obtain ⟨g1, g2, g3⟩ := snippet_take_guard snip_left snip_right N pv.2 hN
              (by omega) hlr hg
            rw [snippet_take_eq time data snip_left snip_right N (T_i * nc) nc _ g2 hg]
              at hstep
            rw [hstep]
            simp only [List.length_append, List.length_singleton, Nat.lt_succ_self, if_true,
              List.map_append, List.map_cons, List.map_nil, List.flatMap_append,
              List.flatMap_cons, List.flatMap_nil, List.append_nil, ia, ib]
            refine ⟨trivial, trivial, ?_, fun h => Bool.noConfusion h⟩
            intro e he
            rcases List.mem_append.1 he with he | he
            · exact hmono e he
            · rw [List.mem_singleton] at he
              subst he
              dsimp only
              refine ⟨k1, by omega, Nat.lt_succ_self _, g1, g2, g3, d3, c1, hc1, ?_, ?_⟩
              · rw [← k3]; exact k4
              · intro s hs1 hs2 c hc
                rw [← k3]
                exact k5 s hs1 (by omega) c hc
          · rw [snippet_take_skip time data snip_left snip_right N (T_i * nc) nc _ hg]
              at hstep
            rw [hstep]
            simp only [lt_self_iff_false, if_false]
            exact ⟨ia, ib, hmono, fun h => Bool.noConfusion h⟩
        · rw [if_neg hret] at hstep
          rw [hstep]
          simp only [lt_self_iff_false, if_false]
          exact hkeep (g.returned + 1)
      · rw [if_neg hbelow] at hstep
        rw [hstep]
        simp only [lt_self_iff_false, if_false]
        exact hkeep 0

/-! ## The result of `snippet_channel_groups` -/

theorem snip_left_eq (s_length : Nat) (h : s_length < 2 ^ 31) :
    size_t_of_int (Int.tdiv (int_of_size_t s_length) 2) = s_length / 2 ∧
    usub s_length (size_t_of_int (Int.tdiv (int_of_size_t s_length) 2))
      = s_length - s_length / 2 := by
  have h1 : int_of_size_t s_length = (s_length : Int) := by
    unfold int_of_size_t
    have : s_length % 2 ^ 32 = s_length := Nat.mod_eq_of_lt (by omega)
    rw [this, if_pos h]
  have h2 : size_t_of_int (Int.tdiv (int_of_size_t s_length) 2) = s_length / 2 := by
    rw [h1]
    unfold size_t_of_int
    have e : Int.tdiv (s_length : Int) 2 = ((s_length / 2 : Nat) : Int) := by
      rw [Int.tdiv_eq_ediv (by omega) (by norm_num)]
      omega
    rw [e]
    omega
  refine ⟨h2, ?_⟩
  rw [h2, usub_of_le (Nat.div_le_self _ _)]

theorem foldl_max_spec (f : Nat → Nat) (T : Nat) :
    (∀ i, i < T → f i ≤ (List.range T).foldl (fun m i => max m (f i)) 0) ∧
    ((List.range T).foldl (fun m i => max m (f i)) 0 = 0 ∨
      ∃ i, i < T ∧ f i = (List.range T).foldl (fun m i => max m (f i)) 0) := by
  refine foldl_range_inv
    (fun n m => (∀ i, i < n → f i ≤ m) ∧ (m = 0 ∨ ∃ i, i < n ∧ f i = m))
    (fun m i => max m (f i)) T 0 ⟨by simp, Or.inl rfl⟩ ?_
  rintro n m hn ⟨h1, h2⟩
  beta_reduce
  refine ⟨?_, ?_⟩
  · intro i hi
    by_cases hin : i < n
    · exact le_trans (h1 i hin) (le_max_left _ _)
    · have : i = n := by omega
      subst this
      exact le_max_right _ _
  · by_cases hm : m ≤ f n
    · exact Or.inr ⟨n, Nat.lt_succ_self _, (max_eq_right hm).symm⟩
    · have hle : f n ≤ m := by omega
      rw [max_eq_left hle]
      rcases h2 with h | ⟨i, hi, he⟩
      · exact Or.inl h
      · exact Or.inr ⟨i, by omega, he⟩

theorem getD_flatMap_uniform {α β : Type} (f : α → List β) (L : Nat) (l : List α)
    (hL : ∀ x ∈ l, (f x).length = L) (k i : Nat) (hk : k < l.length) (hi : i < L) (d : β)
    (a : α) :
    (l.flatMap f).getD (k * L + i) d = (f (l.getD k a)).getD i d := by
  induction l generalizing k with
  | nil => simp at hk
  | cons x l ih =>
    rw [List.flatMap_cons]
    have hx : (f x).length = L := hL x (List.mem_cons_self _ _)
    cases k with
    | zero =>
      simp only [Nat.zero_mul, Nat.zero_add, List.getD_cons_zero]
      rw [List.getD_append _ _ _ _ (by omega)]
    | succ k =>
      have e : (k + 1) * L + i = (f x).length + (k * L + i) := by rw [hx]; ring
      rw [e, List.getD_append_right _ _ _ _ (by omega), Nat.add_sub_cancel_left,
        List.getD_cons_succ]
      exact ih (fun y hy => hL y (List.mem_cons_of_mem _ hy)) k
        (by simpa using hk)

theorem snippet_waveform_getD (data : Array2D) (C_g nc a sl c s : Nat) (hc : c < nc)
    (hs : s < sl) :
    ((List.range' C_g nc).flatMap (fun c =>
        (List.range' a sl).map (fun w => data.at w c))).getD (c * sl + s) (.fin 0)
      = data.at (a + s) (C_g + c) := by
  rw [getD_flatMap_uniform _ sl _ (by simp) c s (by simpa using hc) hs _ 0]
  have e : (List.range' C_g nc).getD c 0 = C_g + c := by
    rw [List.getD_eq_getElem?_getD, List.getElem?_range' _ _ hc]
    simp
  rw [e, List.getD_eq_getElem?_getD, List.getElem?_map, List.getElem?_range' _ _ hs]
  simp

theorem snippet_channel_groups_spec (amp_t : List Int) (amp_data : Array2D) (s_length : Nat)
    (hi_thr lo_thr : F32) (return_n nc : Nat)
    (hhi : F32.gt hi_thr (.fin 0) = true) (hlo : F32.gt lo_thr (.fin 0) = true)
    (hM : amp_data.shape1 % nc = 0) (hs : s_length < 2 ^ 31)
    (hN : amp_data.shape0 < 2 ^ 64) :
    ∃ times snips,
      snippet_channel_groups amp_t amp_data s_length hi_thr lo_thr return_n nc
        = .ok (times, snips,
            (List.range (amp_data.shape1 / nc)).foldl
              (fun m i => max m (times.getD i []).length) 0) ∧
      times.length = amp_data.shape1 / nc ∧ snips.length = amp_data.shape1 / nc ∧
      ∀ T_i, T_i < amp_data.shape1 / nc →
        times.getD T_i [] =
          (snippet_events amp_t amp_data s_length hi_thr lo_thr return_n nc T_i).map
            (fun e => amp_t.getD e.2.1 0) ∧
        snips.getD T_i [] =
          (snippet_events amp_t amp_data s_length hi_thr lo_thr return_n nc T_i).flatMap
            (fun e => (List.range' (T_i * nc) nc).flatMap (fun c =>
              (List.range' (e.2.1 - s_length / 2) s_length).map
                (fun w => amp_data.at w c))) ∧
        ∀ e ∈ snippet_events amp_t amp_data s_length hi_thr lo_thr return_n nc T_i,
          e.1 ≤ e.2.1 ∧ e.2.1 ≤ e.2.2 ∧ e.2.2 < amp_data.shape0 ∧ 1 ≤ s_length / 2 ∧
          s_length / 2 ≤ e.2.1 ∧ e.2.1 + (s_length - s_length / 2) < amp_data.shape0 ∧
          (∃ c, c < nc ∧ F32.gt (F32.abs (amp_data.at e.1 (T_i * nc + c))) hi_thr = true) ∧
          ∃ c0, c0 < nc ∧ F32.abs (amp_data.at e.2.1 (T_i * nc + c0)) ≠ .nan ∧
            ∀ s, e.1 ≤ s → s ≤ e.2.2 → ∀ c, c < nc →
              F32.gt (F32.abs (amp_data.at s (T_i * nc + c)))
                (F32.abs (amp_data.at e.2.1 (T_i * nc + c0))) = false := by
  obtain ⟨e1, e2⟩ := snip_left_eq s_length hs
  have hsum : s_length / 2 + (s_length - s_length / 2) = s_length := by omega
  have e3 : usub s_length (s_length / 2) = s_length - s_length / 2 :=
    usub_of_le (Nat.div_le_self _ _)
  obtain ⟨hl, hg⟩ := snippet_loop_group amp_t amp_data hi_thr lo_thr return_n nc
    (s_length / 2) (s_length - s_length / 2) amp_data.shape0 (amp_data.shape1 / nc)
    amp_data.shape0
  unfold snippet_channel_groups
  simp only [hhi, hlo, hM, if_true, e1, e3]
  generalize List.foldl
      (snippet_sample amp_t amp_data hi_thr lo_thr return_n nc (s_length / 2)
        (s_length - s_length / 2) amp_data.shape0 (amp_data.shape1 / nc))
      (List.replicate (amp_data.shape1 / nc) ⟨false, 0, .fin 0, 0, [], []⟩)
      (List.range amp_data.shape0) = G at hl hg ⊢
  have hgd : ∀ {β : Type} (f : SnippetGroup → List β) (T_i : Nat), T_i < G.length →
      (G.map f).getD T_i [] = f (G.getD T_i ⟨false, 0, .fin 0, 0, [], []⟩) := by
    intro β f T_i hT
    rw [List.getD_eq_getElem?_getD, List.getElem?_map, List.getD_eq_getElem?_getD,
      List.getElem?_eq_getElem hT]
    simp
  refine ⟨G.map SnippetGroup.group_times, G.map SnippetGroup.group_snippets, ?_,
    by simp [hl], by simp [hl], ?_⟩
  · congr 3
    apply List.foldl_ext
    intro m i hi
    have hi := List.mem_range.1 hi
    rw [hgd _ i (by rw [hl]; exact hi)]
  · intro T_i hT
    obtain ⟨t1, t2, t3⟩ := snippet_trace_spec amp_t amp_data hi_thr lo_thr return_n nc
      (s_length / 2) (s_length - s_length / 2) amp_data.shape0 T_i hhi hN (by omega)
      amp_data.shape0 (le_refl _)
    rw [hsum] at t2
    unfold snippet_events
    rw [e1, e3, hgd _ T_i (by rw [hl]; exact hT), hgd _ T_i (by rw [hl]; exact hT),
      hg T_i hT]
    exact ⟨t1, t2, t3⟩

theorem length_flatMap_uniform {α β : Type} (f : α → List β) (L : Nat) (l : List α)
    (hL : ∀ x ∈ l, (f x).length = L) : (l.flatMap f).length = l.length * L := by
  induction l with
  | nil => simp
  | cons x l ih =>
    rw [List.flatMap_cons, List.length_append, hL x (List.mem_cons_self _ _),
      ih (fun y hy => hL y (List.mem_cons_of_mem _ hy)), List.length_cons]
    ring

/-- C21: on an accepted input, `snippet_channel_groups` returns one timestamp list and
one waveform buffer per channel group; the waveform buffer of a group holds
`n_channels * s_length` values for each of its timestamps, and the returned
maximum length is the largest timestamp-list length over the groups. -/
theorem snippet_channel_groups_shape (amp_t : List Int) (amp_data : Array2D) (s_length : Nat)
    (hi_thr lo_thr : F32) (return_n nc : Nat)
    (hhi : F32.gt hi_thr (.fin 0) = true) (hlo : F32.gt lo_thr (.fin 0) = true)
    (hM : amp_data.shape1 % nc = 0) (hs : s_length < 2 ^ 31)
    (hN : amp_data.shape0 < 2 ^ 64) :
    ∃ times snips max_len,
      snippet_channel_groups amp_t amp_data s_length hi_thr lo_thr return_n nc
        = .ok (times, snips, max_len) ∧
      times.length = amp_data.shape1 / nc ∧ snips.length = amp_data.shape1 / nc ∧
      (∀ T_i, T_i < amp_data.shape1 / nc →
        (snips.getD T_i []).length = (times.getD T_i []).length * (nc * s_length)) ∧
      (∀ T_i, T_i < amp_data.shape1 / nc → (times.getD T_i []).length ≤ max_len) ∧
      (max_len = 0 ∨
        ∃ T_i, T_i < amp_data.shape1 / nc ∧ (times.getD T_i []).length = max_len) := by
  obtain ⟨times, snips, h1, h2, h3, h4⟩ := snippet_channel_groups_spec amp_t amp_data s_length
    hi_thr lo_thr return_n nc hhi hlo hM hs hN
  obtain ⟨m1, m2⟩ := foldl_max_spec (fun i => (times.getD i []).length) (amp_data.shape1 / nc)
  refine ⟨times, snips, _, h1, h2, h3, ?_, m1, m2⟩
  intro T_i hT
  obtain ⟨k1, k2, -⟩ := h4 T_i hT
  rw [k1, k2, List.length_map, length_flatMap_uniform _ (nc * s_length)]
  intro e _
  rw [length_flatMap_uniform _ s_length _ (by simp)]
  simp

theorem snippet_channel_groups_shape_witness :
    (F32.gt (.fin 3) (.fin 0) = true ∧ F32.gt (.fin 1) (.fin 0) = true ∧
      (2 : Nat) % 1 = 0 ∧ 2 < 2 ^ 31 ∧ (8 : Nat) < 2 ^ 64) ∧
    ∃ times snips max_len,
      snippet_channel_groups [10, 11, 12, 13, 14, 15, 16, 17]
        ⟨8, 2, [.fin 0, .fin 0, .fin 5, .fin 0, .fin 0, .fin (-7), .fin 2, .fin 0,
          .fin 0, .fin 0, .fin 0, .fin 0, .fin 9, .fin 9, .fin 0, .fin 0]⟩
        2 (.fin 3) (.fin 1) 2 1 = .ok (times, snips, max_len) ∧
      times.length = 2 / 1 ∧ snips.length = 2 / 1 ∧
      (∀ T_i, T_i < 2 / 1 →
        (snips.getD T_i []).length = (times.getD T_i []).length * (1 * 2)) ∧
      (∀ T_i, T_i < 2 / 1 → (times.getD T_i []).length ≤ max_len) ∧
      (max_len = 0 ∨ ∃ T_i, T_i < 2 / 1 ∧ (times.getD T_i []).length = max_len) :=
  ⟨by decide, snippet_channel_groups_shape _ _ 2 (.fin 3) (.fin 1) 2 1 (by decide) (by decide)
    (by decide) (by decide) (by decide)⟩

/-- C23: each emitted snippet of a group has a peak index `p` (the middle component of
its event) with `⌊s_length / 2⌋ ≤ p`; its timestamp is `time[p]` and its waveform
`w` is channel-major with `w[c * s_length + s] = data[p - ⌊s_length / 2⌋ + s][g * n_channels + c]`. -/
theorem snippet_channel_groups_layout (amp_t : List Int) (amp_data : Array2D)
    (s_length : Nat) (hi_thr lo_thr : F32) (return_n nc : Nat)
    (hhi : F32.gt hi_thr (.fin 0) = true) (hlo : F32.gt lo_thr (.fin 0) = true)
    (hM : amp_data.shape1 % nc = 0) (hs : s_length < 2 ^ 31)
    (hN : amp_data.shape0 < 2 ^ 64) :
    ∃ times snips max_len,
      snippet_channel_groups amp_t amp_data s_length hi_thr lo_thr return_n nc
        = .ok (times, snips, max_len) ∧
      ∀ T_i, T_i < amp_data.shape1 / nc →
        (times.getD T_i []).length
          = (snippet_events amp_t amp_data s_length hi_thr lo_thr return_n nc T_i).length ∧
        ∀ k, k < (snippet_events amp_t amp_data s_length hi_thr lo_thr return_n nc T_i).length →
          (times.getD T_i []).getD k 0 = amp_t.getD
            ((snippet_events amp_t amp_data s_length hi_thr lo_thr return_n nc T_i).getD k
              (0, 0, 0)).2.1 0 ∧
          s_length / 2 ≤
            ((snippet_events amp_t amp_data s_length hi_thr lo_thr return_n nc T_i).getD k
              (0, 0, 0)).2.1 ∧
          ((snippet_events amp_t amp_data s_length hi_thr lo_thr return_n nc T_i).getD k
              (0, 0, 0)).2.1 + (s_length - s_length / 2) < amp_data.shape0 ∧
          ∀ c, c < nc → ∀ s, s < s_length →
            (snips.getD T_i []).getD (k * (nc * s_length) + (c * s_length + s)) (.fin 0)
              = amp_data.at
                (((snippet_events amp_t amp_data s_length hi_thr lo_thr return_n nc T_i).getD k
                  (0, 0, 0)).2.1 - s_length / 2 + s) (T_i * nc + c) := by
  obtain ⟨times, snips, h1, h2, h3, h4⟩ := snippet_channel_groups_spec amp_t amp_data s_length
    hi_thr lo_thr return_n nc hhi hlo hM hs hN
  refine ⟨times, snips, _, h1, ?_⟩
  intro T_i hT
  obtain ⟨k1, k2, k3⟩ := h4 T_i hT
  refine ⟨by rw [k1, List.length_map], ?_⟩
  intro k hk
  have hmem : (snippet_events amp_t amp_data s_length hi_thr lo_thr return_n nc T_i).getD k
      (0, 0, 0) ∈ snippet_events amp_t amp_data s_length hi_thr lo_thr return_n nc T_i := by
    rw [List.getD_eq_getElem?_getD, List.getElem?_eq_getElem hk]
    exact List.getElem_mem _
  obtain ⟨-, -, -, -, g5, g6, -⟩ := k3 _ hmem
  refine ⟨?_, g5, g6, ?_⟩
  · rw [k1, List.getD_eq_getElem?_getD, List.getElem?_map]
    simp [List.getElem?_eq_getElem hk]
  · intro c hc s hs'
    have hlt : c * s_length + s < nc * s_length := by
      calc c * s_length + s < c * s_length + s_length := by omega
        _ = (c + 1) * s_length := by ring
        _ ≤ nc * s_length := Nat.mul_le_mul_right _ hc
    rw [k2, getD_flatMap_uniform _ (nc * s_length) _ ?_ k _ hk hlt _ (0, 0, 0)]
    · exact snippet_waveform_getD amp_data (T_i * nc) nc _ s_length c s hc hs'
    · intro e _
      rw [length_flatMap_uniform _ s_length _ (by simp)]
      simp

theorem snippet_channel_groups_layout_witness :
    (F32.gt (.fin 3) (.fin 0) = true ∧ F32.gt (.fin 1) (.fin 0) = true ∧
      (2 : Nat) % 2 = 0 ∧ 3 < 2 ^ 31 ∧ (8 : Nat) < 2 ^ 64) ∧
    ∃ times snips max_len,
      snippet_channel_groups [10, 11, 12, 13, 14, 15, 16, 17]
        ⟨8, 2, [.fin 0, .fin 0, .fin 5, .fin 0, .fin 0, .fin (-7), .fin 2, .fin 0,
          .fin 0, .fin 0, .fin 0, .fin 0, .fin 9, .fin 9, .fin 0, .fin 0]⟩
        3 (.fin 3) (.fin 1) 2 2 = .ok (times, snips, max_len) ∧
      ∀ T_i, T_i < 2 / 2 →
        (times.getD T_i []).length
          = (snippet_events [10, 11, 12, 13, 14, 15, 16, 17]
              ⟨8, 2, [.fin 0, .fin 0, .fin 5, .fin 0, .fin 0, .fin (-7), .fin 2, .fin 0,
                .fin 0, .fin 0, .fin 0, .fin 0, .fin 9, .fin 9, .fin 0, .fin 0]⟩
              3 (.fin 3) (.fin 1) 2 2 T_i).length ∧
        ∀ k, k < (snippet_events [10, 11, 12, 13, 14, 15, 16, 17]
              ⟨8, 2, [.fin 0, .fin 0, .fin 5, .fin 0, .fin 0, .fin (-7), .fin 2, .fin 0,
                .fin 0, .fin 0, .fin 0, .fin 0, .fin 9, .fin 9, .fin 0, .fin 0]⟩
              3 (.fin 3) (.fin 1) 2 2 T_i).length →
          (times.getD T_i []).getD k 0 = ([10, 11, 12, 13, 14, 15, 16, 17] : List Int).getD
            ((snippet_events [10, 11, 12, 13, 14, 15, 16, 17]
              ⟨8, 2, [.fin 0, .fin 0, .fin 5, .fin 0, .fin 0, .fin (-7), .fin 2, .fin 0,
                .fin 0, .fin 0, .fin 0, .fin 0, .fin 9, .fin 9, .fin 0, .fin 0]⟩
              3 (.fin 3) (.fin 1) 2 2 T_i).getD k (0, 0, 0)).2.1 0 ∧
          3 / 2 ≤
            ((snippet_events [10, 11, 12, 13, 14, 15, 16, 17]
              ⟨8, 2, [.fin 0, .fin 0, .fin 5, .fin 0, .fin 0, .fin (-7), .fin 2, .fin 0,
                .fin 0, .fin 0, .fin 0, .fin 0, .fin 9, .fin 9, .fin 0, .fin 0]⟩
              3 (.fin 3) (.fin 1) 2 2 T_i).getD k (0, 0, 0)).2.1 ∧
          ((snippet_events [10, 11, 12, 13, 14, 15, 16, 17]
              ⟨8, 2, [.fin 0, .fin 0, .fin 5, .fin 0, .fin 0, .fin (-7), .fin 2, .fin 0,
                .fin 0, .fin 0, .fin 0, .fin 0, .fin 9, .fin 9, .fin 0, .fin 0]⟩
              3 (.fin 3) (.fin 1) 2 2 T_i).getD k (0, 0, 0)).2.1 + (3 - 3 / 2) < 8 ∧
          ∀ c, c < 2 → ∀ s, s < 3 →
            (snips.getD T_i []).getD (k * (2 * 3) + (c * 3 + s)) (.fin 0)
              = Array2D.at
                ⟨8, 2, [.fin 0, .fin 0, .fin 5, .fin 0, .fin 0, .fin (-7), .fin 2, .fin 0,
                  .fin 0, .fin 0, .fin 0, .fin 0, .fin 9, .fin 9, .fin 0, .fin 0]⟩
                (((snippet_events [10, 11, 12, 13, 14, 15, 16, 17]
                  ⟨8, 2, [.fin 0, .fin 0, .fin 5, .fin 0, .fin 0, .fin (-7), .fin 2, .fin 0,
                    .fin 0, .fin 0, .fin 0, .fin 0, .fin 9, .fin 9, .fin 0, .fin 0]⟩
                  3 (.fin 3) (.fin 1) 2 2 T_i).getD k (0, 0, 0)).2.1 - 3 / 2 + s)
                (T_i * 2 + c) :=
  ⟨by decide, snippet_channel_groups_layout _ _ 3 (.fin 3) (.fin 1) 2 2 (by decide)
    (by decide) (by decide) (by decide) (by decide)⟩

/-- C22 (as amended): each emitted snippet of a group has an event `(d, p, r)` with
`d ≤ p ≤ r < N`, some channel of the group above `hi_thr` at `d`, and a channel
`c0` of the group whose absolute value at `p` is exceeded by no channel of the
group at any sample of `[d, r]` and is `≥` each of those values that is not NaN. -/
theorem snippet_channel_groups_window (amp_t : List Int) (amp_data : Array2D)
    (s_length : Nat) (hi_thr lo_thr : F32) (return_n nc : Nat)
    (hhi : F32.gt hi_thr (.fin 0) = true) (hlo : F32.gt lo_thr (.fin 0) = true)
    (hM : amp_data.shape1 % nc = 0) (hs : s_length < 2 ^ 31)
    (hN : amp_data.shape0 < 2 ^ 64) :
    ∃ times snips max_len,
      snippet_channel_groups amp_t amp_data s_length hi_thr lo_thr return_n nc
        = .ok (times, snips, max_len) ∧
      ∀ T_i, T_i < amp_data.shape1 / nc →
        times.getD T_i [] =
          (snippet_events amp_t amp_data s_length hi_thr lo_thr return_n nc T_i).map
            (fun e => amp_t.getD e.2.1 0) ∧
        ∀ e ∈ snippet_events amp_t amp_data s_length hi_thr lo_thr return_n nc T_i,
          e.1 ≤ e.2.1 ∧ e.2.1 ≤ e.2.2 ∧ e.2.2 < amp_data.shape0 ∧
          (∃ c, c < nc ∧ F32.gt (F32.abs (amp_data.at e.1 (T_i * nc + c))) hi_thr = true) ∧
          ∃ c0, c0 < nc ∧ ∀ s, e.1 ≤ s → s ≤ e.2.2 → ∀ c, c < nc →
            F32.gt (F32.abs (amp_data.at s (T_i * nc + c)))
              (F32.abs (amp_data.at e.2.1 (T_i * nc + c0))) = false ∧
            (F32.abs (amp_data.at s (T_i * nc + c)) ≠ .nan →
              F32.ge (F32.abs (amp_data.at e.2.1 (T_i * nc + c0)))
                (F32.abs (amp_data.at s (T_i * nc + c))) = true) := by
  obtain ⟨times, snips, h1, h2, h3, h4⟩ := snippet_channel_groups_spec amp_t amp_data s_length
    hi_thr lo_thr return_n nc hhi hlo hM hs hN
  refine ⟨times, snips, _, h1, ?_⟩
  intro T_i hT
  obtain ⟨k1, -, k3⟩ := h4 T_i hT
  refine ⟨k1, ?_⟩
  intro e he
  obtain ⟨g1, g2, g3, -, -, -, g7, c0, hc0, g8, g9⟩ := k3 e he
  refine ⟨g1, g2, g3, g7, c0, hc0, ?_⟩
  intro s hs1 hs2 c hc
  exact ⟨g9 s hs1 hs2 c hc, fun hnan => f32_ge_of_not_gt (g9 s hs1 hs2 c hc) hnan g8⟩

theorem snippet_channel_groups_window_witness :
    (F32.gt (.fin 3) (.fin 0) = true ∧ F32.gt (.fin 1) (.fin 0) = true ∧
      (1 : Nat) % 1 = 0 ∧ 2 < 2 ^ 31 ∧ (5 : Nat) < 2 ^ 64) ∧
    ∃ times snips max_len,
      snippet_channel_groups [10, 11, 12, 13, 14]
        ⟨5, 1, [.fin 0, .fin 5, .fin 2, .fin 0, .fin 0]⟩ 2 (.fin 3) (.fin 1) 1 1
        = .ok (times, snips, max_len) ∧
      ∀ T_i, T_i < 1 / 1 →
        times.getD T_i [] =
          (snippet_events [10, 11, 12, 13, 14]
            ⟨5, 1, [.fin 0, .fin 5, .fin 2, .fin 0, .fin 0]⟩ 2 (.fin 3) (.fin 1) 1 1 T_i).map
            (fun e => ([10, 11, 12, 13, 14] : List Int).getD e.2.1 0) ∧
        ∀ e ∈ snippet_events [10, 11, 12, 13, 14]
            ⟨5, 1, [.fin 0, .fin 5, .fin 2, .fin 0, .fin 0]⟩ 2 (.fin 3) (.fin 1) 1 1 T_i,
          e.1 ≤ e.2.1 ∧ e.2.1 ≤ e.2.2 ∧ e.2.2 < 5 ∧
          (∃ c, c < 1 ∧ F32.gt (F32.abs (Array2D.at
            ⟨5, 1, [.fin 0, .fin 5, .fin 2, .fin 0, .fin 0]⟩ e.1 (T_i * 1 + c))) (.fin 3)
              = true) ∧
          ∃ c0, c0 < 1 ∧ ∀ s, e.1 ≤ s → s ≤ e.2.2 → ∀ c, c < 1 →
            F32.gt (F32.abs (Array2D.at
                ⟨5, 1, [.fin 0, .fin 5, .fin 2, .fin 0, .fin 0]⟩ s (T_i * 1 + c)))
              (F32.abs (Array2D.at
                ⟨5, 1, [.fin 0, .fin 5, .fin 2, .fin 0, .fin 0]⟩ e.2.1 (T_i * 1 + c0)))
              = false ∧
            (F32.abs (Array2D.at
                ⟨5, 1, [.fin 0, .fin 5, .fin 2, .fin 0, .fin 0]⟩ s (T_i * 1 + c)) ≠ .nan →
              F32.ge (F32.abs (Array2D.at
                  ⟨5, 1, [.fin 0, .fin 5, .fin 2, .fin 0, .fin 0]⟩ e.2.1 (T_i * 1 + c0)))
                (F32.abs (Array2D.at
                  ⟨5, 1, [.fin 0, .fin 5, .fin 2, .fin 0, .fin 0]⟩ s (T_i * 1 + c)))
                = true) :=
  ⟨by decide, snippet_channel_groups_window _ _ 2 (.fin 3) (.fin 1) 1 1 (by decide)
    (by decide) (by decide) (by decide) (by decide)⟩

/-- C22 (as stated) fails: on one channel with the samples 0, 5, NaN, 0, 0 the snippet
with the event `(d, p, r) = (1, 1, 3)` is emitted, and at the sample 2 of its
window the absolute value is NaN, which no value at the peak is `≥`. -/
theorem snippet_channel_groups_window_counterexample :
    snippet_channel_groups [10, 11, 12, 13, 14]
      ⟨5, 1, [.fin 0, .fin 5, .nan, .fin 0, .fin 0]⟩ 2 (.fin 3) (.fin 1) 1 1
      = .ok ([[11]], [[.fin 0, .fin 5]], 1) ∧
    snippet_events [10, 11, 12, 13, 14]
      ⟨5, 1, [.fin 0, .fin 5, .nan, .fin 0, .fin 0]⟩ 2 (.fin 3) (.fin 1) 1 1 0 = [(1, 1, 3)] ∧
    (1 ≤ 2 ∧ 2 ≤ 3) ∧
    ∀ c0, c0 < 1 →
      F32.ge (F32.abs (Array2D.at ⟨5, 1, [.fin 0, .fin 5, .nan, .fin 0, .fin 0]⟩ 1 (0 * 1 + c0)))
        (F32.abs (Array2D.at ⟨5, 1, [.fin 0, .fin 5, .nan, .fin 0, .fin 0]⟩ 2 (0 * 1 + 0)))
        = false := by
  refine ⟨rfl, by decide, by decide, ?_⟩
  intro c0 hc0
  have : c0 = 0 := by omega
  subst this
  decide

/-! ## Boundary behaviour of the snippeter -/

/-- C39: with `s_length ≤ 1` (so `snip_left = 0` and `snip_left - 1` wraps to the largest
`size_t`) every group's timestamp list and waveform buffer are empty and the
maximum length is 0. -/
theorem snippet_channel_groups_short (amp_t : List Int) (amp_data : Array2D) (s_length : Nat)
    (hi_thr lo_thr : F32) (return_n nc : Nat)
    (hhi : F32.gt hi_thr (.fin 0) = true) (hlo : F32.gt lo_thr (.fin 0) = true)
    (hM : amp_data.shape1 % nc = 0) (hs : s_length ≤ 1)
    (hN : amp_data.shape0 < 2 ^ 64) :
    ∃ times snips,
      snippet_channel_groups amp_t amp_data s_length hi_thr lo_thr return_n nc
        = .ok (times, snips, 0) ∧
      times.length = amp_data.shape1 / nc ∧ snips.length = amp_data.shape1 / nc ∧
      ∀ T_i, T_i < amp_data.shape1 / nc →
        times.getD T_i [] = [] ∧ snips.getD T_i [] = [] := by
  obtain ⟨times, snips, h1, h2, h3, h4⟩ := snippet_channel_groups_spec amp_t amp_data s_length
    hi_thr lo_thr return_n nc hhi hlo hM (by omega) hN
  have hev : ∀ T_i, T_i < amp_data.shape1 / nc →
      snippet_events amp_t amp_data s_length hi_thr lo_thr return_n nc T_i = [] := by
    intro T_i hT
    obtain ⟨-, -, k3⟩ := h4 T_i hT
    apply List.eq_nil_iff_forall_not_mem.2
    intro e he
    obtain ⟨-, -, -, g4, -⟩ := k3 e he
    omega
  have hall : ∀ T_i, T_i < amp_data.shape1 / nc →
      times.getD T_i [] = [] ∧ snips.getD T_i [] = [] := by
    intro T_i hT
    obtain ⟨k1, k2, -⟩ := h4 T_i hT
    rw [k1, k2, hev T_i hT]
    exact ⟨rfl, rfl⟩
  have hmax : (List.range (amp_data.shape1 / nc)).foldl
      (fun m i => max m (times.getD i []).length) 0 = 0 := by
    obtain ⟨-, m2⟩ := foldl_max_spec (fun i => (times.getD i []).length) (amp_data.shape1 / nc)
    rcases m2 with h | ⟨i, hi, he⟩
    · exact h
    · have he2 : (times.getD i []).length = (List.range (amp_data.shape1 / nc)).foldl
          (fun m i => max m (times.getD i []).length) 0 := he
      rw [← he2, (hall i hi).1]
      rfl
  rw [hmax] at h1
  exact ⟨times, snips, h1, h2, h3, hall⟩

theorem snippet_channel_groups_short_witness :
    (F32.gt (.fin 3) (.fin 0) = true ∧ F32.gt (.fin 1) (.fin 0) = true ∧
      (1 : Nat) % 1 = 0 ∧ 1 ≤ 1 ∧ (5 : Nat) < 2 ^ 64) ∧
    ∃ times snips,
      snippet_channel_groups [10, 11, 12, 13, 14]
        ⟨5, 1, [.fin 0, .fin 5, .fin 2, .fin 0, .fin 0]⟩ 1 (.fin 3) (.fin 1) 1 1
        = .ok (times, snips, 0) ∧
      times.length = 1 / 1 ∧ snips.length = 1 / 1 ∧
      ∀ T_i, T_i < 1 / 1 → times.getD T_i [] = [] ∧ snips.getD T_i [] = [] :=
  ⟨by decide, snippet_channel_groups_short _ _ 1 (.fin 3) (.fin 1) 1 1 (by decide)
    (by decide) (by decide) (by decide) (by decide)⟩

/-- C38: with `s_length = 2 ^ 32 + 2` the conversion `(int) s_length` is 2, so `snip_left = 1`
and `snip_right = 2 ^ 32 + 1`; on 5 samples `N - snip_right` wraps, the guard holds at
the peak 1, the snippet is emitted, and the window loop runs over
`0 ≤ w_i < 2 ^ 32 + 2`, which leaves the 5 rows of the data. -/
theorem snippet_channel_groups_window_reads :
    snippet_events [10, 11, 12, 13, 14]
      ⟨5, 1, [.fin 0, .fin 5, .fin 2, .fin 0, .fin 0]⟩ 4294967298 (.fin 3) (.fin 1) 1 1 0
      = [(1, 1, 3)] ∧
    (snippet_channel_groups [10, 11, 12, 13, 14]
      ⟨5, 1, [.fin 0, .fin 5, .fin 2, .fin 0, .fin 0]⟩ 4294967298 (.fin 3) (.fin 1) 1 1).map
        (fun r => r.1) = .ok [[11]] ∧
    size_t_of_int (Int.tdiv (int_of_size_t 4294967298) 2) = 1 ∧
    usub 4294967298 1 = 4294967297 ∧
    (1 > usub 1 1 ∧ 1 < usub 5 4294967297) ∧
    usub 1 1 ≤ 5 ∧ 5 < 1 + 4294967297 :=
  ⟨by decide, rfl, by decide, by decide, by decide, by decide, by decide⟩

/-! ## Incompleteness of the pairing -/

/-- C37: for the strictly increasing `t1 = [10]`, `t2 = [0, 11]` and `max_dist = 2`, the
timestamps `t1[0] = 10` and `t2[1] = 11` are within `max_dist` of each other and
`pair_sequences` emits no pair at all. -/
theorem pair_sequences_incomplete :
    List.Pairwise (· < ·) ([10] : List Int) ∧ List.Pairwise (· < ·) ([0, 11] : List Int) ∧
    (([10] : List Int).getD 0 0 - ([0, 11] : List Int).getD 1 0).natAbs ≤ 2 ∧
    pair_sequences [10] [0, 11] 1 2 2 = .ok ([], []) :=
  ⟨by decide, by decide, by decide, rfl⟩

/-! ## The accelerometer rows of `read_rhd64_batch` -/

theorem rhd64_backfill_frame (v : Buf ℚ) (acc_i cnt : Nat) (a0 : Buf ℚ) (j : Nat)
    (hj : 3 * (acc_i + cnt) ≤ j) :
    ((List.range' acc_i cnt).foldl
      (fun a r => (List.range 3).foldl
        (fun a i => fun j => if j = r * 3 + i then v i else a j) a) a0) j = a0 j := by
  refine foldl_range'_inv (fun _ a => a j = a0 j) _ acc_i cnt a0 rfl ?_
  intro k a hk ha
  have e : List.range 3 = [0, 1, 2] := rfl
  simp only [e, List.foldl_cons, List.foldl_nil]
  rw [if_neg (by omega), if_neg (by omega), if_neg (by omega)]
  exact ha

theorem rhd64_acc_rows (buffer : Nat → Nat) (sample_i : Nat) (st : Rhd64State) :
    (st.acc_started = false →
      (rhd64_acc buffer sample_i st).acc_i = st.acc_i ∧
      (rhd64_acc buffer sample_i st).acc_data = st.acc_data) ∧
    (((rhd64_acc buffer sample_i st).acc_i = st.acc_i ∧
      (rhd64_acc buffer sample_i st).acc_data = st.acc_data) ∨
     ((rhd64_acc buffer sample_i st).acc_i = max st.acc_i sample_i ∧
      ∀ j, 3 * max st.acc_i sample_i ≤ j →
        (rhd64_acc buffer sample_i st).acc_data j = st.acc_data j)) := by
  unfold rhd64_acc
  by_cases h1 : st.quad_i > 0 ∧ st.acc_started = true
  · rw [if_pos h1]
    by_cases h2 : st.quad_i = 3
    · rw [if_pos h2]
      refine ⟨?_, Or.inr ⟨rfl, ?_⟩⟩
      · intro h
        rw [h] at h1
        exact absurd h1.2 (by simp)
      · intro j hj
        exact rhd64_backfill_frame _ st.acc_i (sample_i - st.acc_i) st.acc_data j (by omega)
    · rw [if_neg h2]
      exact ⟨fun _ => ⟨rfl, rfl⟩, Or.inl ⟨rfl, rfl⟩⟩
  · rw [if_neg h1]
    exact ⟨fun _ => ⟨rfl, rfl⟩, Or.inl ⟨rfl, rfl⟩⟩

theorem rhd64_loop_acc (file : List Nat) (start n : Nat) :
    (rhd64_loop file start n).acc_i ≤ n - 1 ∧
    (∀ j, 3 * (n - 1) ≤ j → n ≠ 0 → (rhd64_loop file start n).acc_data j = none) ∧
    ((∀ s, s < n → (start + s) % 4 ≠ 1) →
      ∀ j, (rhd64_loop file start n).acc_data j = none) := by
  have h := foldl_range_inv
    (fun i s => s.quad_i = (start + i) % 4 ∧
      (s.acc_started = true → ∃ k, k ≤ i ∧ (start + k) % 4 = 1) ∧
      s.acc_i ≤ i - 1 ∧
      (∀ j, 3 * s.acc_i ≤ j → s.acc_data j = none) ∧
      ((∀ k, k < i → (start + k) % 4 ≠ 1) → ∀ j, s.acc_data j = none))
    (rhd64_sample (read_buffer file (start * 176))) n
    ⟨0, 0, 0, 0, start % 4, decide (start % 4 = 1),
     fun _ => none, fun _ => none, fun _ => none, fun _ => none, fun _ => none⟩
    ⟨by simp, by simp, by simp, by simp, by simp⟩ ?_
  · obtain ⟨-, -, h3, h4, h5⟩ := h
    refine ⟨h3, ?_, h5⟩
    intro j hj _
    exact h4 j (le_trans (Nat.mul_le_mul_left 3 h3) hj)
  · rintro i s hi ⟨h1, h2, h3, h4, h5⟩
    obtain ⟨a2, a3⟩ := rhd64_acc_rows (read_buffer file (start * 176)) i
      { s with
        amp_t := arr_write s.amp_t s.amp_t_i
          (int32_at (read_buffer file (start * 176)) (s.buf_i + 8)),
        amp_t_i := s.amp_t_i + 1,
        buf_i := s.buf_i + 8 + 4 + 4 + 2 }
    obtain ⟨-, -, -, f4, f5, -, -, -⟩ := rhd64_acc_frame (read_buffer file (start * 176)) i
      { s with
        amp_t := arr_write s.amp_t s.amp_t_i
          (int32_at (read_buffer file (start * 176)) (s.buf_i + 8)),
        amp_t_i := s.amp_t_i + 1,
        buf_i := s.buf_i + 8 + 4 + 4 + 2 }
    simp only [rhd64_sample, rhd64_amp_outer]
    simp only [f4, f5]
    simp only at a2 a3
    refine ⟨by rw [h1]; omega, ?_, ?_, ?_, ?_⟩
    · intro hst
      simp only [Bool.or_eq_true, decide_eq_true_eq] at hst
      rcases hst with hst | hst
      · obtain ⟨k, hk, hk1⟩ := h2 hst
        exact ⟨k, by omega, hk1⟩
      · refine ⟨i + 1, le_refl _, ?_⟩
        rw [h1] at hst
        omega
    · rcases a3 with ⟨e1, -⟩ | ⟨e1, -⟩
      · rw [e1]; omega
      · rw [e1]
        have : max s.acc_i i ≤ i := max_le (by omega) (le_refl _)
        omega
    · intro j hj
      rcases a3 with ⟨e1, e2⟩ | ⟨e1, e2⟩
      · rw [e2]
        rw [e1] at hj
        exact h4 j hj
      · rw [e1] at hj
        rw [e2 j hj]
        exact h4 j (le_trans (Nat.mul_le_mul_left 3 (le_max_left _ _)) hj)
    · intro hno j
      have hst : s.acc_started = false := by
        cases hb : s.acc_started
        · rfl
        · obtain ⟨k, hk, hk1⟩ := h2 hb
          exact absurd hk1 (hno k (by omega))
      rw [(a2 hst).2]
      exact h5 (fun k hk => hno k (by omega)) j

/-- C40: in `read_rhd64_batch` the accelerometer write index after `n` samples is at
most `n - 1`, no accelerometer row is written while no sample of absolute index
`≡ 1 (mod 4)` has been reached, and for `N ≥ 1` the row `N - 1` of the accelerometer
output is never assigned. -/
theorem read_rhd64_batch_acc_rows (file : List Nat) (start stop : Nat) (h : start < stop) :
    (∀ n, (rhd64_loop file start n).acc_i ≤ n - 1) ∧
    (∀ n, (∀ s, s < n → (start + s) % 4 ≠ 1) →
      ∀ j, (rhd64_loop file start n).acc_data j = none) ∧
    ∃ d, read_rhd64_batch file start stop = .ok d ∧
      d.acc.length = (stop - start) * 3 ∧
      ∀ i, i < 3 → d.acc[(stop - start - 1) * 3 + i]? = some none := by
  refine ⟨fun n => (rhd64_loop_acc file start n).1, fun n => (rhd64_loop_acc file start n).2.2,
    ?_⟩
  rw [read_rhd64_batch, if_pos (le_of_lt h)]
  refine ⟨_, rfl, by simp, ?_⟩
  intro i hi
  have hlt : (stop - start - 1) * 3 + i < (stop - start) * 3 := by omega
  simp only [List.getElem?_map, List.getElem?_range hlt, Option.map_some']
  rw [(rhd64_loop_acc file start (stop - start)).2.1 _ (by omega) (by omega)]

theorem read_rhd64_batch_acc_rows_witness :
    1 < 9 ∧
    ((∀ n, (rhd64_loop ((List.range 1600).map (fun i => i % 256)) 1 n).acc_i ≤ n - 1) ∧
    (∀ n, (∀ s, s < n → (1 + s) % 4 ≠ 1) →
      ∀ j, (rhd64_loop ((List.range 1600).map (fun i => i % 256)) 1 n).acc_data j = none) ∧
    ∃ d, read_rhd64_batch ((List.range 1600).map (fun i => i % 256)) 1 9 = .ok d ∧
      d.acc.length = (9 - 1) * 3 ∧
      ∀ i, i < 3 → d.acc[(9 - 1 - 1) * 3 + i]? = some none) :=
  ⟨by decide, read_rhd64_batch_acc_rows _ 1 9 (by decide)⟩

/-! ## Row locality of `unlink_nodes` -/

theorem getD_foldl_write_false_intro (ks : List Int) :
    ∀ (d : List Bool) (k : Int), 0 ≤ k → d.getD k.toNat false = true → k ∉ ks →
      (ks.foldl (fun d k => write_at d k false) d).getD k.toNat false = true := by
  induction ks with
  | nil => intro d k _ h _; exact h
  | cons a ks ih =>
    intro d k hk h hn
    rw [List.foldl_cons]
    apply ih _ k hk _ (fun hm => hn (List.mem_cons_of_mem _ hm))
    have hne : a ≠ k := fun e => hn (e ▸ List.mem_cons_self _ _)
    unfold write_at
    split
    · exact h
    · rename_i ha
      rw [List.getD_eq_getElem?_getD, List.getElem?_set]
      rw [if_neg (by omega), ← List.getD_eq_getElem?_getD]
      exact h

theorem unlink_row_exact (nodes : List Int) (M : EVIncidence) (j : Nat) (k : Int) :
    live_at (unlink_row nodes M j) k =
      if (row_slots M j).any (fun k => decide (index_at M k ∈ nodes) && live_at M k) = true
          ∧ k ∈ row_slots M j then false
      else live_at M k := by
  by_cases hhit : (row_slots M j).any
      (fun k => decide (index_at M k ∈ nodes) && live_at M k) = true
  · by_cases hk : k ∈ row_slots M j
    · rw [if_pos ⟨hhit, hk⟩]
      by_contra hlive
      rw [Bool.not_eq_false] at hlive
      unfold unlink_row at hlive
      rw [if_pos hhit] at hlive
      unfold live_at at hlive
      split at hlive
      · exact Bool.noConfusion hlive
      · exact (getD_foldl_write_false _ _ k (by omega) hlive).2 hk
    · rw [if_neg (fun h => hk h.2)]
      unfold unlink_row
      rw [if_pos hhit]
      unfold live_at
      split
      · rfl
      · rename_i hk0
        simp only
        cases hb : M.data.getD k.toNat false
        · by_contra hlive
          rw [Bool.not_eq_false] at hlive
          have := (getD_foldl_write_false _ _ k (by omega) hlive).1
          rw [hb] at this
          exact Bool.noConfusion this
        · exact getD_foldl_write_false_intro _ _ k (by omega) hb hk
  · rw [if_neg (fun h => hhit h.1)]
    unfold unlink_row
    rw [if_neg hhit]

theorem mem_row_slots (L : EVIncidence) (j : Nat) (k : Int) :
    k ∈ row_slots L j ↔ L.indptr.getD j 0 ≤ k ∧ k < L.indptr.getD (j + 1) 0 := by
  unfold row_slots
  simp only [List.mem_map, bind_pure_comp, List.map_eq_map, List.mem_range]
  constructor
  · rintro ⟨d, ⟨a, ha, rfl⟩, rfl⟩
    omega
  · rintro ⟨h1, h2⟩
    refine ⟨_, ⟨(k - L.indptr.getD j 0).toNat, ?_, rfl⟩, ?_⟩
    · omega
    · omega

theorem indptr_mono (L : EVIncidence) (hL : L.WellFormed) (a b : Nat) (hab : a ≤ b)
    (hb : b ≤ L.shape.1.toNat) : L.indptr.getD a 0 ≤ L.indptr.getD b 0 := by
  obtain ⟨-, -, -, -, hm, -⟩ := hL
  induction b with
  | zero =>
    have : a = 0 := by omega
    subst this
    exact le_refl _
  | succ b ih =>
    by_cases h : a = b + 1
    · subst h; exact le_refl _
    · exact le_trans (ih (by omega) (by omega)) (hm b (by omega))

theorem rows_disjoint (L : EVIncidence) (hL : L.WellFormed) (j j2 : Nat)
    (hj : j < L.shape.1.toNat) (hj2 : j2 < L.shape.1.toNat) (k : Int)
    (hk : k ∈ row_slots L j) (hk2 : k ∈ row_slots L j2) : j = j2 := by
  rw [mem_row_slots] at hk hk2
  by_contra hne
  rcases Nat.lt_or_gt_of_ne hne with h | h
  · have := indptr_mono L hL (j + 1) j2 (by omega) (by omega)
    omega
  · have := indptr_mono L hL (j2 + 1) j (by omega) (by omega)
    omega

theorem unlink_fold_exact (nodes : List Int) (L : EVIncidence) (hL : L.WellFormed) (n : Nat)
    (hn : n ≤ L.shape.1.toNat) (k : Int) :
    live_at ((List.range n).foldl (unlink_row nodes) L) k =
      if ∃ j, j < n ∧ (row_slots L j).any
          (fun k => decide (index_at L k ∈ nodes) && live_at L k) = true ∧ k ∈ row_slots L j
      then false else live_at L k := by
  induction n generalizing k with
  | zero => simp
  | succ n ih =>
    obtain ⟨h1, h2, -, -, -⟩ := unlink_fold_spec nodes L n
    rw [List.range_succ, List.foldl_append]
    simp only [List.foldl_cons, List.foldl_nil]
    rw [unlink_row_exact, row_slots_congr h2]
    have hhit : (row_slots L n).any (fun k => decide (index_at
          ((List.range n).foldl (unlink_row nodes) L) k ∈ nodes)
          && live_at ((List.range n).foldl (unlink_row nodes) L) k)
        = (row_slots L n).any (fun k => decide (index_at L k ∈ nodes) && live_at L k) := by
      have hpt : ∀ x ∈ row_slots L n,
          (decide (index_at ((List.range n).foldl (unlink_row nodes) L) x ∈ nodes)
            && live_at ((List.range n).foldl (unlink_row nodes) L) x)
          = (decide (index_at L x ∈ nodes) && live_at L x) := by
        intro x hx
        rw [index_at_congr h1, ih (by omega) x, if_neg]
        rintro ⟨j, hj, -, hxj⟩
        have := rows_disjoint L hL j n (by omega) (by omega) x hxj hx
        omega
      generalize row_slots L n = l at hpt
      induction l with
      | nil => rfl
      | cons x l ihl =>
        simp only [List.any_cons]
        rw [hpt x (List.mem_cons_self _ _),
          ihl (fun y hy => hpt y (List.mem_cons_of_mem _ hy))]
    rw [hhit, ih (by omega) k]
    by_cases hA : (row_slots L n).any
        (fun k => decide (index_at L k ∈ nodes) && live_at L k) = true ∧ k ∈ row_slots L n
    · rw [if_pos hA, if_pos ⟨n, Nat.lt_succ_self _, hA.1, hA.2⟩]
    · rw [if_neg hA]
      by_cases hB : ∃ j, j < n ∧ (row_slots L j).any
          (fun k => decide (index_at L k ∈ nodes) && live_at L k) = true ∧ k ∈ row_slots L j
      · obtain ⟨j, hj, hB1, hB2⟩ := hB
        rw [if_pos ⟨j, hj, hB1, hB2⟩, if_pos ⟨j, by omega, hB1, hB2⟩]
      · rw [if_neg hB, if_neg]
        rintro ⟨j, hj, hC1, hC2⟩
        by_cases hjn : j = n
        · subst hjn; exact hA ⟨hC1, hC2⟩
        · exact hB ⟨j, by omega, hC1, hC2⟩

/-- C33: on a well-formed linkage, `unlink_nodes` leaves `indices` and `indptr`
unchanged, sets every flag of a row that had a live incidence to a member of
`nodes` to not-live and keeps the flags of every other row; hence if every row
had 0 or 2 live incidences before the call, every row has 0 or 2 after it. -/
theorem unlink_nodes_row_local (nodes : List Int) (L : EVIncidence) (hL : L.WellFormed) :
    (unlink_nodes nodes L).indices = L.indices ∧ (unlink_nodes nodes L).indptr = L.indptr ∧
    (∀ j, j < L.shape.1.toNat →
      ((∃ k ∈ row_slots L j, index_at L k ∈ nodes ∧ live_at L k = true) →
        ∀ k ∈ row_slots L j, live_at (unlink_nodes nodes L) k = false) ∧
      (¬ (∃ k ∈ row_slots L j, index_at L k ∈ nodes ∧ live_at L k = true) →
        ∀ k ∈ row_slots L j, live_at (unlink_nodes nodes L) k = live_at L k)) ∧
    ((∀ j, j < L.shape.1.toNat →
        ((row_slots L j).filter (live_at L)).length = 0 ∨
        ((row_slots L j).filter (live_at L)).length = 2) →
      ∀ j, j < L.shape.1.toNat →
        ((row_slots L j).filter (live_at (unlink_nodes nodes L))).length = 0 ∨
        ((row_slots L j).filter (live_at (unlink_nodes nodes L))).length = 2) := by
  obtain ⟨h1, h2, -, -, -⟩ := unlink_nodes_spec nodes L
  have hhit : ∀ j, (row_slots L j).any
      (fun k => decide (index_at L k ∈ nodes) && live_at L k) = true ↔
      ∃ k ∈ row_slots L j, index_at L k ∈ nodes ∧ live_at L k = true := by
    intro j
    rw [List.any_eq_true]
    constructor
    · rintro ⟨k, hk, h⟩
      simp only [Bool.and_eq_true, decide_eq_true_eq] at h
      exact ⟨k, hk, h⟩
    · rintro ⟨k, hk, h⟩
      exact ⟨k, hk, by simp [h.1, h.2]⟩
  have hrow : ∀ j, j < L.shape.1.toNat →
      ((∃ k ∈ row_slots L j, index_at L k ∈ nodes ∧ live_at L k = true) →
        ∀ k ∈ row_slots L j, live_at (unlink_nodes nodes L) k = false) ∧
      (¬ (∃ k ∈ row_slots L j, index_at L k ∈ nodes ∧ live_at L k = true) →
        ∀ k ∈ row_slots L j, live_at (unlink_nodes nodes L) k = live_at L k) := by
    intro j hj
    constructor
    · intro hx k hk
      unfold unlink_nodes
      rw [unlink_fold_exact nodes L hL _ (le_refl _) k,
        if_pos ⟨j, hj, (hhit j).2 hx, hk⟩]
    · intro hx k hk
      unfold unlink_nodes
      rw [unlink_fold_exact nodes L hL _ (le_refl _) k, if_neg]
      rintro ⟨j2, hj2, hy, hk2⟩
      have := rows_disjoint L hL j j2 hj hj2 k hk hk2
      subst this
      exact hx ((hhit j).1 hy)
  refine ⟨h1, h2, hrow, ?_⟩
  intro hcount j hj
  by_cases hx : ∃ k ∈ row_slots L j, index_at L k ∈ nodes ∧ live_at L k = true
  · left
    rw [List.length_eq_zero, List.filter_eq_nil_iff]
    intro k hk
    rw [(hrow j hj).1 hx k hk]
    simp
  · have e : (row_slots L j).filter (live_at (unlink_nodes nodes L))
        = (row_slots L j).filter (live_at L) := by
      apply List.filter_congr
      intro k hk
      rw [(hrow j hj).2 hx k hk]
    rw [e]
    exact hcount j hj

theorem unlink_nodes_row_local_witness :
    EVIncidence.WellFormed ⟨[true, true, true, true], [5, 7, 7, 3], [0, 2, 4], (2, 8)⟩ ∧
    ((unlink_nodes [5] ⟨[true, true, true, true], [5, 7, 7, 3], [0, 2, 4], (2, 8)⟩).indices
      = [5, 7, 7, 3] ∧
    (unlink_nodes [5] ⟨[true, true, true, true], [5, 7, 7, 3], [0, 2, 4], (2, 8)⟩).indptr
      = [0, 2, 4] ∧
    (∀ j, j < (2 : Int).toNat →
      ((∃ k ∈ row_slots ⟨[true, true, true, true], [5, 7, 7, 3], [0, 2, 4], (2, 8)⟩ j,
          index_at ⟨[true, true, true, true], [5, 7, 7, 3], [0, 2, 4], (2, 8)⟩ k ∈ [5] ∧
          live_at ⟨[true, true, true, true], [5, 7, 7, 3], [0, 2, 4], (2, 8)⟩ k = true) →
        ∀ k ∈ row_slots ⟨[true, true, true, true], [5, 7, 7, 3], [0, 2, 4], (2, 8)⟩ j,
          live_at (unlink_nodes [5]
            ⟨[true, true, true, true], [5, 7, 7, 3], [0, 2, 4], (2, 8)⟩) k = false) ∧
      (¬ (∃ k ∈ row_slots ⟨[true, true, true, true], [5, 7, 7, 3], [0, 2, 4], (2, 8)⟩ j,
          index_at ⟨[true, true, true, true], [5, 7, 7, 3], [0, 2, 4], (2, 8)⟩ k ∈ [5] ∧
          live_at ⟨[true, true, true, true], [5, 7, 7, 3], [0, 2, 4], (2, 8)⟩ k = true) →
        ∀ k ∈ row_slots ⟨[true, true, true, true], [5, 7, 7, 3], [0, 2, 4], (2, 8)⟩ j,
          live_at (unlink_nodes [5]
            ⟨[true, true, true, true], [5, 7, 7, 3], [0, 2, 4], (2, 8)⟩) k
          = live_at ⟨[true, true, true, true], [5, 7, 7, 3], [0, 2, 4], (2, 8)⟩ k)) ∧
    ((∀ j, j < (2 : Int).toNat →
        ((row_slots ⟨[true, true, true, true], [5, 7, 7, 3], [0, 2, 4], (2, 8)⟩ j).filter
          (live_at ⟨[true, true, true, true], [5, 7, 7, 3], [0, 2, 4], (2, 8)⟩)).length = 0 ∨
        ((row_slots ⟨[true, true, true, true], [5, 7, 7, 3], [0, 2, 4], (2, 8)⟩ j).filter
          (live_at ⟨[true, true, true, true], [5, 7, 7, 3], [0, 2, 4], (2, 8)⟩)).length = 2) →
      ∀ j, j < (2 : Int).toNat →
        ((row_slots ⟨[true, true, true, true], [5, 7, 7, 3], [0, 2, 4], (2, 8)⟩ j).filter
          (live_at (unlink_nodes [5]
            ⟨[true, true, true, true], [5, 7, 7, 3], [0, 2, 4], (2, 8)⟩))).length = 0 ∨
        ((row_slots ⟨[true, true, true, true], [5, 7, 7, 3], [0, 2, 4], (2, 8)⟩ j).filter
          (live_at (unlink_nodes [5]
            ⟨[true, true, true, true], [5, 7, 7, 3], [0, 2, 4], (2, 8)⟩))).length = 2)) :=
  ⟨by unfold EVIncidence.WellFormed; decide,
   unlink_nodes_row_local [5] ⟨[true, true, true, true], [5, 7, 7, 3], [0, 2, 4], (2, 8)⟩
    (by unfold EVIncidence.WellFormed; decide)⟩

/-! ## Components as equivalence classes -/

/-- C36: on a well-formed linkage `find_connected_component` returns for every node,
`v` is a member of its own component, the component of a member `u` of the
component of `v` has the same members, and `relabel_by_cc` returns a label `≤ v`. -/
theorem find_connected_component_class (L : EVIncidence) (u v : Int) (_hL : L.WellFormed) :
    ∃ cu cv m, find_connected_component u L = .ok cu ∧
      find_connected_component v L = .ok cv ∧ v ∈ cv ∧
      (u ∈ cv → ∀ x, x ∈ cu ↔ x ∈ cv) ∧
      relabel_by_cc v L = .ok m ∧ m ≤ v := by
  obtain ⟨cu, hu, hcu⟩ := find_connected_component_total u L
  obtain ⟨cv, hv, hcv⟩ := find_connected_component_total v L
  obtain ⟨m, hm, -, hmin⟩ := relabel_by_cc_total v L
  refine ⟨cu, cv, m, hu, hv, (hcv v).2 Relation.ReflTransGen.refl, ?_, hm,
    hmin v Relation.ReflTransGen.refl⟩
  intro huv x
  have hvu : Reach L v u := (hcv u).1 huv
  rw [hcu x, hcv x]
  constructor
  · intro h
    exact Relation.ReflTransGen.trans hvu h
  · intro h
    exact Relation.ReflTransGen.trans (reach_symm hvu) h

theorem find_connected_component_class_witness :
    EVIncidence.WellFormed ⟨[true, true, true, true], [5, 7, 7, 3], [0, 2, 4], (2, 8)⟩ ∧
    ∃ cu cv m,
      find_connected_component 3 ⟨[true, true, true, true], [5, 7, 7, 3], [0, 2, 4], (2, 8)⟩
        = .ok cu ∧
      find_connected_component 5 ⟨[true, true, true, true], [5, 7, 7, 3], [0, 2, 4], (2, 8)⟩
        = .ok cv ∧ 5 ∈ cv ∧
      (3 ∈ cv → ∀ x, x ∈ cu ↔ x ∈ cv) ∧
      relabel_by_cc 5 ⟨[true, true, true, true], [5, 7, 7, 3], [0, 2, 4], (2, 8)⟩ = .ok m ∧
      m ≤ 5 :=
  ⟨by unfold EVIncidence.WellFormed; decide,
   find_connected_component_class ⟨[true, true, true, true], [5, 7, 7, 3], [0, 2, 4], (2, 8)⟩
    3 5 (by unfold EVIncidence.WellFormed; decide)⟩

/-! ## The edge loop of `split_block_1d`, row by row -/

/-- The flags agree on linkages with the same `data` array. -/
theorem live_at_congr {L M : EVIncidence} (h : M.data = L.data) (k : Int) :
    live_at M k = live_at L k := by
  unfold live_at
  rw [h]

/-- A flag read after an in-bounds write. -/
theorem live_at_write_at (M : EVIncidence) (xs : List Int) (a : Int) (b : Bool) (k : Int)
    (h0 : 0 ≤ a) (h1 : a < (M.data.length : Int)) :
    live_at ⟨write_at M.data a b, xs, M.indptr, M.shape⟩ k
      = if k = a then b else live_at M k := by
  have ha : ¬ a < 0 := by omega
  unfold live_at write_at
  simp only
  rw [if_neg ha]
  by_cases hk : k < 0
  · have hne : ¬ k = a := by omega
    rw [if_pos hk, if_pos hk, if_neg hne]
  · rw [if_neg hk, if_neg hk]
    simp only [List.getD_eq_getElem?_getD]
    by_cases hkk : k = a
    · subst hkk
      rw [if_pos rfl, List.getElem?_set_self (by omega)]
      rfl
    · rw [if_neg hkk, List.getElem?_set_ne (by omega)]

/-- An index read after an in-bounds write. -/
theorem index_at_write_at (M : EVIncidence) (ds : List Bool) (a x : Int) (k : Int)
    (h0 : 0 ≤ a) (h1 : a < (M.indices.length : Int)) :
    index_at ⟨ds, write_at M.indices a x, M.indptr, M.shape⟩ k
      = if k = a then x else index_at M k :=
  read_at_write_at M.indices a k x h0 h1

/-- What the edge loop does on a straddling row when there is a new label:
the slot of the smaller endpoint is rewritten. -/
theorem split1d_edge_some (cc : List Int) (index nlb : Int) (M : EVIncidence) (i : Nat)
    (hs : Straddles M cc index i) :
    split1d_edge cc index (some nlb) M i
      = ⟨M.data, write_at M.indices (smaller_slot M i) nlb, M.indptr, M.shape⟩ := by
  obtain ⟨h1, h2, h3, h4, h5, h6, h7⟩ := hs
  unfold split1d_edge smaller_slot
  rw [if_pos h1, h2, h3]
  simp only [Bool.and_self, if_true]
  rw [if_pos ⟨h4, h5⟩]
  by_cases hlt : index_at M (M.indptr.getD i 0 + 1) < index_at M (M.indptr.getD i 0)
  · rw [if_pos hlt, if_pos hlt, if_pos ⟨by omega, by omega⟩]
  · rw [if_neg hlt, if_neg hlt, if_pos ⟨by omega, by omega⟩]

/-- What the edge loop does on a straddling row when there is no new label:
both flags of the row are cleared. -/
theorem split1d_edge_none (cc : List Int) (index : Int) (M : EVIncidence) (i : Nat)
    (hs : Straddles M cc index i) (h0 : 0 ≤ M.indptr.getD i 0)
    (h1 : M.indptr.getD i 0 + 1 < (M.data.length : Int)) :
    (split1d_edge cc index none M i).indices = M.indices ∧
    (split1d_edge cc index none M i).indptr = M.indptr ∧
    (split1d_edge cc index none M i).shape = M.shape ∧
    (split1d_edge cc index none M i).data.length = M.data.length ∧
    ∀ k, live_at (split1d_edge cc index none M i) k
      = if k = M.indptr.getD i 0 ∨ k = M.indptr.getD i 0 + 1 then false else live_at M k := by
  obtain ⟨g1, g2, g3, g4, g5, g6, g7⟩ := hs
  unfold split1d_edge
  rw [if_pos g1, g2, g3]
  simp only [Bool.and_self, if_true]
  rw [if_pos ⟨g4, g5⟩]
  by_cases hlt : index_at M (M.indptr.getD i 0 + 1) < index_at M (M.indptr.getD i 0)
  · rw [if_pos hlt, if_pos ⟨by omega, by omega⟩]
    refine ⟨rfl, rfl, rfl, by simp [length_write_at], ?_⟩
    intro k
    have e := live_at_write_at ⟨write_at M.data (M.indptr.getD i 0 + 1) false, M.indices,
      M.indptr, M.shape⟩ M.indices (M.indptr.getD i 0) false k h0
      (by simp only [length_write_at]; omega)
    have e2 := live_at_write_at M M.indices (M.indptr.getD i 0 + 1) false k (by omega) h1
    simp only at e
    rw [e, e2]
    by_cases ha : k = M.indptr.getD i 0
    · rw [if_pos ha, if_pos (Or.inl ha)]
    · by_cases hb : k = M.indptr.getD i 0 + 1
      · rw [if_neg ha, if_pos hb, if_pos (Or.inr hb)]
      · rw [if_neg ha, if_neg hb, if_neg (by tauto)]
  · rw [if_neg hlt, if_pos ⟨by omega, by omega⟩]
    refine ⟨rfl, rfl, rfl, by simp [length_write_at], ?_⟩
    intro k
    have e := live_at_write_at ⟨write_at M.data (M.indptr.getD i 0) false, M.indices,
      M.indptr, M.shape⟩ M.indices (M.indptr.getD i 0 + 1) false k (by omega)
      (by simp only [length_write_at]; omega)
    have e2 := live_at_write_at M M.indices (M.indptr.getD i 0) false k h0 (by omega)
    simp only at e
    rw [e, e2]
    by_cases hb : k = M.indptr.getD i 0 + 1
    · rw [if_pos hb, if_pos (Or.inr hb)]
    · by_cases ha : k = M.indptr.getD i 0
      · rw [if_neg hb, if_pos ha, if_pos (Or.inl ha)]
      · rw [if_neg hb, if_neg ha, if_neg (by tauto)]

/-- Whether a row straddles depends on its two slots only. -/
theorem straddles_congr {L M : EVIncidence} (cc : List Int) (index : Int) (i : Nat)
    (hp : M.indptr = L.indptr)
    (hl0 : live_at M (L.indptr.getD i 0) = live_at L (L.indptr.getD i 0))
    (hl1 : live_at M (L.indptr.getD i 0 + 1) = live_at L (L.indptr.getD i 0 + 1))
    (hi0 : index_at M (L.indptr.getD i 0) = index_at L (L.indptr.getD i 0))
    (hi1 : index_at M (L.indptr.getD i 0 + 1) = index_at L (L.indptr.getD i 0 + 1)) :
    (Straddles M cc index i ↔ Straddles L cc index i) ∧
    smaller_slot M i = smaller_slot L i := by
  unfold Straddles smaller_slot
  rw [hp, hl0, hl1, hi0, hi1]
  exact ⟨Iff.rfl, rfl⟩

/-- The two slots of a two-incidence row of a well-formed linkage are in bounds. -/
theorem two_slots_bounds (M : EVIncidence) (hM : M.WellFormed) (i : Nat)
    (hi : i < M.shape.1.toNat) (h2 : M.indptr.getD i 0 + 2 = M.indptr.getD (i + 1) 0) :
    0 ≤ M.indptr.getD i 0 ∧ M.indptr.getD i 0 + 1 < (M.indices.length : Int) ∧
    M.indptr.getD i 0 + 1 < (M.data.length : Int) ∧
    M.indptr.getD i 0 ∈ row_slots M i ∧ M.indptr.getD i 0 + 1 ∈ row_slots M i := by
  have a := indptr_mono M hM 0 i (by omega) (by omega)
  have b := indptr_mono M hM (i + 1) M.shape.1.toNat (by omega) (le_refl _)
  obtain ⟨-, -, hlen, h0, -, hend⟩ := hM
  rw [mem_row_slots, mem_row_slots]
  omega

/-- The slot of the smaller endpoint is one of the two slots of the row. -/
theorem smaller_slot_cases (M : EVIncidence) (i : Nat) :
    smaller_slot M i = M.indptr.getD i 0 ∨ smaller_slot M i = M.indptr.getD i 0 + 1 := by
  unfold smaller_slot
  split
  · right; rfl
  · left; rfl

/-- The edge loop with a new label, after `n` rows of a well-formed linkage: the
slot of the smaller endpoint of every straddling row among them holds the new
label, and nothing else has changed. -/
theorem split1d_fold_some (cc : List Int) (index nlb : Int) (M : EVIncidence)
    (hM : M.WellFormed) (n : Nat) (hn : n ≤ M.shape.1.toNat) :
    ((List.range n).foldl (split1d_edge cc index (some nlb)) M).data = M.data ∧
    ((List.range n).foldl (split1d_edge cc index (some nlb)) M).indptr = M.indptr ∧
    ((List.range n).foldl (split1d_edge cc index (some nlb)) M).shape = M.shape ∧
    ((List.range n).foldl (split1d_edge cc index (some nlb)) M).indices.length
      = M.indices.length ∧
    ∀ k, index_at ((List.range n).foldl (split1d_edge cc index (some nlb)) M) k
      = if ∃ i, i < n ∧ Straddles M cc index i ∧ k = smaller_slot M i then nlb
        else index_at M k := by
  induction n with
  | zero => simp
  | succ n ih =>
    obtain ⟨f1, f2, f3, f4, f5⟩ := ih (by omega)
    rw [List.range_succ, List.foldl_append]
    simp only [List.foldl_cons, List.foldl_nil]
    generalize (List.range n).foldl (split1d_edge cc index (some nlb)) M = F at f1 f2 f3 f4 f5 ⊢
    have hfresh : ∀ k ∈ row_slots M n, index_at F k = index_at M k := by
      intro k hk
      rw [f5 k, if_neg]
      rintro ⟨i, hi, hs, hki⟩
      have hb := two_slots_bounds M hM i (by omega) hs.1
      have hmem : k ∈ row_slots M i := by
        rcases smaller_slot_cases M i with h | h
        · rw [hki, h]; exact hb.2.2.2.1
        · rw [hki, h]; exact hb.2.2.2.2
      have := rows_disjoint M hM i n (by omega) (by omega) k hmem hk
      omega
    by_cases hs : Straddles M cc index n
    · have hb := two_slots_bounds M hM n (by omega) hs.1
      obtain ⟨hiff, hslot⟩ := straddles_congr (L := M) (M := F) cc index n f2
        (live_at_congr f1 _) (live_at_congr f1 _) (hfresh _ hb.2.2.2.1) (hfresh _ hb.2.2.2.2)
      rw [split1d_edge_some cc index nlb F n (hiff.2 hs)]
      refine ⟨f1, f2, f3, by simp only [length_write_at]; exact f4, ?_⟩
      intro k
      have hslotb : 0 ≤ smaller_slot F n ∧ smaller_slot F n < (F.indices.length : Int) := by
        rw [hslot, f4]
        rcases smaller_slot_cases M n with h | h <;> rw [h] <;> omega
      rw [index_at_write_at F F.data (smaller_slot F n) nlb k hslotb.1 hslotb.2, hslot, f5 k]
      by_cases hk : k = smaller_slot M n
      · rw [if_pos hk, if_pos ⟨n, Nat.lt_succ_self _, hs, hk⟩]
      · rw [if_neg hk]
        by_cases hB : ∃ i, i < n ∧ Straddles M cc index i ∧ k = smaller_slot M i
        · obtain ⟨i, hi, hB1, hB2⟩ := hB
          rw [if_pos ⟨i, hi, hB1, hB2⟩, if_pos ⟨i, by omega, hB1, hB2⟩]
        · rw [if_neg hB, if_neg]
          rintro ⟨i, hi, hC1, hC2⟩
          by_cases hin : i = n
          · subst hin; exact hk hC2
          · exact hB ⟨i, by omega, hC1, hC2⟩
    · have hsF : ¬ Straddles F cc index n := by
        intro h
        have h2 : M.indptr.getD n 0 + 2 = M.indptr.getD (n + 1) 0 := by
          have := h.1
          rw [f2] at this
          exact this
        have hb := two_slots_bounds M hM n (by omega) h2
        obtain ⟨hiff, -⟩ := straddles_congr (L := M) (M := F) cc index n f2
          (live_at_congr f1 _) (live_at_congr f1 _) (hfresh _ hb.2.2.2.1) (hfresh _ hb.2.2.2.2)
        exact hs (hiff.1 h)
      rw [split1d_edge_eq_self cc index (some nlb) F n hsF]
      refine ⟨f1, f2, f3, f4, ?_⟩
      intro k
      rw [f5 k]
      by_cases hB : ∃ i, i < n ∧ Straddles M cc index i ∧ k = smaller_slot M i
      · obtain ⟨i, hi, hB1, hB2⟩ := hB
        rw [if_pos ⟨i, hi, hB1, hB2⟩, if_pos ⟨i, by omega, hB1, hB2⟩]
      · rw [if_neg hB, if_neg]
        rintro ⟨i, hi, hC1, hC2⟩
        by_cases hin : i = n
        · subst hin; exact hs hC1
        · exact hB ⟨i, by omega, hC1, hC2⟩

/-- The edge loop without a new label, after `n` rows of a well-formed linkage:
both flags of every straddling row among them are cleared, and nothing else has
changed. -/
theorem split1d_fold_none (cc : List Int) (index : Int) (M : EVIncidence)
    (hM : M.WellFormed) (n : Nat) (hn : n ≤ M.shape.1.toNat) :
    ((List.range n).foldl (split1d_edge cc index none) M).indices = M.indices ∧
    ((List.range n).foldl (split1d_edge cc index none) M).indptr = M.indptr ∧
    ((List.range n).foldl (split1d_edge cc index none) M).shape = M.shape ∧
    ((List.range n).foldl (split1d_edge cc index none) M).data.length = M.data.length ∧
    ∀ k, live_at ((List.range n).foldl (split1d_edge cc index none) M) k
      = if ∃ i, i < n ∧ Straddles M cc index i ∧
            (k = M.indptr.getD i 0 ∨ k = M.indptr.getD i 0 + 1) then false
        else live_at M k := by
  induction n with
  | zero => simp
  | succ n ih =>
    obtain ⟨f1, f2, f3, f4, f5⟩ := ih (by omega)
    rw [List.range_succ, List.foldl_append]
    simp only [List.foldl_cons, List.foldl_nil]
    generalize (List.range n).foldl (split1d_edge cc index none) M = F at f1 f2 f3 f4 f5 ⊢
    have hfresh : ∀ k ∈ row_slots M n, live_at F k = live_at M k := by
      intro k hk
      rw [f5 k, if_neg]
      rintro ⟨i, hi, hs, hki⟩
      have hb := two_slots_bounds M hM i (by omega) hs.1
      have hmem : k ∈ row_slots M i := by
        rcases hki with h | h
        · rw [h]; exact hb.2.2.2.1
        · rw [h]; exact hb.2.2.2.2
      have := rows_disjoint M hM i n (by omega) (by omega) k hmem hk
      omega
    by_cases hs : Straddles M cc index n
    · have hb := two_slots_bounds M hM n (by omega) hs.1
      obtain ⟨hiff, -⟩ := straddles_congr (L := M) (M := F) cc index n f2
        (hfresh _ hb.2.2.2.1) (hfresh _ hb.2.2.2.2) (index_at_congr f1 _) (index_at_congr f1 _)
      obtain ⟨e1, e2, e3, e4, e5⟩ := split1d_edge_none cc index F n (hiff.2 hs)
        (by rw [f2]; exact hb.1) (by rw [f2, f4]; exact hb.2.2.1)
      refine ⟨e1.trans f1, e2.trans f2, e3.trans f3, e4.trans f4, ?_⟩
      intro k
      rw [e5 k, f2, f5 k]
      by_cases hk : k = M.indptr.getD n 0 ∨ k = M.indptr.getD n 0 + 1
      · rw [if_pos hk, if_pos ⟨n, Nat.lt_succ_self _, hs, hk⟩]
      · rw [if_neg hk]
        by_cases hB : ∃ i, i < n ∧ Straddles M cc index i ∧
            (k = M.indptr.getD i 0 ∨ k = M.indptr.getD i 0 + 1)
        · obtain ⟨i, hi, hB1, hB2⟩ := hB
          rw [if_pos ⟨i, hi, hB1, hB2⟩, if_pos ⟨i, by omega, hB1, hB2⟩]
        · rw [if_neg hB, if_neg]
          rintro ⟨i, hi, hC1, hC2⟩
          by_cases hin : i = n
          · subst hin; exact hk hC2
          · exact hB ⟨i, by omega, hC1, hC2⟩
    · have hsF : ¬ Straddles F cc index n := by
        intro h
        have h2 : M.indptr.getD n 0 + 2 = M.indptr.getD (n + 1) 0 := by
          have := h.1
          rw [f2] at this
          exact this
        have hb := two_slots_bounds M hM n (by omega) h2
        obtain ⟨hiff, -⟩ := straddles_congr (L := M) (M := F) cc index n f2
          (hfresh _ hb.2.2.2.1) (hfresh _ hb.2.2.2.2) (index_at_congr f1 _) (index_at_congr f1 _)
        exact hs (hiff.1 h)
      rw [split1d_edge_eq_self cc index none F n hsF]
      refine ⟨f1, f2, f3, f4, ?_⟩
      intro k
      rw [f5 k]
      by_cases hB : ∃ i, i < n ∧ Straddles M cc index i ∧
          (k = M.indptr.getD i 0 ∨ k = M.indptr.getD i 0 + 1)
      · obtain ⟨i, hi, hB1, hB2⟩ := hB
        rw [if_pos ⟨i, hi, hB1, hB2⟩, if_pos ⟨i, by omega, hB1, hB2⟩]
      · rw [if_neg hB, if_neg]
        rintro ⟨i, hi, hC1, hC2⟩
        by_cases hin : i = n
        · subst hin; exact hs hC1
        · exact hB ⟨i, by omega, hC1, hC2⟩

/-- The slot of the larger endpoint is one of the two slots of the row, and not
the slot of the smaller one. -/
theorem larger_slot_cases (M : EVIncidence) (i : Nat) :
    (larger_slot M i = M.indptr.getD i 0 ∨ larger_slot M i = M.indptr.getD i 0 + 1) ∧
    larger_slot M i ≠ smaller_slot M i := by
  unfold larger_slot smaller_slot
  split
  · exact ⟨Or.inl rfl, by omega⟩
  · exact ⟨Or.inr rfl, by omega⟩

/-- The edge loop of `split_block_1d` on a well-formed linkage, row by row. -/
theorem split1d_edges_rows (cc : List Int) (index : Int) (nl : Option Int) (M : EVIncidence)
    (hM : M.WellFormed) :
    (split1d_edges cc index nl M).indptr = M.indptr ∧
    ∀ i, i < M.shape.1.toNat →
      (Straddles M cc index i →
        (∀ nlb, nl = some nlb →
          index_at (split1d_edges cc index nl M) (smaller_slot M i) = nlb ∧
          index_at (split1d_edges cc index nl M) (larger_slot M i)
            = index_at M (larger_slot M i) ∧
          live_at (split1d_edges cc index nl M) (M.indptr.getD i 0) = true ∧
          live_at (split1d_edges cc index nl M) (M.indptr.getD i 0 + 1) = true) ∧
        (nl = none →
          live_at (split1d_edges cc index nl M) (M.indptr.getD i 0) = false ∧
          live_at (split1d_edges cc index nl M) (M.indptr.getD i 0 + 1) = false ∧
          index_at (split1d_edges cc index nl M) (M.indptr.getD i 0)
            = index_at M (M.indptr.getD i 0) ∧
          index_at (split1d_edges cc index nl M) (M.indptr.getD i 0 + 1)
            = index_at M (M.indptr.getD i 0 + 1))) ∧
      (¬ Straddles M cc index i → ∀ k ∈ row_slots M i,
        index_at (split1d_edges cc index nl M) k = index_at M k ∧
        live_at (split1d_edges cc index nl M) k = live_at M k) := by
  unfold split1d_edges
  cases nl with
  | none =>
    obtain ⟨f1, f2, f3, f4, f5⟩ := split1d_fold_none cc index M hM _ (le_refl _)
    refine ⟨f2, ?_⟩
    intro i hi
    constructor
    · intro hs
      refine ⟨fun nlb h => Option.noConfusion h, fun _ => ?_⟩
      refine ⟨?_, ?_, index_at_congr f1 _, index_at_congr f1 _⟩
      · rw [f5, if_pos ⟨i, hi, hs, Or.inl rfl⟩]
      · rw [f5, if_pos ⟨i, hi, hs, Or.inr rfl⟩]
    · intro hs k hk
      refine ⟨index_at_congr f1 _, ?_⟩
      rw [f5, if_neg]
      rintro ⟨j, hj, hsj, hkj⟩
      have hb := two_slots_bounds M hM j hj hsj.1
      have hmem : k ∈ row_slots M j := by
        rcases hkj with h | h
        · rw [h]; exact hb.2.2.2.1
        · rw [h]; exact hb.2.2.2.2
      have := rows_disjoint M hM j i hj hi k hmem hk
      subst this
      exact hs hsj
  | some nlb =>
    obtain ⟨f1, f2, f3, f4, f5⟩ := split1d_fold_some cc index nlb M hM _ (le_refl _)
    refine ⟨f2, ?_⟩
    intro i hi
    have hslot : ∀ j, j < M.shape.1.toNat → Straddles M cc index j →
        smaller_slot M j ∈ row_slots M j := by
      intro j hj hsj
      have hb := two_slots_bounds M hM j hj hsj.1
      rcases smaller_slot_cases M j with h | h
      · rw [h]; exact hb.2.2.2.1
      · rw [h]; exact hb.2.2.2.2
    constructor
    · intro hs
      refine ⟨fun x hx => ?_, fun h => Option.noConfusion h⟩
      have hx2 : nlb = x := Option.some.inj hx
      subst hx2
      have hb := two_slots_bounds M hM i hi hs.1
      refine ⟨?_, ?_, ?_, ?_⟩
      · rw [f5, if_pos ⟨i, hi, hs, rfl⟩]
      · rw [f5, if_neg]
        rintro ⟨j, hj, hsj, hkj⟩
        have hmem : larger_slot M i ∈ row_slots M i := by
          rcases (larger_slot_cases M i).1 with h | h
          · rw [h]; exact hb.2.2.2.1
          · rw [h]; exact hb.2.2.2.2
        have := rows_disjoint M hM j i hj hi _ (hkj ▸ hslot j hj hsj) hmem
        subst this
        exact (larger_slot_cases M j).2 hkj
      · rw [live_at_congr f1]; exact hs.2.1
      · rw [live_at_congr f1]; exact hs.2.2.1
    · intro hs k hk
      refine ⟨?_, live_at_congr f1 _⟩
      rw [f5, if_neg]
      rintro ⟨j, hj, hsj, hkj⟩
      have := rows_disjoint M hM j i hj hi k (hkj ▸ hslot j hj hsj) hk
      subst this
      exact hs hsj

/-- A row loop step of `unlink_nodes` keeps the length of the flag array. -/
theorem unlink_row_data_length (nodes : List Int) (L : EVIncidence) (j : Nat) :
    (unlink_row nodes L j).data.length = L.data.length := by
  unfold unlink_row
  split
  · simp only
    generalize row_slots L j = l
    generalize L.data = d
    induction l generalizing d with
    | nil => rfl
    | cons x l ih =>
      simp only [List.foldl_cons]
      rw [ih, length_write_at]
  · rfl

/-- The function `unlink_nodes` keeps a linkage well formed. -/
theorem unlink_nodes_wellFormed (nodes : List Int) (L : EVIncidence) (hL : L.WellFormed) :
    (unlink_nodes nodes L).WellFormed := by
  obtain ⟨h1, h2, h3, -, -⟩ := unlink_nodes_spec nodes L
  have hlen : (unlink_nodes nodes L).data.length = L.data.length := by
    unfold unlink_nodes
    generalize L.shape.1.toNat = n
    induction n with
    | zero => rfl
    | succ n ih =>
      rw [List.range_succ, List.foldl_append]
      simp only [List.foldl_cons, List.foldl_nil]
      rw [unlink_row_data_length, ih]
  unfold EVIncidence.WellFormed at hL ⊢
  rw [h1, h2, h3, hlen]
  exact hL

/-- The rows that still straddle after the new label has been unlinked are the
straddling rows without an endpoint equal to the new label. -/
theorem straddles_unlinked_iff (nlb : Int) (cc : List Int) (index : Int) (L : EVIncidence)
    (hL : L.WellFormed) (i : Nat) (hi : i < L.shape.1.toNat) :
    Straddles (unlink_nodes [nlb] L) cc index i ↔
      Straddles L cc index i ∧ index_at L (L.indptr.getD i 0) ≠ nlb ∧
        index_at L (L.indptr.getD i 0 + 1) ≠ nlb := by
  obtain ⟨h1, h2, h3, h4, h5⟩ := unlink_nodes_spec [nlb] L
  constructor
  · intro hs
    have hsL := straddles_of_unlink [nlb] cc index L i hs
    have hb := two_slots_bounds L hL i hi hsL.1
    obtain ⟨-, g2, g3, -⟩ := hs
    rw [h2] at g2 g3
    refine ⟨hsL, ?_, ?_⟩
    · intro he
      rw [h5 i hi _ hb.2.2.2.1 (List.mem_singleton.2 he)] at g2
      exact Bool.noConfusion g2
    · intro he
      rw [h5 i hi _ hb.2.2.2.2 (List.mem_singleton.2 he)] at g3
      exact Bool.noConfusion g3
  · rintro ⟨hs, hn0, hn1⟩
    have hb := two_slots_bounds L hL i hi hs.1
    have hkeep : ∀ k ∈ row_slots L i, live_at (unlink_nodes [nlb] L) k = live_at L k := by
      intro k hk
      unfold unlink_nodes
      rw [unlink_fold_exact [nlb] L hL _ (le_refl _) k, if_neg]
      rintro ⟨j, hj, hhit, hkj⟩
      have := rows_disjoint L hL j i hj hi k hkj hk
      subst this
      rw [List.any_eq_true] at hhit
      obtain ⟨x, hx, hxx⟩ := hhit
      simp only [Bool.and_eq_true, decide_eq_true_eq, List.mem_singleton] at hxx
      rw [mem_row_slots] at hx
      have hx2 : x = L.indptr.getD j 0 ∨ x = L.indptr.getD j 0 + 1 := by
        have := hs.1
        omega
      rcases hx2 with h | h
      · rw [h] at hxx; exact hn0 hxx.1
      · rw [h] at hxx; exact hn1 hxx.1
    exact ((straddles_congr (L := L) (M := unlink_nodes [nlb] L) cc index i h2
      (hkeep _ hb.2.2.2.1) (hkeep _ hb.2.2.2.2) (index_at_congr h1 _)
      (index_at_congr h1 _)).1).2 hs

/-! ## The edge surgery of `split_block_1d` -/

/-- Claim C34, as the code has it: on a well-formed linkage `L`, when the assertions
of `split_block_1d` hold, the call returns and leaves the linkage that the edge
loop makes of `split1d_unlinked nl L`, the linkage in which the new label (when
one exists) has been unlinked; `cc` is the component of `label` in `L`. A row
is a straddling live edge of that linkage exactly when it is one of `L` and
neither endpoint is the new label. For such a row the slot of the smaller
endpoint holds the new label after the call and the other slot and both flags
are kept (when a new label exists), or both flags are not-live and both indices
are kept (when none exists). Every other row has, after the call, the indices of
`L` and the flags of `split1d_unlinked nl L`: the edge loop does not modify it. -/
theorem split_block_1d_surgery (bl : List Int) (bs be index label : Int) (L : EVIncidence)
    (preserved cc : List Int) (nl : Option Int) (hL : L.WellFormed) (hsize : be - bs > 0)
    (hidx : 0 ≤ index - bs ∧ index - bs < (bl.length : Int))
    (hcc : find_connected_component label L = .ok cc)
    (hnl : find_next_label bl 0 (be - bs) bs be = nl) :
    (∃ m, (split_block_1d bl bs be index label L preserved).outcome = .ok m) ∧
    (split_block_1d bl bs be index label L preserved).linkage
      = split1d_edges cc index nl (split1d_unlinked nl L) ∧
    (split_block_1d bl bs be index label L preserved).linkage.indptr = L.indptr ∧
    ∀ i, i < L.shape.1.toNat →
      (Straddles (split1d_unlinked nl L) cc index i ↔
        Straddles L cc index i ∧ ∀ nlb, nl = some nlb →
          index_at L (L.indptr.getD i 0) ≠ nlb ∧
          index_at L (L.indptr.getD i 0 + 1) ≠ nlb) ∧
      (Straddles (split1d_unlinked nl L) cc index i →
        (∀ nlb, nl = some nlb →
          index_at (split_block_1d bl bs be index label L preserved).linkage
            (smaller_slot L i) = nlb ∧
          index_at (split_block_1d bl bs be index label L preserved).linkage
            (larger_slot L i) = index_at L (larger_slot L i) ∧
          live_at (split_block_1d bl bs be index label L preserved).linkage
            (L.indptr.getD i 0) = true ∧
          live_at (split_block_1d bl bs be index label L preserved).linkage
            (L.indptr.getD i 0 + 1) = true) ∧
        (nl = none →
          live_at (split_block_1d bl bs be index label L preserved).linkage
            (L.indptr.getD i 0) = false ∧
          live_at (split_block_1d bl bs be index label L preserved).linkage
            (L.indptr.getD i 0 + 1) = false ∧
          index_at (split_block_1d bl bs be index label L preserved).linkage
            (L.indptr.getD i 0) = index_at L (L.indptr.getD i 0) ∧
          index_at (split_block_1d bl bs be index label L preserved).linkage
            (L.indptr.getD i 0 + 1) = index_at L (L.indptr.getD i 0 + 1))) ∧
      (¬ Straddles (split1d_unlinked nl L) cc index i → ∀ k ∈ row_slots L i,
        index_at (split_block_1d bl bs be index label L preserved).linkage k = index_at L k ∧
        live_at (split_block_1d bl bs be index label L preserved).linkage k
          = live_at (split1d_unlinked nl L) k) := by
  have hM : (split1d_unlinked nl L).WellFormed := by
    cases nl with
    | none => exact hL
    | some nlb => exact unlink_nodes_wellFormed [nlb] L hL
  have hfr : (split1d_unlinked nl L).indices = L.indices ∧
      (split1d_unlinked nl L).indptr = L.indptr ∧ (split1d_unlinked nl L).shape = L.shape := by
    cases nl with
    | none => exact ⟨rfl, rfl, rfl⟩
    | some nlb =>
      obtain ⟨h1, h2, h3, -, -⟩ := unlink_nodes_spec [nlb] L
      exact ⟨h1, h2, h3⟩
  obtain ⟨g1, g2, g3⟩ := hfr
  have hout : (∃ m, (split_block_1d bl bs be index label L preserved).outcome = .ok m) ∧
      (split_block_1d bl bs be index label L preserved).linkage
        = split1d_edges cc index nl (split1d_unlinked nl L) := by
    cases nl with
    | none =>
      rw [split_block_1d_no_label bl bs be index label L preserved cc hsize hidx hcc hnl]
      exact ⟨⟨_, rfl⟩, rfl⟩
    | some nlb =>
      obtain ⟨h1, -, -, m, hm, -⟩ :=
        split_block_1d_relabel bl bs be index label L preserved cc nlb hsize hidx hcc hnl
      exact ⟨⟨m, hm⟩, h1⟩
  obtain ⟨hret, hlink⟩ := hout
  obtain ⟨r1, r2⟩ := split1d_edges_rows cc index nl (split1d_unlinked nl L) hM
  have hss : ∀ i, smaller_slot (split1d_unlinked nl L) i = smaller_slot L i := by
    intro i
    unfold smaller_slot
    simp only [index_at_congr g1, g2]
  have hls : ∀ i, larger_slot (split1d_unlinked nl L) i = larger_slot L i := by
    intro i
    unfold larger_slot
    simp only [index_at_congr g1, g2]
  rw [hlink]
  refine ⟨hret, rfl, r1.trans g2, ?_⟩
  intro i hi
  obtain ⟨q1, q2⟩ := r2 i (by rw [g3]; exact hi)
  refine ⟨?_, ?_, ?_⟩
  · cases nl with
    | none =>
      exact ⟨fun h => ⟨h, fun nlb hx => Option.noConfusion hx⟩, fun h => h.1⟩
    | some nlb =>
      show Straddles (unlink_nodes [nlb] L) cc index i ↔ _
      rw [straddles_unlinked_iff nlb cc index L hL i hi]
      constructor
      · rintro ⟨a, b, c⟩
        refine ⟨a, fun x hx => ?_⟩
        have := Option.some.inj hx
        subst this
        exact ⟨b, c⟩
      · rintro ⟨a, b⟩
        exact ⟨a, (b nlb rfl).1, (b nlb rfl).2⟩
  · intro hs
    obtain ⟨a, b⟩ := q1 hs
    constructor
    · intro nlb hx
      have := a nlb hx
      rw [hss, hls, index_at_congr g1, g2] at this
      exact this
    · intro hx
      have := b hx
      rw [g2, index_at_congr g1 (L.indptr.getD i 0),
        index_at_congr g1 (L.indptr.getD i 0 + 1)] at this
      exact this
  · intro hs k hk
    have := q2 hs k (by rw [row_slots_congr g2]; exact hk)
    rw [index_at_congr g1 k] at this
    exact this

/-- Witness of `split_block_1d_surgery`: the block `[0, 0, 0]` with range `[0, 3)`,
split at index 1 for the label 0, on the linkage with the live edge `\x7b0, 2\x7d`:
the new label is 1 and the incidence of 0 is rewritten to 1. -/
theorem split_block_1d_surgery_witness :
    EVIncidence.WellFormed ⟨[true, true], [0, 2], [0, 2], (1, 3)⟩ ∧
    (3 : Int) - 0 > 0 ∧
    ((0 : Int) ≤ 1 - 0 ∧ (1 : Int) - 0 < (([0, 0, 0] : List Int).length : Int)) ∧
    find_connected_component 0 ⟨[true, true], [0, 2], [0, 2], (1, 3)⟩ = .ok [2, 0] ∧
    find_next_label [0, 0, 0] 0 (3 - 0) 0 3 = some 1 ∧
    ((∃ m, (split_block_1d [0, 0, 0] 0 3 1 0 ⟨[true, true], [0, 2], [0, 2], (1, 3)⟩ []).outcome = .ok m) ∧
    (split_block_1d [0, 0, 0] 0 3 1 0 ⟨[true, true], [0, 2], [0, 2], (1, 3)⟩ []).linkage
      = split1d_edges [2, 0] 1 (some 1) (split1d_unlinked (some 1) ⟨[true, true], [0, 2], [0, 2], (1, 3)⟩) ∧
    (split_block_1d [0, 0, 0] 0 3 1 0 ⟨[true, true], [0, 2], [0, 2], (1, 3)⟩ []).linkage.indptr = (⟨[true, true], [0, 2], [0, 2], (1, 3)⟩ : EVIncidence).indptr ∧
    ∀ i, i < (⟨[true, true], [0, 2], [0, 2], (1, 3)⟩ : EVIncidence).shape.1.toNat →
      (Straddles (split1d_unlinked (some 1) ⟨[true, true], [0, 2], [0, 2], (1, 3)⟩) [2, 0] 1 i ↔
        Straddles ⟨[true, true], [0, 2], [0, 2], (1, 3)⟩ [2, 0] 1 i ∧ ∀ nlb, (some 1) = some nlb →
          index_at ⟨[true, true], [0, 2], [0, 2], (1, 3)⟩ ((⟨[true, true], [0, 2], [0, 2], (1, 3)⟩ : EVIncidence).indptr.getD i 0) ≠ nlb ∧
          index_at ⟨[true, true], [0, 2], [0, 2], (1, 3)⟩ ((⟨[true, true], [0, 2], [0, 2], (1, 3)⟩ : EVIncidence).indptr.getD i 0 + 1) ≠ nlb) ∧
      (Straddles (split1d_unlinked (some 1) ⟨[true, true], [0, 2], [0, 2], (1, 3)⟩) [2, 0] 1 i →
        (∀ nlb, (some 1) = some nlb →
          index_at (split_block_1d [0, 0, 0] 0 3 1 0 ⟨[true, true], [0, 2], [0, 2], (1, 3)⟩ []).linkage
            (smaller_slot ⟨[true, true], [0, 2], [0, 2], (1, 3)⟩ i) = nlb ∧
          index_at (split_block_1d [0, 0, 0] 0 3 1 0 ⟨[true, true], [0, 2], [0, 2], (1, 3)⟩ []).linkage
            (larger_slot ⟨[true, true], [0, 2], [0, 2], (1, 3)⟩ i) = index_at ⟨[true, true], [0, 2], [0, 2], (1, 3)⟩ (larger_slot ⟨[true, true], [0, 2], [0, 2], (1, 3)⟩ i) ∧
          live_at (split_block_1d [0, 0, 0] 0 3 1 0 ⟨[true, true], [0, 2], [0, 2], (1, 3)⟩ []).linkage
            ((⟨[true, true], [0, 2], [0, 2], (1, 3)⟩ : EVIncidence).indptr.getD i 0) = true ∧
          live_at (split_block_1d [0, 0, 0] 0 3 1 0 ⟨[true, true], [0, 2], [0, 2], (1, 3)⟩ []).linkage
            ((⟨[true, true], [0, 2], [0, 2], (1, 3)⟩ : EVIncidence).indptr.getD i 0 + 1) = true) ∧
        ((some 1 : Option Int) = none →
          live_at (split_block_1d [0, 0, 0] 0 3 1 0 ⟨[true, true], [0, 2], [0, 2], (1, 3)⟩ []).linkage
            ((⟨[true, true], [0, 2], [0, 2], (1, 3)⟩ : EVIncidence).indptr.getD i 0) = false ∧
          live_at (split_block_1d [0, 0, 0] 0 3 1 0 ⟨[true, true], [0, 2], [0, 2], (1, 3)⟩ []).linkage
            ((⟨[true, true], [0, 2], [0, 2], (1, 3)⟩ : EVIncidence).indptr.getD i 0 + 1) = false ∧
          index_at (split_block_1d [0, 0, 0] 0 3 1 0 ⟨[true, true], [0, 2], [0, 2], (1, 3)⟩ []).linkage
            ((⟨[true, true], [0, 2], [0, 2], (1, 3)⟩ : EVIncidence).indptr.getD i 0) = index_at ⟨[true, true], [0, 2], [0, 2], (1, 3)⟩ ((⟨[true, true], [0, 2], [0, 2], (1, 3)⟩ : EVIncidence).indptr.getD i 0) ∧
          index_at (split_block_1d [0, 0, 0] 0 3 1 0 ⟨[true, true], [0, 2], [0, 2], (1, 3)⟩ []).linkage
            ((⟨[true, true], [0, 2], [0, 2], (1, 3)⟩ : EVIncidence).indptr.getD i 0 + 1) = index_at ⟨[true, true], [0, 2], [0, 2], (1, 3)⟩ ((⟨[true, true], [0, 2], [0, 2], (1, 3)⟩ : EVIncidence).indptr.getD i 0 + 1))) ∧
      (¬ Straddles (split1d_unlinked (some 1) ⟨[true, true], [0, 2], [0, 2], (1, 3)⟩) [2, 0] 1 i → ∀ k ∈ row_slots ⟨[true, true], [0, 2], [0, 2], (1, 3)⟩ i,
        index_at (split_block_1d [0, 0, 0] 0 3 1 0 ⟨[true, true], [0, 2], [0, 2], (1, 3)⟩ []).linkage k = index_at ⟨[true, true], [0, 2], [0, 2], (1, 3)⟩ k ∧
        live_at (split_block_1d [0, 0, 0] 0 3 1 0 ⟨[true, true], [0, 2], [0, 2], (1, 3)⟩ []).linkage k
          = live_at (split1d_unlinked (some 1) ⟨[true, true], [0, 2], [0, 2], (1, 3)⟩) k)) :=
  ⟨by unfold EVIncidence.WellFormed; decide, by decide, by decide, rfl, by decide,
    split_block_1d_surgery [0, 0, 0] 0 3 1 0 ⟨[true, true], [0, 2], [0, 2], (1, 3)⟩ [] [2, 0] (some 1)
      (by unfold EVIncidence.WellFormed; decide) (by decide) (by decide) rfl (by decide)⟩

/-- Claim C34 fails for a row of the entry linkage that has the new label as an
endpoint: the block `[0, 0, 0]` with range `[0, 3)` is split at index 1 for the
label 0 on the linkage whose one row is the live edge of 0 and 1. The row has
two live incidences, both endpoints are in the component of 0, and `0 < 1 ≤ 1`;
the new label is 1. The call unlinks the new label before the edge walk, so
after the call the incidence of 0 still holds 0 and both flags are not-live. -/
theorem split_block_1d_surgery_counterexample :
    EVIncidence.WellFormed ⟨[true, true], [0, 1], [0, 2], (1, 2)⟩ ∧
    find_connected_component 0 ⟨[true, true], [0, 1], [0, 2], (1, 2)⟩ = .ok [1, 0] ∧
    Straddles ⟨[true, true], [0, 1], [0, 2], (1, 2)⟩ [1, 0] 1 0 ∧
    find_next_label [0, 0, 0] 0 (3 - 0) 0 3 = some 1 ∧
    smaller_slot ⟨[true, true], [0, 1], [0, 2], (1, 2)⟩ 0 = 0 ∧
    (split_block_1d [0, 0, 0] 0 3 1 0 ⟨[true, true], [0, 1], [0, 2], (1, 2)⟩ []).linkage
      = ⟨[false, false], [0, 1], [0, 2], (1, 2)⟩ ∧
    index_at (split_block_1d [0, 0, 0] 0 3 1 0
      ⟨[true, true], [0, 1], [0, 2], (1, 2)⟩ []).linkage 0 ≠ 1 := by
  refine ⟨by unfold EVIncidence.WellFormed; decide, rfl, by decide, by decide, by decide,
    rfl, by decide⟩

/-! ## The inverse index of `InvertEdges` -/

/-- The search of `InvertEdges` from the slot `k0` on finds the first slot at or
after `k0` that holds `i`, when there is one. -/
theorem invert_search_spec (row : List Nat) (i : Nat) (fuel k0 l : Nat)
    (hfuel : row.length < fuel + k0) (hl : k0 ≤ l) (hrow : row[l]? = some i) :
    ∃ m, invert_search row i fuel k0 = .ok m ∧ k0 ≤ m ∧ m < row.length ∧ row[m]? = some i ∧
      ∀ a, k0 ≤ a → a < m → row[a]? ≠ some i := by
  induction fuel generalizing k0 with
  | zero =>
    have : l < row.length := by
      by_contra h
      rw [List.getElem?_eq_none (by omega)] at hrow
      exact Option.noConfusion hrow
    omega
  | succ fuel ih =>
    have hlt : l < row.length := by
      by_contra h
      rw [List.getElem?_eq_none (by omega)] at hrow
      exact Option.noConfusion hrow
    have hk0 : k0 < row.length := by omega
    unfold invert_search
    rw [List.getElem?_eq_getElem hk0]
    simp only
    by_cases hx : row[k0] = i
    · rw [if_neg (by simpa using hx)]
      refine ⟨k0, rfl, le_refl _, hk0, ?_, ?_⟩
      · rw [List.getElem?_eq_getElem hk0, hx]
      · intro a h1 h2
        omega
    · rw [if_pos hx]
      have hne : k0 ≠ l := by
        intro h
        subst h
        rw [List.getElem?_eq_getElem hk0] at hrow
        exact hx (Option.some.inj hrow)
      obtain ⟨m, h1, h2, h3, h4, h5⟩ := ih (k0 + 1) (by omega) (by omega)
      refine ⟨m, h1, by omega, h3, h4, ?_⟩
      intro a ha1 ha2
      by_cases hak : a = k0
      · subst hak
        rw [List.getElem?_eq_getElem hk0]
        intro h
        exact hx (Option.some.inj h)
      · exact h5 a (by omega) ha2

/-- A read after an in-bounds write of a ragged array. -/
theorem ragged_at_write (A : UIRaggedArray) (i k v r l : Nat) (hi : i < A.p.length)
    (hk : k < (A.p.getD i []).length) :
    (A.write i k v).at r l = if r = i ∧ l = k then v else A.at r l := by
  unfold UIRaggedArray.write UIRaggedArray.at
  simp only [List.getD_eq_getElem?_getD]
  by_cases hr : r = i
  · subst hr
    rw [List.getElem?_set_self hi]
    simp only [Option.getD_some]
    by_cases hlk : l = k
    · subst hlk
      rw [if_pos (by simp), List.getElem?_set_self (by simpa using hk)]
      rfl
    · rw [if_neg (by simp [hlk]), List.getElem?_set_ne (by omega)]
  · rw [if_neg (fun h => hr h.1), List.getElem?_set_ne (by omega)]

/-- A write of a ragged array keeps its shape. -/
theorem ragged_write_frame (A : UIRaggedArray) (i k v : Nat) :
    (A.write i k v).n = A.n ∧ (A.write i k v).c = A.c ∧
    (A.write i k v).p.length = A.p.length ∧
    ∀ r, ((A.write i k v).p.getD r []).length = (A.p.getD r []).length := by
  unfold UIRaggedArray.write
  refine ⟨rfl, rfl, by simp, ?_⟩
  intro r
  simp only [List.getD_eq_getElem?_getD]
  by_cases hr : r = i
  · subst hr
    by_cases hi : r < A.p.length
    · rw [List.getElem?_set_self hi]
      simp
    · rw [List.getElem?_eq_none (by simp; omega), List.getElem?_eq_none (by omega)]
  · rw [List.getElem?_set_ne (by omega)]

/-- The read `A.p[i][k]` of a slot of a row. -/
theorem ragged_at_of_getElem? (A : UIRaggedArray) (j m x : Nat)
    (h : (A.p.getD j [])[m]? = some x) : A.at j m = x := by
  unfold UIRaggedArray.at
  rw [List.getD_eq_getElem?_getD (A.p.getD j []), h]
  rfl

/-- An in-bounds slot of a row holds what `A.p[i][k]` reads. -/
theorem getElem?_ragged_at (A : UIRaggedArray) (j a : Nat) (h : a < (A.p.getD j []).length) :
    (A.p.getD j [])[a]? = some (A.at j a) := by
  unfold UIRaggedArray.at
  rw [List.getD_eq_getElem?_getD (A.p.getD j []), List.getElem?_eq_getElem h]
  rfl

/-- The body of the inner loop of `InvertEdges` on a symmetric structure. -/
theorem invert_slot_spec (NK : UIRaggedArray) (hwf : NK.WellFormed) (hsym : NK.Symmetric)
    (i k : Nat) (hi : i < NK.n) (hk : k < NK.c.getD i 0) (M : UIRaggedArray) :
    ∃ v, invert_slot NK i M k = .ok (M.write i k v) ∧ InverseSlot NK i k v := by
  obtain ⟨w1, w2, w3⟩ := hwf
  have hlen := w3 i hi
  have hmem : NK.at i k ∈ NK.p.getD i [] := by
    unfold UIRaggedArray.at
    rw [List.getD_eq_getElem?_getD (NK.p.getD i []), List.getElem?_eq_getElem (by omega)]
    exact List.getElem_mem _
  obtain ⟨hj, hin⟩ := hsym i hi _ hmem
  obtain ⟨l, hl⟩ := List.mem_iff_getElem?.1 hin
  obtain ⟨m, h1, -, h3, h4, h5⟩ := invert_search_spec (NK.p.getD (NK.at i k) []) i
    ((NK.p.getD (NK.at i k) []).length + 1) 0 l (by omega) (by omega) hl
  refine ⟨m, ?_, ?_, ?_, ?_⟩
  · unfold invert_slot
    rw [h1]
  · rw [← w3 _ hj]
    exact h3
  · exact ragged_at_of_getElem? NK _ m i h4
  · intro a ha hcontra
    apply h5 a (by omega) ha
    rw [getElem?_ragged_at NK _ a (by omega)]
    exact congrArg some hcontra

/-- The inner loop of `InvertEdges` on a symmetric structure: the slots of row `i`
are written, the shape and the other rows are kept. -/
theorem invert_row_spec (NK : UIRaggedArray) (hwf : NK.WellFormed) (hsym : NK.Symmetric)
    (i : Nat) (hi : i < NK.n) (M : UIRaggedArray)
    (hM : M.n = NK.n ∧ M.c = NK.c ∧ M.WellFormed) :
    ∃ M2, invert_row NK M i = .ok M2 ∧ (M2.n = NK.n ∧ M2.c = NK.c ∧ M2.WellFormed) ∧
      (∀ r l, r ≠ i → M2.at r l = M.at r l) ∧
      ∀ k, k < NK.c.getD i 0 → InverseSlot NK i k (M2.at i k) := by
  unfold invert_row
  have key := foldlM_range_inv
    (fun k (M2 : UIRaggedArray) => (M2.n = NK.n ∧ M2.c = NK.c ∧ M2.WellFormed) ∧
      (∀ r l, r ≠ i → M2.at r l = M.at r l) ∧
      ∀ k2, k2 < k → InverseSlot NK i k2 (M2.at i k2))
    (invert_slot NK i) (NK.c.getD i 0) M
    ⟨hM, fun _ _ _ => rfl, fun k2 h => absurd h (Nat.not_lt_zero _)⟩ ?_
  · obtain ⟨M2, h1, h2, h3, h4⟩ := key
    exact ⟨M2, h1, h2, h3, h4⟩
  · intro k M2 hk ⟨⟨f1, f2, g1, g2, g3⟩, f4, f5⟩
    obtain ⟨v, hv, hgood⟩ := invert_slot_spec NK hwf hsym i k hi hk M2
    refine ⟨_, hv, ?_, ?_, ?_⟩
    · obtain ⟨e1, e2, e3, e4⟩ := ragged_write_frame M2 i k v
      refine ⟨e1.trans f1, e2.trans f2, ?_, ?_, ?_⟩
      · rw [e2, e1]; exact g1
      · rw [e3, e1]; exact g2
      · intro r hr
        rw [e4, e2]
        rw [e1] at hr
        exact g3 r hr
    · intro r l hr
      rw [ragged_at_write M2 i k v r l (by rw [g2, f1]; exact hi)
        (by rw [g3 i (by rw [f1]; exact hi), f2]; exact hk), if_neg (fun h => hr h.1)]
      exact f4 r l hr
    · intro k2 hk2
      rw [ragged_at_write M2 i k v i k2 (by rw [g2, f1]; exact hi)
        (by rw [g3 i (by rw [f1]; exact hi), f2]; exact hk)]
      by_cases hkk : k2 = k
      · subst hkk
        rw [if_pos ⟨rfl, rfl⟩]
        exact hgood
      · rw [if_neg (fun h => hkk h.2)]
        exact f5 k2 (by omega)

/-- The array allocated by `InitUIRaggedArray` has the shape of its argument. -/
theorem init_ragged_shape (NK : UIRaggedArray) (hwf : NK.WellFormed) :
    (InitUIRaggedArray NK).n = NK.n ∧ (InitUIRaggedArray NK).c = NK.c ∧
    (InitUIRaggedArray NK).WellFormed := by
  unfold InitUIRaggedArray UIRaggedArray.WellFormed
  refine ⟨rfl, rfl, hwf.1, by simp, ?_⟩
  intro i hi
  simp only at hi ⊢
  rw [List.getD_eq_getElem?_getD, List.getElem?_map, List.getElem?_range hi]
  simp

/-- The function `InvertEdges` on a symmetric structure: it returns, and every
slot of the result is the first slot of the point in the row of its neighbour. -/
theorem invert_edges_spec (NK : UIRaggedArray) (hwf : NK.WellFormed) (hsym : NK.Symmetric) :
    ∃ KN, InvertEdges NK = .ok KN ∧ (KN.n = NK.n ∧ KN.c = NK.c ∧ KN.WellFormed) ∧
      ∀ i, i < NK.n → ∀ k, k < NK.c.getD i 0 → InverseSlot NK i k (KN.at i k) := by
  unfold InvertEdges
  have key := foldlM_range_inv
    (fun i (M : UIRaggedArray) => (M.n = NK.n ∧ M.c = NK.c ∧ M.WellFormed) ∧
      ∀ r, r < i → ∀ k, k < NK.c.getD r 0 → InverseSlot NK r k (M.at r k))
    (invert_row NK) NK.n (InitUIRaggedArray NK)
    ⟨init_ragged_shape NK hwf, fun r h => absurd h (Nat.not_lt_zero _)⟩ ?_
  · exact key
  · intro i M hi ⟨f1, f2⟩
    obtain ⟨M2, h1, h2, h3, h4⟩ := invert_row_spec NK hwf hsym i hi M f1
    refine ⟨M2, h1, h2, ?_⟩
    intro r hr k hk
    by_cases hri : r = i
    · subst hri
      exact h4 k hk
    · rw [h3 r k hri]
      exact f2 r (by omega) k hk

/-- Claim C31: for every symmetric, duplicate-free neighbour structure `NK`,
`InvertEdges` returns a structure `KN` of the shape of `NK` such that, for every
point `i` and every slot `k < NK.c[i]`, `KN[i][k]` is a slot of the row of the
`k`-th neighbour of `i`, `NK[NK[i][k]][KN[i][k]] = i`, and no other slot of that
row holds `i`. -/
theorem InvertEdges_inverse (NK : UIRaggedArray) (hwf : NK.WellFormed) (hsym : NK.Symmetric)
    (hnodup : ∀ i, i < NK.n → (NK.p.getD i []).Nodup) :
    ∃ KN, InvertEdges NK = .ok KN ∧ KN.n = NK.n ∧ KN.c = NK.c ∧
      ∀ i, i < NK.n → ∀ k, k < NK.c.getD i 0 →
        KN.at i k < NK.c.getD (NK.at i k) 0 ∧ NK.at (NK.at i k) (KN.at i k) = i ∧
        ∀ l, l < NK.c.getD (NK.at i k) 0 → NK.at (NK.at i k) l = i → l = KN.at i k := by
  obtain ⟨KN, h1, ⟨h2, h3, -⟩, h4⟩ := invert_edges_spec NK hwf hsym
  refine ⟨KN, h1, h2, h3, ?_⟩
  intro i hi k hk
  obtain ⟨g1, g2, -⟩ := h4 i hi k hk
  refine ⟨g1, g2, ?_⟩
  intro l hl hli
  have hmem : NK.at i k ∈ NK.p.getD i [] := by
    have := getElem?_ragged_at NK i k (by rw [hwf.2.2 i hi]; exact hk)
    exact List.mem_iff_getElem?.2 ⟨_, this⟩
  have hj := (hsym i hi _ hmem).1
  have hlen := hwf.2.2 _ hj
  have e1 := getElem?_ragged_at NK (NK.at i k) l (by omega)
  have e2 := getElem?_ragged_at NK (NK.at i k) (KN.at i k) (by omega)
  rw [hli] at e1
  rw [g2] at e2
  rw [List.getElem?_eq_getElem (by omega)] at e1 e2
  have e3 : (NK.p.getD (NK.at i k) [])[l] = (NK.p.getD (NK.at i k) [])[KN.at i k] := by
    rw [Option.some.inj e1, Option.some.inj e2]
  exact (List.Nodup.getElem_inj_iff (hnodup _ hj)).1 e3

/-- Witness of `InvertEdges_inverse`: the star with centre 0 and leaves 1 and 2. -/
theorem InvertEdges_inverse_witness :
    UIRaggedArray.WellFormed ⟨3, [2, 1, 1], [[1, 2], [0], [0]]⟩ ∧
    UIRaggedArray.Symmetric ⟨3, [2, 1, 1], [[1, 2], [0], [0]]⟩ ∧
    (∀ i, i < (⟨3, [2, 1, 1], [[1, 2], [0], [0]]⟩ : UIRaggedArray).n →
      ((⟨3, [2, 1, 1], [[1, 2], [0], [0]]⟩ : UIRaggedArray).p.getD i []).Nodup) ∧
    ∃ KN, InvertEdges ⟨3, [2, 1, 1], [[1, 2], [0], [0]]⟩ = .ok KN ∧
      KN.n = (⟨3, [2, 1, 1], [[1, 2], [0], [0]]⟩ : UIRaggedArray).n ∧
      KN.c = (⟨3, [2, 1, 1], [[1, 2], [0], [0]]⟩ : UIRaggedArray).c ∧
      ∀ i, i < (⟨3, [2, 1, 1], [[1, 2], [0], [0]]⟩ : UIRaggedArray).n →
        ∀ k, k < (⟨3, [2, 1, 1], [[1, 2], [0], [0]]⟩ : UIRaggedArray).c.getD i 0 →
        KN.at i k < (⟨3, [2, 1, 1], [[1, 2], [0], [0]]⟩ : UIRaggedArray).c.getD
          (UIRaggedArray.at ⟨3, [2, 1, 1], [[1, 2], [0], [0]]⟩ i k) 0 ∧
        UIRaggedArray.at ⟨3, [2, 1, 1], [[1, 2], [0], [0]]⟩
          (UIRaggedArray.at ⟨3, [2, 1, 1], [[1, 2], [0], [0]]⟩ i k) (KN.at i k) = i ∧
        ∀ l, l < (⟨3, [2, 1, 1], [[1, 2], [0], [0]]⟩ : UIRaggedArray).c.getD
            (UIRaggedArray.at ⟨3, [2, 1, 1], [[1, 2], [0], [0]]⟩ i k) 0 →
          UIRaggedArray.at ⟨3, [2, 1, 1], [[1, 2], [0], [0]]⟩
            (UIRaggedArray.at ⟨3, [2, 1, 1], [[1, 2], [0], [0]]⟩ i k) l = i → l = KN.at i k :=
  ⟨by unfold UIRaggedArray.WellFormed; decide, by unfold UIRaggedArray.Symmetric; decide,
    by decide,
    InvertEdges_inverse ⟨3, [2, 1, 1], [[1, 2], [0], [0]]⟩
      (by unfold UIRaggedArray.WellFormed; decide) (by unfold UIRaggedArray.Symmetric; decide)
      (by decide)⟩

/-! ## The mutual neighbours of `knn` -/

/-- A read of a matrix after a write of one entry. -/
theorem mat_getD_set (M : List (List Int)) (i j r s : Nat) (v : Int) (hi : i < M.length)
    (hj : j < (M.getD i []).length) :
    ((M.set i ((M.getD i []).set j v)).getD r []).getD s 0
      = if r = i ∧ s = j then v else (M.getD r []).getD s 0 := by
  simp only [List.getD_eq_getElem?_getD]
  by_cases hr : r = i
  · subst hr
    rw [List.getElem?_set_self hi]
    simp only [Option.getD_some]
    by_cases hs : s = j
    · subst hs
      rw [if_pos (by simp), List.getElem?_set_self (by simpa using hj)]
      rfl
    · rw [if_neg (by simp [hs]), List.getElem?_set_ne (by omega)]
  · rw [if_neg (fun h => hr h.1), List.getElem?_set_ne (by omega)]

/-- A write of one entry keeps the shape of a matrix. -/
theorem mat_set_shape (M : List (List Int)) (i j : Nat) (v : Int) :
    (M.set i ((M.getD i []).set j v)).length = M.length ∧
    ∀ r, ((M.set i ((M.getD i []).set j v)).getD r []).length = (M.getD r []).length := by
  refine ⟨by simp, ?_⟩
  intro r
  simp only [List.getD_eq_getElem?_getD]
  by_cases hr : r = i
  · subst hr
    by_cases hi : r < M.length
    · rw [List.getElem?_set_self hi]
      simp
    · rw [List.getElem?_eq_none (by simp; omega), List.getElem?_eq_none (by omega)]
  · rw [List.getElem?_set_ne (by omega)]

/-- The matrix `MNV` after the ordering loop: its shape and entries. -/
theorem knn_rows_spec (N K : Nat) (X : Nat → Nat → F32) (sorter : List F32 → List Nat) :
    (knn_rows N K X sorter).length = N ∧
    ∀ i, i < N → ((knn_rows N K X sorter).getD i []).length = K ∧
      ∀ s, s < K → ((knn_rows N K X sorter).getD i []).getD s 0
        = ((sorter (knn_dist N X i)).getD s 0 : Int) := by
  unfold knn_rows
  refine ⟨by simp, ?_⟩
  intro i hi
  rw [List.getD_eq_getElem?_getD, List.getElem?_map, List.getElem?_range hi]
  simp only [Option.map_some', Option.getD_some, List.length_map, List.length_range, true_and]
  intro s hs
  rw [List.getD_eq_getElem?_getD, List.getElem?_map, List.getElem?_range hs]
  rfl

/-- Membership in the first `K` entries of a list with at least `K` entries. -/
theorem mem_take_iff_getD (l : List Nat) (K x : Nat) (h : K ≤ l.length) :
    x ∈ l.take K ↔ ∃ k, k < K ∧ l.getD k 0 = x := by
  rw [List.mem_iff_getElem]
  constructor
  · rintro ⟨k, hk, hx⟩
    rw [List.length_take] at hk
    refine ⟨k, by omega, ?_⟩
    rw [List.getElem_take] at hx
    rw [List.getD_eq_getElem?_getD, List.getElem?_eq_getElem (by omega)]
    exact hx
  · rintro ⟨k, hk, hx⟩
    refine ⟨k, by rw [List.length_take]; omega, ?_⟩
    rw [List.getElem_take]
    rw [List.getD_eq_getElem?_getD, List.getElem?_eq_getElem (by omega)] at hx
    exact hx

/-- The loop of spc.cpp:236 stops at `K` exactly when no slot of the row holds `i`. -/
theorem knn_scan_eq_iff (row : List Int) (i K : Nat) :
    K = knn_scan row i K ↔ ∀ k, k < K → uint_of_int (row.getD k 0) ≠ i := by
  unfold knn_scan
  cases h : (List.range K).find? (fun k => decide (uint_of_int (row.getD k 0) = i)) with
  | none =>
    simp only [Option.getD_none, true_iff]
    intro k hk
    have := List.find?_eq_none.1 h k (List.mem_range.2 hk)
    simpa using this
  | some k =>
    simp only [Option.getD_some]
    have h1 := List.find?_some h
    have h2 := List.mem_of_find?_eq_some h
    rw [List.mem_range] at h2
    simp only [decide_eq_true_eq] at h1
    constructor
    · intro hK
      omega
    · intro hall
      exact absurd h1 (hall k h2)

/-- The conversion to `unsigned int` of a candidate and of the mark -1. -/
theorem uint_of_int_cases (x : Nat) (hx : x < 2147483648) :
    uint_of_int (x : Int) = x ∧ uint_of_int (-1) = 4294967295 := by
  unfold uint_of_int
  constructor
  · rw [Int.emod_eq_of_lt (by omega) (by omega)]
    simp
  · decide

/-- The body of the mutuality loop on a slot that has not been visited, in a
matrix of which every entry is the candidate or what the loop makes of it. -/
theorem knn_check_spec (N K : Nat) (X : Nat → Nat → F32) (sorter : List F32 → List Nat)
    (hN : N < 2147483648)
    (hlen : ∀ i, i < N → K ≤ (sorter (knn_dist N X i)).length)
    (hidx : ∀ i, i < N → ∀ s, s < K → (sorter (knn_dist N X i)).getD s 0 < N)
    (M : List (List Int)) (i j : Nat) (hi : i < N) (hj : j < K)
    (hM : ∀ r, r < N → ∀ s, s < K →
      (M.getD r []).getD s 0 = ((sorter (knn_dist N X r)).getD s 0 : Int) ∨
      (M.getD r []).getD s 0 = knn_kept N K X sorter r s)
    (hij : (M.getD i []).getD j 0 = ((sorter (knn_dist N X i)).getD j 0 : Int)) :
    knn_check K M i j = M.set i ((M.getD i []).set j (knn_kept N K X sorter i j)) := by
  have hc := hidx i hi j hj
  unfold knn_check
  rw [hij, if_neg (by omega), (uint_of_int_cases _ (by omega)).1]
  have hscan : K = knn_scan (M.getD ((sorter (knn_dist N X i)).getD j 0) []) i K ↔
      ¬ i ∈ knn_list N K X sorter ((sorter (knn_dist N X i)).getD j 0) := by
    rw [knn_scan_eq_iff]
    unfold knn_list
    rw [mem_take_iff_getD _ _ _ (hlen _ hc)]
    constructor
    · rintro hall ⟨k, hk, hki⟩
      apply hall k hk
      rcases hM _ hc k hk with h | h
      · rw [h, hki, (uint_of_int_cases i (by omega)).1]
      · rw [h]
        unfold knn_kept
        rw [hki, if_pos, (uint_of_int_cases i (by omega)).1]
        unfold knn_list
        rw [mem_take_iff_getD _ _ _ (hlen _ hi)]
        exact ⟨j, hj, rfl⟩
    · intro hno k hk hki
      apply hno
      refine ⟨k, hk, ?_⟩
      rcases hM _ hc k hk with h | h
      · rw [h, (uint_of_int_cases _ (by have := hidx _ hc k hk; omega)).1] at hki
        exact hki
      · rw [h] at hki
        unfold knn_kept at hki
        split at hki
        · rw [(uint_of_int_cases _ (by have := hidx _ hc k hk; omega)).1] at hki
          exact hki
        · rw [(uint_of_int_cases 0 (by omega)).2] at hki
          omega
  congr 2
  unfold knn_kept
  by_cases hmem : i ∈ knn_list N K X sorter ((sorter (knn_dist N X i)).getD j 0)
  · rw [if_pos hmem, if_neg (fun h => (hscan.1 h) hmem)]
    omega
  · rw [if_neg hmem, if_pos (hscan.2 hmem)]
    omega

/-- The matrix `MNV` after the mutuality loop: every candidate that is not
mutual has been replaced by -1, the others are kept. -/
theorem knn_mutual_spec (N K : Nat) (X : Nat → Nat → F32) (sorter : List F32 → List Nat)
    (hN : N < 2147483648)
    (hlen : ∀ i, i < N → K ≤ (sorter (knn_dist N X i)).length)
    (hidx : ∀ i, i < N → ∀ s, s < K → (sorter (knn_dist N X i)).getD s 0 < N) :
    (knn_mutual N K (knn_rows N K X sorter)).length = N ∧
    ∀ i, i < N → ((knn_mutual N K (knn_rows N K X sorter)).getD i []).length = K ∧
      ∀ s, s < K → ((knn_mutual N K (knn_rows N K X sorter)).getD i []).getD s 0
        = knn_kept N K X sorter i s := by
  obtain ⟨r1, r2⟩ := knn_rows_spec N K X sorter
  unfold knn_mutual
  have key := foldl_range_inv
    (fun i (M : List (List Int)) => M.length = N ∧ (∀ r, r < N → (M.getD r []).length = K) ∧
      ∀ r, r < N → ∀ s, s < K → (M.getD r []).getD s 0
        = if r < i then knn_kept N K X sorter r s
          else ((sorter (knn_dist N X r)).getD s 0 : Int))
    (fun M i => (List.range K).foldl (fun M2 j => knn_check K M2 i j) M) N
    (knn_rows N K X sorter)
    ⟨r1, fun r hr => (r2 r hr).1, fun r hr s hs => by
      rw [if_neg (Nat.not_lt_zero _)]; exact (r2 r hr).2 s hs⟩ ?_
  · obtain ⟨k1, k2, k3⟩ := key
    refine ⟨k1, fun i hi => ⟨k2 i hi, fun s hs => ?_⟩⟩
    rw [k3 i hi s hs, if_pos hi]
  · intro i M hi ⟨p1, p2, p3⟩
    have inner := foldl_range_inv
      (fun j (M2 : List (List Int)) => M2.length = N ∧
        (∀ r, r < N → (M2.getD r []).length = K) ∧
        ∀ r, r < N → ∀ s, s < K → (M2.getD r []).getD s 0
          = if r < i ∨ (r = i ∧ s < j) then knn_kept N K X sorter r s
            else ((sorter (knn_dist N X r)).getD s 0 : Int))
      (fun M2 j => knn_check K M2 i j) K M
      ⟨p1, p2, fun r hr s hs => by
        rw [p3 r hr s hs]
        by_cases h : r < i
        · rw [if_pos h, if_pos (Or.inl h)]
        · rw [if_neg h, if_neg (by omega)]⟩ ?_
    · obtain ⟨q1, q2, q3⟩ := inner
      refine ⟨q1, q2, fun r hr s hs => ?_⟩
      rw [q3 r hr s hs]
      by_cases h : r < i
      · rw [if_pos (Or.inl h), if_pos (by omega)]
      · by_cases h2 : r = i
        · rw [if_pos (Or.inr ⟨h2, hs⟩), if_pos (by omega)]
        · rw [if_neg (by omega), if_neg (by omega)]
    · intro j M2 hj ⟨q1, q2, q3⟩
      have hstep := knn_check_spec N K X sorter hN hlen hidx M2 i j hi hj
        (fun r hr s hs => by
          rw [q3 r hr s hs]
          by_cases h : r < i ∨ (r = i ∧ s < j)
          · rw [if_pos h]; exact Or.inr rfl
          · rw [if_neg h]; exact Or.inl rfl)
        (by rw [q3 i hi j hj, if_neg (by omega)])
      beta_reduce
      rw [hstep]
      obtain ⟨s1, s2⟩ := mat_set_shape M2 i j (knn_kept N K X sorter i j)
      refine ⟨s1.trans q1, fun r hr => (s2 r).trans (q2 r hr), fun r hr s hs => ?_⟩
      rw [mat_getD_set M2 i j r s _ (by omega) (by rw [q2 i hi]; exact hj), q3 r hr s hs]
      by_cases h : r = i ∧ s = j
      · rw [if_pos h, if_pos (by omega)]
        rw [h.1, h.2]
      · rw [if_neg h]
        by_cases h2 : r < i ∨ (r = i ∧ s < j)
        · rw [if_pos h2, if_pos (by omega)]
        · rw [if_neg h2, if_neg (by omega)]

/-- The counters `occ` after the loop of spc.cpp:249-250 over a row of which
every entry is a point or the mark -1: the counter of a point is positive
exactly when a slot of the row holds the point. -/
theorem knn_count_spec (N K : Nat) (row : List Int)
    (hrow : ∀ s, s < K → row.getD s 0 = -1 ∨ ∃ y : Nat, y < N ∧ row.getD s 0 = (y : Int)) :
    ((List.range K).foldl (knn_count row) (List.replicate N 0)).length = N ∧
    ∀ x, x < N → (((List.range K).foldl (knn_count row) (List.replicate N 0)).getD x 0 ≠ 0 ↔
      ∃ s, s < K ∧ row.getD s 0 = (x : Int)) := by
  have key := foldl_range_inv
    (fun j (occ : List Nat) => occ.length = N ∧
      ∀ x, x < N → (occ.getD x 0 ≠ 0 ↔ ∃ s, s < j ∧ row.getD s 0 = (x : Int)))
    (knn_count row) K (List.replicate N 0)
    ⟨by simp, fun x hx => by
      rw [List.getD_eq_getElem?_getD, List.getElem?_replicate, if_pos hx]
      simp⟩ ?_
  · exact key
  · intro j occ hj ⟨h1, h2⟩
    unfold knn_count
    rcases hrow j hj with hv | ⟨y, hy, hv⟩
    · rw [hv, if_neg (by omega)]
      refine ⟨h1, fun x hx => ?_⟩
      rw [h2 x hx]
      constructor
      · rintro ⟨s, hs, hsx⟩
        exact ⟨s, by omega, hsx⟩
      · rintro ⟨s, hs, hsx⟩
        by_cases hsj : s = j
        · subst hsj
          rw [hv] at hsx
          omega
        · exact ⟨s, by omega, hsx⟩
    · rw [hv, if_pos (by omega)]
      simp only [Int.toNat_ofNat]
      refine ⟨by simp [h1], fun x hx => ?_⟩
      rw [List.getD_eq_getElem?_getD, List.getElem?_set]
      by_cases hxy : y = x
      · subst hxy
        rw [if_pos rfl, if_pos (by omega)]
        simp only [Option.getD_some]
        constructor
        · intro _
          exact ⟨j, by omega, hv⟩
        · intro _
          omega
      · rw [if_neg hxy, ← List.getD_eq_getElem?_getD, h2 x hx]
        constructor
        · rintro ⟨s, hs, hsx⟩
          exact ⟨s, by omega, hsx⟩
        · rintro ⟨s, hs, hsx⟩
          by_cases hsj : s = j
          · subst hsj
            rw [hv] at hsx
            omega
          · exact ⟨s, by omega, hsx⟩

/-- What a sorted index of the array `dist` of a point is, when the sorter is as
the spec has it: `N` distinct points. -/
theorem sorts_index_facts (N : Nat) (X : Nat → Nat → F32) (sorter : List F32 → List Nat)
    (i : Nat) (hs : SortsIndex sorter (knn_dist N X i)) :
    (sorter (knn_dist N X i)).length = N ∧ (sorter (knn_dist N X i)).Nodup ∧
    (∀ s, s < N → (sorter (knn_dist N X i)).getD s 0 < N) ∧
    (∀ x, x < N → ∃ s, s < N ∧ (sorter (knn_dist N X i)).getD s 0 = x) ∧
    (∀ a b, a < N → b < N → (sorter (knn_dist N X i)).getD a 0
      = (sorter (knn_dist N X i)).getD b 0 → a = b) := by
  obtain ⟨hp, -⟩ := hs
  have hdl : (knn_dist N X i).length = N := by simp [knn_dist]
  rw [hdl] at hp
  have hlen : (sorter (knn_dist N X i)).length = N := by
    rw [hp.length_eq, List.length_range]
  have hnd : (sorter (knn_dist N X i)).Nodup := hp.nodup_iff.2 (List.nodup_range N)
  refine ⟨hlen, hnd, ?_, ?_, ?_⟩
  · intro s hs
    rw [List.getD_eq_getElem?_getD, List.getElem?_eq_getElem (by omega)]
    simp only [Option.getD_some]
    have := hp.mem_iff.1 (List.getElem_mem (l := sorter (knn_dist N X i)) (by omega : s < _))
    exact List.mem_range.1 this
  · intro x hx
    have := hp.mem_iff.2 (List.mem_range.2 hx)
    obtain ⟨s, hs, hsx⟩ := List.mem_iff_getElem.1 this
    refine ⟨s, by omega, ?_⟩
    rw [List.getD_eq_getElem?_getD, List.getElem?_eq_getElem hs]
    exact hsx
  · intro a b ha hb hab
    rw [List.getD_eq_getElem _ _ (by omega : a < (sorter (knn_dist N X i)).length),
      List.getD_eq_getElem _ _ (by omega : b < (sorter (knn_dist N X i)).length)] at hab
    exact (List.Nodup.getElem_inj_iff hnd).1 hab

/-- The array `dist` of the point `i`: the row of the matrix with an infinite
entry at `i`. -/
theorem knn_dist_getD (N : Nat) (X : Nat → Nat → F32) (i j : Nat) (hj : j < N) :
    (knn_dist N X i).getD j .nan = if j = i then F32.inf false else X i j := by
  unfold knn_dist
  rw [List.getD_eq_getElem?_getD, List.getElem?_map, List.getElem?_range hj]
  rfl

/-- The first `K` entries of the sorted index of a point are `K` nearest other
points, when the distances to the other points are finite. -/
theorem knn_list_nearest (N K : Nat) (X : Nat → Nat → F32) (sorter : List F32 → List Nat)
    (hK : K < N) (i : Nat) (hi : i < N) (hs : SortsIndex sorter (knn_dist N X i))
    (hfin : ∀ j, j < N → i ≠ j → ∃ q, X i j = .fin q) :
    NearestOthers N K X i (knn_list N K X sorter i) := by
  obtain ⟨f1, f2, f3, f4, f5⟩ := sorts_index_facts N X sorter i hs
  have hdl : (knn_dist N X i).length = N := by simp [knn_dist]
  obtain ⟨-, hasc⟩ := hs
  rw [hdl] at hasc
  have hne : ∀ a, a < K → (sorter (knn_dist N X i)).getD a 0 ≠ i := by
    intro a ha hai
    have hKi : (sorter (knn_dist N X i)).getD K 0 ≠ i := by
      intro h
      have := f5 a K (by omega) hK (by rw [hai, h])
      omega
    have hle := hasc K hK a ha
    rw [hai, knn_dist_getD N X i i hi, if_pos rfl,
      knn_dist_getD N X i _ (f3 K hK), if_neg hKi] at hle
    obtain ⟨q, hq⟩ := hfin _ (f3 K hK) (fun h => hKi h.symm)
    rw [hq] at hle
    exact Bool.noConfusion hle
  unfold knn_list
  refine ⟨by rw [List.length_take]; omega, f2.sublist (List.take_sublist _ _), ?_, ?_⟩
  · intro j hj
    rw [mem_take_iff_getD _ _ _ (by omega)] at hj
    obtain ⟨a, ha, haj⟩ := hj
    rw [← haj]
    exact ⟨f3 a (by omega), hne a ha⟩
  · intro j hj j2 hj2 hj2i hj2S
    rw [mem_take_iff_getD _ _ _ (by omega)] at hj hj2S
    obtain ⟨a, ha, haj⟩ := hj
    obtain ⟨b, hb, hbj⟩ := f4 j2 hj2
    have hKb : K ≤ b := by
      by_contra h
      exact hj2S ⟨b, by omega, hbj⟩
    have hle := hasc b hb a (by omega)
    rw [haj, hbj, knn_dist_getD N X i j (by rw [← haj]; exact f3 a (by omega)),
      if_neg (by rw [← haj]; exact hne a ha), knn_dist_getD N X i j2 hj2, if_neg hj2i] at hle
    exact hle

/-- The rows of the result of `knn` without the spanning tree: the points are
listed in ascending order, and `j` is listed for `i` exactly when each is among
the first `K` entries of the sorted index of the other. -/
theorem knn_rows_mutual (N K : Nat) (X : Nat → Nat → F32) (sorter : List F32 → List Nat)
    (round : F32 → F32) (hK : K < N) (hN : N < 2147483648)
    (hsort : ∀ i, i < N → SortsIndex sorter (knn_dist N X i)) :
    ∃ NK, knn N K false X sorter round = .ok NK ∧ NK.n = N ∧ NK.WellFormed ∧
      (∀ i, i < N → ∀ j, j ∈ NK.p.getD i [] ↔
        j ∈ knn_list N K X sorter i ∧ i ∈ knn_list N K X sorter j) ∧
      ∀ i, i < N → (NK.p.getD i []).Pairwise (fun a b => a < b) := by
  have hfacts := fun i hi => sorts_index_facts N X sorter i (hsort i hi)
  have hlen : ∀ i, i < N → K ≤ (sorter (knn_dist N X i)).length := by
    intro i hi
    rw [(hfacts i hi).1]
    omega
  have hidx : ∀ i, i < N → ∀ s, s < K → (sorter (knn_dist N X i)).getD s 0 < N :=
    fun i hi s hs => (hfacts i hi).2.2.1 s (by omega)
  obtain ⟨m1, m2⟩ := knn_mutual_spec N K X sorter hN hlen hidx
  have hocc : ∀ i, i < N → ∀ x, x < N →
      ((knn_occ N K false [] (knn_mutual N K (knn_rows N K X sorter)) i).getD x 0 ≠ 0 ↔
        x ∈ knn_list N K X sorter i ∧ i ∈ knn_list N K X sorter x) := by
    intro i hi x hx
    have hrow : ∀ s, s < K →
        ((knn_mutual N K (knn_rows N K X sorter)).getD i []).getD s 0 = -1 ∨
        ∃ y : Nat, y < N ∧
          ((knn_mutual N K (knn_rows N K X sorter)).getD i []).getD s 0 = (y : Int) := by
      intro s hs
      rw [(m2 i hi).2 s hs]
      unfold knn_kept
      split
      · exact Or.inr ⟨_, hidx i hi s hs, rfl⟩
      · exact Or.inl rfl
    have := (knn_count_spec N K _ hrow).2 x hx
    unfold knn_occ
    simp only [Bool.false_eq_true, if_false]
    rw [this]
    unfold knn_list
    rw [mem_take_iff_getD _ _ _ (hlen i hi)]
    constructor
    · rintro ⟨s, hs, hsx⟩
      rw [(m2 i hi).2 s hs] at hsx
      unfold knn_kept at hsx
      split at hsx
      · rename_i hmem
        have e : (sorter (knn_dist N X i)).getD s 0 = x := by omega
        rw [e] at hmem
        exact ⟨⟨s, hs, e⟩, hmem⟩
      · omega
    · rintro ⟨⟨s, hs, hsx⟩, hmem⟩
      refine ⟨s, hs, ?_⟩
      rw [(m2 i hi).2 s hs]
      unfold knn_kept
      rw [hsx, if_pos (by unfold knn_list; exact hmem)]
  have hrow : ∀ i, i < N →
      ((List.range N).map (fun i => (List.range N).filter (fun j =>
        decide ((knn_occ N K false [] (knn_mutual N K (knn_rows N K X sorter)) i).getD j 0
          ≠ 0)))).getD i []
      = (List.range N).filter (fun j =>
        decide ((knn_occ N K false [] (knn_mutual N K (knn_rows N K X sorter)) i).getD j 0
          ≠ 0)) := by
    intro i hi
    rw [List.getD_eq_getElem?_getD, List.getElem?_map, List.getElem?_range hi]
    rfl
  refine ⟨_, rfl, rfl, ⟨by simp, by simp, ?_⟩, ?_, ?_⟩
  · intro i hi
    simp only at hi ⊢
    rw [hrow i hi, List.getD_eq_getElem?_getD, List.getElem?_map, List.getElem?_range hi]
    simp only [Option.map_some', Option.getD_some]
    congr 1
    apply List.filter_congr
    intro x _
    generalize (knn_occ N K false [] (knn_mutual N K (knn_rows N K X sorter)) i).getD x 0 = v
    cases v <;> simp
  · intro i hi j
    simp only
    rw [hrow i hi, List.mem_filter, List.mem_range, decide_eq_true_eq]
    constructor
    · rintro ⟨hj, h⟩
      exact (hocc i hi j hj).1 h
    · intro h
      have hj : j < N := by
        have := h.1
        unfold knn_list at this
        rw [mem_take_iff_getD _ _ _ (hlen i hi)] at this
        obtain ⟨s, hs, hsx⟩ := this
        rw [← hsx]
        exact hidx i hi s hs
      exact ⟨hj, (hocc i hi j hj).2 h⟩
  · intro i hi
    simp only
    rw [hrow i hi]
    exact List.Pairwise.filter _ (List.pairwise_lt_range N)

/-- Claim C30: for a distance matrix over `N` points with finite distances
between distinct points, `K < N` and `MSTree = false`, and a sorter that orders
the indices by ascending distance, `knn` returns neighbour lists in which `j` is
a neighbour of `i` if and only if `j` is among the `K` nearest other points of
`i` and `i` is among the `K` nearest other points of `j`; the lists are
symmetric and strictly ascending. The `K` nearest other points of `i` are the
first `K` entries of its sorted index: `K` distinct points other than `i`, none
farther from `i` than any other point that is left out. -/
theorem knn_mutual_neighbours (N K : Nat) (X : Nat → Nat → F32)
    (sorter : List F32 → List Nat) (round : F32 → F32) (hK : K < N) (hN : N < 2147483648)
    (hsort : ∀ i, i < N → SortsIndex sorter (knn_dist N X i))
    (hfin : ∀ i j, i < N → j < N → i ≠ j → ∃ q, X i j = .fin q) :
    ∃ NK, knn N K false X sorter round = .ok NK ∧ NK.n = N ∧ NK.WellFormed ∧
      (∀ i, i < N → NearestOthers N K X i (knn_list N K X sorter i)) ∧
      (∀ i, i < N → ∀ j, j ∈ NK.p.getD i [] ↔
        j ∈ knn_list N K X sorter i ∧ i ∈ knn_list N K X sorter j) ∧
      NK.Symmetric ∧
      ∀ i, i < N → (NK.p.getD i []).Pairwise (fun a b => a < b) := by
  obtain ⟨NK, h1, h2, h3, h4, h5⟩ := knn_rows_mutual N K X sorter round hK hN hsort
  have hnear : ∀ i, i < N → NearestOthers N K X i (knn_list N K X sorter i) :=
    fun i hi => knn_list_nearest N K X sorter hK i hi (hsort i hi) (fun j hj hij => hfin i j hi hj hij)
  refine ⟨NK, h1, h2, h3, hnear, h4, ?_, h5⟩
  intro i hi j hj
  rw [h2] at hi
  have hmem := (h4 i hi j).1 hj
  have hjN : j < N := ((hnear i hi).2.2.1 j hmem.1).1
  exact ⟨by rw [h2]; exact hjN, (h4 j hjN i).2 ⟨hmem.2, hmem.1⟩⟩

/-- Witness of `knn_mutual_neighbours`: three points on a line at 0, 1 and 3,
`K = 1` and the stable sorter; 0 and 1 are mutual nearest neighbours, and 2 has
no neighbour. -/
theorem knn_mutual_neighbours_witness :
    (1 : Nat) < 3 ∧ (3 : Nat) < 2147483648 ∧
    (∀ i, i < 3 → SortsIndex DSortIndex (knn_dist 3
      (fun i j => F32.fin ((([[0, 1, 3], [1, 0, 2], [3, 2, 0]] : List (List ℚ)).getD i []).getD j 0))
      i)) ∧
    (∀ i j, i < 3 → j < 3 → i ≠ j → ∃ q,
      (fun i j => F32.fin ((([[0, 1, 3], [1, 0, 2], [3, 2, 0]] : List (List ℚ)).getD i []).getD j 0))
        i j = .fin q) ∧
    ∃ NK, knn 3 1 false
        (fun i j => F32.fin ((([[0, 1, 3], [1, 0, 2], [3, 2, 0]] : List (List ℚ)).getD i []).getD j 0))
        DSortIndex id = .ok NK ∧ NK.n = 3 ∧ NK.WellFormed ∧
      (∀ i, i < 3 → NearestOthers 3 1
        (fun i j => F32.fin ((([[0, 1, 3], [1, 0, 2], [3, 2, 0]] : List (List ℚ)).getD i []).getD j 0))
        i (knn_list 3 1
          (fun i j => F32.fin ((([[0, 1, 3], [1, 0, 2], [3, 2, 0]] : List (List ℚ)).getD i []).getD j 0))
          DSortIndex i)) ∧
      (∀ i, i < 3 → ∀ j, j ∈ NK.p.getD i [] ↔
        j ∈ knn_list 3 1
          (fun i j => F32.fin ((([[0, 1, 3], [1, 0, 2], [3, 2, 0]] : List (List ℚ)).getD i []).getD j 0))
          DSortIndex i ∧
        i ∈ knn_list 3 1
          (fun i j => F32.fin ((([[0, 1, 3], [1, 0, 2], [3, 2, 0]] : List (List ℚ)).getD i []).getD j 0))
          DSortIndex j) ∧
      NK.Symmetric ∧
      ∀ i, i < 3 → (NK.p.getD i []).Pairwise (fun a b => a < b) :=
  ⟨by decide, by decide, by unfold SortsIndex; decide, fun _ _ _ _ _ => ⟨_, rfl⟩,
    knn_mutual_neighbours 3 1 _ DSortIndex id (by decide) (by decide)
      (by unfold SortsIndex; decide) (fun _ _ _ _ _ => ⟨_, rfl⟩)⟩

/-! ## Spanning trees grown as Prim's algorithm does -/

/-- Edges are undirected. -/
theorem edgeAdj_symm {E : List (Nat × Nat)} {a b : Nat} (h : EdgeAdj E a b) : EdgeAdj E b a :=
  Or.symm h

/-- Walks can be reversed. -/
theorem edgeReach_symm {E : List (Nat × Nat)} {a b : Nat} (h : EdgeReach E a b) :
    EdgeReach E b a := by
  unfold EdgeReach at h ⊢
  induction h with
  | refl => exact Relation.ReflTransGen.refl
  | tail _ hbc ih => exact Relation.ReflTransGen.head (edgeAdj_symm hbc) ih

/-- A walk along edges stays a walk when every edge is replaced by a walk. -/
theorem edgeReach_lift {E F : List (Nat × Nat)}
    (h : ∀ p q, EdgeAdj E p q → EdgeReach F p q) {a b : Nat} (hab : EdgeReach E a b) :
    EdgeReach F a b := by
  unfold EdgeReach at hab
  induction hab with
  | refl => exact Relation.ReflTransGen.refl
  | tail _ hbc ih => exact Relation.ReflTransGen.trans ih (h _ _ hbc)

/-- A walk in a sublist of the edges is a walk. -/
theorem edgeReach_mono {E F : List (Nat × Nat)} (h : ∀ e ∈ E, e ∈ F) {a b : Nat}
    (hab : EdgeReach E a b) : EdgeReach F a b := by
  apply edgeReach_lift _ hab
  intro p q hpq
  exact Relation.ReflTransGen.single (hpq.elim (fun h1 => Or.inl (h _ h1)) (fun h1 => Or.inr (h _ h1)))

/-- A walk from inside a set of vertices to outside it has a last edge that
leaves the set, after which it stays outside. -/
theorem edgeReach_cut (E : List (Nat × Nat)) (S : List Nat) (a z : Nat)
    (h : EdgeReach E a z) (ha : a ∈ S) :
    z ∈ S ∨ ∃ x y, EdgeAdj E x y ∧ x ∈ S ∧ y ∉ S ∧
      Relation.ReflTransGen (fun p q => EdgeAdj E p q ∧ p ∉ S ∧ q ∉ S) y z := by
  unfold EdgeReach at h
  induction h with
  | refl => exact Or.inl ha
  | @tail b c _ hbc ih =>
    by_cases hc : c ∈ S
    · exact Or.inl hc
    · right
      rcases ih with hb | ⟨x, y, h1, h2, h3, h4⟩
      · exact ⟨b, c, hbc, hb, hc, Relation.ReflTransGen.refl⟩
      · have hb : b ∉ S := by
          cases h4 with
          | refl => exact h3
          | tail _ hlast => exact hlast.2.2
        exact ⟨x, y, h1, h2, h3, Relation.ReflTransGen.tail h4 ⟨hbc, hb, hc⟩⟩

/-- The total weight of a concatenation. -/
theorem tree_weight_append (w : Nat → Nat → ℚ) (E F : List (Nat × Nat)) :
    tree_weight w (E ++ F) = tree_weight w E + tree_weight w F := by
  unfold tree_weight
  rw [List.map_append, List.sum_append]

/-- The total weight does not depend on the order of the edges. -/
theorem tree_weight_perm (w : Nat → Nat → ℚ) {E F : List (Nat × Nat)} (h : E.Perm F) :
    tree_weight w E = tree_weight w F := by
  unfold tree_weight
  exact (h.map _).sum_eq

/-- A grown tree stays grown when its last edges are taken off. -/
theorem primGrown_suffix (N : Nat) (w : Nat → Nat → ℚ) (r : Nat) (D E : List (Nat × Nat))
    (h : PrimGrown N w r (D ++ E)) : PrimGrown N w r E := by
  induction D with
  | nil => exact h
  | cons d D ih => exact ih h.1

/-- The vertices and edges of a grown tree: the vertices are in `[0, N)` and
reached from the root, and the edges join vertices of the tree. -/
theorem primGrown_facts (N : Nat) (w : Nat → Nat → ℚ) (r : Nat) (hr : r < N)
    (E : List (Nat × Nat)) (h : PrimGrown N w r E) :
    (∀ x ∈ tree_vertices r E, x < N ∧ EdgeReach E r x) ∧
    (∀ e ∈ E, e.1 ∈ tree_vertices r E ∧ e.2 ∈ tree_vertices r E) ∧
    (tree_vertices r E).Nodup := by
  induction E with
  | nil =>
    refine ⟨?_, fun e he => absurd he (List.not_mem_nil _), by simp [tree_vertices]⟩
    intro x hx
    simp only [tree_vertices, List.map_nil, List.mem_singleton] at hx
    subst hx
    exact ⟨hr, Relation.ReflTransGen.refl⟩
  | cons e E ih =>
    obtain ⟨h1, h2, h3, h4, -⟩ := h
    obtain ⟨i1, i2, i3⟩ := ih h1
    have hsub : ∀ x ∈ tree_vertices r E, x ∈ tree_vertices r (e :: E) := by
      intro x hx
      simp only [tree_vertices, List.map_cons, List.mem_cons] at hx ⊢
      rcases hx with hx | hx
      · exact Or.inl hx
      · exact Or.inr (Or.inr hx)
    have hnew : e.2 ∈ tree_vertices r (e :: E) := by
      simp [tree_vertices]
    refine ⟨?_, ?_, ?_⟩
    · intro x hx
      simp only [tree_vertices, List.map_cons, List.mem_cons] at hx
      have hold : ∀ y ∈ tree_vertices r E, EdgeReach (e :: E) r y := fun y hy =>
        edgeReach_mono (fun g hg => List.mem_cons_of_mem _ hg) (i1 y hy).2
      rcases hx with hx | hx | hx
      · subst hx
        exact ⟨hr, Relation.ReflTransGen.refl⟩
      · subst hx
        refine ⟨h3, Relation.ReflTransGen.tail (hold _ h2) (Or.inl ?_)⟩
        exact List.mem_cons_self _ _
      · have hx2 : x ∈ tree_vertices r E := by
          simp only [tree_vertices, List.mem_cons]
          exact Or.inr hx
        exact ⟨(i1 x hx2).1, hold x hx2⟩
    · intro g hg
      rcases List.mem_cons.1 hg with hg | hg
      · subst hg
        exact ⟨hsub _ h2, hnew⟩
      · exact ⟨hsub _ (i2 g hg).1, hsub _ (i2 g hg).2⟩
    · have : tree_vertices r (e :: E) = r :: e.2 :: E.map Prod.snd := rfl
      rw [this]
      have i3' : (r :: E.map Prod.snd).Nodup := i3
      have h4' : e.2 ∉ r :: E.map Prod.snd := h4
      rw [List.nodup_cons] at i3' ⊢
      rw [List.mem_cons, not_or] at h4'
      refine ⟨?_, ?_⟩
      · rw [List.mem_cons, not_or]
        exact ⟨fun h => h4'.1 h.symm, i3'.1⟩
      · rw [List.nodup_cons]
        exact ⟨h4'.2, i3'.2⟩

/-- The exchange step: when a grown tree with one more edge `e` and a connected
completion `R` of the tree without `e` are given, an edge `f` of `R` that is no
lighter than `e` can be exchanged for `e`. -/
theorem prim_exchange (N : Nat) (w : Nat → Nat → ℚ) (r : Nat) (hr : r < N)
    (hsym : ∀ x y, x < N → y < N → w x y = w y x)
    (e : Nat × Nat) (E R : List (Nat × Nat)) (hg : PrimGrown N w r (e :: E))
    (hR : ∀ g ∈ R, g.1 < N ∧ g.2 < N)
    (hconn : ∀ a b, a < N → b < N → EdgeReach (E ++ R) a b) :
    ∃ f R2, R.Perm (f :: R2) ∧ w e.1 e.2 ≤ w f.1 f.2 ∧
      ∀ a b, a < N → b < N → EdgeReach ((e :: E) ++ R2) a b := by
  obtain ⟨hE, ha, hv, hvS, hmin⟩ := hg
  obtain ⟨i1, i2, -⟩ := primGrown_facts N w r hr E hE
  have haN := (i1 _ ha).1
  rcases edgeReach_cut (E ++ R) (tree_vertices r E) e.1 e.2 (hconn _ _ haN hv) ha with
    hin | ⟨x, y, hxy, hx, hy, hout⟩
  · exact absurd hin hvS
  -- the crossing edge is an edge of `R`
  have hfR : ∃ f, f ∈ R ∧ ((f = (x, y)) ∨ (f = (y, x))) := by
    rcases hxy with h | h
    · rcases List.mem_append.1 h with h | h
      · exact absurd (i2 _ h).2 hy
      · exact ⟨_, h, Or.inl rfl⟩
    · rcases List.mem_append.1 h with h | h
      · exact absurd (i2 _ h).1 hy
      · exact ⟨_, h, Or.inr rfl⟩
  obtain ⟨f, hf, hfxy⟩ := hfR
  obtain ⟨R1, R3, hsplit⟩ := List.append_of_mem hf
  have hperm : R.Perm (f :: (R1 ++ R3)) := by
    rw [hsplit]
    exact List.perm_middle
  have hxN := (i1 _ hx).1
  have hyN : y < N := by
    rcases hfxy with h | h
    · have := (hR f hf).2
      rw [h] at this
      exact this
    · have := (hR f hf).1
      rw [h] at this
      exact this
  have hwf : w e.1 e.2 ≤ w f.1 f.2 := by
    have := hmin x hx y hyN hy
    rcases hfxy with h | h
    · rw [h]
      exact this
    · rw [h]
      simp only
      rw [hsym y x hyN hxN]
      exact this
  refine ⟨f, R1 ++ R3, hperm, hwf, ?_⟩
  -- an edge other than `f` is kept
  have hkeep : ∀ g, g ∈ E ++ R → g ≠ f → g ∈ (e :: E) ++ (R1 ++ R3) := by
    intro g hg hne
    rcases List.mem_append.1 hg with h | h
    · exact List.mem_append_left _ (List.mem_cons_of_mem _ h)
    · apply List.mem_append_right
      have := hperm.mem_iff.1 h
      rcases List.mem_cons.1 this with h2 | h2
      · exact absurd h2 hne
      · exact h2
  have hEsub : ∀ g ∈ E, g ∈ (e :: E) ++ (R1 ++ R3) := fun g hg =>
    List.mem_append_left _ (List.mem_cons_of_mem _ hg)
  -- the endpoints of `f` are joined without `f`
  have hx_a : EdgeReach ((e :: E) ++ (R1 ++ R3)) x e.1 :=
    Relation.ReflTransGen.trans (edgeReach_symm (edgeReach_mono hEsub (i1 _ hx).2))
      (edgeReach_mono hEsub (i1 _ ha).2)
  have ha_v : EdgeReach ((e :: E) ++ (R1 ++ R3)) e.1 e.2 :=
    Relation.ReflTransGen.single (Or.inl (List.mem_append_left _ (List.mem_cons_self _ _)))
  have hy_all : ∀ z, Relation.ReflTransGen
      (fun p q => EdgeAdj (E ++ R) p q ∧ p ∉ tree_vertices r E ∧ q ∉ tree_vertices r E) y z →
      EdgeReach ((e :: E) ++ (R1 ++ R3)) y z := by
    intro z hz
    induction hz with
    | refl => exact Relation.ReflTransGen.refl
    | @tail p q _ hpq ih =>
      refine Relation.ReflTransGen.tail ih ?_
      obtain ⟨hadj, hp, hq⟩ := hpq
      rcases hadj with h | h
      · refine Or.inl (hkeep _ h ?_)
        intro hfe
        rcases hfxy with h2 | h2
        · rw [h2] at hfe
          have : p = x := congrArg Prod.fst hfe
          exact hp (this ▸ hx)
        · rw [h2] at hfe
          have : q = x := congrArg Prod.snd hfe
          exact hq (this ▸ hx)
      · refine Or.inr (hkeep _ h ?_)
        intro hfe
        rcases hfxy with h2 | h2
        · rw [h2] at hfe
          have : q = x := congrArg Prod.fst hfe
          exact hq (this ▸ hx)
        · rw [h2] at hfe
          have : p = x := congrArg Prod.snd hfe
          exact hp (this ▸ hx)
  have hy_v := hy_all _ hout
  have hxy2 : EdgeReach ((e :: E) ++ (R1 ++ R3)) x y :=
    Relation.ReflTransGen.trans (Relation.ReflTransGen.trans hx_a ha_v) (edgeReach_symm hy_v)
  intro a b haN2 hbN2
  apply edgeReach_lift _ (hconn a b haN2 hbN2)
  intro p q hpq
  by_cases hpf : (p, q) = f ∨ (q, p) = f
  · rcases hpf with h | h
    · rcases hfxy with h2 | h2
      · rw [h2] at h
        have e1 : p = x := congrArg Prod.fst h
        have e2 : q = y := congrArg Prod.snd h
        rw [e1, e2]
        exact hxy2
      · rw [h2] at h
        have e1 : p = y := congrArg Prod.fst h
        have e2 : q = x := congrArg Prod.snd h
        rw [e1, e2]
        exact edgeReach_symm hxy2
    · rcases hfxy with h2 | h2
      · rw [h2] at h
        have e1 : q = x := congrArg Prod.fst h
        have e2 : p = y := congrArg Prod.snd h
        rw [e1, e2]
        exact edgeReach_symm hxy2
      · rw [h2] at h
        have e1 : q = y := congrArg Prod.fst h
        have e2 : p = x := congrArg Prod.snd h
        rw [e1, e2]
        exact hxy2
  · rw [not_or] at hpf
    rcases hpq with h | h
    · exact Relation.ReflTransGen.single (Or.inl (hkeep _ h hpf.1))
    · exact Relation.ReflTransGen.single (Or.inr (hkeep _ h hpf.2))

/-- The exchange argument: a grown tree weighs no more than any connected
completion of one of its stages with as many edges as are still to come. -/
theorem prim_minimal_aux (N : Nat) (w : Nat → Nat → ℚ) (r : Nat) (hr : r < N)
    (hsym : ∀ x y, x < N → y < N → w x y = w y x) (m : Nat) :
    ∀ D E R : List (Nat × Nat), D.length = m → R.length = m → PrimGrown N w r (D ++ E) →
      (∀ g ∈ R, g.1 < N ∧ g.2 < N) →
      (∀ a b, a < N → b < N → EdgeReach (E ++ R) a b) →
      tree_weight w (D ++ E) ≤ tree_weight w (E ++ R) := by
  induction m with
  | zero =>
    intro D E R hD hR _ _ _
    rw [List.length_eq_zero] at hD hR
    subst hD
    subst hR
    simp
  | succ m ih =>
    intro D E R hD hRl hg hR hconn
    rcases List.eq_nil_or_concat D with h | ⟨D2, e, h⟩
    · subst h
      simp at hD
    subst h
    have hassoc : D2.concat e ++ E = D2 ++ (e :: E) := by simp
    rw [hassoc] at hg ⊢
    obtain ⟨f, R2, hperm, hwf, hconn2⟩ :=
      prim_exchange N w r hr hsym e E R (primGrown_suffix N w r D2 _ hg) hR hconn
    have hlen : R2.length = m := by
      have := hperm.length_eq
      simp only [List.length_cons] at this
      omega
    have hD2 : D2.length = m := by
      simp only [List.length_concat] at hD
      omega
    have hstep := ih D2 (e :: E) R2 hD2 hlen hg
      (fun g hg2 => hR g (hperm.mem_iff.2 (List.mem_cons_of_mem _ hg2))) hconn2
    refine le_trans hstep ?_
    rw [tree_weight_append, tree_weight_append, tree_weight_perm w hperm]
    simp only [tree_weight, List.map_cons, List.sum_cons]
    linarith

/-- A list of `N` distinct numbers below `N` holds every number below `N`. -/
theorem mem_of_nodup_of_length (l : List Nat) (N : Nat) (hnd : l.Nodup)
    (hlt : ∀ x ∈ l, x < N) (hlen : l.length = N) (y : Nat) (hy : y < N) : y ∈ l := by
  have hsub : l.toFinset ⊆ Finset.range N := by
    intro x hx
    rw [List.mem_toFinset] at hx
    exact Finset.mem_range.2 (hlt x hx)
  have hcard : (Finset.range N).card ≤ l.toFinset.card := by
    rw [List.toFinset_card_of_nodup hnd, hlen, Finset.card_range]
  have := Finset.eq_of_subset_of_card_le hsub hcard
  have hy2 : y ∈ l.toFinset := by
    rw [this]
    exact Finset.mem_range.2 hy
  exact List.mem_toFinset.1 hy2

/-- A tree of `N - 1` edges grown as Prim's algorithm does is a spanning tree of
`[0, N)` of minimal total weight. -/
theorem prim_minimal (N : Nat) (w : Nat → Nat → ℚ) (r : Nat) (hr : r < N)
    (hsym : ∀ x y, x < N → y < N → w x y = w y x) (E : List (Nat × Nat))
    (hg : PrimGrown N w r E) (hlen : E.length = N - 1) :
    SpanningTree N E ∧ ∀ T, SpanningTree N T → tree_weight w E ≤ tree_weight w T := by
  obtain ⟨i1, i2, i3⟩ := primGrown_facts N w r hr E hg
  constructor
  · refine ⟨hlen, fun e he => ⟨(i1 _ (i2 e he).1).1, (i1 _ (i2 e he).2).1⟩, ?_⟩
    have hall : ∀ y, y < N → y ∈ tree_vertices r E := by
      apply mem_of_nodup_of_length _ N i3 (fun x hx => (i1 x hx).1)
      simp only [tree_vertices, List.length_cons, List.length_map]
      omega
    intro a b ha hb
    exact Relation.ReflTransGen.trans (edgeReach_symm (i1 a (hall a ha)).2) (i1 b (hall b hb)).2
  · intro T ⟨t1, t2, t3⟩
    have := prim_minimal_aux N w r hr hsym (N - 1) E [] T hlen t1 (by simpa using hg) t2
      (by simpa using t3)
    simpa using this

/-! ## The loops of `mstree` -/

/-- A read of an array after an in-bounds write. -/
theorem getD_set_of_lt {α : Type} (l : List α) (j k : Nat) (v d : α) (hj : j < l.length) :
    (l.set j v).getD k d = if k = j then v else l.getD k d := by
  simp only [List.getD_eq_getElem?_getD]
  by_cases hk : k = j
  · subst hk
    rw [if_pos rfl, List.getElem?_set_self hj]
    rfl
  · rw [if_neg hk, List.getElem?_set_ne (fun h => hk h.symm)]

/-- The comparison `<=` of two finite values. -/
theorem f32_le_fin (a b : ℚ) : F32.le (.fin a) (.fin b) = true ↔ a ≤ b := by
  unfold F32.le
  exact decide_eq_true_iff

/-- The update of `L[j]` and `label[j]`: the position `j` becomes up to date for
the tree with `u`. -/
theorem mstree_relax_spec (N : Nat) (w : Nat → Nat → ℚ) (X : Nat → Nat → F32)
    (round : F32 → F32) (hX : ∀ a b, a < N → b < N → X a b = .fin (w a b))
    (hround : ∀ a b, a < N → b < N → round (X a b) = X a b)
    (T V : List Nat) (u : Nat) (hu : u ∈ T) (huN : u < N)
    (s : MstScan) (j : Nat) (hj : j < N) (hVj : V.getD j 0 < N)
    (hL : s.L.length = N) (hlab : s.label.length = N)
    (hbest : MstBest w (fun x => x ∈ T ∧ x ≠ u) (V.getD j 0) (s.L.getD j (.fin 0))
      (s.label.getD j 0)) :
    (mstree_relax X round V u s j).L.length = N ∧
    (mstree_relax X round V u s j).label.length = N ∧
    (mstree_relax X round V u s j).ml = s.ml ∧
    (mstree_relax X round V u s j).mi = s.mi ∧
    (∀ k, k ≠ j → (mstree_relax X round V u s j).L.getD k (.fin 0) = s.L.getD k (.fin 0) ∧
      (mstree_relax X round V u s j).label.getD k 0 = s.label.getD k 0) ∧
    MstGood w T V (mstree_relax X round V u s j).L (mstree_relax X round V u s j).label j := by
  unfold mstree_relax
  rw [hround u _ huN hVj, hX u _ huN hVj]
  rcases hbest with ⟨hnone, hinf⟩ | ⟨⟨hlT, hlu⟩, hfin, hmin⟩
  · rw [hinf]
    have : F32.le (F32.fin (w u (V.getD j 0))) (F32.inf false) = true := rfl
    rw [if_pos this]
    refine ⟨by simp [hL], by simp [hlab], rfl, rfl, ?_, ?_⟩
    · intro k hk
      simp only
      rw [getD_set_of_lt _ _ _ _ _ (by omega), getD_set_of_lt _ _ _ _ _ (by omega),
        if_neg hk, if_neg hk]
      exact ⟨rfl, rfl⟩
    · unfold MstGood
      simp only
      rw [getD_set_of_lt _ _ _ _ _ (by omega), getD_set_of_lt _ _ _ _ _ (by omega),
        if_pos rfl, if_pos rfl]
      refine ⟨hu, rfl, ?_⟩
      intro x hx
      by_cases hxu : x = u
      · rw [hxu]
      · exact absurd ⟨hx, hxu⟩ (hnone x)
  · rw [hfin]
    by_cases hle : w u (V.getD j 0) ≤ w (s.label.getD j 0) (V.getD j 0)
    · have : F32.le (F32.fin (w u (V.getD j 0)))
          (F32.fin (w (s.label.getD j 0) (V.getD j 0))) = true := (f32_le_fin _ _).2 hle
      rw [if_pos this]
      refine ⟨by simp [hL], by simp [hlab], rfl, rfl, ?_, ?_⟩
      · intro k hk
        simp only
        rw [getD_set_of_lt _ _ _ _ _ (by omega), getD_set_of_lt _ _ _ _ _ (by omega),
          if_neg hk, if_neg hk]
        exact ⟨rfl, rfl⟩
      · unfold MstGood
        simp only
        rw [getD_set_of_lt _ _ _ _ _ (by omega), getD_set_of_lt _ _ _ _ _ (by omega),
          if_pos rfl, if_pos rfl]
        refine ⟨hu, rfl, ?_⟩
        intro x hx
        by_cases hxu : x = u
        · rw [hxu]
        · exact le_trans hle (hmin x ⟨hx, hxu⟩)
    · have : ¬ F32.le (F32.fin (w u (V.getD j 0)))
          (F32.fin (w (s.label.getD j 0) (V.getD j 0))) = true :=
        fun h => hle ((f32_le_fin _ _).1 h)
      rw [if_neg this]
      refine ⟨hL, hlab, rfl, rfl, fun k _ => ⟨rfl, rfl⟩, ?_⟩
      unfold MstGood
      refine ⟨hlT, hfin, ?_⟩
      intro x hx
      by_cases hxu : x = u
      · rw [hxu]
        exact le_of_lt (not_le.1 hle)
      · exact hmin x ⟨hx, hxu⟩

/-- Being up to date at a position depends on the entries at that position only. -/
theorem mstGood_congr (w : Nat → Nat → ℚ) (T V : List Nat) (L L2 : List F32)
    (label label2 : List Nat) (k : Nat)
    (h1 : L2.getD k (.fin 0) = L.getD k (.fin 0)) (h2 : label2.getD k 0 = label.getD k 0)
    (h : MstGood w T V L label k) : MstGood w T V L2 label2 k := by
  unfold MstGood at h ⊢
  rw [h1, h2]
  exact h

/-- One iteration of the inner loop of `mstree` keeps its invariant. -/
theorem mstree_scan_inv (N : Nat) (w : Nat → Nat → ℚ) (X : Nat → Nat → F32)
    (round : F32 → F32) (hX : ∀ a b, a < N → b < N → X a b = .fin (w a b))
    (hround : ∀ a b, a < N → b < N → round (X a b) = X a b)
    (T V : List Nat) (u : Nat) (hu : u ∈ T) (huN : u < N) (L0 : List F32) (label0 : List Nat)
    (s : MstScan) (j : Nat) (hj : j < N) (hVj : V.getD j 0 < N)
    (hbest : MstBest w (fun x => x ∈ T ∧ x ≠ u) (V.getD j 0) (L0.getD j (.fin 0))
      (label0.getD j 0))
    (hinv : MstScanInv N w T V L0 label0 j s) :
    MstScanInv N w T V L0 label0 (j + 1) (mstree_scan X round V u s j) := by
  obtain ⟨hL, hlab, hgood, hrest, hml⟩ := hinv
  have hbest2 : MstBest w (fun x => x ∈ T ∧ x ≠ u) (V.getD j 0) (s.L.getD j (.fin 0))
      (s.label.getD j 0) := by
    rw [(hrest j (le_refl _)).1, (hrest j (le_refl _)).2]
    exact hbest
  obtain ⟨r1, r2, r3, r4, r5, r6⟩ := mstree_relax_spec N w X round hX hround T V u hu huN s j hj
    hVj hL hlab hbest2
  unfold mstree_scan mstree_pick
  generalize mstree_relax X round V u s j = s1 at r1 r2 r3 r4 r5 r6 ⊢
  have hgood1 : ∀ k, k < j + 1 → MstGood w T V s1.L s1.label k := by
    intro k hk
    by_cases hkj : k = j
    · rw [hkj]; exact r6
    · exact mstGood_congr w T V _ _ _ _ k (r5 k hkj).1 (r5 k hkj).2 (hgood k (by omega))
  have hrest1 : ∀ k, j + 1 ≤ k → s1.L.getD k (.fin 0) = L0.getD k (.fin 0) ∧
      s1.label.getD k 0 = label0.getD k 0 := by
    intro k hk
    rw [(r5 k (by omega)).1, (r5 k (by omega)).2]
    exact hrest k (by omega)
  have hq := r6.2.1
  rcases hml with ⟨hj0, hinf⟩ | ⟨m, hm, hmi, hmlm, hleast⟩
  · rw [r3, hinf, hq]
    have : F32.le (F32.fin (w (s1.label.getD j 0) (V.getD j 0))) (F32.inf false) = true := rfl
    rw [if_pos this]
    refine ⟨r1, r2, hgood1, hrest1, Or.inr ⟨j, by omega, rfl, hq.symm, ?_⟩⟩
    intro k hk
    have : k = j := by omega
    rw [this]
  · have hm1 : s1.L.getD m (.fin 0) = .fin (w (s1.label.getD m 0) (V.getD m 0)) :=
      (hgood1 m (by omega)).2.1
    have hmm : s.L.getD m (.fin 0) = s1.L.getD m (.fin 0) := ((r5 m (by omega)).1).symm
    have hlm : s.label.getD m 0 = s1.label.getD m 0 := ((r5 m (by omega)).2).symm
    rw [r3, hmlm, hmm, hm1, hq]
    by_cases hle : w (s1.label.getD j 0) (V.getD j 0) ≤ w (s1.label.getD m 0) (V.getD m 0)
    · rw [if_pos ((f32_le_fin _ _).2 hle)]
      refine ⟨r1, r2, hgood1, hrest1, Or.inr ⟨j, by omega, rfl, hq.symm, ?_⟩⟩
      intro k hk
      by_cases hkj : k = j
      · rw [hkj]
      · have := hleast k (by omega)
        rw [hlm, (r5 k hkj).2.symm] at this
        exact le_trans hle this
    · rw [if_neg (fun h => hle ((f32_le_fin _ _).1 h))]
      refine ⟨r1, r2, hgood1, hrest1, Or.inr ⟨m, by omega, r4.trans hmi, ?_, ?_⟩⟩
      · rw [r3, hmlm, hmm]
      · intro k hk
        by_cases hkj : k = j
        · rw [hkj]
          exact le_of_lt (not_le.1 hle)
        · have := hleast k (by omega)
          rw [hlm, (r5 k hkj).2.symm] at this
          exact this

/-- The inner loop of `mstree` under the invariant of the outer loop: every
active position becomes up to date for the tree, and `mi` is an active position
of least distance to the tree. -/
theorem mstree_inner_spec (N : Nat) (w : Nat → Nat → ℚ) (X : Nat → Nat → F32)
    (round : F32 → F32) (hN : 1 ≤ N) (hX : ∀ a b, a < N → b < N → X a b = .fin (w a b))
    (hround : ∀ a b, a < N → b < N → round (X a b) = X a b)
    (i : Nat) (hi : i < N - 1) (st : MstState) (hinv : MstInv N w i st) :
    (mstree_inner N X round st i).L.length = N ∧
    (mstree_inner N X round st i).label.length = N ∧
    (∀ k, k < N - 1 - i → MstGood w (tree_vertices (N - 1) st.edg.reverse) st.V
      (mstree_inner N X round st i).L (mstree_inner N X round st i).label k) ∧
    ∃ m, m < N - 1 - i ∧ (mstree_inner N X round st i).mi = some m ∧
      ∀ k, k < N - 1 - i →
        w ((mstree_inner N X round st i).label.getD m 0) (st.V.getD m 0)
          ≤ w ((mstree_inner N X round st i).label.getD k 0) (st.V.getD k 0) := by
  obtain ⟨h1, h2, h3, h4, h5, h6, h7, h8, h9⟩ := hinv
  have hfacts := primGrown_facts N w (N - 1) (by omega) _ h5
  have huN : st.u < N := (hfacts.1 _ h6).1
  unfold mstree_inner
  have hb : N - i - 1 = N - 1 - i := by omega
  rw [hb]
  have key := foldl_range_inv
    (fun j s => j ≤ N - 1 - i → MstScanInv N w (tree_vertices (N - 1) st.edg.reverse) st.V
      st.L st.label j s)
    (mstree_scan X round st.V st.u) (N - 1 - i) ⟨st.L, st.label, .inf false, st.mi⟩
    (fun _ => ⟨h2, h3, fun k hk => absurd hk (Nat.not_lt_zero _), fun k _ => ⟨rfl, rfl⟩,
      Or.inl ⟨rfl, rfl⟩⟩) ?_
  · obtain ⟨k1, k2, k3, -, k5⟩ := key (le_refl _)
    refine ⟨k1, k2, k3, ?_⟩
    rcases k5 with ⟨h0, -⟩ | ⟨m, hm, hmi, -, hleast⟩
    · omega
    · exact ⟨m, hm, hmi, hleast⟩
  · intro j s hj hs _
    exact mstree_scan_inv N w X round hX hround _ st.V st.u h6 huN st.L st.label s j
      (by omega) (h7 j hj).1 (h7 j hj).2.2 (hs (by omega))

/-- The vertices of the tree after one more edge. -/
theorem mem_tree_vertices_cons (r : Nat) (e : Nat × Nat) (E : List (Nat × Nat)) (x : Nat) :
    x ∈ tree_vertices r (e :: E) ↔ x = e.2 ∨ x ∈ tree_vertices r E := by
  simp only [tree_vertices, List.map_cons, List.mem_cons]
  tauto

/-- One iteration of the outer loop of `mstree` returns and keeps the invariant. -/
theorem mstree_step_inv (N : Nat) (w : Nat → Nat → ℚ) (X : Nat → Nat → F32)
    (round : F32 → F32) (hN : 1 ≤ N) (hX : ∀ a b, a < N → b < N → X a b = .fin (w a b))
    (hround : ∀ a b, a < N → b < N → round (X a b) = X a b)
    (i : Nat) (hi : i < N - 1) (st : MstState) (hinv : MstInv N w i st) :
    ∃ st2, mstree_step N X round st i = .ok st2 ∧ MstInv N w (i + 1) st2 := by
  obtain ⟨s1, s2, s3, m, hm, hmi, hleast⟩ :=
    mstree_inner_spec N w X round hN hX hround i hi st hinv
  obtain ⟨h1, h2, h3, h4, h5, h6, h7, h8, h9⟩ := hinv
  unfold mstree_step
  rw [hmi]
  refine ⟨_, rfl, ?_⟩
  generalize mstree_inner N X round st i = sc at s1 s2 s3 hmi hleast
  have hlast : N - i - 2 < N - 1 - i := by omega
  have hrev : (st.edg ++ [(sc.label.getD m 0, st.V.getD m 0)]).reverse
      = (sc.label.getD m 0, st.V.getD m 0) :: st.edg.reverse := by simp
  -- the position from which the entry `j` of the new arrays comes
  have hpos : ∀ j, j < N - 1 - (i + 1) → ∃ k, k < N - 1 - i ∧ k ≠ m ∧
      (st.V.set m (st.V.getD (N - i - 2) 0)).getD j 0 = st.V.getD k 0 ∧
      (sc.L.set m (sc.L.getD (N - i - 2) (.fin 0))).getD j (.fin 0) = sc.L.getD k (.fin 0) ∧
      (sc.label.set m (sc.label.getD (N - i - 2) 0)).getD j 0 = sc.label.getD k 0 ∧
      (k = if j = m then N - i - 2 else j) := by
    intro j hj
    rw [getD_set_of_lt _ _ _ _ _ (by omega), getD_set_of_lt _ _ _ _ _ (by omega),
      getD_set_of_lt _ _ _ _ _ (by omega)]
    by_cases hjm : j = m
    · refine ⟨N - i - 2, hlast, by omega, ?_⟩
      rw [if_pos hjm, if_pos hjm, if_pos hjm, if_pos hjm]
      exact ⟨rfl, rfl, rfl, rfl⟩
    · refine ⟨j, by omega, hjm, ?_⟩
      rw [if_neg hjm, if_neg hjm, if_neg hjm, if_neg hjm]
      exact ⟨rfl, rfl, rfl, rfl⟩
  unfold MstInv mstree_remove
  simp only
  rw [hrev]
  refine ⟨by simp [h1], by simp [s1], by simp [s2], by simp [h4], ?_, ?_, ?_, ?_, ?_⟩
  · refine ⟨h5, (s3 m hm).1, (h7 m hm).1, (h7 m hm).2.1, ?_⟩
    intro x hx y hy hyT
    obtain ⟨k, hk, hky⟩ := h9 y hy hyT
    have := (s3 k hk).2.2 x hx
    rw [hky] at this
    have h2 := hleast k hk
    rw [hky] at h2
    exact le_trans h2 this
  · rw [mem_tree_vertices_cons]
    exact Or.inl rfl
  · intro j hj
    obtain ⟨k, hk, hkm, e1, e2, e3, -⟩ := hpos j hj
    rw [e1, e2, e3]
    have hne : st.V.getD k 0 ≠ st.V.getD m 0 := fun h => hkm (h8 k m hk hm h)
    refine ⟨(h7 k hk).1, ?_, ?_⟩
    · rw [mem_tree_vertices_cons]
      rintro (h | h)
      · exact hne h
      · exact (h7 k hk).2.1 h
    · right
      refine ⟨⟨?_, ?_⟩, (s3 k hk).2.1, ?_⟩
      · rw [mem_tree_vertices_cons]
        exact Or.inr (s3 k hk).1
      · intro h
        exact (h7 m hm).2.1 (h ▸ (s3 k hk).1)
      · rintro x ⟨hx, hxm⟩
        rw [mem_tree_vertices_cons] at hx
        rcases hx with hx | hx
        · exact absurd hx hxm
        · exact (s3 k hk).2.2 x hx
  · intro j1 j2 hj1 hj2 hV
    obtain ⟨k1, hk1, hkm1, e1, -, -, d1⟩ := hpos j1 hj1
    obtain ⟨k2, hk2, hkm2, e2, -, -, d2⟩ := hpos j2 hj2
    rw [e1, e2] at hV
    have hk := h8 k1 k2 hk1 hk2 hV
    rw [d1, d2] at hk
    by_cases a1 : j1 = m
    · by_cases a2 : j2 = m
      · omega
      · rw [if_pos a1, if_neg a2] at hk
        omega
    · by_cases a2 : j2 = m
      · rw [if_neg a1, if_pos a2] at hk
        omega
      · rw [if_neg a1, if_neg a2] at hk
        exact hk
  · intro y hy hyT
    rw [mem_tree_vertices_cons, not_or] at hyT
    obtain ⟨k, hk, hky⟩ := h9 y hy hyT.2
    have hkm : k ≠ m := by
      intro h
      rw [h] at hky
      exact hyT.1 hky.symm
    by_cases hkl : k = N - i - 2
    · refine ⟨m, by omega, ?_⟩
      rw [getD_set_of_lt _ _ _ _ _ (by omega), if_pos rfl, ← hkl]
      exact hky
    · refine ⟨k, by omega, ?_⟩
      rw [getD_set_of_lt _ _ _ _ _ (by omega), if_neg hkm]
      exact hky

/-- The invariant of the outer loop of `mstree` holds before the first iteration. -/
theorem mstree_init_inv (N : Nat) (w : Nat → Nat → ℚ) (hN : 1 ≤ N) :
    MstInv N w 0 (mstree_init N) := by
  unfold MstInv mstree_init
  simp only [List.reverse_nil, tree_vertices, List.map_nil, List.mem_singleton]
  have hV : ∀ j, j < N - 1 →
      ((List.range N).map (fun i => if i < N - 1 then i else 0)).getD j 0 = j := by
    intro j hj
    rw [List.getD_eq_getElem?_getD, List.getElem?_map, List.getElem?_range (by omega)]
    simp [hj]
  have hL : ∀ j, j < N - 1 →
      ((List.range N).map (fun i => if i < N - 1 then F32.inf false else F32.fin 0)).getD j
        (.fin 0) = .inf false := by
    intro j hj
    rw [List.getD_eq_getElem?_getD, List.getElem?_map, List.getElem?_range (by omega)]
    simp [hj]
  refine ⟨by simp, by simp, by simp, rfl, trivial, trivial, ?_, ?_, ?_⟩
  · intro j hj
    rw [hV j (by omega), hL j (by omega)]
    refine ⟨by omega, by omega, Or.inl ⟨?_, rfl⟩⟩
    rintro x ⟨h1, h2⟩
    exact h2 h1
  · intro j1 j2 h1 h2 h
    rw [hV j1 (by omega), hV j2 (by omega)] at h
    exact h
  · intro y hy hne
    exact ⟨y, by omega, hV y (by omega)⟩

/-- The function `mstree` returns `N - 1` rows that grow a tree from `N - 1` as
Prim's algorithm does. -/
theorem mstree_grown (N : Nat) (w : Nat → Nat → ℚ) (X : Nat → Nat → F32)
    (round : F32 → F32) (hN : 1 ≤ N) (hX : ∀ a b, a < N → b < N → X a b = .fin (w a b))
    (hround : ∀ a b, a < N → b < N → round (X a b) = X a b) :
    ∃ edg, mstree N X round = .ok edg ∧ edg.length = N - 1 ∧
      PrimGrown N w (N - 1) edg.reverse := by
  obtain ⟨st, hst, hinv⟩ := foldlM_range_inv (fun i st => i ≤ N - 1 → MstInv N w i st)
    (mstree_step N X round) (N - 1) (mstree_init N) (fun _ => mstree_init_inv N w hN)
    (by
      intro i st hi hinv
      obtain ⟨st2, h1, h2⟩ := mstree_step_inv N w X round hN hX hround i hi st (hinv (by omega))
      exact ⟨st2, h1, fun _ => h2⟩)
  refine ⟨st.edg, ?_, (hinv (le_refl _)).2.2.2.1, (hinv (le_refl _)).2.2.2.2.1⟩
  unfold mstree
  rw [hst]

/-- In a tree grown from `r`, the first endpoint of a row is `r` or the second
endpoint of an earlier row. -/
theorem primGrown_order (N : Nat) (w : Nat → Nat → ℚ) (r : Nat) (E : List (Nat × Nat)) :
    PrimGrown N w r E.reverse → ∀ i, i < E.length →
      (E.getD i (0, 0)).1 = r ∨ ∃ k, k < i ∧ (E.getD k (0, 0)).2 = (E.getD i (0, 0)).1 := by
  induction E using List.reverseRecOn with
  | nil =>
    intro _ i hi
    exact absurd hi (Nat.not_lt_zero _)
  | append_singleton E e ih =>
    intro hg i hi
    rw [List.reverse_append, List.reverse_singleton, List.singleton_append] at hg
    obtain ⟨hg1, hg2, -⟩ := hg
    rw [List.length_append, List.length_singleton] at hi
    have hget : ∀ k, k < E.length → (E ++ [e]).getD k (0, 0) = E.getD k (0, 0) := by
      intro k hk
      rw [List.getD_eq_getElem?_getD, List.getElem?_append_left hk,
        ← List.getD_eq_getElem?_getD]
    by_cases hlt : i < E.length
    · rw [hget i hlt]
      rcases ih hg1 i hlt with h | ⟨k, hk, h⟩
      · exact Or.inl h
      · exact Or.inr ⟨k, hk, by rw [hget k (by omega)]; exact h⟩
    · have hie : i = E.length := by omega
      have hlast : (E ++ [e]).getD i (0, 0) = e := by
        rw [hie, List.getD_eq_getElem?_getD, List.getElem?_append_right (le_refl _)]
        simp
      rw [hlast]
      simp only [tree_vertices, List.map_reverse, List.mem_cons, List.mem_reverse,
        List.mem_map] at hg2
      rcases hg2 with h | ⟨g, hgE, hgs⟩
      · exact Or.inl h
      · obtain ⟨k, hk, hkg⟩ := List.mem_iff_getElem.1 hgE
        refine Or.inr ⟨k, by omega, ?_⟩
        rw [hget k hk, List.getD_eq_getElem?_getD, List.getElem?_eq_getElem hk]
        simp only [Option.getD_some]
        rw [hkg]
        exact hgs

/-- Being a spanning tree does not depend on the order of the edges. -/
theorem spanningTree_reverse (N : Nat) (E : List (Nat × Nat)) (h : SpanningTree N E.reverse) :
    SpanningTree N E := by
  obtain ⟨h1, h2, h3⟩ := h
  refine ⟨by simpa using h1, fun e he => h2 e (List.mem_reverse.2 he), ?_⟩
  intro a b ha hb
  exact edgeReach_mono (fun e he => List.mem_reverse.1 he) (h3 a b ha hb)

/-- Claim C35: for every `N ≥ 1` (in particular `N ≥ 2`) and every symmetric
distance matrix whose entries are finite and exactly representable as floats,
`mstree` returns and writes `N - 1` rows; every vertex other than `N - 1` is
the second entry of exactly one row, the first entry of a row is `N - 1` or the
second entry of an earlier row, and the rows are a spanning tree of the
complete graph on `[0, N)` whose total weight is least among all spanning trees. -/
theorem mstree_minimal (N : Nat) (w : Nat → Nat → ℚ) (X : Nat → Nat → F32)
    (round : F32 → F32) (hN : 1 ≤ N) (hX : ∀ a b, a < N → b < N → X a b = .fin (w a b))
    (hround : ∀ a b, a < N → b < N → round (X a b) = X a b)
    (hsym : ∀ a b, a < N → b < N → w a b = w b a) :
    ∃ edg, mstree N X round = .ok edg ∧ edg.length = N - 1 ∧
      (∀ v, v < N - 1 → (edg.map Prod.snd).count v = 1) ∧
      (∀ i, i < N - 1 → (edg.getD i (0, 0)).1 = N - 1 ∨
        ∃ k, k < i ∧ (edg.getD k (0, 0)).2 = (edg.getD i (0, 0)).1) ∧
      SpanningTree N edg ∧
      ∀ T, SpanningTree N T → tree_weight w edg ≤ tree_weight w T := by
  obtain ⟨edg, h1, h2, h3⟩ := mstree_grown N w X round hN hX hround
  obtain ⟨i1, i2, i3⟩ := primGrown_facts N w (N - 1) (by omega) _ h3
  obtain ⟨m1, m2⟩ := prim_minimal N w (N - 1) (by omega) hsym edg.reverse h3 (by simpa using h2)
  refine ⟨edg, h1, h2, ?_, ?_, spanningTree_reverse N edg m1, ?_⟩
  · intro v hv
    have hnd : (edg.map Prod.snd).Nodup := by
      have : (edg.reverse.map Prod.snd).Nodup := (List.nodup_cons.1 i3).2
      rw [List.map_reverse, List.nodup_reverse] at this
      exact this
    have hmem : v ∈ tree_vertices (N - 1) edg.reverse := by
      apply mem_of_nodup_of_length _ N i3 (fun x hx => (i1 x hx).1) _ v (by omega)
      simp only [tree_vertices, List.length_cons, List.length_map, List.length_reverse]
      omega
    simp only [tree_vertices, List.map_reverse, List.mem_cons, List.mem_reverse] at hmem
    rcases hmem with h | h
    · omega
    · exact List.count_eq_one_of_mem hnd h
  · intro i hi
    exact primGrown_order N w (N - 1) edg h3 i (by omega)
  · intro T hT
    rw [tree_weight_perm w (List.reverse_perm edg).symm]
    exact m2 T hT

/-- Witness of `mstree_minimal`: four points on a line at 0, 1, 2 and 3. -/
theorem mstree_minimal_witness :
    1 ≤ 4 ∧
    (∀ a b, a < 4 → b < 4 →
      (fun a b : Nat => F32.fin |(a : ℚ) - b|) a b = .fin ((fun a b : Nat => |(a : ℚ) - b|) a b)) ∧
    (∀ a b, a < 4 → b < 4 →
      id ((fun a b : Nat => F32.fin |(a : ℚ) - b|) a b)
        = (fun a b : Nat => F32.fin |(a : ℚ) - b|) a b) ∧
    (∀ a b, a < 4 → b < 4 →
      (fun a b : Nat => |(a : ℚ) - b|) a b = (fun a b : Nat => |(a : ℚ) - b|) b a) ∧
    ∃ edg, mstree 4 (fun a b : Nat => F32.fin |(a : ℚ) - b|) id = .ok edg ∧
      edg.length = 4 - 1 ∧
      (∀ v, v < 4 - 1 → (edg.map Prod.snd).count v = 1) ∧
      (∀ i, i < 4 - 1 → (edg.getD i (0, 0)).1 = 4 - 1 ∨
        ∃ k, k < i ∧ (edg.getD k (0, 0)).2 = (edg.getD i (0, 0)).1) ∧
      SpanningTree 4 edg ∧
      ∀ T, SpanningTree 4 T →
        tree_weight (fun a b : Nat => |(a : ℚ) - b|) edg
          ≤ tree_weight (fun a b : Nat => |(a : ℚ) - b|) T :=
  ⟨by decide, fun _ _ _ _ => rfl, fun _ _ _ _ => rfl, fun a b _ _ => abs_sub_comm _ _,
    mstree_minimal 4 (fun a b : Nat => |(a : ℚ) - b|) (fun a b : Nat => F32.fin |(a : ℚ) - b|) id
      (by decide) (fun _ _ _ _ => rfl) (fun _ _ _ _ => rfl) (fun a b _ _ => abs_sub_comm _ _)⟩

/-! ## The new label in the linkage after `split_block_1d` -/

/-- Claim C16, as the code has it: on a well-formed linkage `L`, when
`split_block_1d` finds a new label `nlb`, the call returns, and after it no
live incidence of a row has index `nlb` if and only if every live two-incidence
edge of `L` within the component `cc` of `label` that straddles the index has
`nlb` as an endpoint. Such edges are set not-live by `unlink_nodes({nlb})`, and
then the linkage is as the unlinking left it; any other straddling edge has its
smaller endpoint rewritten to `nlb` by the edge loop and stays live. -/
theorem split_block_1d_unlinks (bl : List Int) (bs be index label : Int) (L : EVIncidence)
    (preserved cc : List Int) (nlb : Int) (hL : L.WellFormed) (hsize : be - bs > 0)
    (hidx : 0 ≤ index - bs ∧ index - bs < (bl.length : Int))
    (hcc : find_connected_component label L = .ok cc)
    (hnl : find_next_label bl 0 (be - bs) bs be = some nlb) :
    (∃ m, (split_block_1d bl bs be index label L preserved).outcome = .ok m) ∧
    (split_block_1d bl bs be index label L preserved).linkage.indptr = L.indptr ∧
    (split_block_1d bl bs be index label L preserved).linkage.shape = L.shape ∧
    ((∀ i, i < L.shape.1.toNat → Straddles L cc index i →
        index_at L (L.indptr.getD i 0) = nlb ∨ index_at L (L.indptr.getD i 0 + 1) = nlb) →
      (split_block_1d bl bs be index label L preserved).linkage = unlink_nodes [nlb] L) ∧
    ((∀ j, j < L.shape.1.toNat → ∀ k ∈ row_slots L j,
        live_at (split_block_1d bl bs be index label L preserved).linkage k = true →
        index_at (split_block_1d bl bs be index label L preserved).linkage k ≠ nlb) ↔
      ∀ i, i < L.shape.1.toNat → Straddles L cc index i →
        index_at L (L.indptr.getD i 0) = nlb ∨ index_at L (L.indptr.getD i 0 + 1) = nlb) := by
  obtain ⟨hlink, _, _, m, hm, _⟩ :=
    split_block_1d_relabel bl bs be index label L preserved cc nlb hsize hidx hcc hnl
  obtain ⟨u1, u2, u3, u4, u5⟩ := unlink_nodes_spec [nlb] L
  have hM := unlink_nodes_wellFormed [nlb] L hL
  obtain ⟨r1, r2⟩ := split1d_edges_rows cc index (some nlb) (unlink_nodes [nlb] L) hM
  have hno_iff : (∀ i, i < L.shape.1.toNat → Straddles L cc index i →
        index_at L (L.indptr.getD i 0) = nlb ∨ index_at L (L.indptr.getD i 0 + 1) = nlb) ↔
      ∀ i, i < L.shape.1.toNat → ¬ Straddles (unlink_nodes [nlb] L) cc index i := by
    constructor
    · intro h i hi hs
      rw [straddles_unlinked_iff nlb cc index L hL i hi] at hs
      rcases h i hi hs.1 with h0 | h0
      · exact hs.2.1 h0
      · exact hs.2.2 h0
    · intro h i hi hs
      by_contra hcon
      rw [not_or] at hcon
      exact h i hi ((straddles_unlinked_iff nlb cc index L hL i hi).2 ⟨hs, hcon.1, hcon.2⟩)
  have hself : (∀ i, i < L.shape.1.toNat → ¬ Straddles (unlink_nodes [nlb] L) cc index i) →
      split1d_edges cc index (some nlb) (unlink_nodes [nlb] L) = unlink_nodes [nlb] L := by
    intro h
    apply split1d_edges_eq_self
    intro i hi
    rw [u3] at hi
    exact h i hi
  have hshape : (split1d_edges cc index (some nlb) (unlink_nodes [nlb] L)).shape = L.shape := by
    unfold split1d_edges
    exact ((split1d_fold_some cc index nlb _ hM _ (le_refl _)).2.2.1).trans u3
  rw [hlink]
  refine ⟨⟨m, hm⟩, r1.trans u2, hshape, fun h => hself (hno_iff.1 h), ?_⟩
  rw [hno_iff]
  constructor
  · intro habs i hi hs
    have hi2 : i < (unlink_nodes [nlb] L).shape.1.toNat := by rw [u3]; exact hi
    obtain ⟨q1, -⟩ := r2 i hi2
    obtain ⟨a1, -, a3, a4⟩ := (q1 hs).1 nlb rfl
    have hb := two_slots_bounds _ hM i hi2 hs.1
    rw [u2] at a3 a4
    rcases smaller_slot_cases (unlink_nodes [nlb] L) i with h | h
    · rw [h, u2] at a1
      have hmem := hb.2.2.2.1
      rw [row_slots_congr u2, u2] at hmem
      exact habs i hi _ hmem a3 a1
    · rw [h, u2] at a1
      have hmem := hb.2.2.2.2
      rw [row_slots_congr u2, u2] at hmem
      exact habs i hi _ hmem a4 a1
  · intro h j hj k hk hlive hidx2
    rw [hself h] at hlive hidx2
    rw [index_at_congr u1] at hidx2
    rw [u5 j hj k hk (List.mem_singleton.2 hidx2)] at hlive
    exact Bool.noConfusion hlive

/-- Witness of `split_block_1d_unlinks`: the block `[0, 0, 0]` with range `[0, 3)`,
split at index 1 for the label 0, on the linkage with the live edges of 0 and 1
and of 2 and 3. The new label is 1; the edge of 0 and 1 straddles the index and
has the new label as an endpoint, the unlinking sets it not-live, and after the
call no live incidence has index 1. -/
theorem split_block_1d_unlinks_witness :
    (unlink_nodes [1] ⟨[true, true, true, true], [0, 1, 2, 3], [0, 2, 4], (2, 4)⟩).data = [false, false, true, true] ∧
    (∀ i, i < (⟨[true, true, true, true], [0, 1, 2, 3], [0, 2, 4], (2, 4)⟩ : EVIncidence).shape.1.toNat →
      Straddles ⟨[true, true, true, true], [0, 1, 2, 3], [0, 2, 4], (2, 4)⟩ [1, 0] 1 i →
        index_at ⟨[true, true, true, true], [0, 1, 2, 3], [0, 2, 4], (2, 4)⟩ ((⟨[true, true, true, true], [0, 1, 2, 3], [0, 2, 4], (2, 4)⟩ : EVIncidence).indptr.getD i 0) = 1 ∨
        index_at ⟨[true, true, true, true], [0, 1, 2, 3], [0, 2, 4], (2, 4)⟩ ((⟨[true, true, true, true], [0, 1, 2, 3], [0, 2, 4], (2, 4)⟩ : EVIncidence).indptr.getD i 0 + 1) = 1) ∧
    EVIncidence.WellFormed ⟨[true, true, true, true], [0, 1, 2, 3], [0, 2, 4], (2, 4)⟩ ∧
    (3 : Int) - 0 > 0 ∧
    ((0 : Int) ≤ 1 - 0 ∧ (1 : Int) - 0 < (([0, 0, 0] : List Int).length : Int)) ∧
    find_connected_component 0 ⟨[true, true, true, true], [0, 1, 2, 3], [0, 2, 4], (2, 4)⟩ = .ok [1, 0] ∧
    find_next_label [0, 0, 0] 0 (3 - 0) 0 3 = some 1 ∧
    ((∃ m, (split_block_1d [0, 0, 0] 0 3 1 0 ⟨[true, true, true, true], [0, 1, 2, 3], [0, 2, 4], (2, 4)⟩ []).outcome = .ok m) ∧
    (split_block_1d [0, 0, 0] 0 3 1 0 ⟨[true, true, true, true], [0, 1, 2, 3], [0, 2, 4], (2, 4)⟩ []).linkage.indptr = (⟨[true, true, true, true], [0, 1, 2, 3], [0, 2, 4], (2, 4)⟩ : EVIncidence).indptr ∧
    (split_block_1d [0, 0, 0] 0 3 1 0 ⟨[true, true, true, true], [0, 1, 2, 3], [0, 2, 4], (2, 4)⟩ []).linkage.shape = (⟨[true, true, true, true], [0, 1, 2, 3], [0, 2, 4], (2, 4)⟩ : EVIncidence).shape ∧
    ((∀ i, i < (⟨[true, true, true, true], [0, 1, 2, 3], [0, 2, 4], (2, 4)⟩ : EVIncidence).shape.1.toNat → Straddles ⟨[true, true, true, true], [0, 1, 2, 3], [0, 2, 4], (2, 4)⟩ [1, 0] 1 i →
        index_at ⟨[true, true, true, true], [0, 1, 2, 3], [0, 2, 4], (2, 4)⟩ ((⟨[true, true, true, true], [0, 1, 2, 3], [0, 2, 4], (2, 4)⟩ : EVIncidence).indptr.getD i 0) = 1 ∨ index_at ⟨[true, true, true, true], [0, 1, 2, 3], [0, 2, 4], (2, 4)⟩ ((⟨[true, true, true, true], [0, 1, 2, 3], [0, 2, 4], (2, 4)⟩ : EVIncidence).indptr.getD i 0 + 1) = 1) →
      (split_block_1d [0, 0, 0] 0 3 1 0 ⟨[true, true, true, true], [0, 1, 2, 3], [0, 2, 4], (2, 4)⟩ []).linkage = unlink_nodes [1] ⟨[true, true, true, true], [0, 1, 2, 3], [0, 2, 4], (2, 4)⟩) ∧
    ((∀ j, j < (⟨[true, true, true, true], [0, 1, 2, 3], [0, 2, 4], (2, 4)⟩ : EVIncidence).shape.1.toNat → ∀ k ∈ row_slots ⟨[true, true, true, true], [0, 1, 2, 3], [0, 2, 4], (2, 4)⟩ j,
        live_at (split_block_1d [0, 0, 0] 0 3 1 0 ⟨[true, true, true, true], [0, 1, 2, 3], [0, 2, 4], (2, 4)⟩ []).linkage k = true →
        index_at (split_block_1d [0, 0, 0] 0 3 1 0 ⟨[true, true, true, true], [0, 1, 2, 3], [0, 2, 4], (2, 4)⟩ []).linkage k ≠ 1) ↔
      ∀ i, i < (⟨[true, true, true, true], [0, 1, 2, 3], [0, 2, 4], (2, 4)⟩ : EVIncidence).shape.1.toNat → Straddles ⟨[true, true, true, true], [0, 1, 2, 3], [0, 2, 4], (2, 4)⟩ [1, 0] 1 i →
        index_at ⟨[true, true, true, true], [0, 1, 2, 3], [0, 2, 4], (2, 4)⟩ ((⟨[true, true, true, true], [0, 1, 2, 3], [0, 2, 4], (2, 4)⟩ : EVIncidence).indptr.getD i 0) = 1 ∨ index_at ⟨[true, true, true, true], [0, 1, 2, 3], [0, 2, 4], (2, 4)⟩ ((⟨[true, true, true, true], [0, 1, 2, 3], [0, 2, 4], (2, 4)⟩ : EVIncidence).indptr.getD i 0 + 1) = 1)) :=
  ⟨rfl, by decide, by unfold EVIncidence.WellFormed; decide, by decide, by decide, rfl,
    by decide,
    split_block_1d_unlinks [0, 0, 0] 0 3 1 0 ⟨[true, true, true, true], [0, 1, 2, 3], [0, 2, 4], (2, 4)⟩ [] [1, 0] 1
      (by unfold EVIncidence.WellFormed; decide) (by decide) (by decide) rfl (by decide)⟩

end Ephys2
